import Mathlib

/-!
Beatmap playback and line graph: a verification development

Shallow embedding of `Beatmap/src/BeatmapPlayback.cpp` and
`Beatmap/src/LineGraph.cpp`.

Conventions of the embedding

* `MapTime` (a 32-bit signed integer in the program) is `Int`, and every
  operation that the program performs on 32-bit integers is the exact operation
  followed by `wrap32`: a result outside the 32-bit range wraps around, as it
  does on the two's-complement machines the program is built for.
* A call that kills the process (an integer division by zero) returns no state.
* `double` and `float` values are exact rationals.
* Iterators into the chart's arrays are positions (`Nat`); the end sentinel of
  an array is its length.  A chart object is identified by its position in the
  object array (the program identifies it by its address).
* Notifications (`OnObjectEntered.Call(..)` and the like) are collected, in
  call order, in a list.
-/

namespace USC

abbrev MapTime := Int

/-- The value that a 32-bit two's-complement integer holds for the exact result
`x` of an operation: `x` itself inside the range, wrapped around outside. -/
def wrap32 (x : Int) : Int := (x + 2147483648) % 4294967296 - 2147483648

/-- `a + b` on 32-bit signed integers. -/
def add32 (a b : Int) : Int := wrap32 (a + b)

/-- `a - b` on 32-bit signed integers. -/
def sub32 (a b : Int) : Int := wrap32 (a - b)

/-! ## Chart data -/

inductive ObjectType
  | Invalid
  | Single
  | Hold
  | Laser
  | Event
  deriving DecidableEq, Repr, Inhabited

/-- Effect carried by a hold button; the enumeration lives in a header that is
not part of the sources, only `None` is named by the playback code. -/
inductive EffectType
  | None
  | Effect (id : Nat)
  deriving DecidableEq, Repr, Inhabited

/-- Keys of parameter events; the playback code names these four, every other
key of the enumeration is `Other`. -/
inductive EventKey
  | SlamVolume
  | LaserEffectType
  | LaserEffectMix
  | TrackRollBehaviour
  | Other (id : Nat)
  deriving DecidableEq, Repr, Inhabited

/-- Payload of a parameter event (a union in the program), kept as its raw
value; `rollVal` reads the same value. -/
abbrev EventData := Int

/-- The union `MultiObjectState`: the common `time` and `type`, and the fields
of the button/hold/laser/event variants that the playback code reads. -/
structure ObjectState where
  type : ObjectType
  time : MapTime
  duration : MapTime := 0
  effectType : EffectType := EffectType.None
  hasPrev : Bool := false
  key : EventKey := EventKey.Other 0
  data : EventData := 0
  deriving DecidableEq, Repr, Inhabited

structure TimingPoint where
  time : MapTime
  beatDuration : ℚ
  numerator : Nat := 4
  denominator : Nat := 4
  deriving DecidableEq, Repr, Inhabited

structure LaneTogglePoint where
  time : MapTime
  deriving DecidableEq, Repr, Inhabited

structure BeatmapSettings where
  laserEffectMix : EventData
  laserEffectType : EventData
  slamVolume : EventData
  deriving DecidableEq, Repr, Inhabited

/-- The chart.  `GetCurrentTimingPoint` dereferences the first timing point
without a check, so the timing points are a first point and the rest. -/
structure Beatmap where
  firstTimingPoint : TimingPoint
  moreTimingPoints : List TimingPoint := []
  laneTogglePoints : List LaneTogglePoint := []
  objectStates : List ObjectState := []
  settings : BeatmapSettings := default
  deriving Repr, Inhabited

def Beatmap.timingPoints (bm : Beatmap) : List TimingPoint :=
  bm.firstTimingPoint :: bm.moreTimingPoints

/-- `*it` for an iterator into the timing points. -/
def Beatmap.timing (bm : Beatmap) (it : Nat) : TimingPoint :=
  bm.timingPoints.getD it bm.firstTimingPoint

/-- `*it` for an iterator into the lane toggle points. -/
def Beatmap.laneToggle (bm : Beatmap) (it : Nat) : LaneTogglePoint :=
  bm.laneTogglePoints.getD it default

/-- `*it` for an iterator into the object array. -/
def Beatmap.obj (bm : Beatmap) (it : Nat) : ObjectState :=
  bm.objectStates.getD it default

/-- Modelled from the spec: `Beatmap::HasObjectState` is not part of the
sources; Reset fails when the chart reports no object data at all. -/
def Beatmap.HasObjectState (bm : Beatmap) : Bool :=
  !bm.objectStates.isEmpty

def Beatmap.GetFirstObjectState (_bm : Beatmap) : Nat := 0

def Beatmap.GetEndObjectState (bm : Beatmap) : Nat := bm.objectStates.length

def Beatmap.GetFirstTimingPoint (_bm : Beatmap) : Nat := 0

def Beatmap.GetEndTimingPoint (bm : Beatmap) : Nat := bm.timingPoints.length

def Beatmap.GetFirstLaneTogglePoint (_bm : Beatmap) : Nat := 0

def Beatmap.GetEndLaneTogglePoint (bm : Beatmap) : Nat := bm.laneTogglePoints.length

/-! ## View range -/

structure MapTimeRange where
  rbegin : MapTime
  rend : MapTime
  deriving DecidableEq, Repr, Inhabited

/-- Modelled from the spec: `MapTimeRange` is declared in a header that is not
part of the sources.  The spec gives `{begin, end optional}` with an absent end
meaning unbounded forward; `Reset` stores `{start, start}`, the range without
an end, so a range has an end exactly when `begin < end`. -/
def MapTimeRange.HasEnd (r : MapTimeRange) : Bool :=
  decide (r.rbegin < r.rend)

/-- Modelled from the spec: membership of a time in the view range, with the
end boundary inclusive on request. -/
def MapTimeRange.Includes (r : MapTimeRange) (t : MapTime) (inclusiveEnd : Bool := false) : Bool :=
  if t < r.rbegin then false
  else if !r.HasEnd then true
  else if inclusiveEnd then decide (t ≤ r.rend)
  else decide (t < r.rend)

/-! ## Containers -/

/-- `Vector::AddUnique`: append unless already contained. -/
def AddUnique (x : Nat) (v : List Nat) : List Nat :=
  if x ∈ v then v else v ++ [x]

namespace ObjectSet

/-- `Set::Add` on an ordered set of object identities: ordered insertion that
keeps an element already present.  The program orders the set by address; the
order of positions stands for it, and only the order in which the hold sweep
visits different objects depends on it. -/
def Add (x : Nat) : List Nat → List Nat
  | [] => [x]
  | y :: ys =>
    if x < y then x :: y :: ys
    else if x = y then y :: ys
    else y :: Add x ys

def Contains (x : Nat) (s : List Nat) : Bool :=
  decide (x ∈ s)

end ObjectSet

/-- `m_eventMapping[key] = data` on the latched event table. -/
def setEvent (key : EventKey) (data : EventData) :
    List (EventKey × EventData) → List (EventKey × EventData)
  | [] => [(key, data)]
  | (k, d) :: rest => if k = key then (k, data) :: rest else (k, d) :: setEvent key data rest

/-! ## Notifications -/

inductive Notification
  | ObjectEntered (obj : Nat)
  | ObjectLeaved (obj : Nat)
  | TimingPointChanged (tp : Nat)
  | LaneToggleChanged (lt : Nat)
  | LaserAlertEntered (obj : Nat)
  | EventChanged (key : EventKey) (data : EventData)
  | FXBegin (obj : Nat)
  | FXEnd (obj : Nat)
  deriving DecidableEq, Repr, Inhabited

/-! ## Playback state -/

/-- `TrackRollBehaviour::Normal`. -/
def TrackRollBehaviour.Normal : EventData := 0

structure BeatmapPlayback where
  hittableObjectEnter : MapTime
  hittableLaserEnter : MapTime
  hittableObjectLeave : MapTime
  alertLaserThreshold : MapTime
  audioOffset : MapTime
  cMod : Bool
  m_playbackTime : MapTime
  m_viewRange : MapTimeRange
  m_currObject : Nat
  m_currLaserObject : Nat
  m_currAlertObject : Nat
  m_currentTiming : Nat
  m_currentLaneTogglePoint : Nat
  m_currentTrackRollBehaviour : EventData
  m_lastTrackRollBehaviourChange : MapTime
  m_hittableObjects : List Nat
  m_holdObjects : List Nat
  m_effectObjects : List Nat
  m_eventMapping : List (EventKey × EventData)
  m_barTime : ℚ
  m_beatTime : ℚ
  m_initialEffectStateSent : Bool
  m_isCalibration : Bool
  m_calibrationTiming : TimingPoint
  deriving DecidableEq, Repr, Inhabited

/-- A state together with the notifications emitted so far. -/
abbrev Step := BeatmapPlayback × List Notification

/-- Run `f` on the state reached so far and append what it emits. -/
def Step.andThen (r : Step) (f : BeatmapPlayback → Step) : Step :=
  ((f r.1).1, r.2 ++ (f r.1).2)

/-- `std::numeric_limits<MapTime>::min()`. -/
def MapTimeMin : MapTime := -2147483648

/-- `BeatmapPlayback::Reset`: the success flag and the state afterwards. -/
def Reset (bm : Beatmap) (s : BeatmapPlayback) (initTime : MapTime) (start : MapTime) :
    Bool × BeatmapPlayback :=
  let s := { s with m_effectObjects := [] }
  if !bm.HasObjectState then (false, s)
  else
    let start := if start ≤ 0 then MapTimeMin else start
    (true,
      { s with
        m_playbackTime := initTime
        m_viewRange := ⟨start, start⟩
        m_currObject := bm.GetFirstObjectState
        m_currLaserObject := bm.GetFirstObjectState
        m_currAlertObject := bm.GetFirstObjectState
        m_currentTiming := bm.GetFirstTimingPoint
        m_currentLaneTogglePoint := bm.GetFirstLaneTogglePoint
        m_currentTrackRollBehaviour := TrackRollBehaviour.Normal
        m_lastTrackRollBehaviourChange := 0
        m_hittableObjects := []
        m_holdObjects := []
        m_barTime := 0
        m_beatTime := 0
        m_initialEffectStateSent := false })

def IsEndObject (bm : Beatmap) (it : Nat) : Bool :=
  it == bm.GetEndObjectState

def IsEndTiming (bm : Beatmap) (it : Nat) : Bool :=
  it == bm.GetEndTimingPoint

def IsEndLaneToggle (bm : Beatmap) (it : Nat) : Bool :=
  it == bm.GetEndLaneTogglePoint

/-- The forward scan shared by the three select functions: starting at position
`pos`, whose remaining elements are `rest`, step while the element under test
satisfies `p`; stops at the end of the array. -/
def advanceWhile {α : Type} (p : α → Bool) : List α → Nat → Nat
  | [], pos => pos
  | x :: rest, pos => if p x then advanceWhile p rest (pos + 1) else pos

/-- `BeatmapPlayback::m_SelectTimingPoint`; the loop tests the element after
the cursor.  The default of `allowReset` is given in the declaration, which is
not part of the sources; it is `false` here: the callers that want the reset
(the two distance conversions) pass `true` themselves,
`Update` passes nothing. -/
def m_SelectTimingPoint (bm : Beatmap) (s : BeatmapPlayback) (time : MapTime)
    (allowReset : Bool := false) : Nat :=
  let objStart := s.m_currentTiming
  if IsEndTiming bm objStart then objStart
  else
    let objStart :=
      if decide ((bm.timing objStart).time > time) && allowReset then bm.GetFirstTimingPoint
      else objStart
    advanceWhile (fun (tp : TimingPoint) => decide (tp.time ≤ time))
      (bm.timingPoints.drop (objStart + 1)) objStart

/-- `BeatmapPlayback::m_SelectLaneTogglePoint`. -/
def m_SelectLaneTogglePoint (bm : Beatmap) (s : BeatmapPlayback) (time : MapTime)
    (allowReset : Bool := false) : Nat :=
  let objStart := s.m_currentLaneTogglePoint
  if IsEndLaneToggle bm objStart then objStart
  else
    let objStart :=
      if decide ((bm.laneToggle objStart).time > time) && allowReset then
        bm.GetFirstLaneTogglePoint
      else objStart
    advanceWhile (fun (lt : LaneTogglePoint) => decide (lt.time ≤ time))
      (bm.laneTogglePoints.drop (objStart + 1)) objStart

/-- `BeatmapPlayback::m_SelectHitObject`; the loop tests the element under the
cursor, and always starts from `m_currObject`. -/
def m_SelectHitObject (bm : Beatmap) (s : BeatmapPlayback) (time : MapTime)
    (allowReset : Bool := false) : Nat :=
  let objStart := s.m_currObject
  if IsEndObject bm objStart then objStart
  else
    let objStart :=
      if decide ((bm.obj objStart).time > time) && allowReset then bm.GetFirstObjectState
      else objStart
    advanceWhile (fun (o : ObjectState) => decide (o.time < time))
      (bm.objectStates.drop objStart) objStart

/-- `BeatmapPlayback::GetCurrentTimingPoint`. -/
def GetCurrentTimingPoint (bm : Beatmap) (s : BeatmapPlayback) : TimingPoint :=
  if s.m_isCalibration then s.m_calibrationTiming
  else if IsEndTiming bm s.m_currentTiming then bm.timing bm.GetFirstTimingPoint
  else bm.timing s.m_currentTiming

/-- C `fmod(x, 1.0)`: the fractional part with the sign of `x`. -/
def fmod1 (x : ℚ) : ℚ :=
  if 0 ≤ x then x - ⌊x⌋ else x - ⌈x⌉

/-! ## The per-tick update, block by block -/

/-- Lines 71-79: the initial effect state, fired once. -/
def fireInitialEffectState (bm : Beatmap) (s : BeatmapPlayback) : Step :=
  if !s.m_initialEffectStateSent then
    ({ s with m_initialEffectStateSent := true },
      [Notification.EventChanged EventKey.LaserEffectMix bm.settings.laserEffectMix,
       Notification.EventChanged EventKey.LaserEffectType bm.settings.laserEffectType,
       Notification.EventChanged EventKey.SlamVolume bm.settings.slamVolume])
  else (s, [])

/-- Modelled from the spec: `TimingPoint::GetWholeNoteLength` is declared in a
header that is not part of the sources; a whole note is taken as four beats.
`Update` uses neither of the numbers that `CountBeats` computes from it. -/
def TimingPoint.GetWholeNoteLength (tp : TimingPoint) : ℚ := tp.beatDuration * 4

/-- `BeatmapPlayback::CountBeats`: the number of beats and the start index.
The remainder by `tp.numerator` at line 392 is an integer division by zero when
the numerator is 0; it kills the process, which is `none`. -/
def CountBeats (bm : Beatmap) (s : BeatmapPlayback) (start range : MapTime)
    (multiplier : Nat := 1) : Option (Nat × Int) :=
  let tp := GetCurrentTimingPoint bm s
  let delta : Int := start - tp.time
  let beatDuration : ℚ := tp.GetWholeNoteLength / (tp.denominator : ℚ)
  let beatStart : Int := ⌊(delta : ℚ) / (beatDuration / (multiplier : ℚ))⌋
  let beatEnd : Int := ⌊((delta + range : Int) : ℚ) / (beatDuration / (multiplier : ℚ))⌋
  if tp.numerator = 0 then none
  else
    some (((max (beatEnd - beatStart) 0) % 4294967296).toNat,
      Int.tmod (add32 (wrap32 beatStart) 1) (tp.numerator : Int))

/-- Lines 84-90: bar and beat phase from the current timing point, then the new
clock value; the lines that follow the call of `CountBeats`, whose results are
not used. -/
def countBars (bm : Beatmap) (newTime : MapTime) (s : BeatmapPlayback) : Step :=
  let tp := GetCurrentTimingPoint bm s
  let effectiveTime : ℚ := (newTime : ℚ) - (tp.time : ℚ)
  ({ s with
     m_barTime := fmod1 (effectiveTime / (tp.beatDuration * (tp.numerator : ℚ)))
     m_beatTime := fmod1 (effectiveTime / tp.beatDuration)
     m_playbackTime := newTime }, [])

/-- Lines 92-101: advance timing. -/
def advanceTiming (bm : Beatmap) (s : BeatmapPlayback) : Step :=
  let timingEnd := m_SelectTimingPoint bm s s.m_playbackTime
  if timingEnd ≠ s.m_currentTiming then
    ({ s with m_currentTiming := timingEnd }, [Notification.TimingPointChanged timingEnd])
  else (s, [])

/-- Lines 103-109: advance lane toggle. -/
def advanceLaneToggle (bm : Beatmap) (s : BeatmapPlayback) : Step :=
  let laneToggleEnd := m_SelectLaneTogglePoint bm s s.m_playbackTime
  if laneToggleEnd ≠ s.m_currentLaneTogglePoint then
    ({ s with m_currentLaneTogglePoint := laneToggleEnd },
      [Notification.LaneToggleChanged laneToggleEnd])
  else (s, [])

/-- Body of the loop at lines 115-130 for the object at position `it`. -/
def enterObject (bm : Beatmap) (r : Step) (it : Nat) : Step :=
  let obj := bm.obj it
  if obj.type = ObjectType.Laser then r
  else if !r.1.m_viewRange.Includes obj.time then r
  else if obj.type = ObjectType.Hold
      && !r.1.m_viewRange.Includes (add32 obj.time obj.duration) true then r
  else
    let s1 :=
      if obj.type = ObjectType.Hold ∨ obj.type = ObjectType.Single then
        { r.1 with m_holdObjects := ObjectSet.Add it r.1.m_holdObjects }
      else r.1
    ({ s1 with m_hittableObjects := AddUnique it s1.m_hittableObjects },
      r.2 ++ [Notification.ObjectEntered it])

/-- The positions visited by `for (auto it = first; it < objEnd; it++)`. -/
def sweepRange (first objEnd : Nat) : List Nat :=
  List.range' first (objEnd - first)

/-- Lines 111-132: advance objects. -/
def advanceObjects (bm : Beatmap) (s : BeatmapPlayback) : Step :=
  let objEnd := m_SelectHitObject bm s (add32 s.m_playbackTime s.hittableObjectEnter)
  if objEnd ≠ s.m_currObject then
    let r := (sweepRange s.m_currObject objEnd).foldl (enterObject bm) (s, [])
    ({ r.1 with m_currObject := objEnd }, r.2)
  else (s, [])

/-- Body of the loop at lines 138-149 for the object at position `it`. -/
def enterLaser (bm : Beatmap) (r : Step) (it : Nat) : Step :=
  let obj := bm.obj it
  if obj.type ≠ ObjectType.Laser then r
  else if !r.1.m_viewRange.Includes obj.time then r
  else if !r.1.m_viewRange.Includes (add32 obj.time obj.duration) true then r
  else
    let s1 := { r.1 with m_holdObjects := ObjectSet.Add it r.1.m_holdObjects }
    ({ s1 with m_hittableObjects := AddUnique it s1.m_hittableObjects },
      r.2 ++ [Notification.ObjectEntered it])

/-- Lines 134-151: advance lasers. -/
def advanceLasers (bm : Beatmap) (s : BeatmapPlayback) : Step :=
  let objEnd := m_SelectHitObject bm s (add32 s.m_playbackTime s.hittableLaserEnter)
  if objEnd ≠ s.m_currLaserObject then
    let r := (sweepRange s.m_currLaserObject objEnd).foldl (enterLaser bm) (s, [])
    ({ r.1 with m_currLaserObject := objEnd }, r.2)
  else (s, [])

/-- Body of the loop at lines 157-168 for the object at position `it`. -/
def alertLaser (bm : Beatmap) (r : Step) (it : Nat) : Step :=
  let obj := bm.obj it
  if !r.1.m_viewRange.Includes obj.time then r
  else if obj.type = ObjectType.Laser then
    if !obj.hasPrev then (r.1, r.2 ++ [Notification.LaserAlertEntered it]) else r
  else r

/-- Lines 153-170: lasers within the alert time. -/
def checkLaserAlerts (bm : Beatmap) (s : BeatmapPlayback) : Step :=
  let objEnd := m_SelectHitObject bm s (add32 s.m_playbackTime s.alertLaserThreshold)
  if objEnd ≠ s.m_currAlertObject then
    let r := (sweepRange s.m_currAlertObject objEnd).foldl (alertLaser bm) (s, [])
    ({ r.1 with m_currAlertObject := objEnd }, r.2)
  else (s, [])

/-- Body of the loop at lines 174-236 for the entry `it` of `m_hittableObjects`:
whether the entry is erased, the state and the notifications. -/
def hittableStep (bm : Beatmap) (objectPassTime : MapTime) (s : BeatmapPlayback) (it : Nat) :
    Bool × Step :=
  let obj := bm.obj it
  if obj.type = ObjectType.Hold then
    let endTime := add32 obj.duration obj.time
    if endTime < objectPassTime then (true, s, [Notification.ObjectLeaved it])
    else if obj.effectType ≠ EffectType.None
        ∧ sub32 obj.time 100 ≤ add32 s.m_playbackTime s.audioOffset
        ∧ sub32 endTime 100 > add32 s.m_playbackTime s.audioOffset then
      if !ObjectSet.Contains it s.m_effectObjects then
        (false, { s with m_effectObjects := ObjectSet.Add it s.m_effectObjects },
          [Notification.FXBegin it])
      else (false, s, [])
    else (false, s, [])
  else if obj.type = ObjectType.Laser then
    if add32 obj.duration obj.time < objectPassTime then (true, s, [Notification.ObjectLeaved it])
    else (false, s, [])
  else if obj.type = ObjectType.Single then
    if obj.time < objectPassTime then (true, s, [Notification.ObjectLeaved it])
    else (false, s, [])
  else if obj.type = ObjectType.Event then
    if obj.time < add32 s.m_playbackTime 2 then
      let s1 :=
        if obj.key = EventKey.TrackRollBehaviour then
          if s.m_currentTrackRollBehaviour ≠ obj.data then
            { s with m_currentTrackRollBehaviour := obj.data
                     m_lastTrackRollBehaviourChange := obj.time }
          else s
        else s
      (true, { s1 with m_eventMapping := setEvent obj.key obj.data s1.m_eventMapping },
        [Notification.EventChanged obj.key obj.data])
    else (false, s, [])
  else (false, s, [])

/-- The loop at lines 174-236 over the entries of `m_hittableObjects`: the
entries kept, the state and the notifications. -/
def sweepHittable (bm : Beatmap) (objectPassTime : MapTime) :
    List Nat → BeatmapPlayback → List Nat × Step
  | [], s => ([], s, [])
  | it :: rest, s =>
    let r := hittableStep bm objectPassTime s it
    let r2 := sweepHittable bm objectPassTime rest r.2.1
    (if r.1 then r2.1 else it :: r2.1, r2.2.1, r.2.2 ++ r2.2.2)

/-- Lines 172-236: check passed hittable objects. -/
def checkPassedHittable (bm : Beatmap) (s : BeatmapPlayback) : Step :=
  let objectPassTime := sub32 s.m_playbackTime s.hittableObjectLeave
  let r := sweepHittable bm objectPassTime s.m_hittableObjects s
  ({ r.2.1 with m_hittableObjects := r.1 }, r.2.2)

/-- Body of the loop at lines 239-276 for the entry `it` of `m_holdObjects`. -/
def holdStep (bm : Beatmap) (objectPassTime : MapTime) (s : BeatmapPlayback) (it : Nat) :
    Bool × Step :=
  let obj := bm.obj it
  if obj.type = ObjectType.Hold then
    let endTime := add32 obj.duration obj.time
    if endTime < objectPassTime then (true, s, [])
    else if endTime < s.m_playbackTime then
      if ObjectSet.Contains it s.m_effectObjects then
        (false, { s with m_effectObjects := s.m_effectObjects.erase it },
          [Notification.FXEnd it])
      else (false, s, [])
    else (false, s, [])
  else if obj.type = ObjectType.Laser then
    if add32 obj.duration obj.time < objectPassTime then (true, s, []) else (false, s, [])
  else if obj.type = ObjectType.Single then
    if obj.time < objectPassTime then (true, s, []) else (false, s, [])
  else (false, s, [])

/-- The loop at lines 239-276 over the entries of `m_holdObjects`. -/
def sweepHold (bm : Beatmap) (objectPassTime : MapTime) :
    List Nat → BeatmapPlayback → List Nat × Step
  | [], s => ([], s, [])
  | it :: rest, s =>
    let r := holdStep bm objectPassTime s it
    let r2 := sweepHold bm objectPassTime rest r.2.1
    (if r.1 then r2.1 else it :: r2.1, r2.2.1, r.2.2 ++ r2.2.2)

/-- Lines 238-276: remove passed hold objects. -/
def removePassedHold (bm : Beatmap) (s : BeatmapPlayback) : Step :=
  let objectPassTime := sub32 s.m_playbackTime s.hittableObjectLeave
  let r := sweepHold bm objectPassTime s.m_holdObjects s
  ({ r.2.1 with m_holdObjects := r.1 }, r.2.2)

/-- Lines 84-90 in calibration mode: the calibration branch of `Update` after
`CountBeats` has returned. -/
def updateCalibration (bm : Beatmap) (s : BeatmapPlayback) (newTime : MapTime) : Step :=
  countBars bm newTime s

/-- Lines 84-276: what an accepted tick does after `CountBeats` has returned. -/
def updateBody (bm : Beatmap) (newTime : MapTime) (s : BeatmapPlayback) : Step :=
  (((((((countBars bm newTime s).andThen (advanceTiming bm)).andThen
    (advanceLaneToggle bm)).andThen (advanceObjects bm)).andThen (advanceLasers bm)).andThen
    (checkLaserAlerts bm)).andThen (checkPassedHittable bm)).andThen (removePassedHold bm)

/-- Lines 71-276 without the call of `CountBeats`: an accepted tick outside
calibration mode in which `CountBeats` returns. -/
def updateAccepted (bm : Beatmap) (s : BeatmapPlayback) (newTime : MapTime) : Step :=
  (fireInitialEffectState bm s).andThen (updateBody bm newTime)

/-- What a call leaves behind: the state afterwards, or `none` when the call
killed the process, and the notifications emitted by the call, in call order. -/
abbrev Outcome := Option BeatmapPlayback × List Notification

/-- `BeatmapPlayback::Update`.  A call of `CountBeats` that does not return
ends the call: the notifications emitted before it stay emitted. -/
def Update (bm : Beatmap) (s : BeatmapPlayback) (newTime : MapTime) : Outcome :=
  let delta := sub32 newTime s.m_playbackTime
  if s.m_isCalibration then
    match CountBeats bm s (sub32 s.m_playbackTime delta) delta with
    | none => (none, [])
    | some _ => (some (updateCalibration bm s newTime).1, (updateCalibration bm s newTime).2)
  else if newTime < s.m_playbackTime then (some s, [])
  else
    match CountBeats bm (fireInitialEffectState bm s).1 (sub32 s.m_playbackTime delta) delta with
    | none => (none, (fireInitialEffectState bm s).2)
    | some _ => (some (updateAccepted bm s newTime).1, (updateAccepted bm s newTime).2)

/-- A run of `Update` calls from the state `s`: the state after the last call
and all notifications, in emission order.  A call that kills the process ends
the run. -/
def run (bm : Beatmap) : BeatmapPlayback → List MapTime → Outcome
  | s, [] => (some s, [])
  | s, t :: ts =>
    match Update bm s t with
    | (some s1, log) => ((run bm s1 ts).1, log ++ (run bm s1 ts).2)
    | (none, log) => (none, log)

/-! ## Vocabulary for the lifecycle properties -/

/-- The guard of the loop body at lines 115-130, with the end of a hold as the
exact sum: the object at `it` is added by the object sweep. -/
def objectEnters (bm : Beatmap) (vr : MapTimeRange) (it : Nat) : Bool :=
  decide ((bm.obj it).type ≠ ObjectType.Laser)
    && vr.Includes (bm.obj it).time
    && !(decide ((bm.obj it).type = ObjectType.Hold)
          && !vr.Includes ((bm.obj it).time + (bm.obj it).duration) true)

/-- The guard of the loop body at lines 138-149, with the end of the laser as
the exact sum: the object at `it` is added by the laser sweep. -/
def laserEnters (bm : Beatmap) (vr : MapTimeRange) (it : Nat) : Bool :=
  decide ((bm.obj it).type = ObjectType.Laser)
    && vr.Includes (bm.obj it).time
    && vr.Includes ((bm.obj it).time + (bm.obj it).duration) true

/-- The object at `it` is added to `m_hittableObjects` by one of the two enter
sweeps. -/
def enters (bm : Beatmap) (vr : MapTimeRange) (it : Nat) : Bool :=
  objectEnters bm vr it || laserEnters bm vr it

/-- The pass condition of lines 177-213 for an entry of `m_hittableObjects`,
with the end of a hold or laser as the exact sum: the entry is erased with
`ObjectLeaved`. -/
def passes (bm : Beatmap) (objectPassTime : MapTime) (it : Nat) : Bool :=
  match (bm.obj it).type with
  | ObjectType.Hold => decide ((bm.obj it).duration + (bm.obj it).time < objectPassTime)
  | ObjectType.Laser => decide ((bm.obj it).duration + (bm.obj it).time < objectPassTime)
  | ObjectType.Single => decide ((bm.obj it).time < objectPassTime)
  | _ => false

/-- The firing condition of lines 214-233 for an entry of `m_hittableObjects`,
with `playbackTime + 2` as the exact sum: the entry is erased with
`EventChanged`. -/
def fires (bm : Beatmap) (playbackTime : MapTime) (it : Nat) : Bool :=
  decide ((bm.obj it).type = ObjectType.Event) && decide ((bm.obj it).time < playbackTime + 2)

/-- The cursor that sweeps the object at `it` into `m_hittableObjects`:
`m_currLaserObject` for a laser, `m_currObject` for every other object. -/
def enterCursor (bm : Beatmap) (s : BeatmapPlayback) (it : Nat) : Nat :=
  if (bm.obj it).type = ObjectType.Laser then s.m_currLaserObject else s.m_currObject

/-- The chart's objects are sorted by time. -/
def ObjectsSorted (bm : Beatmap) : Prop :=
  ∀ i j, i ≤ j → j < bm.objectStates.length → (bm.obj i).time ≤ (bm.obj j).time

/-- The chart's timing points are sorted by time. -/
def TimingSorted (bm : Beatmap) : Prop :=
  ∀ i j, i ≤ j → j < bm.timingPoints.length → (bm.timing i).time ≤ (bm.timing j).time

/-- The chart's lane toggle points are sorted by time. -/
def LaneTogglesSorted (bm : Beatmap) : Prop :=
  ∀ i j, i ≤ j → j < bm.laneTogglePoints.length →
    (bm.laneToggle i).time ≤ (bm.laneToggle j).time

/-- The initial-state batch of lines 75-77. -/
def initialBatch (bm : Beatmap) : List Notification :=
  [Notification.EventChanged EventKey.LaserEffectMix bm.settings.laserEffectMix,
   Notification.EventChanged EventKey.LaserEffectType bm.settings.laserEffectType,
   Notification.EventChanged EventKey.SlamVolume bm.settings.slamVolume]

/-- In the log, some `ObjectEntered it` comes before some `ObjectLeaved it`. -/
def EnteredBeforeLeaved (log : List Notification) (it : Nat) : Prop :=
  ∃ l1 l2 l3, log = l1 ++ Notification.ObjectEntered it :: l2
    ++ Notification.ObjectLeaved it :: l3

/-- The exactly-once lifecycle of the object at `it` in a log: one
`ObjectEntered`, one `ObjectLeaved`, in that order. -/
def ExactlyOnceLifecycle (log : List Notification) (it : Nat) : Prop :=
  log.count (Notification.ObjectEntered it) = 1
    ∧ log.count (Notification.ObjectLeaved it) = 1
    ∧ EnteredBeforeLeaved log it

/-! ## Line graph -/

/-- A point of the graph: the value before and after the jump at its time. -/
structure Point where
  value : ℚ × ℚ
  deriving DecidableEq, Repr, Inhabited

/-- Modelled from the spec: the constructor `Point{v}` is declared in a header
that is not part of the sources; a single scalar makes the point's pre and post
values equal. -/
def Point.ofValue (v : ℚ) : Point := ⟨(v, v)⟩

/-- Modelled from the spec: `Math::Lerp` is not part of the sources; linear
interpolation from `a` (at 0) to `b` (at 1). -/
def Lerp (a b x : ℚ) : ℚ := a + (b - a) * x

/-- The graph: the default value and the `std::map` of points, kept as the list
of its entries in key order.  Iterators are positions, `end()` is the length. -/
structure LineGraph where
  m_default : ℚ
  m_points : List (MapTime × Point)
  deriving DecidableEq, Repr, Inhabited

namespace LineGraph

/-- The keys of a `std::map` are strictly ascending. -/
def WF (g : LineGraph) : Prop :=
  (g.m_points.map Prod.fst).Sorted (· < ·)

/-- `m_points.end()`. -/
def pend (g : LineGraph) : Nat := g.m_points.length

/-- `*it`; dereferencing `end()` is not defined. -/
def deref (g : LineGraph) (it : Nat) : Option (MapTime × Point) := g.m_points[it]?

/-- `*m_points.rbegin()`; not defined on an empty map. -/
def rbegin (g : LineGraph) : Option (MapTime × Point) := g.m_points.getLast?

/-- `m_points.find(t)`. -/
def find (g : LineGraph) (t : MapTime) : Nat :=
  g.m_points.findIdx (fun p => p.1 == t)

/-- `m_points.upper_bound(t)`: the first entry whose key is greater than `t`. -/
def upper_bound (g : LineGraph) (t : MapTime) : Nat :=
  g.m_points.findIdx (fun p => decide (t < p.1))

/-- `m_points.lower_bound(t)`: the first entry whose key is not less than `t`. -/
def lower_bound (g : LineGraph) (t : MapTime) : Nat :=
  g.m_points.findIdx (fun p => decide (t ≤ p.1))

/-- `m_points.emplace_hint(it, mapTime, point)` for a key that is absent. -/
def emplace (mapTime : MapTime) (point : Point) : List (MapTime × Point) → List (MapTime × Point)
  | [] => [(mapTime, point)]
  | e :: rest =>
    if mapTime < e.1 then (mapTime, point) :: e :: rest
    else e :: emplace mapTime point rest

/-- `it->second.value.second = v` for the entry at position `it`. -/
def setSecond (v : ℚ) : Nat → List (MapTime × Point) → List (MapTime × Point)
  | _, [] => []
  | 0, e :: rest => (e.1, ⟨(e.2.value.1, v)⟩) :: rest
  | it + 1, e :: rest => e :: setSecond v it rest

/-- `LineGraph::Insert(MapTime, double)`. -/
def Insert (g : LineGraph) (mapTime : MapTime) (point : ℚ) : LineGraph :=
  let it := g.find mapTime
  if it = g.pend then
    { g with m_points := emplace mapTime (Point.ofValue point) g.m_points }
  else
    { g with m_points := setSecond point it g.m_points }

/-- `LineGraph::Insert(MapTime, const Point&)`. -/
def InsertPoint (g : LineGraph) (mapTime : MapTime) (point : Point) : LineGraph :=
  let it := g.find mapTime
  if it = g.pend then
    { g with m_points := emplace mapTime point g.m_points }
  else
    { g with m_points := setSecond point.value.2 it g.m_points }

/-- `LineGraph::ValueAt`; `none` stands for an access to a point that does not
exist. -/
def ValueAt (g : LineGraph) (mapTime : MapTime) : Option ℚ :=
  if g.m_points.isEmpty then some g.m_default
  else
    let secondItr := g.upper_bound mapTime
    if secondItr = 0 then
      (g.deref secondItr).map (fun p => p.2.value.1)
    else
      let firstItr := secondItr - 1
      (g.deref firstItr).bind fun first =>
      let firstValue := first.2.value.2
      if secondItr = g.pend then some firstValue
      else
        (g.deref secondItr).bind fun second =>
        let secondValue := second.2.value.1
        let firstTime := first.1
        let secondTime := second.1
        if firstTime = secondTime then some secondValue
        else
          some (Lerp firstValue secondValue
            (((sub32 mapTime firstTime : Int) : ℚ) / ((sub32 secondTime firstTime : Int) : ℚ)))

/-- `LineGraph::Integrate(PointsIterator)`: the area of the whole segment that
starts at `curr`.  A failed `assert` is `none`. -/
def IntegrateSegment (g : LineGraph) (curr : Nat) : Option ℚ :=
  if g.m_points.isEmpty || curr == g.pend then some 0
  else
    let next := curr + 1
    if next == g.pend then none
    else
      (g.deref next).bind fun n =>
      (g.deref curr).bind fun c =>
      some (((sub32 n.1 c.1 : Int) : ℚ) * (n.2.value.1 + c.2.value.2) * (1 / 2))

/-- `LineGraph::Integrate(PointsIterator, MapTime, MapTime)`: the area over a
range inside the segment that starts at `curr`. -/
def IntegrateWithin (g : LineGraph) (curr : Nat) (tBegin tEnd : MapTime) : Option ℚ :=
  if tBegin = tEnd then some 0
  else
    let b := if tEnd < tBegin then tEnd else tBegin
    let e := if tEnd < tBegin then tBegin else tEnd
    if g.m_points.isEmpty then some (((sub32 e b : Int) : ℚ) * g.m_default)
    else if curr == g.pend then
      g.rbegin.bind fun l => some (l.2.value.2 * ((sub32 e b : Int) : ℚ))
    else
      (g.deref curr).bind fun c =>
      if ¬ c.1 ≤ b then none
      else
        let next := curr + 1
        if next == g.pend then some (c.2.value.2 * ((sub32 e b : Int) : ℚ))
        else
          (g.deref next).bind fun n =>
          if ¬ e ≤ n.1 then none
          else
            (g.IntegrateSegment curr).bind fun value =>
            let value :=
              if c.1 ≠ b then
                let x : ℚ := ((sub32 b c.1 : Int) : ℚ) / ((sub32 n.1 c.1 : Int) : ℚ)
                value - ((sub32 b c.1 : Int) : ℚ) * Lerp c.2.value.2 n.2.value.1 (x * (1 / 2))
              else value
            let value :=
              if e ≠ n.1 then
                let x : ℚ := ((sub32 n.1 e : Int) : ℚ) / ((sub32 n.1 c.1 : Int) : ℚ)
                value - ((sub32 n.1 e : Int) : ℚ) * Lerp c.2.value.2 n.2.value.1 (1 - x * (1 / 2))
              else value
            some value

/-- The loop `for (; beginIt != endIt; ++beginIt) result += Integrate(beginIt)`
over the positions it visits. -/
def sumSegments (g : LineGraph) : List Nat → ℚ → Option ℚ
  | [], result => some result
  | it :: rest, result =>
    (g.IntegrateSegment it).bind fun v => sumSegments g rest (result + v)

/-- `LineGraph::Integrate(MapTime, MapTime)`; `none` stands for an access to a
point that does not exist or a failed `assert`. -/
def Integrate (g : LineGraph) (tBegin tEnd : MapTime) : Option ℚ :=
  if tBegin = tEnd then some 0
  else
    let b := if tEnd < tBegin then tEnd else tBegin
    let e := if tEnd < tBegin then tBegin else tEnd
    let beginIt := g.upper_bound b
    if beginIt = g.pend then
      g.rbegin.bind fun l => some (l.2.value.2 * ((sub32 e b : Int) : ℚ))
    else
      (g.deref beginIt).bind fun bi =>
      if e ≤ bi.1 then
        if beginIt = 0 then some (bi.2.value.1 * ((sub32 e b : Int) : ℚ))
        else g.IntegrateWithin (beginIt - 1) b e
      else
        (if beginIt = 0 then some (bi.2.value.1 * ((sub32 bi.1 b : Int) : ℚ))
         else if b ≠ bi.1 then g.IntegrateWithin (beginIt - 1) b bi.1
         else some 0).bind fun result =>
        let endIt := g.lower_bound e
        if endIt = 0 then none
        else
          (g.deref endIt).bind fun ei =>
          (if ei.1 ≠ e then
            let endIt := endIt - 1
            (g.deref endIt).bind fun ep =>
            (g.IntegrateWithin endIt ep.1 e).bind fun r => some (endIt, result + r)
           else some (endIt, result)).bind fun er =>
          if er.1 < beginIt then none
          else sumSegments g (sweepRange beginIt er.1) er.2

end LineGraph

/-! ## Vocabulary of the proofs

The definitions with the suffix `Exact` are the functions of the program with
every sum taken in `Int` and without the call of `CountBeats`: what the program
computes when no sum leaves the 32-bit range and `CountBeats` returns.  The
theorems `updateAccepted_exact`, `Update_exact`, `run_exact`,
`DurationToViewDistanceAtTime_exact` and `Integrate_eq_IntegrateExact` relate
them to the functions of the program. -/

/-- In exact integers: body of the loop at lines 115-130 for the object at position `it`. -/
def enterObjectExact (bm : Beatmap) (r : Step) (it : Nat) : Step :=
  let obj := bm.obj it
  if obj.type = ObjectType.Laser then r
  else if !r.1.m_viewRange.Includes obj.time then r
  else if obj.type = ObjectType.Hold
      && !r.1.m_viewRange.Includes (obj.time + obj.duration) true then r
  else
    let s1 :=
      if obj.type = ObjectType.Hold ∨ obj.type = ObjectType.Single then
        { r.1 with m_holdObjects := ObjectSet.Add it r.1.m_holdObjects }
      else r.1
    ({ s1 with m_hittableObjects := AddUnique it s1.m_hittableObjects },
      r.2 ++ [Notification.ObjectEntered it])

/-- In exact integers: lines 111-132: advance objects. -/
def advanceObjectsExact (bm : Beatmap) (s : BeatmapPlayback) : Step :=
  let objEnd := m_SelectHitObject bm s (s.m_playbackTime + s.hittableObjectEnter)
  if objEnd ≠ s.m_currObject then
    let r := (sweepRange s.m_currObject objEnd).foldl (enterObjectExact bm) (s, [])
    ({ r.1 with m_currObject := objEnd }, r.2)
  else (s, [])

/-- In exact integers: body of the loop at lines 138-149 for the object at position `it`. -/
def enterLaserExact (bm : Beatmap) (r : Step) (it : Nat) : Step :=
  let obj := bm.obj it
  if obj.type ≠ ObjectType.Laser then r
  else if !r.1.m_viewRange.Includes obj.time then r
  else if !r.1.m_viewRange.Includes (obj.time + obj.duration) true then r
  else
    let s1 := { r.1 with m_holdObjects := ObjectSet.Add it r.1.m_holdObjects }
    ({ s1 with m_hittableObjects := AddUnique it s1.m_hittableObjects },
      r.2 ++ [Notification.ObjectEntered it])

/-- In exact integers: lines 134-151: advance lasers. -/
def advanceLasersExact (bm : Beatmap) (s : BeatmapPlayback) : Step :=
  let objEnd := m_SelectHitObject bm s (s.m_playbackTime + s.hittableLaserEnter)
  if objEnd ≠ s.m_currLaserObject then
    let r := (sweepRange s.m_currLaserObject objEnd).foldl (enterLaserExact bm) (s, [])
    ({ r.1 with m_currLaserObject := objEnd }, r.2)
  else (s, [])

/-- In exact integers: lines 153-170: lasers within the alert time. -/
def checkLaserAlertsExact (bm : Beatmap) (s : BeatmapPlayback) : Step :=
  let objEnd := m_SelectHitObject bm s (s.m_playbackTime + s.alertLaserThreshold)
  if objEnd ≠ s.m_currAlertObject then
    let r := (sweepRange s.m_currAlertObject objEnd).foldl (alertLaser bm) (s, [])
    ({ r.1 with m_currAlertObject := objEnd }, r.2)
  else (s, [])

/-- In exact integers: body of the loop at lines 174-236 for the entry `it` of
`m_hittableObjects`:
whether the entry is erased, the state and the notifications. -/
def hittableStepExact (bm : Beatmap) (objectPassTime : MapTime) (s : BeatmapPlayback) (it : Nat) :
    Bool × Step :=
  let obj := bm.obj it
  if obj.type = ObjectType.Hold then
    let endTime := obj.duration + obj.time
    if endTime < objectPassTime then (true, s, [Notification.ObjectLeaved it])
    else if obj.effectType ≠ EffectType.None
        ∧ obj.time - 100 ≤ s.m_playbackTime + s.audioOffset
        ∧ endTime - 100 > s.m_playbackTime + s.audioOffset then
      if !ObjectSet.Contains it s.m_effectObjects then
        (false, { s with m_effectObjects := ObjectSet.Add it s.m_effectObjects },
          [Notification.FXBegin it])
      else (false, s, [])
    else (false, s, [])
  else if obj.type = ObjectType.Laser then
    if obj.duration + obj.time < objectPassTime then (true, s, [Notification.ObjectLeaved it])
    else (false, s, [])
  else if obj.type = ObjectType.Single then
    if obj.time < objectPassTime then (true, s, [Notification.ObjectLeaved it])
    else (false, s, [])
  else if obj.type = ObjectType.Event then
    if obj.time < s.m_playbackTime + 2 then
      let s1 :=
        if obj.key = EventKey.TrackRollBehaviour then
          if s.m_currentTrackRollBehaviour ≠ obj.data then
            { s with m_currentTrackRollBehaviour := obj.data
                     m_lastTrackRollBehaviourChange := obj.time }
          else s
        else s
      (true, { s1 with m_eventMapping := setEvent obj.key obj.data s1.m_eventMapping },
        [Notification.EventChanged obj.key obj.data])
    else (false, s, [])
  else (false, s, [])

/-- In exact integers: the loop at lines 174-236 over the entries of
`m_hittableObjects`: the
entries kept, the state and the notifications. -/
def sweepHittableExact (bm : Beatmap) (objectPassTime : MapTime) :
    List Nat → BeatmapPlayback → List Nat × Step
  | [], s => ([], s, [])
  | it :: rest, s =>
    let r := hittableStepExact bm objectPassTime s it
    let r2 := sweepHittableExact bm objectPassTime rest r.2.1
    (if r.1 then r2.1 else it :: r2.1, r2.2.1, r.2.2 ++ r2.2.2)

/-- In exact integers: lines 172-236: check passed hittable objects. -/
def checkPassedHittableExact (bm : Beatmap) (s : BeatmapPlayback) : Step :=
  let objectPassTime := s.m_playbackTime - s.hittableObjectLeave
  let r := sweepHittableExact bm objectPassTime s.m_hittableObjects s
  ({ r.2.1 with m_hittableObjects := r.1 }, r.2.2)

/-- In exact integers: body of the loop at lines 239-276 for the entry `it` of
`m_holdObjects`. -/
def holdStepExact (bm : Beatmap) (objectPassTime : MapTime) (s : BeatmapPlayback) (it : Nat) :
    Bool × Step :=
  let obj := bm.obj it
  if obj.type = ObjectType.Hold then
    let endTime := obj.duration + obj.time
    if endTime < objectPassTime then (true, s, [])
    else if endTime < s.m_playbackTime then
      if ObjectSet.Contains it s.m_effectObjects then
        (false, { s with m_effectObjects := s.m_effectObjects.erase it },
          [Notification.FXEnd it])
      else (false, s, [])
    else (false, s, [])
  else if obj.type = ObjectType.Laser then
    if obj.duration + obj.time < objectPassTime then (true, s, []) else (false, s, [])
  else if obj.type = ObjectType.Single then
    if obj.time < objectPassTime then (true, s, []) else (false, s, [])
  else (false, s, [])

/-- In exact integers: the loop at lines 239-276 over the entries of `m_holdObjects`. -/
def sweepHoldExact (bm : Beatmap) (objectPassTime : MapTime) :
    List Nat → BeatmapPlayback → List Nat × Step
  | [], s => ([], s, [])
  | it :: rest, s =>
    let r := holdStepExact bm objectPassTime s it
    let r2 := sweepHoldExact bm objectPassTime rest r.2.1
    (if r.1 then r2.1 else it :: r2.1, r2.2.1, r.2.2 ++ r2.2.2)

/-- In exact integers: lines 238-276: remove passed hold objects. -/
def removePassedHoldExact (bm : Beatmap) (s : BeatmapPlayback) : Step :=
  let objectPassTime := s.m_playbackTime - s.hittableObjectLeave
  let r := sweepHoldExact bm objectPassTime s.m_holdObjects s
  ({ r.2.1 with m_holdObjects := r.1 }, r.2.2)

/-- In exact integers: lines 84-276, what an accepted tick does after
`CountBeats` has returned. -/
def updateBodyExact (bm : Beatmap) (newTime : MapTime) (s : BeatmapPlayback) : Step :=
  (((((((countBars bm newTime s).andThen (advanceTiming bm)).andThen
    (advanceLaneToggle bm)).andThen (advanceObjectsExact bm)).andThen (advanceLasersExact bm)).andThen
    (checkLaserAlertsExact bm)).andThen (checkPassedHittableExact bm)).andThen (removePassedHoldExact bm)

/-- In exact integers: lines 71-276: an accepted tick outside calibration mode. -/
def updateAcceptedExact (bm : Beatmap) (s : BeatmapPlayback) (newTime : MapTime) : Step :=
  (fireInitialEffectState bm s).andThen (updateBodyExact bm newTime)

/-- In exact integers and with `CountBeats` returning: the state after a call
of `Update` and the notifications of the call, in call order. -/
def UpdateExact (bm : Beatmap) (s : BeatmapPlayback) (newTime : MapTime) : Step :=
  if s.m_isCalibration then updateCalibration bm s newTime
  else if newTime < s.m_playbackTime then (s, [])
  else updateAcceptedExact bm s newTime

/-- In exact integers and with `CountBeats` returning: the state after a run of
`Update` calls. -/
def runStateExact (bm : Beatmap) (s : BeatmapPlayback) : List MapTime → BeatmapPlayback
  | [] => s
  | t :: ts => runStateExact bm (UpdateExact bm s t).1 ts

/-- In exact integers and with `CountBeats` returning: the notifications of a
run of `Update` calls, one list per call. -/
def runTraceExact (bm : Beatmap) (s : BeatmapPlayback) : List MapTime → List (List Notification)
  | [] => []
  | t :: ts => (UpdateExact bm s t).2 :: runTraceExact bm (UpdateExact bm s t).1 ts

/-- In exact integers and with `CountBeats` returning: all notifications of a
run, in emission order. -/
def runLogExact (bm : Beatmap) (s : BeatmapPlayback) (ts : List MapTime) : List Notification :=
  (runTraceExact bm s ts).flatten

namespace LineGraph

/-- In exact integers: `LineGraph::Integrate(PointsIterator)`: the area of the whole segment that
starts at `curr`.  A failed `assert` is `none`. -/
def IntegrateSegmentExact (g : LineGraph) (curr : Nat) : Option ℚ :=
  if g.m_points.isEmpty || curr == g.pend then some 0
  else
    let next := curr + 1
    if next == g.pend then none
    else
      (g.deref next).bind fun n =>
      (g.deref curr).bind fun c =>
      some (((n.1 - c.1 : Int) : ℚ) * (n.2.value.1 + c.2.value.2) * (1 / 2))

/-- In exact integers: `LineGraph::Integrate(PointsIterator, MapTime, MapTime)`: the area over a
range inside the segment that starts at `curr`. -/
def IntegrateWithinExact (g : LineGraph) (curr : Nat) (tBegin tEnd : MapTime) : Option ℚ :=
  if tBegin = tEnd then some 0
  else
    let b := if tEnd < tBegin then tEnd else tBegin
    let e := if tEnd < tBegin then tBegin else tEnd
    if g.m_points.isEmpty then some (((e - b : Int) : ℚ) * g.m_default)
    else if curr == g.pend then
      g.rbegin.bind fun l => some (l.2.value.2 * ((e - b : Int) : ℚ))
    else
      (g.deref curr).bind fun c =>
      if ¬ c.1 ≤ b then none
      else
        let next := curr + 1
        if next == g.pend then some (c.2.value.2 * ((e - b : Int) : ℚ))
        else
          (g.deref next).bind fun n =>
          if ¬ e ≤ n.1 then none
          else
            (g.IntegrateSegmentExact curr).bind fun value =>
            let value :=
              if c.1 ≠ b then
                let x : ℚ := ((b - c.1 : Int) : ℚ) / ((n.1 - c.1 : Int) : ℚ)
                value - ((b - c.1 : Int) : ℚ) * Lerp c.2.value.2 n.2.value.1 (x * (1 / 2))
              else value
            let value :=
              if e ≠ n.1 then
                let x : ℚ := ((n.1 - e : Int) : ℚ) / ((n.1 - c.1 : Int) : ℚ)
                value - ((n.1 - e : Int) : ℚ) * Lerp c.2.value.2 n.2.value.1 (1 - x * (1 / 2))
              else value
            some value

/-- In exact integers: the loop `for (; beginIt != endIt; ++beginIt) result += Integrate(beginIt)`
over the positions it visits. -/
def sumSegmentsExact (g : LineGraph) : List Nat → ℚ → Option ℚ
  | [], result => some result
  | it :: rest, result =>
    (g.IntegrateSegmentExact it).bind fun v => sumSegmentsExact g rest (result + v)

/-- In exact integers: `LineGraph::Integrate(MapTime, MapTime)`; `none` stands for an access to a
point that does not exist or a failed `assert`. -/
def IntegrateExact (g : LineGraph) (tBegin tEnd : MapTime) : Option ℚ :=
  if tBegin = tEnd then some 0
  else
    let b := if tEnd < tBegin then tEnd else tBegin
    let e := if tEnd < tBegin then tBegin else tEnd
    let beginIt := g.upper_bound b
    if beginIt = g.pend then
      g.rbegin.bind fun l => some (l.2.value.2 * ((e - b : Int) : ℚ))
    else
      (g.deref beginIt).bind fun bi =>
      if e ≤ bi.1 then
        if beginIt = 0 then some (bi.2.value.1 * ((e - b : Int) : ℚ))
        else g.IntegrateWithinExact (beginIt - 1) b e
      else
        (if beginIt = 0 then some (bi.2.value.1 * ((bi.1 - b : Int) : ℚ))
         else if b ≠ bi.1 then g.IntegrateWithinExact (beginIt - 1) b bi.1
         else some 0).bind fun result =>
        let endIt := g.lower_bound e
        if endIt = 0 then none
        else
          (g.deref endIt).bind fun ei =>
          (if ei.1 ≠ e then
            let endIt := endIt - 1
            (g.deref endIt).bind fun ep =>
            (g.IntegrateWithinExact endIt ep.1 e).bind fun r => some (endIt, result + r)
           else some (endIt, result)).bind fun er =>
          if er.1 < beginIt then none
          else sumSegmentsExact g (sweepRange beginIt er.1) er.2

end LineGraph

/-- The scan of `m_SelectHitObject` without reset, from position `start`. -/
def scanObjects (bm : Beatmap) (start : Nat) (time : MapTime) : Nat :=
  if IsEndObject bm start then start
  else advanceWhile (fun (o : ObjectState) => decide (o.time < time))
    (bm.objectStates.drop start) start

/-- The scan of `m_SelectTimingPoint` without reset, from position `start`. -/
def scanTiming (bm : Beatmap) (start : Nat) (time : MapTime) : Nat :=
  if IsEndTiming bm start then start
  else advanceWhile (fun (tp : TimingPoint) => decide (tp.time ≤ time))
    (bm.timingPoints.drop (start + 1)) start

/-- The scan of `m_SelectLaneTogglePoint` without reset, from position `start`. -/
def scanLaneToggle (bm : Beatmap) (start : Nat) (time : MapTime) : Nat :=
  if IsEndLaneToggle bm start then start
  else advanceWhile (fun (lt : LaneTogglePoint) => decide (lt.time ≤ time))
    (bm.laneTogglePoints.drop (start + 1)) start

/-- `AddUnique` of every element of `l`, in order. -/
def addAllUnique (v : List Nat) (l : List Nat) : List Nat :=
  l.foldl (fun w x => AddUnique x w) v

/-- The update of `m_holdObjects` at lines 123-126. -/
def holdAdd (bm : Beatmap) (it : Nat) (h : List Nat) : List Nat :=
  if (bm.obj it).type = ObjectType.Hold ∨ (bm.obj it).type = ObjectType.Single then
    ObjectSet.Add it h
  else h

/-- `Set::Add` of every element of `l`, in order. -/
def addAllSet (h : List Nat) (l : List Nat) : List Nat :=
  l.foldl (fun w x => ObjectSet.Add x w) h

/-- The alerts of the loop body at lines 157-168. -/
def alerts (bm : Beatmap) (vr : MapTimeRange) (it : Nat) : Bool :=
  vr.Includes (bm.obj it).time && decide ((bm.obj it).type = ObjectType.Laser)
    && !(bm.obj it).hasPrev

/-- The two lifecycle notifications. -/
def isLifecycle : Notification → Bool
  | Notification.ObjectEntered _ => true
  | Notification.ObjectLeaved _ => true
  | _ => false

/-- The entries of `m_hittableObjects` that the sweep keeps. -/
def stays (bm : Beatmap) (opt playbackTime : MapTime) (it : Nat) : Bool :=
  !(passes bm opt it || fires bm playbackTime it)

/-- Where the object cursor stands after an accepted tick at `t`. -/
def tickObjEnd (bm : Beatmap) (s : BeatmapPlayback) (t : MapTime) : Nat :=
  scanObjects bm s.m_currObject (t + s.hittableObjectEnter)

/-- Where the laser cursor stands after an accepted tick at `t`. -/
def tickLaserEnd (bm : Beatmap) (s : BeatmapPlayback) (t : MapTime) : Nat :=
  scanObjects bm (tickObjEnd bm s t) (t + s.hittableLaserEnter)

/-- Where the alert cursor stands after an accepted tick at `t`. -/
def tickAlertEnd (bm : Beatmap) (s : BeatmapPlayback) (t : MapTime) : Nat :=
  scanObjects bm (tickObjEnd bm s t) (t + s.alertLaserThreshold)

/-- The objects added by the object sweep of an accepted tick at `t`. -/
def tickNewObjects (bm : Beatmap) (s : BeatmapPlayback) (t : MapTime) : List Nat :=
  (sweepRange s.m_currObject (tickObjEnd bm s t)).filter (objectEnters bm s.m_viewRange)

/-- The objects added by the laser sweep of an accepted tick at `t`. -/
def tickNewLasers (bm : Beatmap) (s : BeatmapPlayback) (t : MapTime) : List Nat :=
  (sweepRange s.m_currLaserObject (tickLaserEnd bm s t)).filter (laserEnters bm s.m_viewRange)

/-- The lasers alerted by an accepted tick at `t`. -/
def tickAlerts (bm : Beatmap) (s : BeatmapPlayback) (t : MapTime) : List Nat :=
  (sweepRange s.m_currAlertObject (tickAlertEnd bm s t)).filter (alerts bm s.m_viewRange)

/-- The content of `m_hittableObjects` after the two enter sweeps of an accepted
tick at `t`, before the pass sweep. -/
def tickMid (bm : Beatmap) (s : BeatmapPlayback) (t : MapTime) : List Nat :=
  addAllUnique (addAllUnique s.m_hittableObjects (tickNewObjects bm s t)) (tickNewLasers bm s t)

/-- The fields that the two closing sweeps of a tick leave alone. -/
def frame (s : BeatmapPlayback) :=
  (s.hittableObjectEnter, s.hittableLaserEnter, s.hittableObjectLeave, s.alertLaserThreshold,
    s.audioOffset, s.cMod, s.m_playbackTime, s.m_viewRange, s.m_currObject, s.m_currLaserObject,
    s.m_currAlertObject, s.m_currentTiming, s.m_currentLaneTogglePoint, s.m_barTime,
    s.m_beatTime, s.m_initialEffectStateSent, s.m_isCalibration, s.m_calibrationTiming)

/-- The first seven blocks of an accepted tick: everything before the two
closing sweeps. -/
def enterPhases (bm : Beatmap) (s : BeatmapPlayback) (t : MapTime) : Step :=
  ((((((fireInitialEffectState bm s).andThen (countBars bm t)).andThen
    (advanceTiming bm)).andThen (advanceLaneToggle bm)).andThen (advanceObjectsExact bm)).andThen
    (advanceLasersExact bm)).andThen (checkLaserAlertsExact bm)

/-- The first four blocks of an accepted tick. -/
def preludePhases (bm : Beatmap) (s : BeatmapPlayback) (t : MapTime) : Step :=
  (((fireInitialEffectState bm s).andThen (countBars bm t)).andThen
    (advanceTiming bm)).andThen (advanceLaneToggle bm)

/-- The notifications of the two closing sweeps of an accepted tick. -/
def leavePhasesEvents (bm : Beatmap) (s : BeatmapPlayback) (t : MapTime) : List Notification :=
  (checkPassedHittableExact bm (enterPhases bm s t).1).2
    ++ (removePassedHoldExact bm (checkPassedHittableExact bm (enterPhases bm s t).1).1).2

/-- The invariant of a run outside calibration mode: `s` is the state and `log`
the notifications emitted since the reset. -/
structure Inv (bm : Beatmap) (s : BeatmapPlayback) (log : List Notification) : Prop where
  notCalibration : s.m_isCalibration = false
  timingLt : s.m_currentTiming < bm.timingPoints.length
  laneLe : s.m_currentLaneTogglePoint ≤ bm.laneTogglePoints.length
  objLe : s.m_currObject ≤ bm.objectStates.length
  objLeLaser : s.m_currObject ≤ s.m_currLaserObject
  laserLe : s.m_currLaserObject ≤ bm.objectStates.length
  objLeAlert : s.m_currObject ≤ s.m_currAlertObject
  alertLe : s.m_currAlertObject ≤ bm.objectStates.length
  objPassed : ∀ k, k < s.m_currObject →
    (bm.obj k).time < s.m_playbackTime + s.hittableObjectEnter
  laserPassed : ∀ k, s.m_currObject ≤ k → k < s.m_currLaserObject →
    (bm.obj k).time < s.m_playbackTime + s.hittableLaserEnter
  alertPassed : ∀ k, s.m_currObject ≤ k → k < s.m_currAlertObject →
    (bm.obj k).time < s.m_playbackTime + s.alertLaserThreshold
  nodup : s.m_hittableObjects.Nodup
  hitIff : ∀ i, i ∈ s.m_hittableObjects ↔
    (enters bm s.m_viewRange i = true ∧ i < enterCursor bm s i
      ∧ stays bm (s.m_playbackTime - s.hittableObjectLeave) s.m_playbackTime i = true)
  countEntered : ∀ i, log.count (Notification.ObjectEntered i) =
    if enters bm s.m_viewRange i = true ∧ i < enterCursor bm s i then 1 else 0
  countLeaved : ∀ i, log.count (Notification.ObjectLeaved i) + s.m_hittableObjects.count i
    ≤ log.count (Notification.ObjectEntered i)
  countLeavedEq : ∀ i, (bm.obj i).type ≠ ObjectType.Event →
    log.count (Notification.ObjectLeaved i) + s.m_hittableObjects.count i
      = log.count (Notification.ObjectEntered i)
  ordered : ∀ pre post, log = pre ++ post → ∀ i,
    pre.count (Notification.ObjectLeaved i) ≤ pre.count (Notification.ObjectEntered i)

/-- The look-ahead horizon that applies to the object at `it`. -/
def enterHorizon (bm : Beatmap) (s : BeatmapPlayback) (it : Nat) : MapTime :=
  if (bm.obj it).type = ObjectType.Laser then s.hittableLaserEnter else s.hittableObjectEnter

/-- A playback object before `Reset`, with the horizons of the spec's scenario
(enter 1000, leave 500) and no audio offset. -/
def scenarioPlayback : BeatmapPlayback :=
  { hittableObjectEnter := 1000
    hittableLaserEnter := 1000
    hittableObjectLeave := 500
    alertLaserThreshold := 1500
    audioOffset := 0
    cMod := false
    m_playbackTime := 0
    m_viewRange := ⟨0, 0⟩
    m_currObject := 0
    m_currLaserObject := 0
    m_currAlertObject := 0
    m_currentTiming := 0
    m_currentLaneTogglePoint := 0
    m_currentTrackRollBehaviour := 0
    m_lastTrackRollBehaviourChange := 0
    m_hittableObjects := []
    m_holdObjects := []
    m_effectObjects := []
    m_eventMapping := []
    m_barTime := 0
    m_beatTime := 0
    m_initialEffectStateSent := false
    m_isCalibration := false
    m_calibrationTiming := ⟨0, 500, 4, 4⟩ }

/-- The chart of the spec's scenario: a timing point at 0 with beat duration 500
in 4/4 and one Single at 2000. -/
def scenarioBeatmap : Beatmap :=
  { firstTimingPoint := ⟨0, 500, 4, 4⟩
    objectStates := [{ type := ObjectType.Single, time := 2000 }] }

/-- The scenario's chart with a parameter event in place of the Single. -/
def eventBeatmap : Beatmap :=
  { firstTimingPoint := ⟨0, 500, 4, 4⟩
    objectStates := [{ type := ObjectType.Event, time := 2000, key := EventKey.Other 0, data := 7 }] }

namespace LineGraph

/-- Keys strictly ascending, as a predicate on the entry list. -/
def SortedKeys (l : List (MapTime × Point)) : Prop :=
  (l.map Prod.fst).Sorted (· < ·)

/-- The graph of the spec's scenario: default 0, the points (0, 1.0) and
(1000, 2.0) inserted into the empty graph. -/
def scenarioGraph : LineGraph :=
  ((⟨0, []⟩ : LineGraph).Insert 0 1).Insert 1000 2

end LineGraph

/-- One hold button with an effect: starts at 0, lasts 1000. -/
def holdBeatmap : Beatmap :=
  { firstTimingPoint := ⟨0, 500, 4, 4⟩
    objectStates :=
      [{ type := ObjectType.Hold, time := 0, duration := 1000,
         effectType := EffectType.Effect 1 }] }

/-- The playback object of the scenario with an audio offset of -200. -/
def offsetPlayback : BeatmapPlayback :=
  { scenarioPlayback with audioOffset := -200 }

/-- The two effect notifications. -/
def isFX : Notification → Bool
  | Notification.FXBegin _ => true
  | Notification.FXEnd _ => true
  | _ => false

/-- The guard of `OnFXBegin` at lines 177-194 for the entry `it`. -/
def fxBegins (bm : Beatmap) (opt : MapTime) (s : BeatmapPlayback) (it : Nat) : Bool :=
  decide ((bm.obj it).type = ObjectType.Hold)
    && !decide ((bm.obj it).duration + (bm.obj it).time < opt)
    && decide ((bm.obj it).effectType ≠ EffectType.None)
    && decide ((bm.obj it).time - 100 ≤ s.m_playbackTime + s.audioOffset)
    && decide ((bm.obj it).duration + (bm.obj it).time - 100 > s.m_playbackTime + s.audioOffset)
    && !ObjectSet.Contains it s.m_effectObjects

/-- The guard of `OnFXEnd` at lines 242-256 for the entry `it`. -/
def fxEnds (bm : Beatmap) (opt : MapTime) (s : BeatmapPlayback) (it : Nat) : Bool :=
  decide ((bm.obj it).type = ObjectType.Hold)
    && !decide ((bm.obj it).duration + (bm.obj it).time < opt)
    && decide ((bm.obj it).duration + (bm.obj it).time < s.m_playbackTime)
    && ObjectSet.Contains it s.m_effectObjects

/-- The effect bookkeeping of the object `i` at clock `t` with audio offset
`ao`: the effect set is an ordered set, `i` is in it exactly while it has one
more `FXBegin` than `FXEnd`, an object without effect never begins, and for
`ao ≥ -100` it begins at most once and has ended only after its end time. -/
def FxInv (bm : Beatmap) (i : Nat) (ao t : MapTime) (effect : List Nat)
    (log : List Notification) : Prop :=
  effect.Sorted (· < ·)
  ∧ log.count (Notification.FXBegin i) = log.count (Notification.FXEnd i) + effect.count i
  ∧ ((bm.obj i).effectType = EffectType.None → log.count (Notification.FXBegin i) = 0)
  ∧ (-100 ≤ ao → log.count (Notification.FXBegin i) ≤ 1
      ∧ (0 < log.count (Notification.FXEnd i) →
          (bm.obj i).duration + (bm.obj i).time < t))

/-- Modelled from the spec: `Math::Sign` is not part of the sources; the sign
of the duration, which the conversion preserves: -1, 0 or 1. -/
def Sign (x : MapTime) : Int :=
  if 0 < x then 1 else if x < 0 then -1 else 0

/-- The cast `(MapTime)time` of a `double`: truncation toward zero. -/
def truncToMapTime (x : ℚ) : MapTime :=
  if 0 ≤ x then ⌊x⌋ else ⌈x⌉

/-- The loop at lines 519-537 of `DurationToViewDistanceAtTime`: `tp` is the
timing point under the iterator and `rest` the timing points after it
(`IsEndTiming(tp + 1)` is `rest = []`). -/
def distanceLoop (tp : TimingPoint) :
    List TimingPoint → MapTime → MapTime → MapTime → ℚ → ℚ
  | [], _, _, duration, barTime => barTime + (duration : ℚ) / tp.beatDuration
  | n :: rest, time, endTime, duration, barTime =>
    if n.time < endTime then
      distanceLoop n rest n.time endTime (sub32 duration (sub32 n.time time))
        (barTime + ((sub32 n.time time : MapTime) : ℚ) / tp.beatDuration)
    else barTime + (duration : ℚ) / tp.beatDuration

/-- `BeatmapPlayback::DurationToViewDistanceAtTime`.  The timing cursor is not
at the end sentinel in any state that `Reset` and `Update` produce; at the end
sentinel the program would dereference it. -/
def DurationToViewDistanceAtTime (bm : Beatmap) (s : BeatmapPlayback)
    (time duration : MapTime) : ℚ :=
  if s.cMod then (duration : ℚ) / 480000
  else
    let endTime := add32 time duration
    let direction := Sign duration
    let time1 := if duration < 0 then endTime else time
    let endTime1 := if duration < 0 then time else endTime
    let duration1 := if duration < 0 then wrap32 (duration * -1) else duration
    if s.m_isCalibration then
      (duration1 : ℚ) / s.m_calibrationTiming.beatDuration * (direction : ℚ)
    else
      let tp := m_SelectTimingPoint bm s time1 true
      distanceLoop (bm.timing tp) (bm.timingPoints.drop (tp + 1)) time1 endTime1 duration1 0
        * (direction : ℚ)

/-- `BeatmapPlayback::DurationToViewDistance`. -/
def DurationToViewDistance (bm : Beatmap) (s : BeatmapPlayback) (duration : MapTime) : ℚ :=
  DurationToViewDistanceAtTime bm s s.m_playbackTime duration

/-- In exact integers: the loop at lines 519-537 of
`DurationToViewDistanceAtTime`. -/
def distanceLoopExact (tp : TimingPoint) :
    List TimingPoint → MapTime → MapTime → MapTime → ℚ → ℚ
  | [], _, _, duration, barTime => barTime + (duration : ℚ) / tp.beatDuration
  | n :: rest, time, endTime, duration, barTime =>
    if n.time < endTime then
      distanceLoopExact n rest n.time endTime (duration - (n.time - time))
        (barTime + ((n.time - time : MapTime) : ℚ) / tp.beatDuration)
    else barTime + (duration : ℚ) / tp.beatDuration

/-- In exact integers: `BeatmapPlayback::DurationToViewDistanceAtTime`, what the
function computes when no sum leaves the 32-bit range
(`DurationToViewDistanceAtTime_exact`). -/
def DurationToViewDistanceAtTimeExact (bm : Beatmap) (s : BeatmapPlayback)
    (time duration : MapTime) : ℚ :=
  if s.cMod then (duration : ℚ) / 480000
  else
    let endTime := time + duration
    let direction := Sign duration
    let time1 := if duration < 0 then endTime else time
    let endTime1 := if duration < 0 then time else endTime
    let duration1 := if duration < 0 then duration * -1 else duration
    if s.m_isCalibration then
      (duration1 : ℚ) / s.m_calibrationTiming.beatDuration * (direction : ℚ)
    else
      let tp := m_SelectTimingPoint bm s time1 true
      distanceLoopExact (bm.timing tp) (bm.timingPoints.drop (tp + 1)) time1 endTime1 duration1 0
        * (direction : ℚ)

/-- In exact integers: `BeatmapPlayback::DurationToViewDistance`. -/
def DurationToViewDistanceExact (bm : Beatmap) (s : BeatmapPlayback) (duration : MapTime) : ℚ :=
  DurationToViewDistanceAtTimeExact bm s s.m_playbackTime duration

/-- The loop at lines 408-424 of `ViewDistanceToDuration`; `currentTime` is
passed along unchanged, as in the program. -/
def durationLoop (tp : TimingPoint) : List TimingPoint → MapTime → ℚ → ℚ → ℚ
  | [], _, distance, time => time + distance * tp.beatDuration
  | n :: rest, currentTime, distance, time =>
    if ((n.time : ℚ) - (currentTime : ℚ)) / tp.beatDuration < distance then
      durationLoop n rest currentTime
        (distance - ((n.time : ℚ) - (currentTime : ℚ)) / tp.beatDuration)
        (time + ((n.time : ℚ) - (currentTime : ℚ)) / tp.beatDuration * tp.beatDuration)
    else time + distance * tp.beatDuration

/-- `BeatmapPlayback::ViewDistanceToDuration`. -/
def ViewDistanceToDuration (bm : Beatmap) (s : BeatmapPlayback) (distance : ℚ) : MapTime :=
  if s.m_isCalibration then truncToMapTime (distance * s.m_calibrationTiming.beatDuration)
  else
    let tp := m_SelectTimingPoint bm s s.m_playbackTime true
    truncToMapTime
      (durationLoop (bm.timing tp) (bm.timingPoints.drop (tp + 1)) s.m_playbackTime distance 0)

/-- The overlap of the interval `[a, b]` with a tempo segment that starts at
`lo` (`none`: unbounded below) and ends at `hi` (`none`: unbounded above). -/
def overlap (a b : MapTime) (lo hi : Option MapTime) : MapTime :=
  max 0 (min b (hi.getD b) - max a (lo.getD a))

/-- Reference for the tempo-weighted length, after the spec's words: the sum,
over the tempo segments from the one of `tp` (which starts at `lo`) on, of
(length of the overlap with `[a, b]`) / (beat duration of the segment). -/
def tempoLengthFrom (tp : TimingPoint) (lo : Option MapTime) :
    List TimingPoint → MapTime → MapTime → ℚ
  | [], a, b => ((overlap a b lo none : MapTime) : ℚ) / tp.beatDuration
  | n :: rest, a, b =>
    ((overlap a b lo (some n.time) : MapTime) : ℚ) / tp.beatDuration
      + tempoLengthFrom n (some n.time) rest a b

/-- Reference for the tempo-weighted length of `[a, b]` over the whole chart;
the tempo of the first timing point also applies before its own time. -/
def tempoLength (bm : Beatmap) (a b : MapTime) : ℚ :=
  tempoLengthFrom bm.firstTimingPoint none bm.moreTimingPoints a b

/-- A chart with three tempo segments: beat 500 from 0, 250 from 1000, 500
from 2000. -/
def tempoBeatmap : Beatmap :=
  { firstTimingPoint := ⟨0, 500, 4, 4⟩
    moreTimingPoints := [⟨1000, 250, 4, 4⟩, ⟨2000, 500, 4, 4⟩]
    objectStates := [{ type := ObjectType.Single, time := 2000 }] }

namespace LineGraph

/-- `LineGraph::Extend`: the value returned and the graph afterwards; `none`
stands for an access to a point that does not exist. -/
def Extend (g : LineGraph) (time : MapTime) : Option (ℚ × LineGraph) :=
  if g.m_points.isEmpty then some (g.m_default, g.Insert time g.m_default)
  else
    let it := g.upper_bound time
    if it = 0 then (g.deref it).map fun p => (p.2.value.1, g)
    else
      let it := it - 1
      (g.deref it).bind fun p =>
      if p.1 = time then some (p.2.value.1, g)
      else
        let value := p.2.value.2
        some (value, g.Insert time value)

/-- `point.find(';')` on the characters of the text; `none` is `npos`. -/
def findSemicolon (point : List Char) : Option Nat :=
  if point.findIdx (fun c => c == ';') = point.length then none
  else some (point.findIdx (fun c => c == ';'))

/-- Modelled from the spec: the constructor `Point{a, b}` is declared in a
header that is not part of the sources; a pair makes the point a jump with
pre-value `a` and post-value `b`. -/
def Point.ofPair (a b : ℚ) : Point := ⟨(a, b)⟩

/-- `LineGraph::Insert(MapTime, const std::string&)`.  `stod` stands for
`std::stod`, with `none` when it throws `invalid_argument` or `out_of_range`;
the result is `none` when an exception leaves the function. -/
def InsertText (stod : List Char → Option ℚ) (g : LineGraph) (mapTime : MapTime)
    (point : List Char) : Option LineGraph :=
  match findSemicolon point with
  | none =>
    match stod point with
    | some v => some (g.Insert mapTime v)
    | none => some g
  | some semicolonIdx =>
    (stod (point.drop (semicolonIdx + 1))).bind fun a =>
    (stod (point.drop (semicolonIdx + 1))).bind fun b =>
    some (g.InsertPoint mapTime (Point.ofPair a b))

/-- The digits at the head of a text and the text after them. -/
def takeDigits : List Char → List Nat × List Char
  | [] => ([], [])
  | c :: rest =>
    if c.isDigit then ((c.toNat - 48) :: (takeDigits rest).1, (takeDigits rest).2)
    else ([], c :: rest)

/-- The number written by a list of decimal digits. -/
def digitsValue (ds : List Nat) : Nat :=
  ds.foldl (fun acc d => acc * 10 + d) 0

/-- A model of `std::stod` on plain decimal text: an optional sign, digits, an
optional fraction; what follows the number is ignored, and no digit at all is
the `invalid_argument` case.  Exponents, hexadecimal text, infinities and
leading blanks are left out. -/
def stodDecimal (text : List Char) : Option ℚ :=
  let neg := text.head? == some '-'
  let body := if text.head? == some '-' || text.head? == some '+' then text.drop 1 else text
  let ip := takeDigits body
  let fp := if ip.2.head? == some '.' then takeDigits (ip.2.drop 1) else ([], ip.2)
  if ip.1.isEmpty && fp.1.isEmpty then none
  else
    let num : Int := (digitsValue (ip.1 ++ fp.1) : Int)
    let q : ℚ := Rat.divInt num ((10 ^ fp.1.length : Nat) : Int)
    some (if neg then -q else q)

/-- The point stored at the key `t`, if any. -/
def lookup (g : LineGraph) (t : MapTime) : Option Point :=
  (g.m_points.find? (fun p => p.1 == t)).map Prod.snd

/-- Reference for `ValueAt` on the list of points in key order: the first
pre-value before the first key, the last post-value from the last key on, and
between two neighbours the interpolation from the left post-value to the right
pre-value. -/
def valueAtList (d : ℚ) : List (MapTime × Point) → MapTime → ℚ
  | [], _ => d
  | [p], t => if t < p.1 then p.2.value.1 else p.2.value.2
  | p :: q :: rest, t =>
    if t < p.1 then p.2.value.1
    else if t < q.1 then
      Lerp p.2.value.2 q.2.value.1 (((sub32 t p.1 : Int) : ℚ) / ((sub32 q.1 p.1 : Int) : ℚ))
    else valueAtList d (q :: rest) t

/-- The area under the straight segment from the post-value of `p` to the
pre-value of `q`, between the key of `p` and `x`: the width times the mean of
the two end heights. -/
def partArea (p q : MapTime × Point) (x : MapTime) : ℚ :=
  ((x - p.1 : Int) : ℚ)
    * (p.2.value.2
      + Lerp p.2.value.2 q.2.value.1 (((x - p.1 : Int) : ℚ) / ((q.1 - p.1 : Int) : ℚ)))
    * (1 / 2)

/-- Reference for the integral: the signed area under the piecewise-linear
function between the first key and `x`, flat before the first key and after
the last one, a jump adding no area. -/
def areaTo : List (MapTime × Point) → MapTime → ℚ
  | [], _ => 0
  | [p], x =>
    if x < p.1 then p.2.value.1 * ((x - p.1 : Int) : ℚ)
    else p.2.value.2 * ((x - p.1 : Int) : ℚ)
  | p :: q :: rest, x =>
    if x < p.1 then p.2.value.1 * ((x - p.1 : Int) : ℚ)
    else if x ≤ q.1 then partArea p q x
    else partArea p q q.1 + areaTo (q :: rest) x

/-- The second half of `IntegrateExact(MapTime, MapTime)`, lines 124-148: the part
of the range after the last key in it, then the whole segments from `beginIt`
on. -/
def tailPart (g : LineGraph) (beginIt : Nat) (e : MapTime) (result : ℚ) : Option ℚ :=
  let endIt := g.lower_bound e
  if endIt = 0 then none
  else
    (g.deref endIt).bind fun ei =>
    (if ei.1 ≠ e then
      let endIt := endIt - 1
      (g.deref endIt).bind fun ep =>
      (g.IntegrateWithinExact endIt ep.1 e).bind fun r => some (endIt, result + r)
     else some (endIt, result)).bind fun er =>
    if er.1 < beginIt then none
    else sumSegmentsExact g (sweepRange beginIt er.1) er.2

end LineGraph

/-- The chart with three tempo segments and two lane toggle points, at 500 and
1500. -/
def laneBeatmap : Beatmap :=
  { tempoBeatmap with laneTogglePoints := [⟨500⟩, ⟨1500⟩] }

/-- The content of `m_holdObjects` after the two enter sweeps of an accepted
tick at `t`, before the closing sweeps. -/
def tickHoldMid (bm : Beatmap) (s : BeatmapPlayback) (t : MapTime) : List Nat :=
  addAllSet ((tickNewObjects bm s t).foldl (fun w x => holdAdd bm x w) s.m_holdObjects)
    (tickNewLasers bm s t)

/-- The bookkeeping that keeps the effect set inside the hold set: both are
ordered sets, an object of the effect set is a hold button of the hold set
whose end the clock has not passed, and a hold button of the hittable list is
in the hold set. -/
def EffInv (bm : Beatmap) (s : BeatmapPlayback) : Prop :=
  s.m_effectObjects.Sorted (· < ·)
  ∧ s.m_holdObjects.Sorted (· < ·)
  ∧ (∀ i ∈ s.m_effectObjects, i ∈ s.m_holdObjects ∧ (bm.obj i).type = ObjectType.Hold
      ∧ ¬ (bm.obj i).duration + (bm.obj i).time < s.m_playbackTime)
  ∧ (∀ i ∈ s.m_hittableObjects, (bm.obj i).type = ObjectType.Hold → i ∈ s.m_holdObjects)

/-- The notification that the event object at `i` emits when it fires. -/
def eventNote (bm : Beatmap) (i : Nat) : Notification :=
  Notification.EventChanged (bm.obj i).key (bm.obj i).data

/-- The `EventChanged` notifications. -/
def isEventChanged : Notification → Bool
  | Notification.EventChanged _ _ => true
  | _ => false

/-- The event objects that an accepted tick at `t` fires, in firing order: the
entries of `m_hittableObjects` after the two enter sweeps that satisfy the
firing condition of lines 214-233. -/
def tickFired (bm : Beatmap) (s : BeatmapPlayback) (t : MapTime) : List Nat :=
  (tickMid bm s t).filter (fires bm t)

/-- The event objects that one call of `UpdateExact` fires: none in calibration
mode and none on a rejected tick. -/
def updateFired (bm : Beatmap) (s : BeatmapPlayback) (t : MapTime) : List Nat :=
  if s.m_isCalibration then []
  else if t < s.m_playbackTime then []
  else tickFired bm s t

/-- The event objects fired over a run of `UpdateExact` calls, in firing order. -/
def runFired (bm : Beatmap) (s : BeatmapPlayback) : List MapTime → List Nat
  | [] => []
  | t :: ts => updateFired bm s t ++ runFired bm (UpdateExact bm s t).1 ts

/-- The entry of the latched event table for `key`, if any. -/
def latched (m : List (EventKey × EventData)) (key : EventKey) : Option EventData :=
  (m.find? (fun e => e.1 == key)).map Prod.snd

/-- The table after the events of `fired` have been latched in order. -/
def latchAll (bm : Beatmap) (m : List (EventKey × EventData)) (fired : List Nat) :
    List (EventKey × EventData) :=
  fired.foldl (fun w i => setEvent (bm.obj i).key (bm.obj i).data w) m

/-- The event objects in a list of objects. -/
def eventsOf (bm : Beatmap) (l : List Nat) : List Nat :=
  l.filter (fun i => decide ((bm.obj i).type = ObjectType.Event))

/-- The bookkeeping of fired events: `fired` holds the events fired so far;
none is listed twice, each is due at the clock and behind the object cursor,
and the events waiting in `m_hittableObjects` are in chart order. -/
def EvInv (bm : Beatmap) (s : BeatmapPlayback) (fired : List Nat) : Prop :=
  fired.Nodup
  ∧ (∀ i ∈ fired, fires bm s.m_playbackTime i = true ∧ i < s.m_currObject)
  ∧ (eventsOf bm s.m_hittableObjects).Sorted (· < ·)

/-- A chart with three parameter events: two with the key `SlamVolume`, at
1000 and 1001, and one with another key at 3000. -/
def eventsBeatmap : Beatmap :=
  { firstTimingPoint := ⟨0, 500, 4, 4⟩
    objectStates :=
      [{ type := ObjectType.Event, time := 1000, key := EventKey.SlamVolume, data := 5 },
       { type := ObjectType.Event, time := 1001, key := EventKey.SlamVolume, data := 6 },
       { type := ObjectType.Event, time := 3000, key := EventKey.Other 1, data := 9 }] }

/-- The values of the 32-bit signed integer type. -/
def InRange32 (x : Int) : Prop := -2147483648 ≤ x ∧ x < 2147483648

instance instDecidableInRange32 (x : Int) : Decidable (InRange32 x) :=
  inferInstanceAs (Decidable (-2147483648 ≤ x ∧ x < 2147483648))

/-- No sum of an accepted tick at time `t` leaves the 32-bit range: the clock
plus each of the three horizons, the clock minus the leave horizon, the clock
plus the audio offset and the clock plus 2. -/
def TickExact (s : BeatmapPlayback) (t : MapTime) : Prop :=
  InRange32 (t + s.hittableObjectEnter) ∧ InRange32 (t + s.hittableLaserEnter)
    ∧ InRange32 (t + s.alertLaserThreshold) ∧ InRange32 (t - s.hittableObjectLeave)
    ∧ InRange32 (t + s.audioOffset) ∧ InRange32 (t + 2)

instance instDecidableTickExact (s : BeatmapPlayback) (t : MapTime) : Decidable (TickExact s t) :=
  inferInstanceAs (Decidable (InRange32 (t + s.hittableObjectEnter)
    ∧ InRange32 (t + s.hittableLaserEnter)
    ∧ InRange32 (t + s.alertLaserThreshold) ∧ InRange32 (t - s.hittableObjectLeave)
    ∧ InRange32 (t + s.audioOffset) ∧ InRange32 (t + 2)))

/-- No sum over the times of a chart object leaves the 32-bit range: its end
`duration + time` and the two ends of the effect window, `time - 100` and
`duration + time - 100`. -/
def ObjectExact (o : ObjectState) : Prop :=
  InRange32 (o.duration + o.time) ∧ InRange32 (o.time - 100)
    ∧ InRange32 (o.duration + o.time - 100)

instance instDecidableObjectExact (o : ObjectState) : Decidable (ObjectExact o) :=
  inferInstanceAs (Decidable (InRange32 (o.duration + o.time) ∧ InRange32 (o.time - 100)
    ∧ InRange32 (o.duration + o.time - 100)))

/-- No sum over the times of an object of the chart leaves the 32-bit range. -/
def ChartExact (bm : Beatmap) : Prop := ∀ o ∈ bm.objectStates, ObjectExact o

instance instDecidableChartExact (bm : Beatmap) : Decidable (ChartExact bm) :=
  inferInstanceAs (Decidable (∀ o ∈ bm.objectStates, ObjectExact o))

/-- No timing point of the chart has the numerator 0. -/
def NumeratorsNonzero (bm : Beatmap) : Prop := ∀ tp ∈ bm.timingPoints, tp.numerator ≠ 0

instance instDecidableNumeratorsNonzero (bm : Beatmap) : Decidable (NumeratorsNonzero bm) :=
  inferInstanceAs (Decidable (∀ tp ∈ bm.timingPoints, tp.numerator ≠ 0))

/-- The clock, the horizons and the audio offset. -/
def cfg (s : BeatmapPlayback) :=
  (s.m_playbackTime, s.hittableObjectEnter, s.hittableLaserEnter, s.alertLaserThreshold,
    s.hittableObjectLeave, s.audioOffset)

/-- The clock, the flag of the initial effect state and the calibration flag. -/
def core (s : BeatmapPlayback) :=
  (s.m_playbackTime, s.m_initialEffectStateSent, s.m_isCalibration)

/-- The horizons of the wrap scenario: the object horizon 500 below the laser
horizon and the alert threshold, both 1000. -/
def wrapPlayback : BeatmapPlayback :=
  { scenarioPlayback with hittableObjectEnter := 500, alertLaserThreshold := 1000 }

/-- A chart with one laser near the upper end of the 32-bit range. -/
def wideLaserBeatmap : Beatmap :=
  { firstTimingPoint := ⟨0, 500, 4, 4⟩
    objectStates := [{ type := ObjectType.Laser, time := 2147483400 }] }

/-- A chart with one Single object near the upper end of the 32-bit range. -/
def wideSingleBeatmap : Beatmap :=
  { firstTimingPoint := ⟨0, 500, 4, 4⟩
    objectStates := [{ type := ObjectType.Single, time := 2147483000 }] }

/-- The chart of the scenario with the numerator 0 in its timing point. -/
def zeroNumeratorBeatmap : Beatmap :=
  { scenarioBeatmap with firstTimingPoint := ⟨0, 500, 0, 4⟩ }

/-- The horizons of the scenario with a negative object horizon: `ObjectEntered`
is due 1000 after the object's time, `ObjectLeaved` 500 after it. -/
def lateEnterPlayback : BeatmapPlayback :=
  { scenarioPlayback with hittableObjectEnter := -1000 }

/-- The notifications of a run of `Update` calls, one list per call; a call
that kills the process is the last. -/
def runTrace (bm : Beatmap) : BeatmapPlayback → List MapTime → List (List Notification)
  | _, [] => []
  | s, t :: ts =>
    match Update bm s t with
    | (some s1, log) => log :: runTrace bm s1 ts
    | (none, log) => [log]

/-- The chart with the parameter event at 2000 and a second timing point, at
1000, with the numerator 0. -/
def zeroNumeratorEventBeatmap : Beatmap :=
  { eventBeatmap with moreTimingPoints := [⟨1000, 500, 0, 4⟩] }

/-- The loop at lines 311-320 of `GetObjectsInRange` over the calibration
objects from position `pos` on; the result holds positions in the list of
calibration objects. -/
def calibrationWalk (tBegin tEnd : MapTime) : List ObjectState → Nat → List Nat → List Nat
  | [], _, ret => ret
  | o :: rest, pos, ret =>
    if o.time < tBegin then calibrationWalk tBegin tEnd rest (pos + 1) ret
    else if o.time > tEnd then ret
    else calibrationWalk tBegin tEnd rest (pos + 1) (ret ++ [pos])

/-- The loop at lines 334-348 of `GetObjectsInRange`: `rest` holds the objects
from the iterator `obj` to the end of the array. -/
def rangeWalk (tBegin tEnd : MapTime) : List ObjectState → Nat → List Nat → List Nat
  | [], _, ret => ret
  | o :: rest, obj, ret =>
    if o.time < tBegin then rangeWalk tBegin tEnd rest (obj + 1) ret
    else if o.time ≥ tEnd then ret
    else rangeWalk tBegin tEnd rest (obj + 1) (AddUnique obj ret)

/-- The conversion of an integer to the 32-bit unsigned type. -/
def toUInt32 (x : Int) : Int := x % 4294967296

/-- `BeatmapPlayback::GetObjectsInRange`: the vector returned and the state
afterwards (the function assigns no member).  `calibrationObjects` stands for
the member `m_calibrationObjects`, which no other function of the model reads;
the call of `GetCurrentTimingPoint` is for a reference that is not used.  The
difference `m_playbackTime - earlyVisibility` is taken in 32-bit unsigned
integers (`earlyVisibility` is a `uint32`) and cast back to `MapTime`; the sum
`m_playbackTime + range` is taken in 32-bit signed integers. -/
def GetObjectsInRange (bm : Beatmap) (s : BeatmapPlayback)
    (calibrationObjects : List ObjectState) (range : MapTime) : List Nat × BeatmapPlayback :=
  let tBegin := wrap32 (toUInt32 (toUInt32 s.m_playbackTime - 200))
  let tEnd := add32 s.m_playbackTime range
  if s.m_isCalibration then (calibrationWalk tBegin tEnd calibrationObjects 0 [], s)
  else
    let tBegin := if tBegin < s.m_viewRange.rbegin then s.m_viewRange.rbegin else tBegin
    let tEnd :=
      if s.m_viewRange.HasEnd && decide (tEnd ≥ s.m_viewRange.rend) then s.m_viewRange.rend
      else tEnd
    let ret := s.m_holdObjects.foldl (fun r ho => AddUnique ho r) []
    (rangeWalk tBegin tEnd (bm.objectStates.drop s.m_currObject) s.m_currObject ret, s)

/-- A chart with a hold button, a laser and two single buttons. -/
def rangeBeatmap : Beatmap :=
  { firstTimingPoint := ⟨0, 500, 4, 4⟩
    objectStates :=
      [{ type := ObjectType.Hold, time := 0, duration := 3000 },
       { type := ObjectType.Laser, time := 1500, duration := 1000 },
       { type := ObjectType.Single, time := 2000 },
       { type := ObjectType.Single, time := 4000 }] }

/-- A chart with one single button at time 0. -/
def originBeatmap : Beatmap :=
  { firstTimingPoint := ⟨0, 500, 4, 4⟩
    objectStates := [{ type := ObjectType.Single, time := 0 }] }

/-- The scenario's playback object with a laser horizon of 2000. -/
def rangePlayback : BeatmapPlayback :=
  { scenarioPlayback with hittableLaserEnter := 2000 }

/-- The start of the range of `GetObjectsInRange`, after the spec's words:
200 before the clock, clamped to the start of the view range. -/
def rangeBegin (s : BeatmapPlayback) : MapTime :=
  max (s.m_playbackTime - 200) s.m_viewRange.rbegin

/-- The end of the range of `GetObjectsInRange`, after the spec's words: the
clock plus the look-ahead, clamped to the end of the view range when the view
range has one. -/
def rangeEnd (s : BeatmapPlayback) (range : MapTime) : MapTime :=
  if s.m_viewRange.HasEnd then min (s.m_playbackTime + range) s.m_viewRange.rend
  else s.m_playbackTime + range

namespace LineGraph

/-- A graph whose two keys are further apart than the 32-bit signed range:
default 0, the points (-1000, 0.0) and (2147483000, 2.0). -/
def wideGraph : LineGraph :=
  ⟨0, [(-1000, ⟨(0, 0)⟩), (2147483000, ⟨(2, 2)⟩)]⟩

/-- A graph whose last key is its number of points minus one: default 0, the
points (0, 1.0) and (1, 2.0). -/
def unitGraph : LineGraph :=
  ⟨0, [(0, ⟨(1, 1)⟩), (1, ⟨(2, 2)⟩)]⟩

end LineGraph

/-- Every difference of two of the times is a 32-bit value. -/
def DiffsExact (l : List MapTime) : Prop := ∀ x ∈ l, ∀ y ∈ l, InRange32 (x - y)

instance instDecidableDiffsExact (l : List MapTime) : Decidable (DiffsExact l) :=
  inferInstanceAs (Decidable (∀ x ∈ l, ∀ y ∈ l, InRange32 (x - y)))

/-! ## Theorems -/

theorem advanceWhile_ge {α : Type} (p : α → Bool) (l : List α) (pos : Nat) :
    pos ≤ advanceWhile p l pos := by
  induction l generalizing pos with
  | nil => simp [advanceWhile]
  | cons x rest ih =>
    simp only [advanceWhile]
    split
    · exact Nat.le_trans (Nat.le_succ pos) (ih (pos + 1))
    · exact Nat.le_refl pos

theorem advanceWhile_le {α : Type} (p : α → Bool) (l : List α) (pos : Nat) :
    advanceWhile p l pos ≤ pos + l.length := by
  induction l generalizing pos with
  | nil => simp [advanceWhile]
  | cons x rest ih =>
    simp only [advanceWhile, List.length_cons]
    split
    · have := ih (pos + 1); omega
    · omega

theorem advanceWhile_passed {α : Type} (p : α → Bool) (d : α) (l : List α) (pos k : Nat)
    (h1 : pos ≤ k) (h2 : k < advanceWhile p l pos) : p (l.getD (k - pos) d) = true := by
  induction l generalizing pos with
  | nil => simp [advanceWhile] at h2; omega
  | cons x rest ih =>
    simp only [advanceWhile] at h2
    split at h2
    · rename_i hx
      rcases Nat.eq_or_lt_of_le h1 with h | h
      · subst h; simpa using hx
      · have := ih (pos + 1) h h2
        have e : k - pos = (k - (pos + 1)) + 1 := by omega
        rw [e, List.getD_cons_succ]; exact this
    · omega

theorem advanceWhile_stop {α : Type} (p : α → Bool) (d : α) (l : List α) (pos : Nat)
    (h : advanceWhile p l pos < pos + l.length) :
    p (l.getD (advanceWhile p l pos - pos) d) = false := by
  induction l generalizing pos with
  | nil => simp [advanceWhile] at h
  | cons x rest ih =>
    simp only [advanceWhile] at h ⊢
    split
    · rename_i hx
      simp only [hx, if_true, List.length_cons] at h
      have := ih (pos + 1) (by omega)
      have hge := advanceWhile_ge p rest (pos + 1)
      have e : advanceWhile p rest (pos + 1) - pos = (advanceWhile p rest (pos + 1) - (pos + 1)) + 1 := by
        omega
      rw [e, List.getD_cons_succ]; exact this
    · rename_i hx
      simpa using hx

theorem advanceWhile_reach {α : Type} (p : α → Bool) (d : α) (l : List α) (pos m : Nat)
    (hm : m ≤ pos + l.length)
    (h : ∀ k, pos ≤ k → k < m → p (l.getD (k - pos) d) = true) :
    m ≤ advanceWhile p l pos := by
  by_contra hlt
  have hlt : advanceWhile p l pos < m := Nat.lt_of_not_le hlt
  have hs := advanceWhile_stop p d l pos (by omega)
  have := h _ (advanceWhile_ge p l pos) hlt
  rw [this] at hs; exact Bool.noConfusion hs

theorem getD_drop {α : Type} (l : List α) (n k : Nat) (d : α) :
    (l.drop n).getD k d = l.getD (n + k) d := by
  simp [List.getD_eq_getElem?_getD, List.getElem?_drop]

theorem m_SelectHitObject_eq (bm : Beatmap) (s : BeatmapPlayback) (time : MapTime) :
    m_SelectHitObject bm s time = scanObjects bm s.m_currObject time := by
  simp [m_SelectHitObject, scanObjects]

theorem scanObjects_ge (bm : Beatmap) (start : Nat) (time : MapTime) :
    start ≤ scanObjects bm start time := by
  unfold scanObjects
  split
  · exact Nat.le_refl _
  · exact advanceWhile_ge _ _ _

theorem scanObjects_le (bm : Beatmap) (start : Nat) (time : MapTime)
    (h : start ≤ bm.objectStates.length) :
    scanObjects bm start time ≤ bm.objectStates.length := by
  unfold scanObjects
  split
  · exact h
  · have := advanceWhile_le (fun (o : ObjectState) => decide (o.time < time))
      (bm.objectStates.drop start) start
    simp only [List.length_drop] at this
    omega

theorem scanObjects_passed (bm : Beatmap) (start : Nat) (time : MapTime) (k : Nat)
    (h1 : start ≤ k) (h2 : k < scanObjects bm start time) : (bm.obj k).time < time := by
  unfold scanObjects at h2
  split at h2
  · omega
  · have := advanceWhile_passed _ default _ _ k h1 h2
    rw [getD_drop] at this
    have e : start + (k - start) = k := by omega
    rw [e] at this
    simpa [Beatmap.obj] using this

theorem scanObjects_stop (bm : Beatmap) (start : Nat) (time : MapTime)
    (hs : start ≤ bm.objectStates.length)
    (h : scanObjects bm start time < bm.objectStates.length) :
    ¬ (bm.obj (scanObjects bm start time)).time < time := by
  have hge := scanObjects_ge bm start time
  unfold scanObjects at h hge ⊢
  split at h
  · rename_i he
    simp [IsEndObject, Beatmap.GetEndObjectState] at he
    omega
  · rename_i he
    simp only [he]
    have := advanceWhile_stop (fun (o : ObjectState) => decide (o.time < time)) default
      (bm.objectStates.drop start) start (by simp only [List.length_drop]; omega)
    rw [getD_drop] at this
    simp only [he, if_false, Bool.false_eq_true] at hge
    have e : start + (advanceWhile (fun (o : ObjectState) => decide (o.time < time))
      (bm.objectStates.drop start) start - start) = advanceWhile (fun (o : ObjectState) => decide (o.time < time))
      (bm.objectStates.drop start) start := by omega
    rw [e] at this
    simpa [Beatmap.obj] using this

theorem scanObjects_reach (bm : Beatmap) (start : Nat) (time : MapTime) (m : Nat)
    (hm : m ≤ bm.objectStates.length)
    (h : ∀ k, start ≤ k → k < m → (bm.obj k).time < time) :
    m ≤ scanObjects bm start time := by
  by_cases hsm : start ≤ m
  · by_contra hlt
    have hlt : scanObjects bm start time < m := Nat.lt_of_not_le hlt
    have hs := scanObjects_stop bm start time (by omega) (by omega)
    exact hs (h _ (scanObjects_ge bm start time) hlt)
  · have := scanObjects_ge bm start time
    omega

/-- With sorted objects the scan stops at the first object at or after `time`:
the objects before the result are exactly those before `time`. -/
theorem scanObjects_lt_iff (bm : Beatmap) (hsorted : ObjectsSorted bm) (start : Nat)
    (time : MapTime) (hs : start ≤ bm.objectStates.length) (k : Nat)
    (hk : k < bm.objectStates.length)
    (hpre : ∀ j, j < start → (bm.obj j).time < time) :
    k < scanObjects bm start time ↔ (bm.obj k).time < time := by
  constructor
  · intro h
    by_cases hks : start ≤ k
    · exact scanObjects_passed bm start time k hks h
    · exact hpre k (by omega)
  · intro h
    by_contra hge
    have hge : scanObjects bm start time ≤ k := Nat.le_of_not_lt hge
    have hstop := scanObjects_stop bm start time hs (by omega)
    exact hstop (lt_of_le_of_lt (hsorted _ _ hge hk) h)

theorem m_SelectTimingPoint_eq (bm : Beatmap) (s : BeatmapPlayback) (time : MapTime) :
    m_SelectTimingPoint bm s time = scanTiming bm s.m_currentTiming time := by
  simp [m_SelectTimingPoint, scanTiming]

theorem m_SelectLaneTogglePoint_eq (bm : Beatmap) (s : BeatmapPlayback) (time : MapTime) :
    m_SelectLaneTogglePoint bm s time = scanLaneToggle bm s.m_currentLaneTogglePoint time := by
  simp [m_SelectLaneTogglePoint, scanLaneToggle]

theorem scanTiming_ge (bm : Beatmap) (start : Nat) (time : MapTime) :
    start ≤ scanTiming bm start time := by
  unfold scanTiming
  split
  · exact Nat.le_refl _
  · exact advanceWhile_ge _ _ _

theorem scanTiming_lt (bm : Beatmap) (start : Nat) (time : MapTime)
    (h : start < bm.timingPoints.length) :
    scanTiming bm start time < bm.timingPoints.length := by
  unfold scanTiming
  split
  · exact h
  · have := advanceWhile_le (fun (tp : TimingPoint) => decide (tp.time ≤ time))
      (bm.timingPoints.drop (start + 1)) start
    simp only [List.length_drop] at this
    omega

theorem scanTiming_passed (bm : Beatmap) (start : Nat) (time : MapTime) (k : Nat)
    (h1 : start < k) (h2 : k ≤ scanTiming bm start time) : (bm.timing k).time ≤ time := by
  unfold scanTiming at h2
  split at h2
  · omega
  · have := advanceWhile_passed (fun (tp : TimingPoint) => decide (tp.time ≤ time))
      bm.firstTimingPoint (bm.timingPoints.drop (start + 1)) start (k - 1) (by omega) (by omega)
    rw [getD_drop] at this
    have e : start + 1 + (k - 1 - start) = k := by omega
    rw [e] at this
    simpa [Beatmap.timing] using this

/-- The timing scan stops in front of a timing point that is not yet due. -/
theorem scanTiming_stop (bm : Beatmap) (start : Nat) (time : MapTime)
    (hs : start < bm.timingPoints.length)
    (h : scanTiming bm start time + 1 < bm.timingPoints.length) :
    time < (bm.timing (scanTiming bm start time + 1)).time := by
  have hge := scanTiming_ge bm start time
  unfold scanTiming at h hge ⊢
  have he : IsEndTiming bm start = false := by
    simp [IsEndTiming, Beatmap.GetEndTimingPoint]
    omega
  simp only [he, Bool.false_eq_true, if_false] at h hge ⊢
  have := advanceWhile_stop (fun (tp : TimingPoint) => decide (tp.time ≤ time))
    bm.firstTimingPoint (bm.timingPoints.drop (start + 1)) start
    (by simp only [List.length_drop]; omega)
  rw [getD_drop] at this
  have e : start + 1 + (advanceWhile (fun (tp : TimingPoint) => decide (tp.time ≤ time))
      (bm.timingPoints.drop (start + 1)) start - start)
      = advanceWhile (fun (tp : TimingPoint) => decide (tp.time ≤ time))
      (bm.timingPoints.drop (start + 1)) start + 1 := by omega
  rw [e] at this
  simpa [Beatmap.timing] using this

theorem scanLaneToggle_ge (bm : Beatmap) (start : Nat) (time : MapTime) :
    start ≤ scanLaneToggle bm start time := by
  unfold scanLaneToggle
  split
  · exact Nat.le_refl _
  · exact advanceWhile_ge _ _ _

theorem scanLaneToggle_le (bm : Beatmap) (start : Nat) (time : MapTime)
    (h : start ≤ bm.laneTogglePoints.length) :
    scanLaneToggle bm start time ≤ bm.laneTogglePoints.length := by
  unfold scanLaneToggle
  split
  · exact h
  · rename_i he
    simp [IsEndLaneToggle, Beatmap.GetEndLaneTogglePoint] at he
    have := advanceWhile_le (fun (lt : LaneTogglePoint) => decide (lt.time ≤ time))
      (bm.laneTogglePoints.drop (start + 1)) start
    simp only [List.length_drop] at this
    omega

theorem scanLaneToggle_lt (bm : Beatmap) (start : Nat) (time : MapTime)
    (h : start < bm.laneTogglePoints.length) :
    scanLaneToggle bm start time < bm.laneTogglePoints.length := by
  unfold scanLaneToggle
  split
  · exact h
  · have := advanceWhile_le (fun (lt : LaneTogglePoint) => decide (lt.time ≤ time))
      (bm.laneTogglePoints.drop (start + 1)) start
    simp only [List.length_drop] at this
    omega

theorem scanLaneToggle_passed (bm : Beatmap) (start : Nat) (time : MapTime) (k : Nat)
    (h1 : start < k) (h2 : k ≤ scanLaneToggle bm start time) :
    (bm.laneToggle k).time ≤ time := by
  unfold scanLaneToggle at h2
  split at h2
  · omega
  · have := advanceWhile_passed (fun (lt : LaneTogglePoint) => decide (lt.time ≤ time))
      default (bm.laneTogglePoints.drop (start + 1)) start (k - 1) (by omega) (by omega)
    rw [getD_drop] at this
    have e : start + 1 + (k - 1 - start) = k := by omega
    rw [e] at this
    simpa [Beatmap.laneToggle] using this

theorem mem_AddUnique (x y : Nat) (v : List Nat) : y ∈ AddUnique x v ↔ y = x ∨ y ∈ v := by
  unfold AddUnique
  split
  · rename_i h
    constructor
    · intro hy; exact Or.inr hy
    · rintro (rfl | hy)
      · exact h
      · exact hy
  · simp [or_comm]

theorem nodup_AddUnique (x : Nat) (v : List Nat) (h : v.Nodup) : (AddUnique x v).Nodup := by
  unfold AddUnique
  split
  · exact h
  · rename_i hx
    rw [List.nodup_append]
    refine ⟨h, List.nodup_singleton x, ?_⟩
    intro a ha hb
    simp at hb
    subst hb
    exact hx ha

theorem AddUnique_of_not_mem (x : Nat) (v : List Nat) (h : x ∉ v) : AddUnique x v = v ++ [x] := by
  simp [AddUnique, h]

theorem mem_addAllUnique (v l : List Nat) (y : Nat) :
    y ∈ addAllUnique v l ↔ y ∈ v ∨ y ∈ l := by
  induction l generalizing v with
  | nil => simp [addAllUnique]
  | cons x rest ih =>
    have := ih (AddUnique x v)
    simp only [addAllUnique, List.foldl_cons] at this ⊢
    rw [this, mem_AddUnique]
    simp only [List.mem_cons]
    tauto

theorem nodup_addAllUnique (v l : List Nat) (h : v.Nodup) : (addAllUnique v l).Nodup := by
  induction l generalizing v with
  | nil => simpa [addAllUnique] using h
  | cons x rest ih =>
    have := ih (AddUnique x v) (nodup_AddUnique x v h)
    simpa [addAllUnique] using this

theorem addAllUnique_append (v l1 l2 : List Nat) :
    addAllUnique v (l1 ++ l2) = addAllUnique (addAllUnique v l1) l2 := by
  simp [addAllUnique, List.foldl_append]

/-- Adding new, distinct elements appends them. -/
theorem addAllUnique_fresh (v l : List Nat) (hl : l.Nodup) (hd : ∀ x ∈ l, x ∉ v) :
    addAllUnique v l = v ++ l := by
  induction l generalizing v with
  | nil => simp [addAllUnique]
  | cons x rest ih =>
    have hx : x ∉ v := hd x (List.mem_cons_self x rest)
    have hn := List.nodup_cons.mp hl
    have := ih (AddUnique x v) hn.2 (by
      intro y hy hmem
      rw [mem_AddUnique] at hmem
      rcases hmem with rfl | hmem
      · exact hn.1 hy
      · exact hd y (List.mem_cons_of_mem x hy) hmem)
    simp only [addAllUnique, List.foldl_cons] at this ⊢
    rw [this, AddUnique_of_not_mem x v hx]
    simp

theorem enterObject_eq (bm : Beatmap) (r : Step) (it : Nat) :
    enterObjectExact bm r it =
      if objectEnters bm r.1.m_viewRange it then
        ({ r.1 with
            m_holdObjects := holdAdd bm it r.1.m_holdObjects
            m_hittableObjects := AddUnique it r.1.m_hittableObjects },
          r.2 ++ [Notification.ObjectEntered it])
      else r := by
  unfold enterObjectExact objectEnters holdAdd
  by_cases h1 : (bm.obj it).type = ObjectType.Laser
  · simp [h1]
  · by_cases h2 : r.1.m_viewRange.Includes (bm.obj it).time = true
    · by_cases h3 : (bm.obj it).type = ObjectType.Hold
      · by_cases h4 : r.1.m_viewRange.Includes ((bm.obj it).time + (bm.obj it).duration) true = true
        · simp [h1, h2, h3, h4]
        · simp [h1, h2, h3, h4]
      · by_cases h5 : (bm.obj it).type = ObjectType.Single
        · simp [h1, h2, h3, h5]
        · simp [h1, h2, h3, h5]
    · simp [h1, h2]

theorem foldl_enterObject (bm : Beatmap) (l : List Nat) (r : Step) :
    l.foldl (enterObjectExact bm) r =
      ({ r.1 with
          m_holdObjects :=
            (l.filter (objectEnters bm r.1.m_viewRange)).foldl (fun w x => holdAdd bm x w)
              r.1.m_holdObjects
          m_hittableObjects :=
            addAllUnique r.1.m_hittableObjects (l.filter (objectEnters bm r.1.m_viewRange)) },
        r.2 ++ (l.filter (objectEnters bm r.1.m_viewRange)).map Notification.ObjectEntered) := by
  induction l generalizing r with
  | nil => simp [addAllUnique]
  | cons x rest ih =>
    rw [List.foldl_cons, ih, enterObject_eq]
    by_cases h : objectEnters bm r.1.m_viewRange x = true
    · simp [h, List.filter_cons, addAllUnique]
    · simp [h, List.filter_cons, addAllUnique]

theorem enterLaser_eq (bm : Beatmap) (r : Step) (it : Nat) :
    enterLaserExact bm r it =
      if laserEnters bm r.1.m_viewRange it then
        ({ r.1 with
            m_holdObjects := ObjectSet.Add it r.1.m_holdObjects
            m_hittableObjects := AddUnique it r.1.m_hittableObjects },
          r.2 ++ [Notification.ObjectEntered it])
      else r := by
  unfold enterLaserExact laserEnters
  by_cases h1 : (bm.obj it).type = ObjectType.Laser
  · by_cases h2 : r.1.m_viewRange.Includes (bm.obj it).time = true
    · by_cases h4 : r.1.m_viewRange.Includes ((bm.obj it).time + (bm.obj it).duration) true = true
      · simp [h1, h2, h4]
      · simp [h1, h2, h4]
    · simp [h1, h2]
  · simp [h1]

theorem foldl_enterLaser (bm : Beatmap) (l : List Nat) (r : Step) :
    l.foldl (enterLaserExact bm) r =
      ({ r.1 with
          m_holdObjects :=
            addAllSet r.1.m_holdObjects (l.filter (laserEnters bm r.1.m_viewRange))
          m_hittableObjects :=
            addAllUnique r.1.m_hittableObjects (l.filter (laserEnters bm r.1.m_viewRange)) },
        r.2 ++ (l.filter (laserEnters bm r.1.m_viewRange)).map Notification.ObjectEntered) := by
  induction l generalizing r with
  | nil => simp [addAllUnique, addAllSet]
  | cons x rest ih =>
    rw [List.foldl_cons, ih, enterLaser_eq]
    by_cases h : laserEnters bm r.1.m_viewRange x = true
    · simp [h, List.filter_cons, addAllUnique, addAllSet]
    · simp [h, List.filter_cons, addAllUnique, addAllSet]

theorem alertLaser_eq (bm : Beatmap) (r : Step) (it : Nat) :
    alertLaser bm r it =
      if alerts bm r.1.m_viewRange it then
        (r.1, r.2 ++ [Notification.LaserAlertEntered it])
      else r := by
  unfold alertLaser alerts
  by_cases h2 : r.1.m_viewRange.Includes (bm.obj it).time = true
  · by_cases h1 : (bm.obj it).type = ObjectType.Laser
    · by_cases h3 : (bm.obj it).hasPrev = true
      · simp [h1, h2, h3]
      · simp [h1, h2, h3]
    · simp [h1, h2]
  · simp [h2]

theorem foldl_alertLaser (bm : Beatmap) (l : List Nat) (r : Step) :
    l.foldl (alertLaser bm) r =
      (r.1, r.2 ++ (l.filter (alerts bm r.1.m_viewRange)).map Notification.LaserAlertEntered) := by
  induction l generalizing r with
  | nil => simp
  | cons x rest ih =>
    rw [List.foldl_cons, ih, alertLaser_eq]
    by_cases h : alerts bm r.1.m_viewRange x = true
    · simp [h, List.filter_cons]
    · simp [h, List.filter_cons]

theorem count_eq_zero_of_not_lifecycle (l : List Notification) (n : Notification)
    (hn : isLifecycle n = true) (h : ∀ m ∈ l, isLifecycle m = false) : l.count n = 0 := by
  rw [List.count_eq_zero]
  intro hmem
  have := h n hmem
  rw [hn] at this
  exact Bool.noConfusion this

theorem advanceObjects_eq (bm : Beatmap) (s : BeatmapPlayback) :
    advanceObjectsExact bm s =
      ({ s with
          m_currObject := scanObjects bm s.m_currObject (s.m_playbackTime + s.hittableObjectEnter)
          m_holdObjects :=
            ((sweepRange s.m_currObject
                (scanObjects bm s.m_currObject (s.m_playbackTime + s.hittableObjectEnter))).filter
              (objectEnters bm s.m_viewRange)).foldl (fun w x => holdAdd bm x w) s.m_holdObjects
          m_hittableObjects :=
            addAllUnique s.m_hittableObjects
              ((sweepRange s.m_currObject
                (scanObjects bm s.m_currObject (s.m_playbackTime + s.hittableObjectEnter))).filter
                (objectEnters bm s.m_viewRange)) },
        ((sweepRange s.m_currObject
            (scanObjects bm s.m_currObject (s.m_playbackTime + s.hittableObjectEnter))).filter
          (objectEnters bm s.m_viewRange)).map Notification.ObjectEntered) := by
  unfold advanceObjectsExact
  rw [m_SelectHitObject_eq]
  by_cases h : scanObjects bm s.m_currObject (s.m_playbackTime + s.hittableObjectEnter)
      = s.m_currObject
  · simp [h, sweepRange, addAllUnique]
  · simp [h, foldl_enterObject]

theorem advanceLasers_eq (bm : Beatmap) (s : BeatmapPlayback) :
    advanceLasersExact bm s =
      ({ s with
          m_currLaserObject :=
            scanObjects bm s.m_currObject (s.m_playbackTime + s.hittableLaserEnter)
          m_holdObjects :=
            addAllSet s.m_holdObjects
              ((sweepRange s.m_currLaserObject
                (scanObjects bm s.m_currObject (s.m_playbackTime + s.hittableLaserEnter))).filter
                (laserEnters bm s.m_viewRange))
          m_hittableObjects :=
            addAllUnique s.m_hittableObjects
              ((sweepRange s.m_currLaserObject
                (scanObjects bm s.m_currObject (s.m_playbackTime + s.hittableLaserEnter))).filter
                (laserEnters bm s.m_viewRange)) },
        ((sweepRange s.m_currLaserObject
            (scanObjects bm s.m_currObject (s.m_playbackTime + s.hittableLaserEnter))).filter
          (laserEnters bm s.m_viewRange)).map Notification.ObjectEntered) := by
  unfold advanceLasersExact
  rw [m_SelectHitObject_eq]
  by_cases h : scanObjects bm s.m_currObject (s.m_playbackTime + s.hittableLaserEnter)
      = s.m_currLaserObject
  · simp [h, sweepRange, addAllUnique, addAllSet]
  · simp [h, foldl_enterLaser]

theorem checkLaserAlerts_eq (bm : Beatmap) (s : BeatmapPlayback) :
    checkLaserAlertsExact bm s =
      ({ s with
          m_currAlertObject :=
            scanObjects bm s.m_currObject (s.m_playbackTime + s.alertLaserThreshold) },
        ((sweepRange s.m_currAlertObject
            (scanObjects bm s.m_currObject (s.m_playbackTime + s.alertLaserThreshold))).filter
          (alerts bm s.m_viewRange)).map Notification.LaserAlertEntered) := by
  unfold checkLaserAlertsExact
  rw [m_SelectHitObject_eq]
  by_cases h : scanObjects bm s.m_currObject (s.m_playbackTime + s.alertLaserThreshold)
      = s.m_currAlertObject
  · simp [h, sweepRange]
  · simp [h, foldl_alertLaser]

theorem hittableStep_erased (bm : Beatmap) (opt : MapTime) (s : BeatmapPlayback) (it : Nat) :
    (hittableStepExact bm opt s it).1 = (passes bm opt it || fires bm s.m_playbackTime it) := by
  unfold hittableStepExact passes fires
  cases hty : (bm.obj it).type <;> simp <;> repeat' split
  all_goals (try simp_all)

theorem hittableStep_state (bm : Beatmap) (opt : MapTime) (s : BeatmapPlayback) (it : Nat) :
    ∃ E R C M, (hittableStepExact bm opt s it).2.1 =
      { s with m_effectObjects := E, m_currentTrackRollBehaviour := R,
               m_lastTrackRollBehaviourChange := C, m_eventMapping := M } := by
  unfold hittableStepExact
  cases hty : (bm.obj it).type <;> simp <;> repeat' split
  all_goals first
    | exact ⟨s.m_effectObjects, s.m_currentTrackRollBehaviour,
        s.m_lastTrackRollBehaviourChange, s.m_eventMapping, rfl⟩
    | exact ⟨_, s.m_currentTrackRollBehaviour,
        s.m_lastTrackRollBehaviourChange, s.m_eventMapping, rfl⟩
    | exact ⟨s.m_effectObjects, _, _, _, rfl⟩

theorem hittableStep_events (bm : Beatmap) (opt : MapTime) (s : BeatmapPlayback) (it : Nat) :
    (passes bm opt it = true
        ∧ (hittableStepExact bm opt s it).2.2 = [Notification.ObjectLeaved it])
      ∨ (passes bm opt it = false
        ∧ ∀ n ∈ (hittableStepExact bm opt s it).2.2, isLifecycle n = false) := by
  unfold hittableStepExact passes
  cases hty : (bm.obj it).type <;> simp <;> repeat' split
  all_goals (try simp_all [isLifecycle])

theorem hittableStep_count_leaved (bm : Beatmap) (opt : MapTime) (s : BeatmapPlayback)
    (it i : Nat) :
    (hittableStepExact bm opt s it).2.2.count (Notification.ObjectLeaved i)
      = if passes bm opt it = true then (if it = i then 1 else 0) else 0 := by
  rcases hittableStep_events bm opt s it with ⟨hp, he⟩ | ⟨hp, he⟩
  · rw [he, hp]
    by_cases h : it = i
    · simp [h]
    · have h2 : ¬ i = it := fun e => h e.symm
      simp [h, h2, List.count_cons]
  · rw [hp]
    simpa using count_eq_zero_of_not_lifecycle _ (Notification.ObjectLeaved i) rfl he

theorem hittableStep_count_entered (bm : Beatmap) (opt : MapTime) (s : BeatmapPlayback)
    (it i : Nat) :
    (hittableStepExact bm opt s it).2.2.count (Notification.ObjectEntered i) = 0 := by
  rcases hittableStep_events bm opt s it with ⟨_, he⟩ | ⟨_, he⟩
  · rw [he]; simp
  · exact count_eq_zero_of_not_lifecycle _ (Notification.ObjectEntered i) rfl he

theorem sweepHittable_state (bm : Beatmap) (opt : MapTime) (l : List Nat)
    (s : BeatmapPlayback) :
    ∃ E R C M, (sweepHittableExact bm opt l s).2.1 =
      { s with m_effectObjects := E, m_currentTrackRollBehaviour := R,
               m_lastTrackRollBehaviourChange := C, m_eventMapping := M } := by
  induction l generalizing s with
  | nil => exact ⟨s.m_effectObjects, s.m_currentTrackRollBehaviour,
        s.m_lastTrackRollBehaviourChange, s.m_eventMapping, rfl⟩
  | cons x rest ih =>
    obtain ⟨E, R, C, M, h⟩ := hittableStep_state bm opt s x
    obtain ⟨E2, R2, C2, M2, h2⟩ := ih (hittableStepExact bm opt s x).2.1
    refine ⟨E2, R2, C2, M2, ?_⟩
    simp only [sweepHittableExact]
    rw [h2, h]

theorem sweepHittable_kept (bm : Beatmap) (opt : MapTime) (l : List Nat)
    (s : BeatmapPlayback) :
    (sweepHittableExact bm opt l s).1 = l.filter (stays bm opt s.m_playbackTime) := by
  induction l generalizing s with
  | nil => rfl
  | cons x rest ih =>
    obtain ⟨E, R, C, M, h⟩ := hittableStep_state bm opt s x
    have hpt : (hittableStepExact bm opt s x).2.1.m_playbackTime = s.m_playbackTime := by rw [h]
    simp only [sweepHittableExact, ih, hpt, hittableStep_erased, List.filter_cons, stays]
    by_cases hx : (passes bm opt x || fires bm s.m_playbackTime x) = true
    · simp [hx]
    · simp [hx]

theorem sweepHittable_count_leaved (bm : Beatmap) (opt : MapTime) (l : List Nat)
    (s : BeatmapPlayback) (i : Nat) :
    (sweepHittableExact bm opt l s).2.2.count (Notification.ObjectLeaved i)
      = (l.filter (passes bm opt)).count i := by
  induction l generalizing s with
  | nil => rfl
  | cons x rest ih =>
    simp only [sweepHittableExact, List.count_append, ih, hittableStep_count_leaved, List.filter_cons]
    by_cases hp : passes bm opt x = true
    · by_cases hx : x = i
      · subst hx
        simp [hp, List.count_cons]; omega
      · have h2 : ¬ i = x := fun e => hx e.symm
        simp [hp, hx, h2, List.count_cons]
    · simp [hp]

theorem sweepHittable_count_entered (bm : Beatmap) (opt : MapTime) (l : List Nat)
    (s : BeatmapPlayback) (i : Nat) :
    (sweepHittableExact bm opt l s).2.2.count (Notification.ObjectEntered i) = 0 := by
  induction l generalizing s with
  | nil => rfl
  | cons x rest ih =>
    simp only [sweepHittableExact, List.count_append, ih, hittableStep_count_entered]

theorem holdStep_state (bm : Beatmap) (opt : MapTime) (s : BeatmapPlayback) (it : Nat) :
    ∃ E, (holdStepExact bm opt s it).2.1 = { s with m_effectObjects := E } := by
  unfold holdStepExact
  cases hty : (bm.obj it).type <;> simp <;> repeat' split
  all_goals first
    | exact ⟨s.m_effectObjects, rfl⟩
    | exact ⟨_, rfl⟩

theorem holdStep_events (bm : Beatmap) (opt : MapTime) (s : BeatmapPlayback) (it : Nat) :
    ∀ n ∈ (holdStepExact bm opt s it).2.2, isLifecycle n = false := by
  unfold holdStepExact
  cases hty : (bm.obj it).type <;> simp <;> repeat' split
  all_goals (try simp_all [isLifecycle])

theorem sweepHold_state (bm : Beatmap) (opt : MapTime) (l : List Nat) (s : BeatmapPlayback) :
    ∃ E, (sweepHoldExact bm opt l s).2.1 = { s with m_effectObjects := E } := by
  induction l generalizing s with
  | nil => exact ⟨s.m_effectObjects, rfl⟩
  | cons x rest ih =>
    obtain ⟨E, h⟩ := holdStep_state bm opt s x
    obtain ⟨E2, h2⟩ := ih (holdStepExact bm opt s x).2.1
    refine ⟨E2, ?_⟩
    simp only [sweepHoldExact]
    rw [h2, h]

theorem sweepHold_events (bm : Beatmap) (opt : MapTime) (l : List Nat) (s : BeatmapPlayback) :
    ∀ n ∈ (sweepHoldExact bm opt l s).2.2, isLifecycle n = false := by
  induction l generalizing s with
  | nil => intro n hn; simp [sweepHoldExact] at hn
  | cons x rest ih =>
    intro n hn
    simp only [sweepHoldExact, List.mem_append] at hn
    rcases hn with hn | hn
    · exact holdStep_events bm opt s x n hn
    · exact ih _ n hn

theorem checkPassedHittable_eq (bm : Beatmap) (s : BeatmapPlayback) :
    ∃ E R C M hitEv,
      checkPassedHittableExact bm s =
        ({ s with m_effectObjects := E, m_currentTrackRollBehaviour := R,
                  m_lastTrackRollBehaviourChange := C, m_eventMapping := M,
                  m_hittableObjects :=
                    s.m_hittableObjects.filter
                      (stays bm (s.m_playbackTime - s.hittableObjectLeave) s.m_playbackTime) },
          hitEv)
      ∧ (∀ i, hitEv.count (Notification.ObjectLeaved i)
          = (s.m_hittableObjects.filter
              (passes bm (s.m_playbackTime - s.hittableObjectLeave))).count i)
      ∧ (∀ i, hitEv.count (Notification.ObjectEntered i) = 0) := by
  obtain ⟨E, R, C, M, h⟩ := sweepHittable_state bm (s.m_playbackTime - s.hittableObjectLeave)
    s.m_hittableObjects s
  refine ⟨E, R, C, M,
    (sweepHittableExact bm (s.m_playbackTime - s.hittableObjectLeave) s.m_hittableObjects s).2.2, ?_,
    sweepHittable_count_leaved bm _ _ s, sweepHittable_count_entered bm _ _ s⟩
  unfold checkPassedHittableExact
  simp only [h, sweepHittable_kept]

theorem removePassedHold_eq (bm : Beatmap) (s : BeatmapPlayback) :
    ∃ E H holdEv,
      removePassedHoldExact bm s = ({ s with m_effectObjects := E, m_holdObjects := H }, holdEv)
      ∧ (∀ n ∈ holdEv, isLifecycle n = false) := by
  obtain ⟨E, h⟩ := sweepHold_state bm (s.m_playbackTime - s.hittableObjectLeave)
    s.m_holdObjects s
  refine ⟨E, (sweepHoldExact bm (s.m_playbackTime - s.hittableObjectLeave) s.m_holdObjects s).1,
    (sweepHoldExact bm (s.m_playbackTime - s.hittableObjectLeave) s.m_holdObjects s).2.2, ?_,
    sweepHold_events bm _ _ s⟩
  unfold removePassedHoldExact
  simp only [h]

theorem fireInitialEffectState_eq (bm : Beatmap) (s : BeatmapPlayback) :
    fireInitialEffectState bm s =
      ({ s with m_initialEffectStateSent := true },
        if s.m_initialEffectStateSent then [] else initialBatch bm) := by
  unfold fireInitialEffectState initialBatch
  by_cases h : s.m_initialEffectStateSent = true
  · cases s
    simp_all
  · simp [h]

theorem advanceTiming_eq (bm : Beatmap) (u : BeatmapPlayback) :
    advanceTiming bm u =
      ({ u with m_currentTiming := m_SelectTimingPoint bm u u.m_playbackTime },
        if m_SelectTimingPoint bm u u.m_playbackTime ≠ u.m_currentTiming then
          [Notification.TimingPointChanged (m_SelectTimingPoint bm u u.m_playbackTime)]
        else []) := by
  unfold advanceTiming
  by_cases h : m_SelectTimingPoint bm u u.m_playbackTime = u.m_currentTiming
  · simp [h]
  · simp [h]

theorem advanceLaneToggle_eq (bm : Beatmap) (u : BeatmapPlayback) :
    advanceLaneToggle bm u =
      ({ u with m_currentLaneTogglePoint := m_SelectLaneTogglePoint bm u u.m_playbackTime },
        if m_SelectLaneTogglePoint bm u u.m_playbackTime ≠ u.m_currentLaneTogglePoint then
          [Notification.LaneToggleChanged (m_SelectLaneTogglePoint bm u u.m_playbackTime)]
        else []) := by
  unfold advanceLaneToggle
  by_cases h : m_SelectLaneTogglePoint bm u u.m_playbackTime = u.m_currentLaneTogglePoint
  · simp [h]
  · simp [h]

theorem checkPassedHittable_frame (bm : Beatmap) (s : BeatmapPlayback) :
    frame (checkPassedHittableExact bm s).1 = frame s := by
  obtain ⟨E, R, C, M, ev, h, _⟩ := checkPassedHittable_eq bm s
  rw [h]
  rfl

theorem checkPassedHittable_hittable (bm : Beatmap) (s : BeatmapPlayback) :
    (checkPassedHittableExact bm s).1.m_hittableObjects =
      s.m_hittableObjects.filter
        (stays bm (s.m_playbackTime - s.hittableObjectLeave) s.m_playbackTime) := by
  obtain ⟨E, R, C, M, ev, h, _⟩ := checkPassedHittable_eq bm s
  rw [h]

theorem checkPassedHittable_count_leaved (bm : Beatmap) (s : BeatmapPlayback) (i : Nat) :
    (checkPassedHittableExact bm s).2.count (Notification.ObjectLeaved i) =
      (s.m_hittableObjects.filter
        (passes bm (s.m_playbackTime - s.hittableObjectLeave))).count i := by
  obtain ⟨E, R, C, M, ev, h, h1, _⟩ := checkPassedHittable_eq bm s
  rw [h]
  exact h1 i

theorem checkPassedHittable_count_entered (bm : Beatmap) (s : BeatmapPlayback) (i : Nat) :
    (checkPassedHittableExact bm s).2.count (Notification.ObjectEntered i) = 0 := by
  obtain ⟨E, R, C, M, ev, h, _, h2⟩ := checkPassedHittable_eq bm s
  rw [h]
  exact h2 i

theorem removePassedHold_frame (bm : Beatmap) (s : BeatmapPlayback) :
    frame (removePassedHoldExact bm s).1 = frame s := by
  obtain ⟨E, H, ev, h, _⟩ := removePassedHold_eq bm s
  rw [h]
  rfl

theorem removePassedHold_hittable (bm : Beatmap) (s : BeatmapPlayback) :
    (removePassedHoldExact bm s).1.m_hittableObjects = s.m_hittableObjects := by
  obtain ⟨E, H, ev, h, _⟩ := removePassedHold_eq bm s
  rw [h]

theorem removePassedHold_events (bm : Beatmap) (s : BeatmapPlayback) :
    ∀ n ∈ (removePassedHoldExact bm s).2, isLifecycle n = false := by
  obtain ⟨E, H, ev, h, h1⟩ := removePassedHold_eq bm s
  rw [h]
  exact h1

theorem updateAccepted_eq (bm : Beatmap) (s : BeatmapPlayback) (t : MapTime) :
    updateAcceptedExact bm s t =
      ((enterPhases bm s t).andThen (checkPassedHittableExact bm)).andThen (removePassedHoldExact bm) := by
  simp [updateAcceptedExact, updateBodyExact, enterPhases, Step.andThen, List.append_assoc]

theorem enterPhases_frame (bm : Beatmap) (s : BeatmapPlayback) (t : MapTime) :
    (enterPhases bm s t).1.m_playbackTime = t
    ∧ (enterPhases bm s t).1.m_viewRange = s.m_viewRange
    ∧ (enterPhases bm s t).1.hittableObjectEnter = s.hittableObjectEnter
    ∧ (enterPhases bm s t).1.hittableLaserEnter = s.hittableLaserEnter
    ∧ (enterPhases bm s t).1.hittableObjectLeave = s.hittableObjectLeave
    ∧ (enterPhases bm s t).1.alertLaserThreshold = s.alertLaserThreshold
    ∧ (enterPhases bm s t).1.audioOffset = s.audioOffset
    ∧ (enterPhases bm s t).1.m_isCalibration = s.m_isCalibration
    ∧ (enterPhases bm s t).1.m_initialEffectStateSent = true
    ∧ (enterPhases bm s t).1.m_currObject = tickObjEnd bm s t
    ∧ (enterPhases bm s t).1.m_currLaserObject = tickLaserEnd bm s t
    ∧ (enterPhases bm s t).1.m_currAlertObject = tickAlertEnd bm s t
    ∧ (enterPhases bm s t).1.m_hittableObjects = tickMid bm s t := by
  simp only [enterPhases, Step.andThen, fireInitialEffectState_eq, advanceTiming_eq,
    advanceLaneToggle_eq, countBars, advanceObjects_eq, advanceLasers_eq, checkLaserAlerts_eq,
    tickObjEnd, tickLaserEnd, tickAlertEnd, tickMid, tickNewObjects, tickNewLasers]
  simp

theorem count_map_entered (l : List Nat) (i : Nat) :
    (l.map Notification.ObjectEntered).count (Notification.ObjectEntered i) = l.count i := by
  induction l with
  | nil => rfl
  | cons x rest ih =>
    by_cases h : x = i
    · subst h; simp [List.count_cons, ih]
    · have h2 : ¬ i = x := fun e => h e.symm
      simp [List.count_cons, ih, h, h2]

theorem preludePhases_events (bm : Beatmap) (s : BeatmapPlayback) (t : MapTime) :
    ∀ n ∈ (preludePhases bm s t).2, isLifecycle n = false := by
  intro n hn
  simp only [preludePhases, Step.andThen, fireInitialEffectState_eq, advanceTiming_eq,
    advanceLaneToggle_eq, countBars, initialBatch, List.mem_append] at hn
  rcases hn with ((hn | hn) | hn) | hn
  · split at hn
    · simp at hn
    · simp at hn
      rcases hn with rfl | rfl | rfl <;> rfl
  · simp at hn
  · split at hn
    · simp at hn
      subst hn; rfl
    · simp at hn
  · split at hn
    · simp at hn
      subst hn; rfl
    · simp at hn

theorem enterPhases_events (bm : Beatmap) (s : BeatmapPlayback) (t : MapTime) :
    ∃ pre, (enterPhases bm s t).2 =
        pre ++ (tickNewObjects bm s t).map Notification.ObjectEntered
          ++ (tickNewLasers bm s t).map Notification.ObjectEntered
          ++ (tickAlerts bm s t).map Notification.LaserAlertEntered
      ∧ (∀ n ∈ pre, isLifecycle n = false) := by
  refine ⟨(preludePhases bm s t).2, ?_, preludePhases_events bm s t⟩
  simp only [enterPhases, preludePhases, Step.andThen, fireInitialEffectState_eq,
    advanceTiming_eq, advanceLaneToggle_eq, countBars, advanceObjects_eq, advanceLasers_eq,
    checkLaserAlerts_eq, tickObjEnd, tickLaserEnd, tickAlertEnd, tickNewObjects, tickNewLasers,
    tickAlerts]

theorem enterPhases_count_entered (bm : Beatmap) (s : BeatmapPlayback) (t : MapTime) (i : Nat) :
    (enterPhases bm s t).2.count (Notification.ObjectEntered i) =
      (tickNewObjects bm s t).count i + (tickNewLasers bm s t).count i := by
  obtain ⟨pre, h, hpre⟩ := enterPhases_events bm s t
  rw [h]
  simp only [List.count_append, count_map_entered,
    count_eq_zero_of_not_lifecycle pre (Notification.ObjectEntered i) rfl hpre]
  have : ((tickAlerts bm s t).map Notification.LaserAlertEntered).count
      (Notification.ObjectEntered i) = 0 := by
    rw [List.count_eq_zero]
    simp
  omega

theorem enterPhases_count_leaved (bm : Beatmap) (s : BeatmapPlayback) (t : MapTime) (i : Nat) :
    (enterPhases bm s t).2.count (Notification.ObjectLeaved i) = 0 := by
  obtain ⟨pre, h, hpre⟩ := enterPhases_events bm s t
  rw [h]
  simp only [List.count_append,
    count_eq_zero_of_not_lifecycle pre (Notification.ObjectLeaved i) rfl hpre]
  have h1 : ((tickAlerts bm s t).map Notification.LaserAlertEntered).count
      (Notification.ObjectLeaved i) = 0 := by
    rw [List.count_eq_zero]
    simp
  have h2 : ((tickNewObjects bm s t).map Notification.ObjectEntered).count
      (Notification.ObjectLeaved i) = 0 := by
    rw [List.count_eq_zero]
    simp
  have h3 : ((tickNewLasers bm s t).map Notification.ObjectEntered).count
      (Notification.ObjectLeaved i) = 0 := by
    rw [List.count_eq_zero]
    simp
  omega

theorem updateAccepted_events (bm : Beatmap) (s : BeatmapPlayback) (t : MapTime) :
    (updateAcceptedExact bm s t).2 = (enterPhases bm s t).2 ++ leavePhasesEvents bm s t := by
  rw [updateAccepted_eq]
  simp [Step.andThen, leavePhasesEvents, List.append_assoc]

theorem leavePhasesEvents_count_entered (bm : Beatmap) (s : BeatmapPlayback) (t : MapTime)
    (i : Nat) : (leavePhasesEvents bm s t).count (Notification.ObjectEntered i) = 0 := by
  unfold leavePhasesEvents
  rw [List.count_append, checkPassedHittable_count_entered,
    count_eq_zero_of_not_lifecycle _ (Notification.ObjectEntered i) rfl
      (removePassedHold_events bm _)]

theorem leavePhasesEvents_count_leaved (bm : Beatmap) (s : BeatmapPlayback) (t : MapTime)
    (i : Nat) :
    (leavePhasesEvents bm s t).count (Notification.ObjectLeaved i) =
      ((tickMid bm s t).filter (passes bm (t - s.hittableObjectLeave))).count i := by
  unfold leavePhasesEvents
  obtain ⟨h1, _, _, _, h5, _, _, _, _, _, _, _, h13⟩ := enterPhases_frame bm s t
  rw [List.count_append, checkPassedHittable_count_leaved,
    count_eq_zero_of_not_lifecycle _ (Notification.ObjectLeaved i) rfl
      (removePassedHold_events bm _), h1, h5, h13]
  rfl

theorem tick_count_entered (bm : Beatmap) (s : BeatmapPlayback) (t : MapTime) (i : Nat) :
    (updateAcceptedExact bm s t).2.count (Notification.ObjectEntered i) =
      (tickNewObjects bm s t).count i + (tickNewLasers bm s t).count i := by
  rw [updateAccepted_events, List.count_append, enterPhases_count_entered,
    leavePhasesEvents_count_entered]
  rfl

theorem tick_count_leaved (bm : Beatmap) (s : BeatmapPlayback) (t : MapTime) (i : Nat) :
    (updateAcceptedExact bm s t).2.count (Notification.ObjectLeaved i) =
      ((tickMid bm s t).filter (passes bm (t - s.hittableObjectLeave))).count i := by
  rw [updateAccepted_events, List.count_append, enterPhases_count_leaved,
    leavePhasesEvents_count_leaved]
  simp

theorem tick_frame (bm : Beatmap) (s : BeatmapPlayback) (t : MapTime) :
    (updateAcceptedExact bm s t).1.m_playbackTime = t
    ∧ (updateAcceptedExact bm s t).1.m_viewRange = s.m_viewRange
    ∧ (updateAcceptedExact bm s t).1.hittableObjectEnter = s.hittableObjectEnter
    ∧ (updateAcceptedExact bm s t).1.hittableLaserEnter = s.hittableLaserEnter
    ∧ (updateAcceptedExact bm s t).1.hittableObjectLeave = s.hittableObjectLeave
    ∧ (updateAcceptedExact bm s t).1.alertLaserThreshold = s.alertLaserThreshold
    ∧ (updateAcceptedExact bm s t).1.audioOffset = s.audioOffset
    ∧ (updateAcceptedExact bm s t).1.m_isCalibration = s.m_isCalibration
    ∧ (updateAcceptedExact bm s t).1.m_initialEffectStateSent = true
    ∧ (updateAcceptedExact bm s t).1.m_currObject = tickObjEnd bm s t
    ∧ (updateAcceptedExact bm s t).1.m_currLaserObject = tickLaserEnd bm s t
    ∧ (updateAcceptedExact bm s t).1.m_currAlertObject = tickAlertEnd bm s t
    ∧ (updateAcceptedExact bm s t).1.m_hittableObjects =
        (tickMid bm s t).filter (stays bm (t - s.hittableObjectLeave) t) := by
  obtain ⟨h1, h2, h3, h4, h5, h6, h7, h8, h9, h10, h11, h12, h13⟩ := enterPhases_frame bm s t
  have e : (updateAcceptedExact bm s t).1
      = (removePassedHoldExact bm (checkPassedHittableExact bm (enterPhases bm s t).1).1).1 := by
    simp only [updateAccepted_eq, Step.andThen]
  have f1 := removePassedHold_frame bm (checkPassedHittableExact bm (enterPhases bm s t).1).1
  have f2 := checkPassedHittable_frame bm (enterPhases bm s t).1
  rw [f2] at f1
  rw [← e] at f1
  simp only [frame, Prod.mk.injEq] at f1
  obtain ⟨g1, g2, g3, g4, g5, g6, g7, g8, g9, g10, g11, g12, g13, g14, g15, g16, g17, g18⟩ := f1
  refine ⟨by rw [g7, h1], by rw [g8, h2], by rw [g1, h3], by rw [g2, h4], by rw [g3, h5],
    by rw [g4, h6], by rw [g5, h7], by rw [g17, h8], by rw [g16, h9], by rw [g9, h10],
    by rw [g10, h11], by rw [g11, h12], ?_⟩
  rw [e, removePassedHold_hittable, checkPassedHittable_hittable, h13, h1, h5]

theorem enterPhases_timing (bm : Beatmap) (s : BeatmapPlayback) (t : MapTime) :
    (enterPhases bm s t).1.m_currentTiming = scanTiming bm s.m_currentTiming t
    ∧ (enterPhases bm s t).1.m_currentLaneTogglePoint
        = scanLaneToggle bm s.m_currentLaneTogglePoint t := by
  simp only [enterPhases, Step.andThen, fireInitialEffectState_eq, advanceTiming_eq,
    advanceLaneToggle_eq, countBars, advanceObjects_eq, advanceLasers_eq, checkLaserAlerts_eq,
    m_SelectTimingPoint_eq, m_SelectLaneTogglePoint_eq]
  simp

theorem tick_timing (bm : Beatmap) (s : BeatmapPlayback) (t : MapTime) :
    (updateAcceptedExact bm s t).1.m_currentTiming = scanTiming bm s.m_currentTiming t
    ∧ (updateAcceptedExact bm s t).1.m_currentLaneTogglePoint
        = scanLaneToggle bm s.m_currentLaneTogglePoint t := by
  obtain ⟨h1, h2⟩ := enterPhases_timing bm s t
  have e : (updateAcceptedExact bm s t).1
      = (removePassedHoldExact bm (checkPassedHittableExact bm (enterPhases bm s t).1).1).1 := by
    simp only [updateAccepted_eq, Step.andThen]
  have f1 := removePassedHold_frame bm (checkPassedHittableExact bm (enterPhases bm s t).1).1
  have f2 := checkPassedHittable_frame bm (enterPhases bm s t).1
  rw [f2] at f1
  rw [← e] at f1
  simp only [frame, Prod.mk.injEq] at f1
  obtain ⟨_, _, _, _, _, _, _, _, _, _, _, g12, g13, _⟩ := f1
  exact ⟨by rw [g12, h1], by rw [g13, h2]⟩

theorem mem_sweepRange (a b i : Nat) : i ∈ sweepRange a b ↔ a ≤ i ∧ i < b := by
  unfold sweepRange
  rw [List.mem_range'_1]
  omega

theorem nodup_sweepRange (a b : Nat) : (sweepRange a b).Nodup := by
  unfold sweepRange
  exact List.nodup_range' a (b - a)

theorem count_filter_ite (p : Nat → Bool) (l : List Nat) (i : Nat) :
    (l.filter p).count i = if p i = true then l.count i else 0 := by
  induction l with
  | nil => simp
  | cons x rest ih =>
    by_cases hx : x = i
    · subst hx
      by_cases hp : p x = true
      · simp [List.filter_cons, hp, ih]
      · simp [List.filter_cons, hp, ih]
    · have h2 : ¬ i = x := fun e => hx e.symm
      by_cases hp : p x = true
      · simp [List.filter_cons, hp, ih, List.count_cons, hx, h2]
      · simp [List.filter_cons, hp, ih, List.count_cons, hx, h2]

theorem count_sweepRange (a b i : Nat) :
    (sweepRange a b).count i = if a ≤ i ∧ i < b then 1 else 0 := by
  by_cases h : a ≤ i ∧ i < b
  · rw [if_pos h]
    exact List.count_eq_one_of_mem (nodup_sweepRange a b) ((mem_sweepRange a b i).2 h)
  · rw [if_neg h]
    exact List.count_eq_zero_of_not_mem (fun hm => h ((mem_sweepRange a b i).1 hm))

theorem count_tickNewObjects (bm : Beatmap) (s : BeatmapPlayback) (t : MapTime) (i : Nat) :
    (tickNewObjects bm s t).count i =
      if objectEnters bm s.m_viewRange i = true ∧ s.m_currObject ≤ i ∧ i < tickObjEnd bm s t
      then 1 else 0 := by
  unfold tickNewObjects
  rw [count_filter_ite, count_sweepRange]
  by_cases h : objectEnters bm s.m_viewRange i = true <;> simp [h]

theorem count_tickNewLasers (bm : Beatmap) (s : BeatmapPlayback) (t : MapTime) (i : Nat) :
    (tickNewLasers bm s t).count i =
      if laserEnters bm s.m_viewRange i = true ∧ s.m_currLaserObject ≤ i
        ∧ i < tickLaserEnd bm s t
      then 1 else 0 := by
  unfold tickNewLasers
  rw [count_filter_ite, count_sweepRange]
  by_cases h : laserEnters bm s.m_viewRange i = true <;> simp [h]

theorem mem_tickNewObjects (bm : Beatmap) (s : BeatmapPlayback) (t : MapTime) (i : Nat) :
    i ∈ tickNewObjects bm s t ↔
      objectEnters bm s.m_viewRange i = true ∧ s.m_currObject ≤ i ∧ i < tickObjEnd bm s t := by
  unfold tickNewObjects
  rw [List.mem_filter, mem_sweepRange]
  tauto

theorem mem_tickNewLasers (bm : Beatmap) (s : BeatmapPlayback) (t : MapTime) (i : Nat) :
    i ∈ tickNewLasers bm s t ↔
      laserEnters bm s.m_viewRange i = true ∧ s.m_currLaserObject ≤ i
        ∧ i < tickLaserEnd bm s t := by
  unfold tickNewLasers
  rw [List.mem_filter, mem_sweepRange]
  tauto

theorem objectEnters_not_laser (bm : Beatmap) (vr : MapTimeRange) (i : Nat)
    (h : objectEnters bm vr i = true) : (bm.obj i).type ≠ ObjectType.Laser := by
  unfold objectEnters at h
  simp only [Bool.and_eq_true, decide_eq_true_eq] at h
  exact h.1.1

theorem laserEnters_laser (bm : Beatmap) (vr : MapTimeRange) (i : Nat)
    (h : laserEnters bm vr i = true) : (bm.obj i).type = ObjectType.Laser := by
  unfold laserEnters at h
  simp only [Bool.and_eq_true, decide_eq_true_eq] at h
  exact h.1.1

theorem enters_of_not_laser (bm : Beatmap) (vr : MapTimeRange) (i : Nat)
    (h : (bm.obj i).type ≠ ObjectType.Laser) : enters bm vr i = objectEnters bm vr i := by
  unfold enters
  have : laserEnters bm vr i = false := by
    cases hl : laserEnters bm vr i
    · rfl
    · exact absurd (laserEnters_laser bm vr i hl) h
  rw [this, Bool.or_false]

theorem enters_of_laser (bm : Beatmap) (vr : MapTimeRange) (i : Nat)
    (h : (bm.obj i).type = ObjectType.Laser) : enters bm vr i = laserEnters bm vr i := by
  unfold enters
  have : objectEnters bm vr i = false := by
    cases hl : objectEnters bm vr i
    · rfl
    · exact absurd h (objectEnters_not_laser bm vr i hl)
  rw [this, Bool.false_or]

theorem passes_not_event (bm : Beatmap) (opt : MapTime) (i : Nat)
    (h : passes bm opt i = true) : (bm.obj i).type ≠ ObjectType.Event := by
  intro he
  unfold passes at h
  rw [he] at h
  exact Bool.noConfusion h

theorem fires_event (bm : Beatmap) (t : MapTime) (i : Nat)
    (h : fires bm t i = true) : (bm.obj i).type = ObjectType.Event := by
  unfold fires at h
  simp only [Bool.and_eq_true, decide_eq_true_eq] at h
  exact h.1

theorem Inv.hitEntered {bm : Beatmap} {s : BeatmapPlayback} {log : List Notification}
    (hinv : Inv bm s log) (i : Nat) (hi : i ∈ s.m_hittableObjects) :
    enters bm s.m_viewRange i = true ∧ i < enterCursor bm s i :=
  ⟨((hinv.hitIff i).1 hi).1, ((hinv.hitIff i).1 hi).2.1⟩

theorem passes_mono (bm : Beatmap) (a b : MapTime) (hab : a ≤ b) (i : Nat)
    (h : passes bm a i = true) : passes bm b i = true := by
  unfold passes at h ⊢
  cases hty : (bm.obj i).type <;> simp only [hty] at h ⊢
  · exact h
  all_goals first
    | exact h
    | (simp only [decide_eq_true_eq] at h ⊢; linarith)

theorem fires_mono (bm : Beatmap) (a b : MapTime) (hab : a ≤ b) (i : Nat)
    (h : fires bm a i = true) : fires bm b i = true := by
  unfold fires at h ⊢
  simp only [Bool.and_eq_true, decide_eq_true_eq] at h ⊢
  exact ⟨h.1, by linarith⟩

theorem stays_mono (bm : Beatmap) (l c t : MapTime) (hct : c ≤ t) (i : Nat)
    (h : stays bm (t - l) t i = true) : stays bm (c - l) c i = true := by
  unfold stays at h ⊢
  simp only [Bool.not_eq_true', Bool.or_eq_false_iff] at h ⊢
  constructor
  · cases hp : passes bm (c - l) i
    · rfl
    · have := passes_mono bm (c - l) (t - l) (by linarith) i hp
      rw [h.1] at this
      exact Bool.noConfusion this
  · cases hf : fires bm c i
    · rfl
    · have := fires_mono bm c t hct i hf
      rw [h.2] at this
      exact Bool.noConfusion this

theorem tickLaserEnd_ge (bm : Beatmap) (s : BeatmapPlayback) (t : MapTime)
    (log : List Notification) (hinv : Inv bm s log) (ht : s.m_playbackTime ≤ t) :
    s.m_currLaserObject ≤ tickLaserEnd bm s t := by
  unfold tickLaserEnd
  apply scanObjects_reach bm _ _ _ hinv.laserLe
  intro k hk1 hk2
  have hO : s.m_currObject ≤ tickObjEnd bm s t := scanObjects_ge bm _ _
  have := hinv.laserPassed k (by omega) hk2
  linarith

theorem tickAlertEnd_ge (bm : Beatmap) (s : BeatmapPlayback) (t : MapTime)
    (log : List Notification) (hinv : Inv bm s log) (ht : s.m_playbackTime ≤ t) :
    s.m_currAlertObject ≤ tickAlertEnd bm s t := by
  unfold tickAlertEnd
  apply scanObjects_reach bm _ _ _ hinv.alertLe
  intro k hk1 hk2
  have hO : s.m_currObject ≤ tickObjEnd bm s t := scanObjects_ge bm _ _
  have := hinv.alertPassed k (by omega) hk2
  linarith

/-- After the enter sweeps the new objects are appended to the hittable list. -/
theorem tickMid_eq (bm : Beatmap) (s : BeatmapPlayback) (t : MapTime)
    (log : List Notification) (hinv : Inv bm s log) :
    tickMid bm s t = s.m_hittableObjects ++ tickNewObjects bm s t ++ tickNewLasers bm s t := by
  unfold tickMid
  have h1 : addAllUnique s.m_hittableObjects (tickNewObjects bm s t)
      = s.m_hittableObjects ++ tickNewObjects bm s t := by
    apply addAllUnique_fresh
    · exact (nodup_sweepRange _ _).filter _
    · intro x hx hmem
      rw [mem_tickNewObjects] at hx
      have := (hinv.hitEntered x hmem).2
      unfold enterCursor at this
      rw [if_neg (objectEnters_not_laser bm _ x hx.1)] at this
      omega
  rw [h1]
  apply addAllUnique_fresh
  · exact (nodup_sweepRange _ _).filter _
  · intro x hx hmem
    rw [mem_tickNewLasers] at hx
    rw [List.mem_append] at hmem
    rcases hmem with hmem | hmem
    · have := (hinv.hitEntered x hmem).2
      unfold enterCursor at this
      rw [if_pos (laserEnters_laser bm _ x hx.1)] at this
      omega
    · rw [mem_tickNewObjects] at hmem
      exact objectEnters_not_laser bm _ x hmem.1 (laserEnters_laser bm _ x hx.1)

theorem enterCursor_tick (bm : Beatmap) (s : BeatmapPlayback) (t : MapTime) (i : Nat) :
    enterCursor bm (updateAcceptedExact bm s t).1 i =
      if (bm.obj i).type = ObjectType.Laser then tickLaserEnd bm s t else tickObjEnd bm s t := by
  obtain ⟨_, _, _, _, _, _, _, _, _, f10, f11, _, _⟩ := tick_frame bm s t
  unfold enterCursor
  rw [f10, f11]

theorem enterCursor_le_tick (bm : Beatmap) (s : BeatmapPlayback) (t : MapTime)
    (log : List Notification) (hinv : Inv bm s log) (ht : s.m_playbackTime ≤ t) (i : Nat) :
    enterCursor bm s i ≤ enterCursor bm (updateAcceptedExact bm s t).1 i := by
  rw [enterCursor_tick]
  unfold enterCursor
  split
  · exact tickLaserEnd_ge bm s t log hinv ht
  · exact scanObjects_ge bm _ _

theorem tick_countEntered (bm : Beatmap) (s : BeatmapPlayback) (t : MapTime)
    (log : List Notification) (hinv : Inv bm s log) (ht : s.m_playbackTime ≤ t) (i : Nat) :
    (log ++ (updateAcceptedExact bm s t).2).count (Notification.ObjectEntered i) =
      if enters bm s.m_viewRange i = true ∧ i < enterCursor bm (updateAcceptedExact bm s t).1 i
      then 1 else 0 := by
  rw [List.count_append, hinv.countEntered, tick_count_entered, count_tickNewObjects,
    count_tickNewLasers, enterCursor_tick]
  have hL := tickLaserEnd_ge bm s t log hinv ht
  have hO : s.m_currObject ≤ tickObjEnd bm s t := scanObjects_ge bm _ _
  by_cases hty : (bm.obj i).type = ObjectType.Laser
  · have ho : objectEnters bm s.m_viewRange i = false := by
      cases hl : objectEnters bm s.m_viewRange i
      · rfl
      · exact absurd hty (objectEnters_not_laser bm _ i hl)
    rw [enters_of_laser bm _ i hty]
    simp only [enterCursor, hty, if_true, ho, Bool.false_eq_true, false_and, if_false]
    by_cases he : laserEnters bm s.m_viewRange i = true
    · simp only [he, true_and]
      by_cases h1 : i < s.m_currLaserObject
      · have h2 : i < tickLaserEnd bm s t := by omega
        have h3 : ¬ (s.m_currLaserObject ≤ i ∧ i < tickLaserEnd bm s t) := by omega
        simp [h1, h2, h3]
      · by_cases h2 : i < tickLaserEnd bm s t
        · have h3 : s.m_currLaserObject ≤ i ∧ i < tickLaserEnd bm s t := by omega
          simp [h1, h2, h3]
        · have h3 : ¬ (s.m_currLaserObject ≤ i ∧ i < tickLaserEnd bm s t) := by omega
          simp [h1, h2, h3]
    · simp [he]
  · have hl : laserEnters bm s.m_viewRange i = false := by
      cases hl : laserEnters bm s.m_viewRange i
      · rfl
      · exact absurd (laserEnters_laser bm _ i hl) hty
    rw [enters_of_not_laser bm _ i hty]
    simp only [enterCursor, hty, if_false, hl, Bool.false_eq_true, false_and]
    by_cases he : objectEnters bm s.m_viewRange i = true
    · simp only [he, true_and]
      by_cases h1 : i < s.m_currObject
      · have h2 : i < tickObjEnd bm s t := by omega
        have h3 : ¬ (s.m_currObject ≤ i ∧ i < tickObjEnd bm s t) := by omega
        simp [h1, h2, h3]
      · by_cases h2 : i < tickObjEnd bm s t
        · have h3 : s.m_currObject ≤ i ∧ i < tickObjEnd bm s t := by omega
          simp [h1, h2, h3]
        · have h3 : ¬ (s.m_currObject ≤ i ∧ i < tickObjEnd bm s t) := by omega
          simp [h1, h2, h3]
    · simp [he]

/-- The hittable list and the `ObjectLeaved` count of a tick, against the
`ObjectEntered` count of the tick. -/
theorem tick_leaved_balance (bm : Beatmap) (s : BeatmapPlayback) (t : MapTime)
    (log : List Notification) (hinv : Inv bm s log) (i : Nat) :
    (updateAcceptedExact bm s t).2.count (Notification.ObjectLeaved i)
        + (updateAcceptedExact bm s t).1.m_hittableObjects.count i
      ≤ s.m_hittableObjects.count i
        + (updateAcceptedExact bm s t).2.count (Notification.ObjectEntered i)
    ∧ ((bm.obj i).type ≠ ObjectType.Event →
      (updateAcceptedExact bm s t).2.count (Notification.ObjectLeaved i)
        + (updateAcceptedExact bm s t).1.m_hittableObjects.count i
      = s.m_hittableObjects.count i
        + (updateAcceptedExact bm s t).2.count (Notification.ObjectEntered i)) := by
  obtain ⟨_, _, _, _, _, _, _, _, _, _, _, _, f13⟩ := tick_frame bm s t
  rw [tick_count_leaved, tick_count_entered, f13, count_filter_ite, count_filter_ite]
  have hmid : (tickMid bm s t).count i = s.m_hittableObjects.count i
      + (tickNewObjects bm s t).count i + (tickNewLasers bm s t).count i := by
    rw [tickMid_eq bm s t log hinv, List.count_append, List.count_append]
  rw [hmid]
  by_cases hp : passes bm (t - s.hittableObjectLeave) i = true
  · have hst : stays bm (t - s.hittableObjectLeave) t i = false := by
      simp [stays, hp]
    simp only [hp, hst, if_true, Bool.false_eq_true, if_false]
    constructor
    · omega
    · intro _; omega
  · by_cases hf : fires bm t i = true
    · have hst : stays bm (t - s.hittableObjectLeave) t i = false := by
        simp [stays, hf]
      simp only [hp, hst, Bool.false_eq_true, if_false]
      constructor
      · omega
      · intro hne; exact absurd (fires_event bm t i hf) hne
    · have hst : stays bm (t - s.hittableObjectLeave) t i = true := by
        simp [stays, hp, hf]
      simp only [hp, hst, if_true, Bool.false_eq_true, if_false]
      constructor
      · omega
      · intro _; omega

theorem count_append_eq_zero {α : Type} [DecidableEq α] (a b : List α) (x : α)
    (h : (a ++ b).count x = 0) : a.count x = 0 := by
  rw [List.count_append] at h
  omega

theorem tick_ordered (bm : Beatmap) (s : BeatmapPlayback) (t : MapTime)
    (log : List Notification) (hinv : Inv bm s log)
    (hfinal : ∀ i, (log ++ (updateAcceptedExact bm s t).2).count (Notification.ObjectLeaved i)
      ≤ (log ++ (updateAcceptedExact bm s t).2).count (Notification.ObjectEntered i))
    (pre post : List Notification) (hsplit : log ++ (updateAcceptedExact bm s t).2 = pre ++ post)
    (i : Nat) :
    pre.count (Notification.ObjectLeaved i) ≤ pre.count (Notification.ObjectEntered i) := by
  have hfin := hfinal i
  rw [updateAccepted_events] at hsplit hfin
  have ha := enterPhases_count_leaved bm s t i
  have hb := leavePhasesEvents_count_entered bm s t i
  rw [List.append_eq_append_iff] at hsplit
  rcases hsplit with ⟨c, hc1, hc2⟩ | ⟨c, hc1, hc2⟩
  · -- pre = log ++ c
    rw [List.append_eq_append_iff] at hc2
    rcases hc2 with ⟨d, hd1, hd2⟩ | ⟨d, hd1, hd2⟩
    · -- c = enter ++ d
      rw [hc1, hd1]
      rw [hd2] at hb hfin
      simp only [List.count_append] at hb hfin ha ⊢
      omega
    · -- enter = c ++ d
      rw [hc1]
      rw [hd1] at ha
      have hc0 := count_append_eq_zero c d _ ha
      have := hinv.ordered log [] (by simp) i
      simp only [List.count_append]
      omega
  · -- log = pre ++ c
    exact hinv.ordered pre c hc1 i

theorem Inv_updateAccepted (bm : Beatmap) (s : BeatmapPlayback) (t : MapTime)
    (log : List Notification) (hinv : Inv bm s log) (ht : s.m_playbackTime ≤ t) :
    Inv bm (updateAcceptedExact bm s t).1 (log ++ (updateAcceptedExact bm s t).2) := by
  obtain ⟨f1, f2, f3, f4, f5, f6, f7, f8, f9, f10, f11, f12, f13⟩ := tick_frame bm s t
  have hO : s.m_currObject ≤ tickObjEnd bm s t := scanObjects_ge bm _ _
  have hOle : tickObjEnd bm s t ≤ bm.objectStates.length := scanObjects_le bm _ _ hinv.objLe
  have hbal := tick_leaved_balance bm s t log hinv
  have hce : ∀ i, (log ++ (updateAcceptedExact bm s t).2).count (Notification.ObjectEntered i) =
      if enters bm (updateAcceptedExact bm s t).1.m_viewRange i = true
        ∧ i < enterCursor bm (updateAcceptedExact bm s t).1 i then 1 else 0 := by
    intro i
    rw [f2]
    exact tick_countEntered bm s t log hinv ht i
  have hcl : ∀ i, (log ++ (updateAcceptedExact bm s t).2).count (Notification.ObjectLeaved i)
      + (updateAcceptedExact bm s t).1.m_hittableObjects.count i
      ≤ (log ++ (updateAcceptedExact bm s t).2).count (Notification.ObjectEntered i) := by
    intro i
    have h1 := (hbal i).1
    have h2 := hinv.countLeaved i
    simp only [List.count_append]
    omega
  refine
    { notCalibration := by rw [f8]; exact hinv.notCalibration
      timingLt := by rw [(tick_timing bm s t).1]; exact scanTiming_lt bm _ _ hinv.timingLt
      laneLe := by rw [(tick_timing bm s t).2]; exact scanLaneToggle_le bm _ _ hinv.laneLe
      objLe := by rw [f10]; exact hOle
      objLeLaser := by rw [f10, f11]; exact scanObjects_ge bm _ _
      laserLe := by rw [f11]; exact scanObjects_le bm _ _ hOle
      objLeAlert := by rw [f10, f12]; exact scanObjects_ge bm _ _
      alertLe := by rw [f12]; exact scanObjects_le bm _ _ hOle
      objPassed := ?_
      laserPassed := ?_
      alertPassed := ?_
      nodup := ?_
      hitIff := ?_
      countEntered := hce
      countLeaved := hcl
      countLeavedEq := ?_
      ordered := ?_ }
  · intro k hk
    rw [f10] at hk
    rw [f1, f3]
    by_cases hk2 : k < s.m_currObject
    · have := hinv.objPassed k hk2
      linarith
    · exact scanObjects_passed bm _ _ k (by omega) hk
  · intro k hk1 hk2
    rw [f10] at hk1
    rw [f11] at hk2
    rw [f1, f4]
    exact scanObjects_passed bm _ _ k hk1 hk2
  · intro k hk1 hk2
    rw [f10] at hk1
    rw [f12] at hk2
    rw [f1, f6]
    exact scanObjects_passed bm _ _ k hk1 hk2
  · rw [f13]
    apply List.Nodup.filter
    unfold tickMid
    exact nodup_addAllUnique _ _ (nodup_addAllUnique _ _ hinv.nodup)
  · intro i
    rw [f13, f2, f1, f5, List.mem_filter, tickMid_eq bm s t log hinv, List.mem_append,
      List.mem_append, enterCursor_tick]
    constructor
    · rintro ⟨hmem, hst⟩
      rcases hmem with (hmem | hmem) | hmem
      · have h := hinv.hitEntered i hmem
        refine ⟨h.1, ?_, hst⟩
        have := enterCursor_le_tick bm s t log hinv ht i
        rw [enterCursor_tick] at this
        omega
      · rw [mem_tickNewObjects] at hmem
        have hnl := objectEnters_not_laser bm _ i hmem.1
        rw [enters_of_not_laser bm _ i hnl, if_neg hnl]
        exact ⟨hmem.1, hmem.2.2, hst⟩
      · rw [mem_tickNewLasers] at hmem
        have hl := laserEnters_laser bm _ i hmem.1
        rw [enters_of_laser bm _ i hl, if_pos hl]
        exact ⟨hmem.1, hmem.2.2, hst⟩
    · rintro ⟨hen, hcur, hst⟩
      refine ⟨?_, hst⟩
      by_cases hold : i < enterCursor bm s i
      · left; left
        exact (hinv.hitIff i).2 ⟨hen, hold, stays_mono bm _ _ _ ht i hst⟩
      · by_cases hty : (bm.obj i).type = ObjectType.Laser
        · right
          rw [mem_tickNewLasers]
          rw [if_pos hty] at hcur
          rw [enters_of_laser bm _ i hty] at hen
          simp only [enterCursor, hty, if_true] at hold
          exact ⟨hen, by omega, hcur⟩
        · left; right
          rw [mem_tickNewObjects]
          rw [if_neg hty] at hcur
          rw [enters_of_not_laser bm _ i hty] at hen
          simp only [enterCursor, hty, if_false] at hold
          exact ⟨hen, by omega, hcur⟩
  · intro i hne
    have h1 := (hbal i).2 hne
    have h2 := hinv.countLeavedEq i hne
    simp only [List.count_append]
    omega
  · intro pre post hsplit i
    refine tick_ordered bm s t log hinv ?_ pre post hsplit i
    intro j
    have := hcl j
    omega

theorem Inv_Update (bm : Beatmap) (s : BeatmapPlayback) (t : MapTime)
    (log : List Notification) (hinv : Inv bm s log) :
    Inv bm (UpdateExact bm s t).1 (log ++ (UpdateExact bm s t).2) := by
  unfold UpdateExact
  rw [hinv.notCalibration]
  simp only [Bool.false_eq_true, if_false]
  split
  · simpa using hinv
  · rename_i h
    exact Inv_updateAccepted bm s t log hinv (not_lt.mp h)

theorem runLog_cons (bm : Beatmap) (s : BeatmapPlayback) (t : MapTime) (ts : List MapTime) :
    runLogExact bm s (t :: ts) = (UpdateExact bm s t).2 ++ runLogExact bm (UpdateExact bm s t).1 ts := by
  simp [runLogExact, runTraceExact]

theorem Inv_run (bm : Beatmap) (ts : List MapTime) (s : BeatmapPlayback)
    (log : List Notification) (hinv : Inv bm s log) :
    Inv bm (runStateExact bm s ts) (log ++ runLogExact bm s ts) := by
  induction ts generalizing s log with
  | nil => simpa [runStateExact, runLogExact, runTraceExact] using hinv
  | cons t rest ih =>
    rw [runLog_cons, ← List.append_assoc]
    exact ih _ _ (Inv_Update bm s t log hinv)

theorem Inv_Reset (bm : Beatmap) (s0 s : BeatmapPlayback) (initTime start : MapTime)
    (hc : s0.m_isCalibration = false) (hr : Reset bm s0 initTime start = (true, s)) :
    Inv bm s [] := by
  unfold Reset at hr
  split at hr
  · simp at hr
  · simp only [Prod.mk.injEq, true_and] at hr
    subst hr
    refine
      { notCalibration := hc
        timingLt := by simp [Beatmap.GetFirstTimingPoint, Beatmap.timingPoints]
        laneLe := Nat.zero_le _
        objLe := Nat.zero_le _
        objLeLaser := Nat.le_refl _
        laserLe := Nat.zero_le _
        objLeAlert := Nat.le_refl _
        alertLe := Nat.zero_le _
        objPassed := ?_
        laserPassed := ?_
        alertPassed := ?_
        nodup := List.nodup_nil
        hitIff := ?_
        countEntered := ?_
        countLeaved := ?_
        countLeavedEq := ?_
        ordered := ?_ }
    · intro k hk; exact absurd hk (Nat.not_lt_zero k)
    · intro k hk1 hk2
      simp only [Beatmap.GetFirstObjectState] at hk1 hk2
      omega
    · intro k hk1 hk2
      simp only [Beatmap.GetFirstObjectState] at hk1 hk2
      omega
    · intro i
      simp [enterCursor, Beatmap.GetFirstObjectState]
    · intro i
      simp [enterCursor, Beatmap.GetFirstObjectState]
    · intro i; simp
    · intro i _; simp
    · intro pre post h i
      have : pre = [] := by
        cases pre with
        | nil => rfl
        | cons x xs => simp at h
      subst this
      simp

theorem Update_of_accepted (bm : Beatmap) (s : BeatmapPlayback) (t : MapTime)
    (hc : s.m_isCalibration = false) (ht : s.m_playbackTime ≤ t) :
    UpdateExact bm s t = updateAcceptedExact bm s t := by
  unfold UpdateExact
  rw [hc]
  simp only [Bool.false_eq_true, if_false]
  rw [if_neg (not_lt.mpr ht)]

theorem Update_of_rejected (bm : Beatmap) (s : BeatmapPlayback) (t : MapTime)
    (hc : s.m_isCalibration = false) (ht : t < s.m_playbackTime) :
    UpdateExact bm s t = (s, []) := by
  unfold UpdateExact
  rw [hc]
  simp only [Bool.false_eq_true, if_false]
  rw [if_pos ht]

/-- The fields that no `UpdateExact` outside calibration mode changes. -/
theorem Update_config (bm : Beatmap) (s : BeatmapPlayback) (t : MapTime)
    (hc : s.m_isCalibration = false) :
    (UpdateExact bm s t).1.m_viewRange = s.m_viewRange
    ∧ (UpdateExact bm s t).1.hittableObjectEnter = s.hittableObjectEnter
    ∧ (UpdateExact bm s t).1.hittableLaserEnter = s.hittableLaserEnter
    ∧ (UpdateExact bm s t).1.hittableObjectLeave = s.hittableObjectLeave
    ∧ (UpdateExact bm s t).1.alertLaserThreshold = s.alertLaserThreshold
    ∧ (UpdateExact bm s t).1.audioOffset = s.audioOffset
    ∧ (UpdateExact bm s t).1.m_isCalibration = false := by
  by_cases ht : t < s.m_playbackTime
  · rw [Update_of_rejected bm s t hc ht]
    exact ⟨rfl, rfl, rfl, rfl, rfl, rfl, hc⟩
  · rw [Update_of_accepted bm s t hc (not_lt.mp ht)]
    obtain ⟨_, f2, f3, f4, f5, f6, f7, f8, _⟩ := tick_frame bm s t
    exact ⟨f2, f3, f4, f5, f6, f7, by rw [f8]; exact hc⟩

theorem run_config (bm : Beatmap) (ts : List MapTime) (s : BeatmapPlayback)
    (hc : s.m_isCalibration = false) :
    (runStateExact bm s ts).m_viewRange = s.m_viewRange
    ∧ (runStateExact bm s ts).hittableObjectEnter = s.hittableObjectEnter
    ∧ (runStateExact bm s ts).hittableLaserEnter = s.hittableLaserEnter
    ∧ (runStateExact bm s ts).hittableObjectLeave = s.hittableObjectLeave
    ∧ (runStateExact bm s ts).alertLaserThreshold = s.alertLaserThreshold
    ∧ (runStateExact bm s ts).audioOffset = s.audioOffset
    ∧ (runStateExact bm s ts).m_isCalibration = false := by
  induction ts generalizing s with
  | nil => exact ⟨rfl, rfl, rfl, rfl, rfl, rfl, hc⟩
  | cons t rest ih =>
    obtain ⟨g1, g2, g3, g4, g5, g6, g7⟩ := Update_config bm s t hc
    obtain ⟨h1, h2, h3, h4, h5, h6, h7⟩ := ih (UpdateExact bm s t).1 g7
    simp only [runStateExact]
    exact ⟨by rw [h1, g1], by rw [h2, g2], by rw [h3, g3], by rw [h4, g4], by rw [h5, g5],
      by rw [h6, g6], h7⟩

theorem Update_clock_mem (bm : Beatmap) (s : BeatmapPlayback) (t : MapTime)
    (hc : s.m_isCalibration = false) :
    (UpdateExact bm s t).1.m_playbackTime = s.m_playbackTime
      ∨ (UpdateExact bm s t).1.m_playbackTime = t := by
  by_cases ht : t < s.m_playbackTime
  · rw [Update_of_rejected bm s t hc ht]
    exact Or.inl rfl
  · rw [Update_of_accepted bm s t hc (not_lt.mp ht)]
    exact Or.inr (tick_frame bm s t).1

theorem run_clock_mem (bm : Beatmap) (ts : List MapTime) (s : BeatmapPlayback)
    (hc : s.m_isCalibration = false) :
    (runStateExact bm s ts).m_playbackTime ∈ s.m_playbackTime :: ts := by
  induction ts generalizing s with
  | nil => simp [runStateExact]
  | cons t rest ih =>
    have h := ih (UpdateExact bm s t).1 (Update_config bm s t hc).2.2.2.2.2.2
    simp only [runStateExact]
    rw [List.mem_cons] at h
    rcases h with h | h
    · rw [h]
      rcases Update_clock_mem bm s t hc with h2 | h2
      · rw [h2]; simp
      · rw [h2]; simp
    · simp [h]

theorem runState_append (bm : Beatmap) (a b : List MapTime) (s : BeatmapPlayback) :
    runStateExact bm s (a ++ b) = runStateExact bm (runStateExact bm s a) b := by
  induction a generalizing s with
  | nil => rfl
  | cons t rest ih =>
    show runStateExact bm (UpdateExact bm s t).1 (rest ++ b) = _
    rw [ih]
    rfl

theorem runTrace_append (bm : Beatmap) (a b : List MapTime) (s : BeatmapPlayback) :
    runTraceExact bm s (a ++ b) = runTraceExact bm s a ++ runTraceExact bm (runStateExact bm s a) b := by
  induction a generalizing s with
  | nil => rfl
  | cons t rest ih =>
    show (UpdateExact bm s t).2 :: runTraceExact bm (UpdateExact bm s t).1 (rest ++ b) = _
    rw [ih]
    rfl

theorem runLog_append (bm : Beatmap) (a b : List MapTime) (s : BeatmapPlayback) :
    runLogExact bm s (a ++ b) = runLogExact bm s a ++ runLogExact bm (runStateExact bm s a) b := by
  simp [runLogExact, runTrace_append]

theorem runLog_single (bm : Beatmap) (s : BeatmapPlayback) (t : MapTime) :
    runLogExact bm s [t] = (UpdateExact bm s t).2 := by
  simp [runLogExact, runTraceExact]

/-- In a run with non-decreasing times that starts at the clock, the clock
before a tick is not after the tick. -/
theorem run_clock_le (bm : Beatmap) (pre : List MapTime) (t : MapTime) (s : BeatmapPlayback)
    (hc : s.m_isCalibration = false)
    (hmono : (s.m_playbackTime :: (pre ++ [t])).Sorted (· ≤ ·)) :
    (runStateExact bm s pre).m_playbackTime ≤ t := by
  have hmem := run_clock_mem bm pre s hc
  have hp : (s.m_playbackTime :: pre ++ [t]).Pairwise (· ≤ ·) := hmono
  rw [List.pairwise_append] at hp
  exact hp.2.2 _ hmem t (by simp)

theorem Reset_fields (bm : Beatmap) (s0 s : BeatmapPlayback) (initTime start : MapTime)
    (hr : Reset bm s0 initTime start = (true, s)) :
    s.m_playbackTime = initTime
    ∧ s.hittableObjectEnter = s0.hittableObjectEnter
    ∧ s.hittableLaserEnter = s0.hittableLaserEnter
    ∧ s.hittableObjectLeave = s0.hittableObjectLeave
    ∧ s.alertLaserThreshold = s0.alertLaserThreshold
    ∧ s.audioOffset = s0.audioOffset
    ∧ s.m_isCalibration = s0.m_isCalibration
    ∧ s.m_initialEffectStateSent = false
    ∧ s.m_currObject = 0 ∧ s.m_currLaserObject = 0 ∧ s.m_currAlertObject = 0
    ∧ s.m_currentTiming = 0 ∧ s.m_currentLaneTogglePoint = 0
    ∧ s.m_hittableObjects = [] ∧ s.m_holdObjects = [] ∧ s.m_effectObjects = [] := by
  unfold Reset at hr
  split at hr
  · simp at hr
  · simp only [Prod.mk.injEq, true_and] at hr
    subst hr
    simp [Beatmap.GetFirstObjectState, Beatmap.GetFirstTimingPoint,
      Beatmap.GetFirstLaneTogglePoint]

/-- With sorted objects the object cursor after an accepted tick separates the
objects before `t + hittableObjectEnter` from the rest. -/
theorem tickObjEnd_lt_iff (bm : Beatmap) (hsorted : ObjectsSorted bm) (s : BeatmapPlayback)
    (t : MapTime) (log : List Notification) (hinv : Inv bm s log) (ht : s.m_playbackTime ≤ t)
    (i : Nat) (hi : i < bm.objectStates.length) :
    i < tickObjEnd bm s t ↔ (bm.obj i).time < t + s.hittableObjectEnter := by
  unfold tickObjEnd
  apply scanObjects_lt_iff bm hsorted _ _ hinv.objLe i hi
  intro j hj
  have := hinv.objPassed j hj
  linarith

theorem tickLaserEnd_lt (bm : Beatmap) (hsorted : ObjectsSorted bm) (s : BeatmapPlayback)
    (t : MapTime) (i : Nat) (hi : i < bm.objectStates.length)
    (h : (bm.obj i).time < t + s.hittableLaserEnter) :
    i < tickLaserEnd bm s t := by
  unfold tickLaserEnd
  have : i + 1 ≤ scanObjects bm (tickObjEnd bm s t) (t + s.hittableLaserEnter) := by
    apply scanObjects_reach bm _ _ _ (by omega)
    intro k _ hk2
    have := hsorted k i (by omega) hi
    linarith
  omega

/-- From the counts and the order of the prefixes: the entered notification
comes first. -/
theorem enteredBeforeLeaved_of_counts (log : List Notification) (i : Nat)
    (hord : ∀ pre post, log = pre ++ post →
      pre.count (Notification.ObjectLeaved i) ≤ pre.count (Notification.ObjectEntered i))
    (hl : 0 < log.count (Notification.ObjectLeaved i)) : EnteredBeforeLeaved log i := by
  have hmem : Notification.ObjectLeaved i ∈ log := List.count_pos_iff.mp hl
  obtain ⟨a, b, hab⟩ := List.append_of_mem hmem
  have h1 := hord (a ++ [Notification.ObjectLeaved i]) b (by rw [hab]; simp)
  simp only [List.count_append, List.count_singleton_self] at h1
  have h2 : [Notification.ObjectLeaved i].count (Notification.ObjectEntered i) = 0 := by
    rw [List.count_eq_zero]; simp
  rw [h2] at h1
  have h3 : 0 < a.count (Notification.ObjectEntered i) := by omega
  obtain ⟨c, d, hcd⟩ := List.append_of_mem (List.count_pos_iff.mp h3)
  exact ⟨c, d, b, by rw [hab, hcd]⟩

/-- In exact integers: in any run after a successful `Reset`, outside calibration
mode, every object gets `ObjectEntered` at most once and `ObjectLeaved` at most
once, at every point of the log the object has not been left more often than
entered, and `m_hittableObjects` holds no object twice. -/
theorem no_duplicate_lifecycle_exact (bm : Beatmap) (s0 s : BeatmapPlayback)
    (initTime start : MapTime) (hc : s0.m_isCalibration = false)
    (hr : Reset bm s0 initTime start = (true, s)) (ts : List MapTime) (i : Nat) :
    (runLogExact bm s ts).count (Notification.ObjectEntered i) ≤ 1
    ∧ (runLogExact bm s ts).count (Notification.ObjectLeaved i) ≤ 1
    ∧ (∀ pre post, runLogExact bm s ts = pre ++ post →
        pre.count (Notification.ObjectLeaved i) ≤ pre.count (Notification.ObjectEntered i))
    ∧ (runStateExact bm s ts).m_hittableObjects.Nodup := by
  have hinv := Inv_run bm ts s [] (Inv_Reset bm s0 s initTime start hc hr)
  rw [List.nil_append] at hinv
  have h1 : (runLogExact bm s ts).count (Notification.ObjectEntered i) ≤ 1 := by
    rw [hinv.countEntered i]
    split <;> omega
  refine ⟨h1, ?_, fun pre post h => hinv.ordered pre post h i, hinv.nodup⟩
  have := hinv.countLeaved i
  omega

/-- In exact integers: for a Single, Hold or Laser object that the enter sweeps
accept, with objects sorted by time, in a run of non-decreasing times from the
reset clock whose last tick `tn` is past the object's entry time and past its
pass time, the log holds exactly one `ObjectEntered` and exactly one
`ObjectLeaved` for the object, the former before the latter. -/
theorem lifecycle_exactly_once_exact (bm : Beatmap) (s0 s : BeatmapPlayback)
    (initTime start : MapTime) (hc : s0.m_isCalibration = false)
    (hr : Reset bm s0 initTime start = (true, s)) (hsorted : ObjectsSorted bm)
    (i : Nat) (hi : i < bm.objectStates.length)
    (hty : (bm.obj i).type = ObjectType.Single ∨ (bm.obj i).type = ObjectType.Hold
      ∨ (bm.obj i).type = ObjectType.Laser)
    (hvr : enters bm s.m_viewRange i = true)
    (pre : List MapTime) (tn : MapTime)
    (hmono : (initTime :: (pre ++ [tn])).Sorted (· ≤ ·))
    (hentry : (bm.obj i).time < tn + enterHorizon bm s i)
    (hpass : passes bm (tn - s.hittableObjectLeave) i = true) :
    ExactlyOnceLifecycle (runLogExact bm s (pre ++ [tn])) i := by
  obtain ⟨r1, r2, r3, r4, r5, r6, r7, _⟩ := Reset_fields bm s0 s initTime start hr
  have hcs : s.m_isCalibration = false := by rw [r7]; exact hc
  have hinv0 := Inv_Reset bm s0 s initTime start hc hr
  have hinvp := Inv_run bm pre s [] hinv0
  rw [List.nil_append] at hinvp
  obtain ⟨c1, c2, c3, c4, _, _, c7⟩ := run_config bm pre s hcs
  have hacc : (runStateExact bm s pre).m_playbackTime ≤ tn :=
    run_clock_le bm pre tn s hcs (by rw [r1]; exact hmono)
  have hinv := Inv_updateAccepted bm (runStateExact bm s pre) tn _ hinvp hacc
  have hlog : runLogExact bm s (pre ++ [tn])
      = runLogExact bm s pre ++ (updateAcceptedExact bm (runStateExact bm s pre) tn).2 := by
    rw [runLog_append, runLog_single, Update_of_accepted bm _ tn c7 hacc]
  rw [← hlog] at hinv
  obtain ⟨f1, f2, f3, f4, f5, _, _, _, _, f10, f11, _, f13⟩ :=
    tick_frame bm (runStateExact bm s pre) tn
  -- the cursor has passed the object
  have hcur : i < enterCursor bm (updateAcceptedExact bm (runStateExact bm s pre) tn).1 i := by
    rw [enterCursor_tick]
    unfold enterHorizon at hentry
    split
    · rename_i hl
      rw [if_pos hl] at hentry
      exact tickLaserEnd_lt bm hsorted _ tn i hi (by rw [c3]; exact hentry)
    · rename_i hl
      rw [if_neg hl] at hentry
      exact (tickObjEnd_lt_iff bm hsorted _ tn _ hinvp hacc i hi).2 (by rw [c2]; exact hentry)
  have hent : (runLogExact bm s (pre ++ [tn])).count (Notification.ObjectEntered i) = 1 := by
    rw [hinv.countEntered i, f2, c1, if_pos ⟨hvr, hcur⟩]
  -- the object is no longer hittable
  have hout : i ∉ (updateAcceptedExact bm (runStateExact bm s pre) tn).1.m_hittableObjects := by
    rw [f13]
    intro hmem
    have hst := (List.mem_filter.mp hmem).2
    rw [c4] at hst
    simp [stays, hpass] at hst
  have hne : (bm.obj i).type ≠ ObjectType.Event := by
    rcases hty with h | h | h <;> rw [h] <;> decide
  have hlv : (runLogExact bm s (pre ++ [tn])).count (Notification.ObjectLeaved i) = 1 := by
    have := hinv.countLeavedEq i hne
    rw [List.count_eq_zero_of_not_mem hout, hent] at this
    omega
  exact ⟨hent, hlv,
    enteredBeforeLeaved_of_counts _ i (fun p q h => hinv.ordered p q h i) (by omega)⟩

/-- In a run with non-decreasing times that starts at the clock, the clock ends
at or above every time of the run. -/
theorem run_clock_ge (bm : Beatmap) (ts : List MapTime) (s : BeatmapPlayback)
    (hc : s.m_isCalibration = false)
    (hmono : (s.m_playbackTime :: ts).Sorted (· ≤ ·)) :
    ∀ u ∈ s.m_playbackTime :: ts, u ≤ (runStateExact bm s ts).m_playbackTime := by
  induction ts generalizing s with
  | nil => intro u hu; simp at hu; subst hu; exact le_refl _
  | cons t rest ih =>
    have hp : (s.m_playbackTime :: t :: rest).Pairwise (· ≤ ·) := hmono
    rw [List.pairwise_cons] at hp
    have hst : s.m_playbackTime ≤ t := hp.1 t (by simp)
    have hclk : (UpdateExact bm s t).1.m_playbackTime = t := by
      rw [Update_of_accepted bm s t hc hst]
      exact (tick_frame bm s t).1
    have h := ih (UpdateExact bm s t).1 (Update_config bm s t hc).2.2.2.2.2.2
      (by rw [hclk]; exact hp.2)
    rw [hclk] at h
    intro u hu
    simp only [runStateExact]
    rw [List.mem_cons] at hu
    rcases hu with hu | hu
    · rw [hu]
      exact le_trans hst (h t (by simp))
    · exact h u hu

/-- With sorted objects and non-decreasing times, the object cursor has passed
an object exactly when it had passed it before the run or some tick of the run
reached the object's entry time. -/
theorem cursor_run_iff (bm : Beatmap) (hsorted : ObjectsSorted bm) (i : Nat)
    (hi : i < bm.objectStates.length) (ts : List MapTime) (s : BeatmapPlayback)
    (log : List Notification) (hinv : Inv bm s log)
    (hmono : (s.m_playbackTime :: ts).Sorted (· ≤ ·)) :
    i < (runStateExact bm s ts).m_currObject ↔
      (i < s.m_currObject ∨ ∃ u ∈ ts, (bm.obj i).time < u + s.hittableObjectEnter) := by
  induction ts generalizing s log with
  | nil => simp [runStateExact]
  | cons t rest ih =>
    have hc := hinv.notCalibration
    have hp : (s.m_playbackTime :: t :: rest).Pairwise (· ≤ ·) := hmono
    rw [List.pairwise_cons] at hp
    have hst : s.m_playbackTime ≤ t := hp.1 t (by simp)
    obtain ⟨f1, _, f3, _, _, _, _, _, _, f10, _⟩ := tick_frame bm s t
    have hup := Update_of_accepted bm s t hc hst
    have h := ih (UpdateExact bm s t).1 _ (Inv_Update bm s t log hinv)
      (by rw [hup, f1]; exact hp.2)
    simp only [runStateExact]
    rw [h, hup, f10, f3, tickObjEnd_lt_iff bm hsorted s t log hinv hst i hi]
    constructor
    · rintro (h1 | ⟨u, hu, h2⟩)
      · exact Or.inr ⟨t, by simp, h1⟩
      · exact Or.inr ⟨u, by simp [hu], h2⟩
    · rintro (h1 | ⟨u, hu, h2⟩)
      · left
        have := hinv.objPassed i h1
        linarith
      · rw [List.mem_cons] at hu
        rcases hu with hu | hu
        · left; rw [← hu]; exact h2
        · exact Or.inr ⟨u, hu, h2⟩

theorem objectEnters_single (bm : Beatmap) (vr : MapTimeRange) (i : Nat)
    (hty : (bm.obj i).type = ObjectType.Single)
    (hvr : vr.Includes (bm.obj i).time = true) : objectEnters bm vr i = true := by
  unfold objectEnters
  rw [hty, hvr]
  simp

theorem passes_single (bm : Beatmap) (opt : MapTime) (i : Nat)
    (hty : (bm.obj i).type = ObjectType.Single) :
    passes bm opt i = true ↔ (bm.obj i).time < opt := by
  unfold passes
  rw [hty]
  simp

theorem stays_single (bm : Beatmap) (opt t : MapTime) (i : Nat)
    (hty : (bm.obj i).type = ObjectType.Single) :
    stays bm opt t i = true ↔ ¬ (bm.obj i).time < opt := by
  unfold stays fires
  have := passes_single bm opt i hty
  rw [hty]
  cases hp : passes bm opt i
  · rw [hp] at this
    simp only [Bool.false_eq_true, false_iff] at this
    simp [this]
  · rw [hp] at this
    simp only [true_iff] at this
    simp [this]

/-- In exact integers: for a Single object inside the view range, with objects
sorted by time and `hittableObjectEnter + hittableObjectLeave ≥ 0`, in a run of
non-decreasing times from the reset clock, the tick `t` that follows the ticks
`pre` emits `ObjectEntered` for the object exactly when it is the first tick
with `time < t + hittableObjectEnter`, and `ObjectLeaved` exactly when it is the
first tick with `time < t - hittableObjectLeave`. -/
theorem single_entry_and_pass_ticks_exact (bm : Beatmap) (s0 s : BeatmapPlayback)
    (initTime start : MapTime) (hc : s0.m_isCalibration = false)
    (hr : Reset bm s0 initTime start = (true, s)) (hsorted : ObjectsSorted bm)
    (i : Nat) (hi : i < bm.objectStates.length)
    (hty : (bm.obj i).type = ObjectType.Single)
    (hvr : s.m_viewRange.Includes (bm.obj i).time = true)
    (hh : 0 ≤ s.hittableObjectEnter + s.hittableObjectLeave)
    (pre : List MapTime) (t : MapTime)
    (hmono : (initTime :: (pre ++ [t])).Sorted (· ≤ ·)) :
    (Notification.ObjectEntered i ∈ (UpdateExact bm (runStateExact bm s pre) t).2 ↔
      ((bm.obj i).time < t + s.hittableObjectEnter
        ∧ ∀ u ∈ pre, ¬ (bm.obj i).time < u + s.hittableObjectEnter))
    ∧ (Notification.ObjectLeaved i ∈ (UpdateExact bm (runStateExact bm s pre) t).2 ↔
      ((bm.obj i).time < t - s.hittableObjectLeave
        ∧ ∀ u ∈ pre, ¬ (bm.obj i).time < u - s.hittableObjectLeave)) := by
  obtain ⟨r1, _, _, _, _, _, r7, _, r9, _⟩ := Reset_fields bm s0 s initTime start hr
  have hcs : s.m_isCalibration = false := by rw [r7]; exact hc
  have hinv0 := Inv_Reset bm s0 s initTime start hc hr
  have hinvp := Inv_run bm pre s [] hinv0
  rw [List.nil_append] at hinvp
  obtain ⟨c1, c2, _, c4, _, _, c7⟩ := run_config bm pre s hcs
  have hmono' : (s.m_playbackTime :: (pre ++ [t])).Sorted (· ≤ ·) := by rw [r1]; exact hmono
  have hacc : (runStateExact bm s pre).m_playbackTime ≤ t := run_clock_le bm pre t s hcs hmono'
  have hpre : (s.m_playbackTime :: pre).Sorted (· ≤ ·) := by
    have hp : (s.m_playbackTime :: pre ++ [t]).Pairwise (· ≤ ·) := hmono'
    exact (List.pairwise_append.mp hp).1
  rw [Update_of_accepted bm _ t c7 hacc]
  have hnl : (bm.obj i).type ≠ ObjectType.Laser := by rw [hty]; decide
  have hoe : objectEnters bm (runStateExact bm s pre).m_viewRange i = true := by
    rw [c1]; exact objectEnters_single bm _ i hty hvr
  have hle : laserEnters bm (runStateExact bm s pre).m_viewRange i = false := by
    cases hl : laserEnters bm (runStateExact bm s pre).m_viewRange i
    · rfl
    · exact absurd (laserEnters_laser bm _ i hl) hnl
  have hcur := cursor_run_iff bm hsorted i hi pre s [] hinv0 hpre
  rw [r9] at hcur
  simp only [Nat.not_lt_zero, false_or] at hcur
  have hend := tickObjEnd_lt_iff bm hsorted _ t _ hinvp hacc i hi
  rw [c2] at hend
  have hnew : i ∈ tickNewObjects bm (runStateExact bm s pre) t ↔
      ((bm.obj i).time < t + s.hittableObjectEnter
        ∧ ∀ u ∈ pre, ¬ (bm.obj i).time < u + s.hittableObjectEnter) := by
    rw [mem_tickNewObjects, hend]
    constructor
    · rintro ⟨_, h1, h2⟩
      refine ⟨h2, fun u hu hlt => ?_⟩
      have := hcur.2 ⟨u, hu, hlt⟩
      omega
    · rintro ⟨h1, h2⟩
      refine ⟨hoe, ?_, h1⟩
      by_contra hlt
      obtain ⟨u, hu, hlt2⟩ := hcur.1 (Nat.lt_of_not_le hlt)
      exact h2 u hu hlt2
  constructor
  · rw [← List.count_pos_iff, tick_count_entered, count_tickNewLasers, hle, ← hnew]
    simp only [Bool.false_eq_true, false_and, if_false, Nat.add_zero]
    exact List.count_pos_iff
  · rw [← List.count_pos_iff, tick_count_leaved, count_filter_ite, c4]
    have hps := passes_single bm (t - s.hittableObjectLeave) i hty
    have hmid : i ∈ tickMid bm (runStateExact bm s pre) t ↔
        (i ∈ (runStateExact bm s pre).m_hittableObjects
          ∨ i ∈ tickNewObjects bm (runStateExact bm s pre) t) := by
      rw [tickMid_eq bm _ t _ hinvp, List.mem_append, List.mem_append]
      constructor
      · rintro ((h | h) | h)
        · exact Or.inl h
        · exact Or.inr h
        · rw [mem_tickNewLasers, hle] at h
          exact absurd h.1 (by decide)
      · rintro (h | h)
        · exact Or.inl (Or.inl h)
        · exact Or.inl (Or.inr h)
    have hhit := hinvp.hitIff i
    rw [c1, c4, enters_of_not_laser bm _ i hnl, stays_single bm _ _ i hty] at hhit
    simp only [enterCursor, hnl, if_false] at hhit
    have hclk := run_clock_ge bm pre s hcs hpre
    have hclkmem := run_clock_mem bm pre s hcs
    constructor
    · intro hpos
      by_cases hp : passes bm (t - s.hittableObjectLeave) i = true
      · rw [if_pos hp] at hpos
        have hm := hmid.1 (List.count_pos_iff.mp hpos)
        refine ⟨hps.1 hp, fun u hu hlt => ?_⟩
        rcases hm with hm | hm
        · have h3 := (hhit.1 hm).2.2
          have := hclk u (by simp [hu])
          exact h3 (by linarith)
        · exact (hnew.1 hm).2 u hu (by linarith)
      · rw [if_neg hp] at hpos
        exact absurd hpos (Nat.lt_irrefl 0)
    · rintro ⟨h1, h2⟩
      rw [if_pos (hps.2 h1)]
      apply List.count_pos_iff.mpr
      apply hmid.2
      by_cases hin : i < (runStateExact bm s pre).m_currObject
      · left
        refine hhit.2 ⟨?_, hin, ?_⟩
        · rw [← c1]; exact hoe
        · obtain ⟨u, hu, _⟩ := hcur.1 hin
          rw [List.mem_cons] at hclkmem
          rcases hclkmem with hk | hk
          · have h3 := hclk u (by simp [hu])
            have hp : (s.m_playbackTime :: pre).Pairwise (· ≤ ·) := hpre
            have h4 := (List.pairwise_cons.mp hp).1 u hu
            have h5 : u = (runStateExact bm s pre).m_playbackTime := by
              rw [hk] at h3 ⊢
              exact le_antisymm h3 h4
            rw [← h5]
            exact h2 u hu
          · exact h2 _ hk
      · right
        refine hnew.2 ⟨by linarith, fun u hu hlt => ?_⟩
        exact hin (hcur.2 ⟨u, hu, hlt⟩)

theorem scenarioBeatmap_sorted : ObjectsSorted scenarioBeatmap := by
  intro i j hij hj
  have hj1 : j < 1 := hj
  have hj0 : j = 0 := by omega
  have hi0 : i = 0 := by omega
  rw [hi0, hj0]

theorem sent_stays (bm : Beatmap) (ts : List MapTime) (s : BeatmapPlayback)
    (hc : s.m_isCalibration = false) (hs : s.m_initialEffectStateSent = true) :
    (runStateExact bm s ts).m_initialEffectStateSent = true := by
  induction ts generalizing s with
  | nil => exact hs
  | cons t rest ih =>
    simp only [runStateExact]
    apply ih _ (Update_config bm s t hc).2.2.2.2.2.2
    by_cases ht : t < s.m_playbackTime
    · rw [Update_of_rejected bm s t hc ht]; exact hs
    · rw [Update_of_accepted bm s t hc (not_lt.mp ht)]
      exact (tick_frame bm s t).2.2.2.2.2.2.2.2.1

/-- The flag is set exactly when some tick of the run was accepted; until then
the clock stands where the reset put it. -/
theorem sent_iff (bm : Beatmap) (ts : List MapTime) (s : BeatmapPlayback)
    (hc : s.m_isCalibration = false) (hs : s.m_initialEffectStateSent = false) :
    ((runStateExact bm s ts).m_initialEffectStateSent = true ↔ ∃ u ∈ ts, s.m_playbackTime ≤ u)
    ∧ ((runStateExact bm s ts).m_initialEffectStateSent = false →
        (runStateExact bm s ts).m_playbackTime = s.m_playbackTime) := by
  induction ts generalizing s with
  | nil => simp [runStateExact, hs]
  | cons t rest ih =>
    simp only [runStateExact]
    by_cases ht : t < s.m_playbackTime
    · rw [Update_of_rejected bm s t hc ht]
      obtain ⟨h1, h2⟩ := ih s hc hs
      refine ⟨?_, h2⟩
      rw [h1]
      constructor
      · rintro ⟨u, hu, hle⟩
        exact ⟨u, by simp [hu], hle⟩
      · rintro ⟨u, hu, hle⟩
        rw [List.mem_cons] at hu
        rcases hu with hu | hu
        · rw [hu] at hle
          exact absurd ht (not_lt.mpr hle)
        · exact ⟨u, hu, hle⟩
    · have hsent : (runStateExact bm (UpdateExact bm s t).1 rest).m_initialEffectStateSent = true := by
        apply sent_stays bm rest _ (Update_config bm s t hc).2.2.2.2.2.2
        rw [Update_of_accepted bm s t hc (not_lt.mp ht)]
        exact (tick_frame bm s t).2.2.2.2.2.2.2.2.1
      refine ⟨?_, ?_⟩
      · constructor
        · intro _
          exact ⟨t, by simp, not_lt.mp ht⟩
        · intro _
          exact hsent
      · intro hf
        rw [hsent] at hf
        exact Bool.noConfusion hf

theorem mem_tick_entered (bm : Beatmap) (s : BeatmapPlayback) (t : MapTime) (k : Nat)
    (h : k ∈ tickNewObjects bm s t ∨ k ∈ tickNewLasers bm s t) :
    Notification.ObjectEntered k ∈ (updateAcceptedExact bm s t).2 := by
  rw [← List.count_pos_iff, tick_count_entered]
  rcases h with h | h
  · have := List.count_pos_iff.mpr h
    omega
  · have := List.count_pos_iff.mpr h
    omega

theorem mem_tick_alert (bm : Beatmap) (s : BeatmapPlayback) (t : MapTime) (k : Nat)
    (h : k ∈ tickAlerts bm s t) :
    Notification.LaserAlertEntered k ∈ (updateAcceptedExact bm s t).2 := by
  rw [updateAccepted_events]
  obtain ⟨pre, hev, _⟩ := enterPhases_events bm s t
  rw [hev]
  simp only [List.mem_append, List.mem_map]
  exact Or.inl (Or.inr ⟨k, h, rfl⟩)

/-- In exact integers: after a successful `Reset`, for sorted timing points, lane
toggles and objects, a tick at the end of any run moves none of the five
cursors to an earlier position, the time of the element under a cursor does not
decrease, and no element is skipped. -/
theorem cursors_monotonic_exact (bm : Beatmap) (s0 s : BeatmapPlayback)
    (initTime start : MapTime) (hc : s0.m_isCalibration = false)
    (hr : Reset bm s0 initTime start = (true, s))
    (hts : TimingSorted bm) (hls : LaneTogglesSorted bm) (hos : ObjectsSorted bm)
    (ts : List MapTime) (t : MapTime) :
    ((runStateExact bm s ts).m_currentTiming ≤ (UpdateExact bm (runStateExact bm s ts) t).1.m_currentTiming
      ∧ (runStateExact bm s ts).m_currentLaneTogglePoint
          ≤ (UpdateExact bm (runStateExact bm s ts) t).1.m_currentLaneTogglePoint
      ∧ (runStateExact bm s ts).m_currObject ≤ (UpdateExact bm (runStateExact bm s ts) t).1.m_currObject
      ∧ (runStateExact bm s ts).m_currLaserObject
          ≤ (UpdateExact bm (runStateExact bm s ts) t).1.m_currLaserObject
      ∧ (runStateExact bm s ts).m_currAlertObject
          ≤ (UpdateExact bm (runStateExact bm s ts) t).1.m_currAlertObject)
    ∧ ((bm.timing (runStateExact bm s ts).m_currentTiming).time
          ≤ (bm.timing (UpdateExact bm (runStateExact bm s ts) t).1.m_currentTiming).time
      ∧ ((UpdateExact bm (runStateExact bm s ts) t).1.m_currentLaneTogglePoint
            < bm.laneTogglePoints.length →
          (bm.laneToggle (runStateExact bm s ts).m_currentLaneTogglePoint).time
            ≤ (bm.laneToggle (UpdateExact bm (runStateExact bm s ts) t).1.m_currentLaneTogglePoint).time)
      ∧ ((UpdateExact bm (runStateExact bm s ts) t).1.m_currObject < bm.objectStates.length →
          (bm.obj (runStateExact bm s ts).m_currObject).time
            ≤ (bm.obj (UpdateExact bm (runStateExact bm s ts) t).1.m_currObject).time)
      ∧ ((UpdateExact bm (runStateExact bm s ts) t).1.m_currLaserObject < bm.objectStates.length →
          (bm.obj (runStateExact bm s ts).m_currLaserObject).time
            ≤ (bm.obj (UpdateExact bm (runStateExact bm s ts) t).1.m_currLaserObject).time)
      ∧ ((UpdateExact bm (runStateExact bm s ts) t).1.m_currAlertObject < bm.objectStates.length →
          (bm.obj (runStateExact bm s ts).m_currAlertObject).time
            ≤ (bm.obj (UpdateExact bm (runStateExact bm s ts) t).1.m_currAlertObject).time))
    ∧ ((∀ k, (runStateExact bm s ts).m_currentTiming < k →
          k ≤ (UpdateExact bm (runStateExact bm s ts) t).1.m_currentTiming → (bm.timing k).time ≤ t)
      ∧ (∀ k, (runStateExact bm s ts).m_currentLaneTogglePoint < k →
          k ≤ (UpdateExact bm (runStateExact bm s ts) t).1.m_currentLaneTogglePoint →
          (bm.laneToggle k).time ≤ t)
      ∧ (∀ k, (runStateExact bm s ts).m_currObject ≤ k →
          k < (UpdateExact bm (runStateExact bm s ts) t).1.m_currObject →
          objectEnters bm (runStateExact bm s ts).m_viewRange k = true →
          Notification.ObjectEntered k ∈ (UpdateExact bm (runStateExact bm s ts) t).2)
      ∧ (∀ k, (runStateExact bm s ts).m_currLaserObject ≤ k →
          k < (UpdateExact bm (runStateExact bm s ts) t).1.m_currLaserObject →
          laserEnters bm (runStateExact bm s ts).m_viewRange k = true →
          Notification.ObjectEntered k ∈ (UpdateExact bm (runStateExact bm s ts) t).2)
      ∧ (∀ k, (runStateExact bm s ts).m_currAlertObject ≤ k →
          k < (UpdateExact bm (runStateExact bm s ts) t).1.m_currAlertObject →
          alerts bm (runStateExact bm s ts).m_viewRange k = true →
          Notification.LaserAlertEntered k ∈ (UpdateExact bm (runStateExact bm s ts) t).2)) := by
  have hinv := Inv_run bm ts s [] (Inv_Reset bm s0 s initTime start hc hr)
  generalize runStateExact bm s ts = a at hinv ⊢
  generalize ([] : List Notification) ++ runLogExact bm s ts = log at hinv
  by_cases ht : t < a.m_playbackTime
  · rw [Update_of_rejected bm a t hinv.notCalibration ht]
    refine ⟨⟨le_refl _, le_refl _, le_refl _, le_refl _, le_refl _⟩,
      ⟨le_refl _, fun _ => le_refl _, fun _ => le_refl _, fun _ => le_refl _,
        fun _ => le_refl _⟩, ?_, ?_, ?_, ?_, ?_⟩
    all_goals
      intro k h1 h2
      simp only at h2
      omega
  · have hacc := not_lt.mp ht
    rw [Update_of_accepted bm a t hinv.notCalibration hacc]
    obtain ⟨_, _, _, _, _, _, _, _, _, f10, f11, f12, _⟩ := tick_frame bm a t
    obtain ⟨g1, g2⟩ := tick_timing bm a t
    have hinv2 := Inv_updateAccepted bm a t log hinv hacc
    have hT := scanTiming_ge bm a.m_currentTiming t
    have hLT := scanLaneToggle_ge bm a.m_currentLaneTogglePoint t
    have hO : a.m_currObject ≤ tickObjEnd bm a t := scanObjects_ge bm _ _
    have hL := tickLaserEnd_ge bm a t log hinv hacc
    have hA := tickAlertEnd_ge bm a t log hinv hacc
    rw [f10, f11, f12, g1, g2]
    refine ⟨⟨hT, hLT, hO, hL, hA⟩, ⟨?_, ?_, ?_, ?_, ?_⟩, ?_, ?_, ?_, ?_, ?_⟩
    · exact hts _ _ hT (scanTiming_lt bm _ _ hinv.timingLt)
    · intro h; exact hls _ _ hLT h
    · intro h; exact hos _ _ hO h
    · intro h; exact hos _ _ hL h
    · intro h; exact hos _ _ hA h
    · intro k h1 h2
      exact scanTiming_passed bm _ t k h1 h2
    · intro k h1 h2
      exact scanLaneToggle_passed bm _ t k h1 h2
    · intro k h1 h2 h3
      exact mem_tick_entered bm a t k (Or.inl ((mem_tickNewObjects bm a t k).2 ⟨h3, h1, h2⟩))
    · intro k h1 h2 h3
      exact mem_tick_entered bm a t k (Or.inr ((mem_tickNewLasers bm a t k).2 ⟨h3, h1, h2⟩))
    · intro k h1 h2 h3
      apply mem_tick_alert
      unfold tickAlerts
      rw [List.mem_filter, mem_sweepRange]
      exact ⟨⟨h1, h2⟩, h3⟩

namespace LineGraph

/-- The 32-bit difference of a key and itself is 0. -/
theorem sub32_self (a : Int) : sub32 a a = 0 := by
  unfold sub32 wrap32
  simp

theorem sortedKeys_cons (e : MapTime × Point) (l : List (MapTime × Point)) :
    SortedKeys (e :: l) ↔ (∀ x ∈ l, e.1 < x.1) ∧ SortedKeys l := by
  unfold SortedKeys
  simp only [List.map_cons, List.sorted_cons, List.mem_map, forall_exists_index, and_imp,
    forall_apply_eq_imp_iff₂]

theorem findIdx_append_of_false {α : Type} (p : α → Bool) (l1 l2 : List α)
    (h : ∀ x ∈ l1, p x = false) :
    (l1 ++ l2).findIdx p = l1.length + l2.findIdx p := by
  induction l1 with
  | nil => simp
  | cons x rest ih =>
    have hx : p x = false := h x (List.mem_cons_self x rest)
    have := ih (fun y hy => h y (List.mem_cons_of_mem x hy))
    simp only [List.cons_append, List.findIdx_cons, hx, cond_false, this, List.length_cons]
    omega

theorem findIdx_eq_length_of_false {α : Type} (p : α → Bool) (l : List α)
    (h : ∀ x ∈ l, p x = false) : l.findIdx p = l.length := by
  have := findIdx_append_of_false p l [] h
  simpa using this

theorem findIdx_lt_or_all_false {α : Type} (p : α → Bool) (l : List α) :
    (l.findIdx p = l.length ∧ ∀ x ∈ l, p x = false)
      ∨ ∃ l1 x l2, l = l1 ++ x :: l2 ∧ (∀ y ∈ l1, p y = false) ∧ p x = true
          ∧ l.findIdx p = l1.length := by
  induction l with
  | nil => left; simp
  | cons a rest ih =>
    by_cases ha : p a = true
    · right
      exact ⟨[], a, rest, rfl, by simp, ha, by simp [List.findIdx_cons, ha]⟩
    · have ha' : p a = false := by
        cases hv : p a
        · rfl
        · exact absurd hv ha
      rcases ih with ⟨h1, h2⟩ | ⟨l1, x, l2, h1, h2, h3, h4⟩
      · left
        refine ⟨by simp [List.findIdx_cons, ha', h1], ?_⟩
        intro y hy
        rw [List.mem_cons] at hy
        rcases hy with rfl | hy
        · exact ha'
        · exact h2 y hy
      · right
        refine ⟨a :: l1, x, l2, by rw [h1]; rfl, ?_, h3, by simp [List.findIdx_cons, ha', h4]⟩
        intro y hy
        rw [List.mem_cons] at hy
        rcases hy with rfl | hy
        · exact ha'
        · exact h2 y hy

/-- A sorted entry list splits around any of its entries. -/
theorem split_of_mem (l : List (MapTime × Point)) (hs : SortedKeys l) (e : MapTime × Point)
    (he : e ∈ l) :
    ∃ l1 l2, l = l1 ++ e :: l2 ∧ (∀ x ∈ l1, x.1 < e.1) ∧ (∀ x ∈ l2, e.1 < x.1) := by
  obtain ⟨l1, l2, h⟩ := List.append_of_mem he
  refine ⟨l1, l2, h, ?_, ?_⟩
  · intro x hx
    unfold SortedKeys at hs
    rw [h, List.map_append, List.map_cons] at hs
    have := (List.pairwise_append.mp hs).2.2 x.1 (List.mem_map_of_mem _ hx) e.1 (by simp)
    exact this
  · intro x hx
    unfold SortedKeys at hs
    rw [h, List.map_append, List.map_cons] at hs
    have h2 := (List.pairwise_append.mp hs).2.1
    rw [List.pairwise_cons] at h2
    exact h2.1 x.1 (List.mem_map_of_mem _ hx)

theorem getElem?_append_length {α : Type} (l1 l2 : List α) (e : α) :
    (l1 ++ e :: l2)[l1.length]? = some e := by
  rw [List.getElem?_append_right (le_refl _)]
  simp

theorem getElem?_append_length_succ {α : Type} (l1 l2 : List α) (e e2 : α) :
    (l1 ++ e :: e2 :: l2)[l1.length + 1]? = some e2 := by
  rw [List.getElem?_append_right (by omega)]
  simp

/-- At the key of a stored point `ValueAt` returns the point's post-value. -/
theorem ValueAt_of_mem (g : LineGraph) (hs : SortedKeys g.m_points) (t : MapTime) (p : Point)
    (hm : (t, p) ∈ g.m_points) : g.ValueAt t = some p.value.2 := by
  obtain ⟨l1, l2, hl, h1, h2⟩ := split_of_mem g.m_points hs (t, p) hm
  have hub : g.upper_bound t = l1.length + 1 + l2.findIdx (fun q => decide (t < q.1)) := by
    unfold upper_bound
    rw [hl, findIdx_append_of_false _ l1 _ (by
      intro x hx
      have := h1 x hx
      simp only [decide_eq_false_iff_not, not_lt]
      exact le_of_lt this)]
    simp [List.findIdx_cons]
    omega
  have hne : g.m_points.isEmpty = false := by rw [hl]; cases l1 <;> rfl
  unfold ValueAt
  rw [hne]
  simp only [Bool.false_eq_true, if_false]
  cases l2 with
  | nil =>
    have hub' : g.upper_bound t = l1.length + 1 := by simpa using hub
    have hpend : g.pend = l1.length + 1 := by unfold pend; rw [hl]; simp
    have hd : g.deref (l1.length + 1 - 1) = some (t, p) := by
      unfold deref; rw [hl]
      exact getElem?_append_length l1 [] (t, p)
    rw [hub', if_neg (by omega), hd]
    simp [hpend]
  | cons e2 rest =>
    have he2 : t < e2.1 := h2 e2 (List.mem_cons_self _ _)
    have hub' : g.upper_bound t = l1.length + 1 := by
      rw [hub]
      simp [List.findIdx_cons, he2]
    have hpend : g.pend = l1.length + 1 + (rest.length + 1) := by
      unfold pend; rw [hl]; simp; omega
    have hd : g.deref (l1.length + 1 - 1) = some (t, p) := by
      unfold deref; rw [hl]
      exact getElem?_append_length l1 (e2 :: rest) (t, p)
    have hd2 : g.deref (l1.length + 1) = some e2 := by
      unfold deref; rw [hl]
      exact getElem?_append_length_succ l1 rest (t, p) e2
    rw [hub', if_neg (by omega), hd]
    simp only [Option.some_bind]
    rw [if_neg (by rw [hpend]; omega), hd2]
    simp only [Option.some_bind]
    rw [if_neg (ne_of_lt he2)]
    simp [Lerp, sub32_self]

theorem mem_emplace (t : MapTime) (p : Point) (l : List (MapTime × Point))
    (x : MapTime × Point) : x ∈ emplace t p l ↔ x = (t, p) ∨ x ∈ l := by
  induction l with
  | nil => simp [emplace]
  | cons e rest ih =>
    simp only [emplace]
    split
    · simp
    · simp only [List.mem_cons, ih]
      tauto

theorem sortedKeys_emplace (t : MapTime) (p : Point) (l : List (MapTime × Point))
    (hs : SortedKeys l) (hne : ∀ x ∈ l, x.1 ≠ t) : SortedKeys (emplace t p l) := by
  induction l with
  | nil => simp [emplace, SortedKeys]
  | cons e rest ih =>
    rw [sortedKeys_cons] at hs
    simp only [emplace]
    split
    · rename_i hlt
      rw [sortedKeys_cons]
      refine ⟨?_, (sortedKeys_cons e rest).2 hs⟩
      intro x hx
      rw [List.mem_cons] at hx
      rcases hx with rfl | hx
      · exact hlt
      · exact lt_trans hlt (hs.1 x hx)
    · rename_i hlt
      rw [sortedKeys_cons]
      have het : e.1 < t := by
        have := hne e (List.mem_cons_self _ _)
        exact lt_of_le_of_ne (not_lt.mp hlt) this
      refine ⟨?_, ih hs.2 (fun x hx => hne x (List.mem_cons_of_mem _ hx))⟩
      intro x hx
      rw [mem_emplace] at hx
      rcases hx with rfl | hx
      · exact het
      · exact hs.1 x hx

theorem setSecond_append (v : ℚ) (l1 l2 : List (MapTime × Point)) (x : MapTime × Point) :
    setSecond v l1.length (l1 ++ x :: l2) = l1 ++ (x.1, ⟨(x.2.value.1, v)⟩) :: l2 := by
  induction l1 with
  | nil => rfl
  | cons a rest ih =>
    show a :: setSecond v rest.length (rest ++ x :: l2) = _
    rw [ih]
    rfl

/-- The two branches shared by the scalar and the point `Insert`. -/
theorem upsert_spec (l : List (MapTime × Point)) (hs : SortedKeys l) (t : MapTime)
    (pt : Point) :
    SortedKeys
        (if l.findIdx (fun p => p.1 == t) = l.length then emplace t pt l
          else setSecond pt.value.2 (l.findIdx (fun p => p.1 == t)) l)
      ∧ ∃ p, (t, p) ∈
          (if l.findIdx (fun p => p.1 == t) = l.length then emplace t pt l
            else setSecond pt.value.2 (l.findIdx (fun p => p.1 == t)) l)
        ∧ p.value.2 = pt.value.2 := by
  rcases findIdx_lt_or_all_false (fun (p : MapTime × Point) => p.1 == t) l with
    ⟨h1, h2⟩ | ⟨l1, x, l2, h1, _, h3, h4⟩
  · rw [if_pos h1]
    refine ⟨sortedKeys_emplace t pt l hs ?_, pt, (mem_emplace t pt l _).2 (Or.inl rfl), rfl⟩
    intro y hy heq
    have := h2 y hy
    simp [heq] at this
  · have hx : x.1 = t := by simpa using h3
    have hlt : l.findIdx (fun p => p.1 == t) ≠ l.length := by
      rw [h4, h1]; simp
    rw [if_neg hlt, h4]
    have hset : setSecond pt.value.2 l1.length l = l1 ++ (x.1, ⟨(x.2.value.1, pt.value.2)⟩) :: l2 := by
      rw [h1]; exact setSecond_append _ l1 l2 x
    rw [hset]
    constructor
    · unfold SortedKeys at hs ⊢
      rw [h1] at hs
      simpa using hs
    · refine ⟨⟨(x.2.value.1, pt.value.2)⟩, ?_, rfl⟩
      rw [← hx]
      simp

theorem Insert_points (g : LineGraph) (t : MapTime) (v : ℚ) :
    (g.Insert t v).m_points =
      if g.m_points.findIdx (fun p => p.1 == t) = g.m_points.length then
        emplace t (Point.ofValue v) g.m_points
      else setSecond (Point.ofValue v).value.2 (g.m_points.findIdx (fun p => p.1 == t))
        g.m_points := by
  unfold Insert find pend
  by_cases h : g.m_points.findIdx (fun p => p.1 == t) = g.m_points.length
  · simp only [h, if_true]
  · simp only [h, if_false]
    rfl

theorem InsertPoint_points (g : LineGraph) (t : MapTime) (pt : Point) :
    (g.InsertPoint t pt).m_points =
      if g.m_points.findIdx (fun p => p.1 == t) = g.m_points.length then
        emplace t pt g.m_points
      else setSecond pt.value.2 (g.m_points.findIdx (fun p => p.1 == t)) g.m_points := by
  unfold InsertPoint find pend
  by_cases h : g.m_points.findIdx (fun p => p.1 == t) = g.m_points.length
  · simp only [h, if_true]
  · simp only [h, if_false]

theorem scenarioGraph_WF : scenarioGraph.WF := by
  unfold WF
  decide

/-- C8: for every graph (keys strictly ascending, as in a `std::map`), every
time `t` and every value `v`, `ValueAt t` right after the scalar `Insert t v`
returns `v`; no point that does not exist is accessed. -/
theorem ValueAt_Insert (g : LineGraph) (hwf : g.WF) (t : MapTime) (v : ℚ) :
    (g.Insert t v).ValueAt t = some v := by
  obtain ⟨hs, p, hm, hp⟩ := upsert_spec g.m_points hwf t (Point.ofValue v)
  rw [← Insert_points] at hs hm
  rw [ValueAt_of_mem (g.Insert t v) hs t p hm, hp]
  rfl

theorem ValueAt_Insert_witness :
    scenarioGraph.WF ∧ (scenarioGraph.Insert 1000 5).ValueAt 1000 = some 5 :=
  ⟨scenarioGraph_WF, ValueAt_Insert scenarioGraph scenarioGraph_WF 1000 5⟩

/-- C9 (as stated, refuted): after inserting the jump (1;2) at 0 into the empty
graph, `ValueAt 0` is 2, the post-value, not the pre-value 1. -/
theorem ValueAt_jump_counterexample :
    ¬ (((⟨0, []⟩ : LineGraph).InsertPoint 0 ⟨(1, 2)⟩).ValueAt 0 = some 1) := by
  decide

/-- C9 (amended): for every graph, time `t` and values `a`, `b`, after inserting
the jump `Point(a, b)` at `t`, `ValueAt t` at that exact key returns the
post-value `b`. -/
theorem ValueAt_InsertPoint (g : LineGraph) (hwf : g.WF) (t : MapTime) (a b : ℚ) :
    (g.InsertPoint t ⟨(a, b)⟩).ValueAt t = some b := by
  obtain ⟨hs, p, hm, hp⟩ := upsert_spec g.m_points hwf t ⟨(a, b)⟩
  rw [← InsertPoint_points] at hs hm
  rw [ValueAt_of_mem (g.InsertPoint t ⟨(a, b)⟩) hs t p hm, hp]

theorem ValueAt_InsertPoint_witness :
    scenarioGraph.WF ∧ (scenarioGraph.InsertPoint 500 ⟨(3, 4)⟩).ValueAt 500 = some 4 :=
  ⟨scenarioGraph_WF, ValueAt_InsertPoint scenarioGraph scenarioGraph_WF 500 3 4⟩

end LineGraph

theorem scenarioBeatmap_timingSorted : TimingSorted scenarioBeatmap := by
  intro i j hij hj
  have hj1 : j < 1 := hj
  have hj0 : j = 0 := by omega
  have hi0 : i = 0 := by omega
  rw [hi0, hj0]

theorem scenarioBeatmap_laneSorted : LaneTogglesSorted scenarioBeatmap := by
  intro i j _ hj
  exact absurd hj (Nat.not_lt_zero j)

theorem hittableStep_effect (bm : Beatmap) (opt : MapTime) (s : BeatmapPlayback) (it : Nat) :
    (hittableStepExact bm opt s it).2.1.m_effectObjects =
      if fxBegins bm opt s it then ObjectSet.Add it s.m_effectObjects else s.m_effectObjects := by
  unfold hittableStepExact fxBegins
  cases hty : (bm.obj it).type <;> simp <;> repeat' split
  all_goals (try simp_all)
  all_goals
    rename_i h1 h2 h3
    exfalso
    obtain ⟨⟨⟨⟨h4, _⟩, _⟩, _⟩, _⟩ := h3
    exact absurd h2 (not_lt.mpr h4)

theorem hittableStep_fx_events (bm : Beatmap) (opt : MapTime) (s : BeatmapPlayback)
    (it : Nat) :
    (fxBegins bm opt s it = true
        ∧ (hittableStepExact bm opt s it).2.2 = [Notification.FXBegin it])
      ∨ (fxBegins bm opt s it = false
        ∧ ∀ n ∈ (hittableStepExact bm opt s it).2.2, isFX n = false) := by
  unfold hittableStepExact fxBegins
  cases hty : (bm.obj it).type <;> simp <;> repeat' split
  all_goals (try simp_all [isFX])

theorem holdStep_effect (bm : Beatmap) (opt : MapTime) (s : BeatmapPlayback) (it : Nat) :
    (holdStepExact bm opt s it).2.1.m_effectObjects =
      if fxEnds bm opt s it then s.m_effectObjects.erase it else s.m_effectObjects := by
  unfold holdStepExact fxEnds
  cases hty : (bm.obj it).type <;> simp <;> repeat' split
  all_goals (try simp_all)
  all_goals
    rename_i h1 h2 h3
    exfalso
    obtain ⟨⟨h4, _⟩, _⟩ := h3
    exact absurd h2 (not_lt.mpr h4)

theorem holdStep_fx_events (bm : Beatmap) (opt : MapTime) (s : BeatmapPlayback) (it : Nat) :
    (fxEnds bm opt s it = true
        ∧ (holdStepExact bm opt s it).2.2 = [Notification.FXEnd it])
      ∨ (fxEnds bm opt s it = false
        ∧ ∀ n ∈ (holdStepExact bm opt s it).2.2, isFX n = false) := by
  unfold holdStepExact fxEnds
  cases hty : (bm.obj it).type <;> simp <;> repeat' split
  all_goals (try simp_all [isFX])

theorem mem_ObjectSet_Add (x y : Nat) (l : List Nat) :
    y ∈ ObjectSet.Add x l ↔ y = x ∨ y ∈ l := by
  induction l with
  | nil => simp [ObjectSet.Add]
  | cons a rest ih =>
    simp only [ObjectSet.Add]
    split
    · simp
    · split
      · rename_i h1 h2
        subst h2
        simp
      · simp only [List.mem_cons, ih]
        tauto

theorem sorted_ObjectSet_Add (x : Nat) (l : List Nat) (h : l.Sorted (· < ·)) :
    (ObjectSet.Add x l).Sorted (· < ·) := by
  induction l with
  | nil => simp [ObjectSet.Add]
  | cons a rest ih =>
    simp only [ObjectSet.Add]
    have ha := List.sorted_cons.mp h
    split
    · rename_i hlt
      apply List.sorted_cons.mpr
      refine ⟨?_, h⟩
      intro b hb
      rw [List.mem_cons] at hb
      rcases hb with rfl | hb
      · exact hlt
      · exact lt_trans hlt (ha.1 b hb)
    · split
      · exact h
      · rename_i h1 h2
        apply List.sorted_cons.mpr
        refine ⟨?_, ih ha.2⟩
        intro b hb
        rw [mem_ObjectSet_Add] at hb
        rcases hb with rfl | hb
        · omega
        · exact ha.1 b hb

theorem count_of_sorted (l : List Nat) (h : l.Sorted (· < ·)) (i : Nat) :
    l.count i = if i ∈ l then 1 else 0 := by
  have hn : l.Nodup := h.nodup
  split
  · rename_i hm
    exact List.count_eq_one_of_mem hn hm
  · rename_i hm
    exact List.count_eq_zero_of_not_mem hm

theorem count_fx_of_not_fx (l : List Notification) (n : Notification)
    (hn : isFX n = true) (h : ∀ m ∈ l, isFX m = false) : l.count n = 0 := by
  rw [List.count_eq_zero]
  intro hmem
  have := h n hmem
  rw [hn] at this
  exact Bool.noConfusion this

theorem FxInv_append_not_fx (bm : Beatmap) (i : Nat) (ao t : MapTime) (effect : List Nat)
    (log ev : List Notification) (h : FxInv bm i ao t effect log)
    (hev : ∀ m ∈ ev, isFX m = false) : FxInv bm i ao t effect (log ++ ev) := by
  unfold FxInv at h ⊢
  simp only [List.count_append, count_fx_of_not_fx ev (Notification.FXBegin i) rfl hev,
    count_fx_of_not_fx ev (Notification.FXEnd i) rfl hev, Nat.add_zero]
  exact h

theorem FxInv_hittableStep (bm : Beatmap) (i : Nat) (opt : MapTime) (s : BeatmapPlayback)
    (it : Nat) (log : List Notification)
    (h : FxInv bm i s.audioOffset s.m_playbackTime s.m_effectObjects log) :
    FxInv bm i s.audioOffset s.m_playbackTime (hittableStepExact bm opt s it).2.1.m_effectObjects
      (log ++ (hittableStepExact bm opt s it).2.2) := by
  rw [hittableStep_effect]
  rcases hittableStep_fx_events bm opt s it with ⟨hb, hev⟩ | ⟨hb, hev⟩
  · rw [hev, if_pos hb]
    obtain ⟨h1, h2, h3, h4⟩ := h
    have hb' := hb
    unfold fxBegins at hb'
    simp only [Bool.and_eq_true, decide_eq_true_eq, Bool.not_eq_true', decide_eq_false_iff_not,
      ObjectSet.Contains] at hb'
    obtain ⟨⟨⟨⟨⟨_, _⟩, hne⟩, _⟩, hwin⟩, hnot⟩ := hb'
    have hsorted := sorted_ObjectSet_Add it _ h1
    have hcnt : (ObjectSet.Add it s.m_effectObjects).count i =
        if i = it then 1 else s.m_effectObjects.count i := by
      rw [count_of_sorted _ hsorted, count_of_sorted _ h1]
      by_cases hi : i = it
      · simp [hi, mem_ObjectSet_Add]
      · simp [hi, mem_ObjectSet_Add]
    have hE : [Notification.FXBegin it].count (Notification.FXEnd i) = 0 := by
      rw [List.count_eq_zero]; simp
    by_cases hi : i = it
    · subst hi
      have hc0 : s.m_effectObjects.count i = 0 := List.count_eq_zero_of_not_mem hnot
      refine ⟨hsorted, ?_, ?_, ?_⟩
      · simp only [List.count_append, List.count_singleton_self, hE, hcnt, if_true]
        omega
      · intro hnone; exact absurd hnone hne
      · intro hao
        obtain ⟨h5, h6⟩ := h4 hao
        have hnE : s.m_effectObjects.count i = 0 → True := fun _ => trivial
        have hz : log.count (Notification.FXEnd i) = 0 := by
          by_contra hpos
          have := h6 (Nat.pos_of_ne_zero hpos)
          linarith
        simp only [List.count_append, List.count_singleton_self, hE]
        refine ⟨by omega, ?_⟩
        intro hpos
        omega
    · have hB : [Notification.FXBegin it].count (Notification.FXBegin i) = 0 := by
        rw [List.count_eq_zero]
        simp
        exact fun e => hi e
      refine ⟨hsorted, ?_, ?_, ?_⟩
      · simp only [List.count_append, hB, hE, hcnt, if_neg hi]
        omega
      · intro hnone
        simp only [List.count_append, hB]
        exact h3 hnone
      · intro hao
        simp only [List.count_append, hB, hE, Nat.add_zero]
        exact h4 hao
  · rw [if_neg (by rw [hb]; exact Bool.false_ne_true)]
    exact FxInv_append_not_fx bm i _ _ _ log _ h hev

theorem FxInv_holdStep (bm : Beatmap) (i : Nat) (opt : MapTime) (s : BeatmapPlayback)
    (it : Nat) (log : List Notification)
    (h : FxInv bm i s.audioOffset s.m_playbackTime s.m_effectObjects log) :
    FxInv bm i s.audioOffset s.m_playbackTime (holdStepExact bm opt s it).2.1.m_effectObjects
      (log ++ (holdStepExact bm opt s it).2.2) := by
  rw [holdStep_effect]
  rcases holdStep_fx_events bm opt s it with ⟨hb, hev⟩ | ⟨hb, hev⟩
  · rw [hev, if_pos hb]
    obtain ⟨h1, h2, h3, h4⟩ := h
    have hb' := hb
    unfold fxEnds at hb'
    simp only [Bool.and_eq_true, decide_eq_true_eq, Bool.not_eq_true', decide_eq_false_iff_not,
      ObjectSet.Contains] at hb'
    obtain ⟨⟨⟨_, _⟩, hend⟩, hin⟩ := hb'
    have hsorted : (s.m_effectObjects.erase it).Sorted (· < ·) :=
      List.Pairwise.sublist (List.erase_sublist it _) h1
    have hB : [Notification.FXEnd it].count (Notification.FXBegin i) = 0 := by
      rw [List.count_eq_zero]; simp
    by_cases hi : i = it
    · subst hi
      have hc1 : s.m_effectObjects.count i = 1 := List.count_eq_one_of_mem h1.nodup hin
      have hc0 : (s.m_effectObjects.erase i).count i = 0 := by
        apply List.count_eq_zero_of_not_mem
        intro hm
        exact (List.Nodup.mem_erase_iff h1.nodup).mp hm |>.1 rfl
      refine ⟨hsorted, ?_, ?_, ?_⟩
      · simp only [List.count_append, List.count_singleton_self, hB, hc0]
        omega
      · intro hnone
        simp only [List.count_append, hB]
        exact h3 hnone
      · intro hao
        obtain ⟨h5, _⟩ := h4 hao
        simp only [List.count_append, hB, Nat.add_zero]
        exact ⟨h5, fun _ => hend⟩
    · have hE : [Notification.FXEnd it].count (Notification.FXEnd i) = 0 := by
        rw [List.count_eq_zero]
        simp
        exact fun e => hi e
      have hc : (s.m_effectObjects.erase it).count i = s.m_effectObjects.count i :=
        List.count_erase_of_ne hi _
      refine ⟨hsorted, ?_, ?_, ?_⟩
      · simp only [List.count_append, hB, hE, hc]
        omega
      · intro hnone
        simp only [List.count_append, hB]
        exact h3 hnone
      · intro hao
        simp only [List.count_append, hB, hE, Nat.add_zero]
        exact h4 hao
  · rw [if_neg (by rw [hb]; exact Bool.false_ne_true)]
    exact FxInv_append_not_fx bm i _ _ _ log _ h hev

theorem FxInv_mono (bm : Beatmap) (i : Nat) (ao t t2 : MapTime) (effect : List Nat)
    (log : List Notification) (h : FxInv bm i ao t effect log) (ht : t ≤ t2) :
    FxInv bm i ao t2 effect log := by
  obtain ⟨h1, h2, h3, h4⟩ := h
  refine ⟨h1, h2, h3, fun hao => ?_⟩
  obtain ⟨h5, h6⟩ := h4 hao
  exact ⟨h5, fun hpos => lt_of_lt_of_le (h6 hpos) ht⟩

theorem hittableStep_clock (bm : Beatmap) (opt : MapTime) (s : BeatmapPlayback) (it : Nat) :
    (hittableStepExact bm opt s it).2.1.audioOffset = s.audioOffset
    ∧ (hittableStepExact bm opt s it).2.1.m_playbackTime = s.m_playbackTime := by
  obtain ⟨E, R, C, M, h⟩ := hittableStep_state bm opt s it
  rw [h]
  exact ⟨rfl, rfl⟩

theorem holdStep_clock (bm : Beatmap) (opt : MapTime) (s : BeatmapPlayback) (it : Nat) :
    (holdStepExact bm opt s it).2.1.audioOffset = s.audioOffset
    ∧ (holdStepExact bm opt s it).2.1.m_playbackTime = s.m_playbackTime := by
  obtain ⟨E, h⟩ := holdStep_state bm opt s it
  rw [h]
  exact ⟨rfl, rfl⟩

theorem FxInv_sweepHittable (bm : Beatmap) (i : Nat) (opt : MapTime) (l : List Nat)
    (s : BeatmapPlayback) (log : List Notification)
    (h : FxInv bm i s.audioOffset s.m_playbackTime s.m_effectObjects log) :
    FxInv bm i s.audioOffset s.m_playbackTime (sweepHittableExact bm opt l s).2.1.m_effectObjects
      (log ++ (sweepHittableExact bm opt l s).2.2) := by
  induction l generalizing s log with
  | nil => simpa [sweepHittableExact] using h
  | cons it rest ih =>
    have hstep := FxInv_hittableStep bm i opt s it log h
    obtain ⟨c1, c2⟩ := hittableStep_clock bm opt s it
    rw [← c1, ← c2] at hstep
    have := ih (hittableStepExact bm opt s it).2.1 _ hstep
    rw [c1, c2] at this
    simp only [sweepHittableExact, ← List.append_assoc]
    exact this

theorem FxInv_sweepHold (bm : Beatmap) (i : Nat) (opt : MapTime) (l : List Nat)
    (s : BeatmapPlayback) (log : List Notification)
    (h : FxInv bm i s.audioOffset s.m_playbackTime s.m_effectObjects log) :
    FxInv bm i s.audioOffset s.m_playbackTime (sweepHoldExact bm opt l s).2.1.m_effectObjects
      (log ++ (sweepHoldExact bm opt l s).2.2) := by
  induction l generalizing s log with
  | nil => simpa [sweepHoldExact] using h
  | cons it rest ih =>
    have hstep := FxInv_holdStep bm i opt s it log h
    obtain ⟨c1, c2⟩ := holdStep_clock bm opt s it
    rw [← c1, ← c2] at hstep
    have := ih (holdStepExact bm opt s it).2.1 _ hstep
    rw [c1, c2] at this
    simp only [sweepHoldExact, ← List.append_assoc]
    exact this

theorem enterPhases_effect (bm : Beatmap) (s : BeatmapPlayback) (t : MapTime) :
    (enterPhases bm s t).1.m_effectObjects = s.m_effectObjects := by
  simp only [enterPhases, Step.andThen, fireInitialEffectState_eq, advanceTiming_eq,
    advanceLaneToggle_eq, countBars, advanceObjects_eq, advanceLasers_eq, checkLaserAlerts_eq]

theorem preludePhases_not_fx (bm : Beatmap) (s : BeatmapPlayback) (t : MapTime) :
    ∀ n ∈ (preludePhases bm s t).2, isFX n = false := by
  intro n hn
  simp only [preludePhases, Step.andThen, fireInitialEffectState_eq, advanceTiming_eq,
    advanceLaneToggle_eq, countBars, initialBatch, List.mem_append] at hn
  rcases hn with ((hn | hn) | hn) | hn
  · split at hn
    · simp at hn
    · simp at hn
      rcases hn with rfl | rfl | rfl <;> rfl
  · simp at hn
  · split at hn
    · simp at hn
      subst hn; rfl
    · simp at hn
  · split at hn
    · simp at hn
      subst hn; rfl
    · simp at hn

theorem enterPhases_not_fx (bm : Beatmap) (s : BeatmapPlayback) (t : MapTime) :
    ∀ n ∈ (enterPhases bm s t).2, isFX n = false := by
  obtain ⟨pre, h, _⟩ := enterPhases_events bm s t
  have hpre : pre = (preludePhases bm s t).2 := by
    have h2 : (enterPhases bm s t).2 =
        (preludePhases bm s t).2 ++ (tickNewObjects bm s t).map Notification.ObjectEntered
          ++ (tickNewLasers bm s t).map Notification.ObjectEntered
          ++ (tickAlerts bm s t).map Notification.LaserAlertEntered := by
      simp only [enterPhases, preludePhases, Step.andThen, fireInitialEffectState_eq,
        advanceTiming_eq, advanceLaneToggle_eq, countBars, advanceObjects_eq, advanceLasers_eq,
        checkLaserAlerts_eq, tickObjEnd, tickLaserEnd, tickAlertEnd, tickNewObjects,
        tickNewLasers, tickAlerts]
    rw [h] at h2
    simpa [List.append_assoc] using h2
  intro n hn
  rw [h, hpre] at hn
  simp only [List.mem_append, List.mem_map] at hn
  rcases hn with ((hn | ⟨k, _, rfl⟩) | ⟨k, _, rfl⟩) | ⟨k, _, rfl⟩
  · exact preludePhases_not_fx bm s t n hn
  · rfl
  · rfl
  · rfl

theorem FxInv_checkPassedHittable (bm : Beatmap) (i : Nat) (s : BeatmapPlayback)
    (log : List Notification)
    (h : FxInv bm i s.audioOffset s.m_playbackTime s.m_effectObjects log) :
    FxInv bm i s.audioOffset s.m_playbackTime (checkPassedHittableExact bm s).1.m_effectObjects
      (log ++ (checkPassedHittableExact bm s).2) :=
  FxInv_sweepHittable bm i (s.m_playbackTime - s.hittableObjectLeave) s.m_hittableObjects s
    log h

theorem FxInv_removePassedHold (bm : Beatmap) (i : Nat) (s : BeatmapPlayback)
    (log : List Notification)
    (h : FxInv bm i s.audioOffset s.m_playbackTime s.m_effectObjects log) :
    FxInv bm i s.audioOffset s.m_playbackTime (removePassedHoldExact bm s).1.m_effectObjects
      (log ++ (removePassedHoldExact bm s).2) :=
  FxInv_sweepHold bm i (s.m_playbackTime - s.hittableObjectLeave) s.m_holdObjects s log h

theorem FxInv_updateAccepted (bm : Beatmap) (i : Nat) (s : BeatmapPlayback) (t : MapTime)
    (log : List Notification)
    (h : FxInv bm i s.audioOffset s.m_playbackTime s.m_effectObjects log)
    (ht : s.m_playbackTime ≤ t) :
    FxInv bm i s.audioOffset t (updateAcceptedExact bm s t).1.m_effectObjects
      (log ++ (updateAcceptedExact bm s t).2) := by
  obtain ⟨e1, _, _, _, _, _, e7, _⟩ := enterPhases_frame bm s t
  have h0 : FxInv bm i (enterPhases bm s t).1.audioOffset (enterPhases bm s t).1.m_playbackTime
      (enterPhases bm s t).1.m_effectObjects (log ++ (enterPhases bm s t).2) := by
    rw [enterPhases_effect, e1, e7]
    exact FxInv_append_not_fx bm i _ _ _ log _
      (FxInv_mono bm i _ _ t _ log h ht) (enterPhases_not_fx bm s t)
  have h1 := FxInv_checkPassedHittable bm i (enterPhases bm s t).1 _ h0
  have hf := checkPassedHittable_frame bm (enterPhases bm s t).1
  simp only [frame, Prod.mk.injEq] at hf
  obtain ⟨_, _, _, _, g5, _, g7, _⟩ := hf
  have h1' : FxInv bm i (checkPassedHittableExact bm (enterPhases bm s t).1).1.audioOffset
      (checkPassedHittableExact bm (enterPhases bm s t).1).1.m_playbackTime
      (checkPassedHittableExact bm (enterPhases bm s t).1).1.m_effectObjects
      (log ++ (enterPhases bm s t).2 ++ (checkPassedHittableExact bm (enterPhases bm s t).1).2) := by
    rw [g5, g7]
    exact h1
  have h2 := FxInv_removePassedHold bm i (checkPassedHittableExact bm (enterPhases bm s t).1).1 _ h1'
  rw [g5, g7, e1, e7] at h2
  have hst : (updateAcceptedExact bm s t).1
      = (removePassedHoldExact bm (checkPassedHittableExact bm (enterPhases bm s t).1).1).1 := by
    simp only [updateAccepted_eq, Step.andThen]
  have hev : (updateAcceptedExact bm s t).2
      = (enterPhases bm s t).2 ++ (checkPassedHittableExact bm (enterPhases bm s t).1).2
        ++ (removePassedHoldExact bm (checkPassedHittableExact bm (enterPhases bm s t).1).1).2 := by
    simp only [updateAccepted_eq, Step.andThen]
  rw [hst, hev, ← List.append_assoc, ← List.append_assoc]
  exact h2

theorem FxInv_run (bm : Beatmap) (i : Nat) (ts : List MapTime) (s : BeatmapPlayback)
    (log : List Notification) (hc : s.m_isCalibration = false)
    (h : FxInv bm i s.audioOffset s.m_playbackTime s.m_effectObjects log) :
    FxInv bm i s.audioOffset (runStateExact bm s ts).m_playbackTime
      (runStateExact bm s ts).m_effectObjects (log ++ runLogExact bm s ts) := by
  induction ts generalizing s log with
  | nil => simpa [runStateExact, runLogExact, runTraceExact] using h
  | cons t rest ih =>
    obtain ⟨_, _, _, _, _, c6, c7⟩ := Update_config bm s t hc
    rw [runLog_cons, ← List.append_assoc]
    simp only [runStateExact]
    rw [← c6]
    apply ih _ _ c7
    rw [c6]
    by_cases ht : t < s.m_playbackTime
    · rw [Update_of_rejected bm s t hc ht]
      simpa using h
    · rw [Update_of_accepted bm s t hc (not_lt.mp ht), (tick_frame bm s t).1]
      exact FxInv_updateAccepted bm i s t log h (not_lt.mp ht)

/-- In exact integers: in any run after a successful `Reset`, outside calibration
mode, an object whose `effectType` is `None` gets neither `FXBegin` nor `FXEnd`,
whatever the audio offset; and when `audioOffset ≥ -100` every object gets
`FXBegin` at most once and `FXEnd` at most once. -/
theorem fx_at_most_once_of_offset_exact (bm : Beatmap) (s0 s : BeatmapPlayback)
    (initTime start : MapTime) (hc : s0.m_isCalibration = false)
    (hr : Reset bm s0 initTime start = (true, s)) (ts : List MapTime) (i : Nat) :
    ((bm.obj i).effectType = EffectType.None →
        (runLogExact bm s ts).count (Notification.FXBegin i) = 0
        ∧ (runLogExact bm s ts).count (Notification.FXEnd i) = 0)
    ∧ (-100 ≤ s.audioOffset →
        (runLogExact bm s ts).count (Notification.FXBegin i) ≤ 1
        ∧ (runLogExact bm s ts).count (Notification.FXEnd i) ≤ 1) := by
  obtain ⟨_, _, _, _, _, _, r7, _, _, _, _, _, _, _, _, r16⟩ :=
    Reset_fields bm s0 s initTime start hr
  have hcs : s.m_isCalibration = false := by rw [r7]; exact hc
  have h0 : FxInv bm i s.audioOffset s.m_playbackTime s.m_effectObjects [] := by
    rw [r16]
    refine ⟨List.sorted_nil, by simp, fun _ => by simp, fun _ => ⟨by simp, fun h => ?_⟩⟩
    simp at h
  have h := FxInv_run bm i ts s [] hcs h0
  rw [List.nil_append] at h
  obtain ⟨_, h2, h3, h4⟩ := h
  constructor
  · intro hnone
    have := h3 hnone
    exact ⟨this, by omega⟩
  · intro hao
    obtain ⟨h5, _⟩ := h4 hao
    exact ⟨h5, by omega⟩

namespace LineGraph

theorem le_last_of_sorted (l : List (MapTime × Point)) (hs : SortedKeys l)
    (last : MapTime × Point) (hl : l.getLast? = some last) :
    ∀ x ∈ l, x.1 ≤ last.1 := by
  intro x hx
  have hmem : last ∈ l := List.mem_of_getLast?_eq_some hl
  obtain ⟨l1, l2, h, h1, h2⟩ := split_of_mem l hs last hmem
  have hl2 : l2 = [] := by
    cases l2 with
    | nil => rfl
    | cons e rest =>
      exfalso
      rw [h] at hl
      have hlast : (l1 ++ last :: e :: rest).getLast? = (e :: rest).getLast? := by
        rw [List.getLast?_append_of_ne_nil _ (by simp)]
        simp [List.getLast?_cons_cons]
      rw [hlast] at hl
      have hm2 : last ∈ e :: rest := List.mem_of_getLast?_eq_some hl
      exact absurd (h2 last hm2) (lt_irrefl _)
  rw [h, hl2, List.mem_append] at hx
  rcases hx with hx | hx
  · exact le_of_lt (h1 x hx)
  · simp at hx
    rw [hx]

/-- The range in which `Integrate` is not defined: on every graph (keys strictly ascending) a range that
starts before the last point and ends after it makes `Integrate` read
`endIt->first` at `m_points.end()`, in either order of the arguments. -/
theorem Integrate_undefined_past_last (g : LineGraph) (hwf : g.WF) (last : MapTime × Point)
    (hl : g.m_points.getLast? = some last) (b e : MapTime) (hb : b < last.1)
    (he : last.1 < e) :
    g.Integrate b e = none ∧ g.Integrate e b = none := by
  have hbe : b < e := lt_trans hb he
  have hle := le_last_of_sorted g.m_points hwf last hl
  have hmem : last ∈ g.m_points := List.mem_of_getLast?_eq_some hl
  have hlb : g.lower_bound e = g.pend := by
    unfold lower_bound pend
    apply findIdx_eq_length_of_false
    intro x hx
    simp only [decide_eq_false_iff_not, not_le]
    exact lt_of_le_of_lt (hle x hx) he
  have hpos : 0 < g.pend := by
    unfold pend
    exact List.length_pos_of_mem hmem
  have hub : g.upper_bound b < g.pend := by
    unfold upper_bound pend
    apply List.findIdx_lt_length_of_exists
    exact ⟨last, hmem, by simpa using hb⟩
  have hderef : g.deref g.pend = none := by
    unfold deref pend
    simp
  have hbi : ∀ bi, g.deref (g.upper_bound b) = some bi → ¬ e ≤ bi.1 := by
    intro bi hbi
    unfold deref at hbi
    have hm : bi ∈ g.m_points := List.getElem?_mem hbi
    exact not_le.mpr (lt_of_le_of_lt (hle bi hm) he)
  have key : ∀ (x y : MapTime), (if y < x then y else x) = b → (if y < x then x else y) = e →
      x ≠ y → g.Integrate x y = none := by
    intro x y h1 h2 hxy
    unfold Integrate
    rw [if_neg hxy]
    simp only [h1, h2]
    rw [if_neg (ne_of_lt hub)]
    cases hd : g.deref (g.upper_bound b) with
    | none => rfl
    | some bi =>
      simp only [Option.some_bind]
      rw [if_neg (hbi bi hd)]
      cases hres : (if g.upper_bound b = 0 then some (bi.2.value.1 * ((sub32 bi.1 b : Int) : ℚ))
          else if b ≠ bi.1 then g.IntegrateWithin (g.upper_bound b - 1) b bi.1 else some 0) with
      | none => rfl
      | some result =>
        simp only [Option.some_bind]
        rw [hlb, if_neg (Nat.pos_iff_ne_zero.mp hpos), hderef]
        rfl
  constructor
  · exact key b e (by rw [if_neg (not_lt.mpr (le_of_lt hbe))])
      (by rw [if_neg (not_lt.mpr (le_of_lt hbe))]) (ne_of_lt hbe)
  · exact key e b (by rw [if_pos hbe]) (by rw [if_pos hbe]) (ne_of_gt hbe)

theorem Integrate_undefined_past_last_witness :
    scenarioGraph.Integrate 500 1001 = none ∧ scenarioGraph.Integrate 1001 500 = none :=
  Integrate_undefined_past_last scenarioGraph scenarioGraph_WF (1000, ⟨(2, 2)⟩) (by decide)
    500 1001 (by decide) (by decide)

/-- C12: `Integrate` does not depend on the order of its two arguments, and
over a zero-length range it returns 0, on every graph. -/
theorem Integrate_order_independent (g : LineGraph) (a b : MapTime) :
    g.Integrate a b = g.Integrate b a ∧ g.Integrate a a = some 0 := by
  constructor
  · by_cases hab : a = b
    · rw [hab]
    · have hba : ¬ b = a := fun h => hab h.symm
      unfold Integrate
      rw [if_neg hab, if_neg hba]
      rcases lt_or_gt_of_ne hab with h | h
      · rw [if_neg (not_lt.mpr (le_of_lt h)), if_neg (not_lt.mpr (le_of_lt h)), if_pos h, if_pos h]
      · rw [if_pos h, if_pos h, if_neg (not_lt.mpr (le_of_lt h)), if_neg (not_lt.mpr (le_of_lt h))]
  · unfold Integrate
    rw [if_pos rfl]

/-- C13: on the empty graph with default 0 the public `Integrate(0, 1000)`
reads the last point of an empty store, while the overload with an iterator
returns the default times the length of the range. -/
theorem Integrate_empty_undefined :
    (⟨0, []⟩ : LineGraph).Integrate 0 1000 = none
      ∧ (⟨0, []⟩ : LineGraph).IntegrateWithin 0 0 1000 = some 0
      ∧ (⟨3, []⟩ : LineGraph).Integrate 0 1000 = none
      ∧ (⟨3, []⟩ : LineGraph).IntegrateWithin 0 0 1000 = some 3000 := by
  refine ⟨by decide, ?_, by decide, ?_⟩
  · with_unfolding_all rfl
  · with_unfolding_all rfl

/-- On an empty graph the public `Integrate` is undefined over every range of
positive length, whatever the default. -/
theorem Integrate_empty (d : ℚ) (a b : MapTime) (hab : a ≠ b) :
    (⟨d, []⟩ : LineGraph).Integrate a b = none := by
  unfold Integrate
  rw [if_neg hab]
  simp [upper_bound, pend, rbegin]

theorem Lerp_same (a x : ℚ) : Lerp a a x = a := by
  unfold Lerp; ring

theorem upper_bound_cons (d : ℚ) (p : MapTime × Point) (l : List (MapTime × Point)) (t : MapTime) :
    (⟨d, p :: l⟩ : LineGraph).upper_bound t
      = if t < p.1 then 0 else (⟨d, l⟩ : LineGraph).upper_bound t + 1 := by
  unfold upper_bound
  simp only [List.findIdx_cons]
  by_cases h : t < p.1
  · simp [h]
  · simp [h]

theorem upper_bound_pos_of_le (d : ℚ) (p : MapTime × Point) (l : List (MapTime × Point))
    (t : MapTime) (h : p.1 ≤ t) : 1 ≤ (⟨d, p :: l⟩ : LineGraph).upper_bound t := by
  rw [upper_bound_cons, if_neg (not_lt.mpr h)]
  omega

/-- Dropping a first point that lies before the left neighbour of `t` does not
change `ValueAt`. -/
theorem ValueAt_cons_skip (d : ℚ) (p q : MapTime × Point) (rest : List (MapTime × Point))
    (t : MapTime) (hp : p.1 ≤ t) (hq : q.1 ≤ t) :
    (⟨d, p :: q :: rest⟩ : LineGraph).ValueAt t = (⟨d, q :: rest⟩ : LineGraph).ValueAt t := by
  have hu := upper_bound_cons d p (q :: rest) t
  rw [if_neg (not_lt.mpr hp)] at hu
  have hpos := upper_bound_pos_of_le d q rest t hq
  generalize hU : (⟨d, q :: rest⟩ : LineGraph).upper_bound t = u at hu hpos
  obtain ⟨k, rfl⟩ : ∃ k, u = k + 1 := ⟨u - 1, by omega⟩
  unfold ValueAt
  rw [hu, hU]
  simp only [List.isEmpty_cons, Bool.false_eq_true, if_false, deref, pend, List.length_cons,
    Nat.add_sub_cancel, List.getElem?_cons_succ]
  rw [if_neg (by omega), if_neg (by omega)]
  have e : (k + 1 + 1 = rest.length + 1 + 1) = (k + 1 = rest.length + 1) := by
    apply propext; omega
  simp only [e]

/-- On a graph with strictly ascending keys `ValueAt` is defined at every time
and is the piecewise-linear function through the stored points. -/
theorem ValueAt_eq_valueAtList (d : ℚ) (l : List (MapTime × Point)) (hs : SortedKeys l)
    (t : MapTime) : (⟨d, l⟩ : LineGraph).ValueAt t = some (valueAtList d l t) := by
  induction l with
  | nil => rfl
  | cons p l ih =>
    cases l with
    | nil =>
      unfold ValueAt
      rw [upper_bound_cons]
      by_cases h : t < p.1
      · simp [h, deref, valueAtList]
      · simp [h, deref, valueAtList, upper_bound, pend]
    | cons q rest =>
      have hpq : p.1 < q.1 := ((sortedKeys_cons p (q :: rest)).mp hs).1 q (List.mem_cons_self _ _)
      have hs' : SortedKeys (q :: rest) := ((sortedKeys_cons p (q :: rest)).mp hs).2
      by_cases h1 : t < p.1
      · unfold ValueAt
        rw [upper_bound_cons]
        simp [h1, deref, valueAtList]
      · by_cases h2 : t < q.1
        · unfold ValueAt
          rw [upper_bound_cons, if_neg h1, upper_bound_cons, if_pos h2]
          simp [h1, h2, deref, valueAtList, pend, ne_of_lt hpq]
        · rw [ValueAt_cons_skip d p q rest t (not_lt.mp h1) (not_lt.mp h2), ih hs']
          simp [valueAtList, h1, h2]

theorem ValueAt_eq (g : LineGraph) (hwf : g.WF) (t : MapTime) :
    g.ValueAt t = some (valueAtList g.m_default g.m_points t) :=
  ValueAt_eq_valueAtList g.m_default g.m_points hwf t

theorem valueAtList_before (d : ℚ) (p : MapTime × Point) (l : List (MapTime × Point))
    (t : MapTime) (h : t < p.1) : valueAtList d (p :: l) t = p.2.value.1 := by
  cases l <;> simp [valueAtList, h]

theorem valueAtList_skip (d : ℚ) (p q : MapTime × Point) (l : List (MapTime × Point))
    (t : MapTime) (hp : p.1 ≤ t) (hq : q.1 ≤ t) :
    valueAtList d (p :: q :: l) t = valueAtList d (q :: l) t := by
  simp [valueAtList, not_lt.mpr hp, not_lt.mpr hq]

/-- From the last key on, the value is the last point's post-value. -/
theorem valueAtList_after (d : ℚ) (l1 : List (MapTime × Point)) (p : MapTime × Point)
    (hs : SortedKeys (l1 ++ [p])) (t : MapTime) (h : p.1 ≤ t) :
    valueAtList d (l1 ++ [p]) t = p.2.value.2 := by
  induction l1 with
  | nil => simp [valueAtList, not_lt.mpr h]
  | cons a l1 ih =>
    have hs' : SortedKeys (l1 ++ [p]) := ((sortedKeys_cons a _).mp hs).2
    have hap : a.1 < p.1 := ((sortedKeys_cons a _).mp hs).1 p (by simp)
    cases l1 with
    | nil =>
      simp only [List.cons_append, List.nil_append]
      rw [valueAtList_skip d a p [] t (le_trans (le_of_lt hap) h) h]
      simp [valueAtList, not_lt.mpr h]
    | cons b l1 =>
      have hab : a.1 < b.1 := ((sortedKeys_cons a _).mp hs).1 b (by simp)
      have hbp : b.1 < p.1 := ((sortedKeys_cons b _).mp hs').1 p (by simp)
      simp only [List.cons_append]
      rw [valueAtList_skip d a b _ t (le_trans (le_of_lt hap) h)
        (le_trans (le_of_lt hbp) h)]
      exact ih hs'

/-- Between two neighbouring keys the value is the interpolation from the left
post-value to the right pre-value. -/
theorem valueAtList_between (d : ℚ) (l1 : List (MapTime × Point)) (p q : MapTime × Point)
    (l2 : List (MapTime × Point)) (hs : SortedKeys (l1 ++ p :: q :: l2)) (t : MapTime)
    (hp : p.1 ≤ t) (hq : t < q.1) :
    valueAtList d (l1 ++ p :: q :: l2) t
      = Lerp p.2.value.2 q.2.value.1 (((sub32 t p.1 : Int) : ℚ) / ((sub32 q.1 p.1 : Int) : ℚ)) := by
  induction l1 with
  | nil => simp [valueAtList, not_lt.mpr hp, hq]
  | cons a l1 ih =>
    have hs' : SortedKeys (l1 ++ p :: q :: l2) := ((sortedKeys_cons a _).mp hs).2
    have hap : a.1 < p.1 := ((sortedKeys_cons a _).mp hs).1 p (by simp)
    cases l1 with
    | nil =>
      simp only [List.cons_append, List.nil_append]
      rw [valueAtList_skip d a p _ t (le_trans (le_of_lt hap) hp) hp]
      simp [valueAtList, not_lt.mpr hp, hq]
    | cons b l1 =>
      have hbp : b.1 < p.1 := ((sortedKeys_cons b _).mp hs').1 p (by simp)
      simp only [List.cons_append]
      rw [valueAtList_skip d a b _ t (le_trans (le_of_lt hap) hp)
        (le_trans (le_of_lt hbp) hp)]
      exact ih hs'

/-- The point with the greatest key at or before `t` and the point with the
least key after `t` are neighbours in the store. -/
theorem neighbours_of_bracket (l : List (MapTime × Point)) (hs : SortedKeys l) (t : MapTime)
    (p1 p2 : MapTime × Point) (h1 : p1 ∈ l) (h2 : p2 ∈ l) (h1t : p1.1 ≤ t) (h2t : t < p2.1)
    (hmax : ∀ q ∈ l, q.1 ≤ t → q.1 ≤ p1.1) (hmin : ∀ q ∈ l, t < q.1 → p2.1 ≤ q.1) :
    ∃ l1 l2, l = l1 ++ p1 :: p2 :: l2 := by
  obtain ⟨l1, r, hl, hl1, hr⟩ := split_of_mem l hs p1 h1
  have hrt : ∀ x ∈ r, t < x.1 := by
    intro x hx
    by_contra hc
    have hxl : x ∈ l := by rw [hl]; simp [hx]
    have := hmax x hxl (not_lt.mp hc)
    exact absurd (hr x hx) (not_lt.mpr this)
  have h2r : p2 ∈ r := by
    rw [hl, List.mem_append, List.mem_cons] at h2
    rcases h2 with h | h | h
    · exact absurd (lt_of_lt_of_le (hl1 p2 h) h1t) (not_lt.mpr (le_of_lt h2t))
    · rw [h] at h2t
      exact absurd h2t (not_lt.mpr h1t)
    · exact h
  cases r with
  | nil => simp at h2r
  | cons x r =>
    refine ⟨l1, r, ?_⟩
    have hxl : x ∈ l := by rw [hl]; simp
    have hle : p2.1 ≤ x.1 := hmin x hxl (hrt x (List.mem_cons_self _ _))
    rw [List.mem_cons] at h2r
    rcases h2r with h | h
    · rw [hl, h]
    · have hsr : SortedKeys (x :: r) := by
        unfold SortedKeys at hs ⊢
        rw [hl, List.map_append, List.map_cons] at hs
        exact ((List.pairwise_append.mp hs).2.1).of_cons
      have := ((sortedKeys_cons x r).mp hsr).1 p2 h
      exact absurd this (not_lt.mpr hle)

theorem lookup_cons (d : ℚ) (e : MapTime × Point) (l : List (MapTime × Point)) (t' : MapTime) :
    (⟨d, e :: l⟩ : LineGraph).lookup t'
      = if e.1 = t' then some e.2 else (⟨d, l⟩ : LineGraph).lookup t' := by
  unfold lookup
  by_cases h : e.1 = t'
  · rw [if_pos h, List.find?_cons_of_pos _ (by simpa using h)]
    rfl
  · rw [if_neg h, List.find?_cons_of_neg _ (by simpa using h)]

theorem lookup_emplace (t : MapTime) (pt : Point) (l : List (MapTime × Point))
    (hne : ∀ x ∈ l, x.1 ≠ t) (d : ℚ) (t' : MapTime) :
    (⟨d, emplace t pt l⟩ : LineGraph).lookup t'
      = if t' = t then some pt else (⟨d, l⟩ : LineGraph).lookup t' := by
  induction l with
  | nil =>
    simp only [emplace]
    rw [lookup_cons]
    by_cases h : t' = t
    · rw [if_pos h.symm, if_pos h]
    · rw [if_neg (fun e => h e.symm), if_neg h]
  | cons e rest ih =>
    have het : e.1 ≠ t := hne e (List.mem_cons_self _ _)
    have ih' := ih (fun x hx => hne x (List.mem_cons_of_mem _ hx))
    simp only [emplace]
    by_cases hlt : t < e.1
    · rw [if_pos hlt, lookup_cons]
      by_cases h : t' = t
      · rw [if_pos h.symm, if_pos h]
      · rw [if_neg (fun e => h e.symm), if_neg h]
    · rw [if_neg hlt]
      by_cases h : t' = t
      · subst h
        simp [lookup_cons, ih', het]
      · simp [lookup_cons, ih', h]

theorem lookup_setSecond (v : ℚ) (t : MapTime) (l : List (MapTime × Point)) (d : ℚ)
    (t' : MapTime) :
    (⟨d, setSecond v (l.findIdx (fun p => p.1 == t)) l⟩ : LineGraph).lookup t'
      = if t' = t then ((⟨d, l⟩ : LineGraph).lookup t).map (fun p => ⟨(p.value.1, v)⟩)
        else (⟨d, l⟩ : LineGraph).lookup t' := by
  induction l with
  | nil =>
    by_cases h : t' = t
    · rw [if_pos h]; rfl
    · rw [if_neg h]; rfl
  | cons e rest ih =>
    rw [List.findIdx_cons]
    by_cases he : e.1 = t
    · have hb : (e.1 == t) = true := by simpa using he
      simp only [hb, cond_true, setSecond]
      rw [lookup_cons, lookup_cons, lookup_cons]
      by_cases h : t' = t
      · rw [if_pos h, if_pos (by rw [h]; exact he), if_pos he]
        rfl
      · rw [if_neg h, if_neg (by rw [he]; exact fun e => h e.symm),
          if_neg (by rw [he]; exact fun e => h e.symm)]
    · have hb : (e.1 == t) = false := by simpa using he
      simp only [hb, cond_false, setSecond]
      by_cases h : t' = t
      · subst h
        simp [lookup_cons, ih, he]
      · simp [lookup_cons, ih, h]

theorem absent_of_findIdx (l : List (MapTime × Point)) (t : MapTime)
    (h : l.findIdx (fun p => p.1 == t) = l.length) : ∀ x ∈ l, x.1 ≠ t := by
  intro x hx hxt
  have hlt : l.findIdx (fun p => p.1 == t) < l.length :=
    List.findIdx_lt_length.mpr ⟨x, hx, by simpa using hxt⟩
  omega

theorem lookup_none_of_absent (g : LineGraph) (t : MapTime)
    (h : g.m_points.findIdx (fun p => p.1 == t) = g.m_points.length) : g.lookup t = none := by
  unfold lookup
  rw [List.find?_eq_none.mpr (by
    intro x hx
    simpa using absent_of_findIdx g.m_points t h x hx)]
  rfl

theorem lookup_some_of_present (g : LineGraph) (t : MapTime)
    (h : ¬ g.m_points.findIdx (fun p => p.1 == t) = g.m_points.length) :
    ∃ p, g.lookup t = some p := by
  unfold lookup
  cases hf : g.m_points.find? (fun p => p.1 == t) with
  | none =>
    exfalso
    apply h
    rw [List.find?_eq_none] at hf
    exact findIdx_eq_length_of_false _ _ (by
      intro x hx
      simpa using hf x hx)
  | some y => exact ⟨y.2, rfl⟩

/-- C18 (as stated, refuted): after the scalar `Insert(0, 1)` and then
`Insert(0, 2)` the point at 0 is the jump (1, 2), not the continuous point
(2, 2). -/
theorem Insert_existing_counterexample :
    ¬ ((((⟨0, []⟩ : LineGraph).Insert 0 1).Insert 0 2).lookup 0 = some ⟨(2, 2)⟩) := by
  decide

/-- C18 (amended): for every graph (keys strictly ascending), time `t` and
value `v`, after the scalar `Insert(t, v)` the keys are still strictly
ascending (so `t` is stored once), the point at `t` has post-value `v`, its
pre-value is `v` when no point existed at `t` and the earlier pre-value when
one did, and the point at every other key is unchanged. -/
theorem Insert_upsert (g : LineGraph) (hwf : g.WF) (t : MapTime) (v : ℚ) :
    (g.Insert t v).WF
      ∧ (g.Insert t v).lookup t
          = some ⟨(((g.lookup t).map (fun p => p.value.1)).getD v, v)⟩
      ∧ ∀ t', t' ≠ t → (g.Insert t v).lookup t' = g.lookup t' := by
  have hpts : ∀ t', (g.Insert t v).lookup t'
      = (⟨g.m_default, (g.Insert t v).m_points⟩ : LineGraph).lookup t' := fun _ => rfl
  have hg : ∀ t', (⟨g.m_default, g.m_points⟩ : LineGraph).lookup t' = g.lookup t' := fun _ => rfl
  refine ⟨?_, ?_, ?_⟩
  · have := (upsert_spec g.m_points hwf t (Point.ofValue v)).1
    rw [← Insert_points] at this
    exact this
  · rw [hpts, Insert_points]
    by_cases h : g.m_points.findIdx (fun p => p.1 == t) = g.m_points.length
    · rw [if_pos h, lookup_emplace _ _ _ (absent_of_findIdx _ _ h), if_pos rfl,
        lookup_none_of_absent g t h]
      rfl
    · obtain ⟨p, hp⟩ := lookup_some_of_present g t h
      rw [if_neg h, lookup_setSecond, if_pos rfl, hg, hp]
      rfl
  · intro t' ht'
    rw [hpts, Insert_points]
    by_cases h : g.m_points.findIdx (fun p => p.1 == t) = g.m_points.length
    · rw [if_pos h, lookup_emplace _ _ _ (absent_of_findIdx _ _ h), if_neg ht', hg]
    · rw [if_neg h, lookup_setSecond, if_neg ht', hg]

theorem Insert_upsert_witness :
    scenarioGraph.WF
      ∧ (scenarioGraph.Insert 1000 5).WF
      ∧ (scenarioGraph.Insert 1000 5).lookup 1000
          = some ⟨(((scenarioGraph.lookup 1000).map (fun p => p.value.1)).getD 5, 5)⟩
      ∧ ∀ t', t' ≠ 1000 → (scenarioGraph.Insert 1000 5).lookup t' = scenarioGraph.lookup t' :=
  ⟨scenarioGraph_WF, Insert_upsert scenarioGraph scenarioGraph_WF 1000 5⟩

theorem mem_zip_tail (l1 : List (MapTime × Point)) (p q : MapTime × Point)
    (l2 : List (MapTime × Point)) :
    (p, q) ∈ (l1 ++ p :: q :: l2).zip (l1 ++ p :: q :: l2).tail := by
  induction l1 with
  | nil => simp
  | cons a l1 ih =>
    cases l1 with
    | nil => simp
    | cons b l1 =>
      simp only [List.cons_append, List.tail_cons, List.zip_cons_cons, List.mem_cons]
      right
      simpa using ih

theorem emplace_of_lt (t : MapTime) (pt : Point) (l : List (MapTime × Point))
    (h : ∀ x ∈ l, t < x.1) : emplace t pt l = (t, pt) :: l := by
  cases l with
  | nil => rfl
  | cons e rest => simp [emplace, h e (List.mem_cons_self _ _)]

/-- Inserting, after the point `p`, a continuous point that holds `p`'s
post-value leaves the piecewise-linear function unchanged, provided the
segment from `p` to its right neighbour is flat. -/
theorem valueAtList_emplace (d : ℚ) (T : MapTime) (l1 : List (MapTime × Point))
    (p : MapTime × Point) (l2 : List (MapTime × Point)) (hs : SortedKeys (l1 ++ p :: l2))
    (hp : p.1 < T) (h2 : ∀ x ∈ l2, T < x.1)
    (hflat : ∀ q ∈ l2.head?, p.2.value.2 = q.2.value.1) (x : MapTime) :
    valueAtList d (emplace T (Point.ofValue p.2.value.2) (l1 ++ p :: l2)) x
      = valueAtList d (l1 ++ p :: l2) x := by
  induction l1 with
  | nil =>
    simp only [List.nil_append, emplace, if_neg (not_lt.mpr (le_of_lt hp))]
    rw [emplace_of_lt T _ l2 h2]
    cases l2 with
    | nil =>
      simp only [valueAtList, Point.ofValue]
      split_ifs <;> first | rfl | exact Lerp_same _ _
    | cons q r =>
      have hq : p.2.value.2 = q.2.value.1 := hflat q (by simp)
      have hTq : T < q.1 := h2 q (List.mem_cons_self _ _)
      simp only [valueAtList, Point.ofValue]
      rw [← hq]
      simp only [Lerp_same]
      split_ifs <;> first | rfl | (exfalso; linarith)
  | cons a l1 ih =>
    have hs' : SortedKeys (l1 ++ p :: l2) := ((sortedKeys_cons a _).mp hs).2
    have hap : a.1 < p.1 := ((sortedKeys_cons a _).mp hs).1 p (by simp)
    have ih' := ih hs'
    simp only [List.cons_append, emplace, if_neg (not_lt.mpr (le_of_lt (lt_trans hap hp)))]
    cases l1 with
    | nil =>
      simp only [List.nil_append, emplace, if_neg (not_lt.mpr (le_of_lt hp))] at ih' ⊢
      simp only [valueAtList]
      rw [ih']
    | cons b l1 =>
      have hbp : b.1 < p.1 := ((sortedKeys_cons b _).mp hs').1 p (by simp)
      simp only [List.cons_append, emplace,
        if_neg (not_lt.mpr (le_of_lt (lt_trans hbp hp)))] at ih' ⊢
      simp only [valueAtList]
      rw [ih']

/-- The point under `prev(upper_bound(time))` splits the store: the keys after
it are greater than `time`. -/
theorem split_at_upper_bound (l : List (MapTime × Point)) (hs : SortedKeys l) (time : MapTime)
    (hpos : l.findIdx (fun p => decide (time < p.1)) ≠ 0) :
    ∃ l1 p l2, l = l1 ++ p :: l2 ∧ l1.length = l.findIdx (fun p => decide (time < p.1)) - 1
      ∧ p.1 ≤ time ∧ ∀ x ∈ l2, time < x.1 := by
  rcases findIdx_lt_or_all_false (fun (p : MapTime × Point) => decide (time < p.1)) l with
    ⟨h1, h2⟩ | ⟨l1, x, l2, h1, h2, h3, h4⟩
  · have hne : l ≠ [] := by
      intro h
      rw [h] at hpos
      exact hpos rfl
    obtain ⟨l1, p, hl⟩ : ∃ l1 p, l = l1 ++ [p] :=
      ⟨l.dropLast, l.getLast hne, (List.dropLast_append_getLast hne).symm⟩
    refine ⟨l1, p, [], hl, ?_, ?_, by simp⟩
    · rw [h1, hl]; simp
    · have := h2 p (by rw [hl]; simp)
      simpa using this
  · have hne : l1 ≠ [] := by
      intro h
      rw [h4, h] at hpos
      exact hpos rfl
    obtain ⟨l0, p, hl⟩ : ∃ l0 p, l1 = l0 ++ [p] :=
      ⟨l1.dropLast, l1.getLast hne, (List.dropLast_append_getLast hne).symm⟩
    refine ⟨l0, p, x :: l2, ?_, ?_, ?_, ?_⟩
    · rw [h1, hl]; simp
    · rw [h4, hl]; simp
    · have := h2 p (by rw [hl]; simp)
      simpa using this
    · have hx : time < x.1 := by simpa using h3
      have hsx : SortedKeys (x :: l2) := by
        unfold SortedKeys at hs ⊢
        rw [h1, List.map_append] at hs
        exact (List.pairwise_append.mp hs).2.1
      intro y hy
      rw [List.mem_cons] at hy
      rcases hy with rfl | hy
      · exact hx
      · exact lt_trans hx (((sortedKeys_cons x l2).mp hsx).1 y hy)

/-- C15 (as stated, refuted): on the graph with points (0, 1) and (1000, 2),
`ValueAt(250)` is 5/4 before `Extend(500)` and 1 after it. -/
theorem Extend_counterexample :
    ¬ ((scenarioGraph.Extend 500).bind (fun r => r.2.ValueAt 250) = scenarioGraph.ValueAt 250) := by
  have h1 : (scenarioGraph.Extend 500).bind (fun r => r.2.ValueAt 250) = some 1 := by
    with_unfolding_all rfl
  have h2 : scenarioGraph.ValueAt 250 = some (5 / 4) := by
    with_unfolding_all rfl
  rw [h1, h2]
  norm_num

/-- C15 (amended): for every graph (keys strictly ascending) and every time
that does not fall strictly between two neighbouring points whose values
differ (the left post-value and the right pre-value), `Extend(time)` returns
and `ValueAt(x)` afterwards equals `ValueAt(x)` before, for every `x`. -/
theorem Extend_preserves (g : LineGraph) (hwf : g.WF) (time : MapTime)
    (hflat : ∀ pq ∈ g.m_points.zip g.m_points.tail,
      pq.1.1 < time → time < pq.2.1 → pq.1.2.value.2 = pq.2.2.value.1) :
    ∃ r, g.Extend time = some r ∧ ∀ x, r.2.ValueAt x = g.ValueAt x := by
  unfold Extend
  by_cases hemp : g.m_points.isEmpty = true
  · rw [if_pos hemp]
    refine ⟨_, rfl, ?_⟩
    intro x
    have hl : g.m_points = [] := List.isEmpty_iff.mp hemp
    have hI : g.Insert time g.m_default
        = ⟨g.m_default, [(time, Point.ofValue g.m_default)]⟩ := by
      unfold Insert find pend
      rw [hl]
      rfl
    show (g.Insert time g.m_default).ValueAt x = g.ValueAt x
    rw [ValueAt_eq g hwf, hl, hI, ValueAt_eq_valueAtList _ _ (by simp [SortedKeys])]
    simp [valueAtList, Point.ofValue]
  · rw [if_neg hemp]
    by_cases h0 : g.upper_bound time = 0
    · simp only [h0, if_true]
      cases hl : g.m_points with
      | nil => rw [hl] at hemp; simp at hemp
      | cons a l =>
        refine ⟨(a.2.value.1, g), ?_, fun _ => rfl⟩
        simp [deref, hl]
    · simp only [h0, if_false]
      obtain ⟨l1, p, l2, hl, hlen, hpt, h2⟩ := split_at_upper_bound g.m_points hwf time h0
      have hd : g.deref (g.upper_bound time - 1) = some p := by
        unfold deref upper_bound
        rw [← hlen]
        rw [hl]
        exact getElem?_append_length l1 l2 p
      rw [hd]
      simp only [Option.some_bind]
      by_cases hpe : p.1 = time
      · rw [if_pos hpe]
        exact ⟨_, rfl, fun _ => rfl⟩
      · rw [if_neg hpe]
        refine ⟨_, rfl, ?_⟩
        intro x
        have hplt : p.1 < time := lt_of_le_of_ne hpt hpe
        have hs : SortedKeys (l1 ++ p :: l2) := by rw [← hl]; exact hwf
        have habs : ∀ y ∈ g.m_points, (y.1 == time) = false := by
          intro y hy
          rw [hl, List.mem_append, List.mem_cons] at hy
          have hl1 : ∀ z ∈ l1, z.1 < p.1 := by
            intro z hz
            unfold SortedKeys at hs
            rw [List.map_append, List.map_cons] at hs
            exact (List.pairwise_append.mp hs).2.2 z.1 (List.mem_map_of_mem _ hz) p.1 (by simp)
          rcases hy with hy | hy | hy
          · simpa using ne_of_lt (lt_trans (hl1 y hy) hplt)
          · rw [hy]; simpa using hpe
          · simpa using ne_of_gt (h2 y hy)
        have hfind := findIdx_eq_length_of_false _ _ habs
        have hI : (g.Insert time p.2.value.2).m_points
            = emplace time (Point.ofValue p.2.value.2) (l1 ++ p :: l2) := by
          rw [Insert_points, if_pos hfind, hl]
        have hwf' : (g.Insert time p.2.value.2).WF := by
          have := (upsert_spec g.m_points hwf time (Point.ofValue p.2.value.2)).1
          rw [← Insert_points] at this
          exact this
        show (g.Insert time p.2.value.2).ValueAt x = g.ValueAt x
        rw [ValueAt_eq _ hwf', ValueAt_eq g hwf, hI, hl]
        have hd' : (g.Insert time p.2.value.2).m_default = g.m_default := by
          unfold Insert
          simp only []
          by_cases hc : g.find time = g.pend
          · rw [if_pos hc]
          · rw [if_neg hc]
        rw [hd']
        congr 1
        apply valueAtList_emplace _ _ _ _ _ hs hplt h2
        intro q hq
        cases l2 with
        | nil => simp at hq
        | cons q' r =>
          simp only [List.head?_cons, Option.mem_def, Option.some.injEq] at hq
          subst hq
          have hm := mem_zip_tail l1 p q' r
          rw [← hl] at hm
          exact hflat (p, q') hm hplt (h2 q' (List.mem_cons_self _ _))

theorem Extend_preserves_witness :
    scenarioGraph.WF
      ∧ ∃ r, scenarioGraph.Extend 2000 = some r
          ∧ ∀ x, r.2.ValueAt x = scenarioGraph.ValueAt x :=
  ⟨scenarioGraph_WF, Extend_preserves scenarioGraph scenarioGraph_WF 2000 (by decide)⟩

theorem findSemicolon_append (s1 s2 : List Char) (h : ∀ c ∈ s1, c ≠ ';') :
    findSemicolon (s1 ++ ';' :: s2) = some s1.length := by
  unfold findSemicolon
  have hidx : (s1 ++ ';' :: s2).findIdx (fun c => c == ';') = s1.length := by
    rw [findIdx_append_of_false _ s1 _ (by
      intro c hc
      simpa using h c hc)]
    simp [List.findIdx_cons]
  rw [hidx, if_neg (by simp)]

/-- With a separator in the text, both values of the stored point are parsed
from the part after the separator; the part before it is never read. -/
theorem InsertText_separator (stod : List Char → Option ℚ) (g : LineGraph) (t : MapTime)
    (s1 s2 : List Char) (h : ∀ c ∈ s1, c ≠ ';') :
    InsertText stod g t (s1 ++ ';' :: s2)
      = (stod s2).bind fun v => some (g.InsertPoint t (Point.ofPair v v)) := by
  unfold InsertText
  rw [findSemicolon_append s1 s2 h]
  have hd : (s1 ++ ';' :: s2).drop (s1.length + 1) = s2 := by
    rw [List.drop_append_eq_append_drop]
    simp
  simp only [hd]
  cases stod s2 <;> rfl

/-- Without a separator in the text, a value that parses is inserted as a
scalar and a text that does not parse leaves the graph as it was. -/
theorem InsertText_scalar (stod : List Char → Option ℚ) (g : LineGraph) (t : MapTime)
    (s : List Char) (h : ∀ c ∈ s, c ≠ ';') :
    InsertText stod g t s
      = some (match stod s with
        | some v => g.Insert t v
        | none => g) := by
  unfold InsertText findSemicolon
  rw [if_pos (findIdx_eq_length_of_false _ _ (by
    intro c hc
    simpa using h c hc))]
  cases stod s <;> rfl

/-- C16: on the empty graph `Insert(0, "1;2")` stores the point (2, 2), not
the jump (1, 2): both values are read from the text after the separator. -/
theorem InsertText_jump_evaluation :
    InsertText stodDecimal ⟨0, []⟩ 0 ['1', ';', '2'] = some ⟨0, [(0, ⟨(2, 2)⟩)]⟩
      ∧ InsertText stodDecimal ⟨0, []⟩ 0 ['7'] = some ⟨0, [(0, ⟨(7, 7)⟩)]⟩ := by
  constructor <;> with_unfolding_all rfl

/-- C17: on the empty graph `Insert(0, "1;")` and `Insert(0, "a;b")` end with
an exception that leaves the function, and `Insert(0, "x;2")` stores the point
(2, 2); the texts "x" and "" without a separator leave the graph unchanged. -/
theorem InsertText_unparseable_evaluation :
    InsertText stodDecimal ⟨0, []⟩ 0 ['1', ';'] = none
      ∧ InsertText stodDecimal ⟨0, []⟩ 0 ['a', ';', 'b'] = none
      ∧ InsertText stodDecimal ⟨0, []⟩ 0 ['x', ';', '2'] = some ⟨0, [(0, ⟨(2, 2)⟩)]⟩
      ∧ InsertText stodDecimal ⟨0, []⟩ 0 ['x'] = some ⟨0, []⟩
      ∧ InsertText stodDecimal ⟨0, []⟩ 0 [] = some ⟨0, []⟩ := by
  refine ⟨?_, ?_, ?_, ?_, ?_⟩ <;> with_unfolding_all rfl

end LineGraph

theorem overlap_eq_zero (a b : MapTime) (lo hi : Option MapTime)
    (h : min b (hi.getD b) ≤ max a (lo.getD a)) : overlap a b lo hi = 0 := by
  unfold overlap
  exact max_eq_left (sub_nonpos.mpr h)

theorem overlap_head (a b : MapTime) (lo : Option MapTime) (hi : MapTime)
    (hlo : ∀ l ∈ lo, l ≤ a) (hhi : hi ≤ b) (hah : a ≤ hi) :
    overlap a b lo (some hi) = hi - a := by
  unfold overlap
  have h1 : max a (lo.getD a) = a := by
    cases lo with
    | none => simp
    | some l => exact max_eq_left (hlo l rfl)
  rw [h1]
  simp only [Option.getD_some, min_eq_right hhi]
  exact max_eq_right (sub_nonneg.mpr hah)

theorem overlap_whole (a b : MapTime) (lo hi : Option MapTime)
    (hlo : ∀ l ∈ lo, l ≤ a) (hhi : ∀ h ∈ hi, b ≤ h) (hab : a ≤ b) :
    overlap a b lo hi = b - a := by
  unfold overlap
  have h1 : max a (lo.getD a) = a := by
    cases lo with
    | none => simp
    | some l => exact max_eq_left (hlo l rfl)
  have h2 : min b (hi.getD b) = b := by
    cases hi with
    | none => simp
    | some h => exact min_eq_left (hhi h rfl)
  rw [h1, h2]
  exact max_eq_right (sub_nonneg.mpr hab)

/-- The tempo segments that start at or after the end of the interval add
nothing. -/
theorem tempoLengthFrom_zero (rest : List TimingPoint) :
    ∀ (tp : TimingPoint) (l a b : MapTime), b ≤ l → (∀ n ∈ rest, b ≤ n.time) →
      tempoLengthFrom tp (some l) rest a b = 0 := by
  induction rest with
  | nil =>
    intro tp l a b hl _
    simp only [tempoLengthFrom]
    rw [overlap_eq_zero a b (some l) none (by
      simp only [Option.getD_none, Option.getD_some, min_self]
      exact le_trans hl (le_max_right _ _))]
    simp
  | cons n r ih =>
    intro tp l a b hl hr
    simp only [tempoLengthFrom]
    rw [overlap_eq_zero a b (some l) (some n.time) (by
      simp only [Option.getD_some]
      exact le_trans (min_le_left _ _) (le_trans hl (le_max_right _ _))),
      ih n n.time a b (hr n (List.mem_cons_self _ _))
        (fun m hm => hr m (List.mem_cons_of_mem _ hm))]
    simp

/-- The tempo segments that start at or after `a` and `a'` do not tell the two
apart as the left end of the interval. -/
theorem tempoLengthFrom_left (rest : List TimingPoint) :
    ∀ (tp : TimingPoint) (l a a' b : MapTime), a ≤ l → a' ≤ l →
      (∀ n ∈ rest, a ≤ n.time ∧ a' ≤ n.time) →
      tempoLengthFrom tp (some l) rest a b = tempoLengthFrom tp (some l) rest a' b := by
  induction rest with
  | nil =>
    intro tp l a a' b h1 h2 _
    simp only [tempoLengthFrom, overlap, Option.getD_some, max_eq_right h1, max_eq_right h2]
  | cons n r ih =>
    intro tp l a a' b h1 h2 hr
    simp only [tempoLengthFrom, overlap, Option.getD_some, max_eq_right h1, max_eq_right h2]
    have := ih n n.time a a' b (hr n (List.mem_cons_self _ _)).1
      (hr n (List.mem_cons_self _ _)).2 (fun m hm => hr m (List.mem_cons_of_mem _ hm))
    simp only [tempoLengthFrom, overlap, Option.getD_some] at this
    rw [this]

/-- The tempo segments that end at or before the start of the interval add
nothing. -/
theorem tempoLengthFrom_skip (pre : List TimingPoint) :
    ∀ (tp : TimingPoint) (lo : Option MapTime) (m : TimingPoint) (rest : List TimingPoint)
      (a b : MapTime), (∀ x ∈ pre, x.time ≤ a) → m.time ≤ a →
      tempoLengthFrom tp lo (pre ++ m :: rest) a b = tempoLengthFrom m (some m.time) rest a b := by
  induction pre with
  | nil =>
    intro tp lo m rest a b _ hm
    simp only [List.nil_append, tempoLengthFrom]
    rw [overlap_eq_zero a b lo (some m.time) (by
      simp only [Option.getD_some]
      exact le_trans (min_le_right _ _) (le_trans hm (le_max_left _ _)))]
    simp
  | cons x pre ih =>
    intro tp lo m rest a b hpre hm
    show ((overlap a b lo (some x.time) : MapTime) : ℚ) / tp.beatDuration
      + tempoLengthFrom x (some x.time) (pre ++ m :: rest) a b = _
    rw [overlap_eq_zero a b lo (some x.time) (by
      simp only [Option.getD_some]
      exact le_trans (min_le_right _ _)
        (le_trans (hpre x (List.mem_cons_self _ _)) (le_max_left _ _))),
      ih x (some x.time) m rest a b (fun y hy => hpre y (List.mem_cons_of_mem _ hy)) hm]
    simp

/-- The loop of `DurationToViewDistanceAtTimeExact` adds up the tempo-weighted
length of what is left of the interval. -/
theorem distanceLoop_eq (rest : List TimingPoint) :
    ∀ (tp : TimingPoint) (lo : Option MapTime) (time endTime : MapTime) (bar : ℚ),
      (∀ l ∈ lo, l ≤ time) → time ≤ endTime → (∀ n ∈ rest, time ≤ n.time) →
      rest.Pairwise (fun x y => x.time ≤ y.time) →
      distanceLoopExact tp rest time endTime (endTime - time) bar
        = bar + tempoLengthFrom tp lo rest time endTime := by
  induction rest with
  | nil =>
    intro tp lo time endTime bar hlo hte _ _
    simp only [distanceLoopExact, tempoLengthFrom]
    rw [overlap_whole time endTime lo none hlo (by simp) hte]
  | cons n r ih =>
    intro tp lo time endTime bar hlo hte hr hp
    have hn : time ≤ n.time := hr n (List.mem_cons_self _ _)
    have hp' := List.pairwise_cons.mp hp
    simp only [distanceLoopExact, tempoLengthFrom]
    by_cases hlt : n.time < endTime
    · rw [if_pos hlt]
      have e : endTime - time - (n.time - time) = endTime - n.time := by ring
      rw [e, ih n (some n.time) n.time endTime _ (by
          intro l hl
          simp only [Option.mem_def, Option.some.injEq] at hl
          rw [← hl]) (le_of_lt hlt) (fun m hm => hp'.1 m hm) hp'.2,
        overlap_head time endTime lo n.time hlo (le_of_lt hlt) hn,
        tempoLengthFrom_left r n n.time time n.time endTime hn (le_refl _)
          (fun m hm => ⟨le_trans hn (hp'.1 m hm), hp'.1 m hm⟩)]
      ring
    · rw [if_neg hlt]
      have hge : endTime ≤ n.time := not_lt.mp hlt
      rw [overlap_whole time endTime lo (some n.time) hlo (by
          intro h hh
          simp only [Option.mem_def, Option.some.injEq] at hh
          rw [← hh]; exact hge) hte,
        tempoLengthFrom_zero r n n.time time endTime hge
          (fun m hm => le_trans hge (hp'.1 m hm))]
      ring

theorem timing_eq_getElem (bm : Beatmap) (i : Nat) (h : i < bm.timingPoints.length) :
    bm.timing i = bm.timingPoints.get ⟨i, h⟩ := by
  unfold Beatmap.timing
  rw [List.getD_eq_getElem _ _ h]
  rfl

theorem timingSorted_pairwise (bm : Beatmap) (h : TimingSorted bm) :
    bm.timingPoints.Pairwise (fun x y => x.time ≤ y.time) := by
  rw [List.pairwise_iff_get]
  intro i j hij
  have := h i.1 j.1 (le_of_lt hij) j.2
  rw [timing_eq_getElem bm i.1 i.2, timing_eq_getElem bm j.1 j.2] at this
  exact this

/-- With the reset allowed, `m_SelectTimingPoint` scans from the first timing
point when the cursor is past the time, and from the cursor otherwise. -/
theorem m_SelectTimingPoint_reset (bm : Beatmap) (s : BeatmapPlayback) (time : MapTime) :
    m_SelectTimingPoint bm s time true
      = if IsEndTiming bm s.m_currentTiming then s.m_currentTiming
        else if (bm.timing s.m_currentTiming).time > time then scanTiming bm 0 time
        else scanTiming bm s.m_currentTiming time := by
  unfold m_SelectTimingPoint scanTiming
  by_cases he : IsEndTiming bm s.m_currentTiming = true
  · simp [he]
  · have he' : IsEndTiming bm s.m_currentTiming = false := by simpa using he
    have h0 : IsEndTiming bm 0 = false := by
      simp [IsEndTiming, Beatmap.GetEndTimingPoint, Beatmap.timingPoints]
    simp only [he', Bool.false_eq_true, if_false, Bool.and_true, h0]
    by_cases hgt : (bm.timing s.m_currentTiming).time > time
    · simp [hgt, Beatmap.GetFirstTimingPoint]
    · simp [hgt]

/-- What `m_SelectTimingPoint` with the reset returns: a timing point such that
every timing point after the first and up to it is at or before `time`, and
the next one, if any, is after `time`. -/
theorem m_SelectTimingPoint_reset_spec (bm : Beatmap) (s : BeatmapPlayback) (time : MapTime)
    (hsorted : TimingSorted bm) (hcur : s.m_currentTiming < bm.timingPoints.length) :
    m_SelectTimingPoint bm s time true < bm.timingPoints.length
      ∧ (∀ j, 0 < j → j ≤ m_SelectTimingPoint bm s time true → (bm.timing j).time ≤ time)
      ∧ (m_SelectTimingPoint bm s time true + 1 < bm.timingPoints.length →
          time < (bm.timing (m_SelectTimingPoint bm s time true + 1)).time) := by
  have he : IsEndTiming bm s.m_currentTiming = false := by
    simp only [IsEndTiming, Beatmap.GetEndTimingPoint, beq_eq_false_iff_ne, ne_eq]
    omega
  have hpos : 0 < bm.timingPoints.length := by omega
  rw [m_SelectTimingPoint_reset, he]
  simp only [Bool.false_eq_true, if_false]
  by_cases hgt : (bm.timing s.m_currentTiming).time > time
  · rw [if_pos hgt]
    exact ⟨scanTiming_lt bm 0 time hpos,
      fun j hj hle => scanTiming_passed bm 0 time j hj hle,
      fun h => scanTiming_stop bm 0 time hpos h⟩
  · rw [if_neg hgt]
    refine ⟨scanTiming_lt bm _ time hcur, ?_, fun h => scanTiming_stop bm _ time hcur h⟩
    intro j _ hle
    by_cases hjc : j ≤ s.m_currentTiming
    · exact le_trans (hsorted j s.m_currentTiming hjc hcur) (not_lt.mp hgt)
    · exact scanTiming_passed bm _ time j (by omega) hle

theorem tempoLengthFrom_skip_idx (d : TimingPoint) (k : Nat) :
    ∀ (more : List TimingPoint) (tp : TimingPoint) (lo : Option MapTime) (a b : MapTime),
      k < more.length → (∀ j, j ≤ k → (more.getD j d).time ≤ a) →
      tempoLengthFrom tp lo more a b
        = tempoLengthFrom (more.getD k d) (some (more.getD k d).time) (more.drop (k + 1)) a b := by
  induction k with
  | zero =>
    intro more tp lo a b hk h
    cases more with
    | nil => simp at hk
    | cons m rest =>
      have hm : m.time ≤ a := h 0 (le_refl _)
      show ((overlap a b lo (some m.time) : MapTime) : ℚ) / tp.beatDuration
        + tempoLengthFrom m (some m.time) rest a b = _
      rw [overlap_eq_zero a b lo (some m.time) (by
        simp only [Option.getD_some]
        exact le_trans (min_le_right _ _) (le_trans hm (le_max_left _ _)))]
      simp
  | succ k ih =>
    intro more tp lo a b hk h
    cases more with
    | nil => simp at hk
    | cons x more =>
      have hx : x.time ≤ a := h 0 (Nat.zero_le _)
      have hk' : k < more.length := by simpa using hk
      show ((overlap a b lo (some x.time) : MapTime) : ℚ) / tp.beatDuration
        + tempoLengthFrom x (some x.time) more a b = _
      rw [overlap_eq_zero a b lo (some x.time) (by
        simp only [Option.getD_some]
        exact le_trans (min_le_right _ _) (le_trans hx (le_max_left _ _))),
        ih more x (some x.time) a b hk' (fun j hj => by
          have := h (j + 1) (by omega)
          simpa using this)]
      simp

/-- From the timing point that `m_SelectTimingPoint` returns for the start of
an interval, the loop of `DurationToViewDistanceAtTimeExact` computes the
tempo-weighted length of the interval. -/
theorem distanceLoop_select (bm : Beatmap) (s : BeatmapPlayback) (hsorted : TimingSorted bm)
    (hcur : s.m_currentTiming < bm.timingPoints.length) (a b : MapTime) (hab : a ≤ b) :
    distanceLoopExact (bm.timing (m_SelectTimingPoint bm s a true))
        (bm.timingPoints.drop (m_SelectTimingPoint bm s a true + 1)) a b (b - a) 0
      = tempoLength bm a b := by
  obtain ⟨hk, hpass, hstop⟩ := m_SelectTimingPoint_reset_spec bm s a hsorted hcur
  generalize m_SelectTimingPoint bm s a true = k at hk hpass hstop
  have hpw := timingSorted_pairwise bm hsorted
  have hrest_pw : (bm.timingPoints.drop (k + 1)).Pairwise (fun x y => x.time ≤ y.time) :=
    hpw.sublist (List.drop_sublist _ _)
  have hrest_ge : ∀ n ∈ bm.timingPoints.drop (k + 1), a ≤ n.time := by
    cases hdrop : bm.timingPoints.drop (k + 1) with
    | nil => simp
    | cons h t =>
      have hlen : k + 1 < bm.timingPoints.length := by
        by_contra hc
        rw [List.drop_of_length_le (by omega)] at hdrop
        simp at hdrop
      have hh : bm.timing (k + 1) = h := by
        have := getD_drop bm.timingPoints (k + 1) 0 bm.firstTimingPoint
        rw [hdrop] at this
        simp only [List.getD_cons_zero, add_zero] at this
        exact this.symm
      have hah : a < h.time := by rw [← hh]; exact hstop hlen
      rw [hdrop] at hrest_pw
      intro n hn
      rw [List.mem_cons] at hn
      rcases hn with rfl | hn
      · exact le_of_lt hah
      · exact le_trans (le_of_lt hah) ((List.pairwise_cons.mp hrest_pw).1 n hn)
  cases k with
  | zero =>
    have h := distanceLoop_eq (bm.timingPoints.drop 1) (bm.timing 0) none a b 0 (by simp) hab
      hrest_ge hrest_pw
    rw [zero_add] at h
    exact h
  | succ k =>
    have hk' : k < bm.moreTimingPoints.length := by
      simpa [Beatmap.timingPoints] using hk
    have ht : bm.timing (k + 1) = bm.moreTimingPoints.getD k bm.firstTimingPoint := by
      simp [Beatmap.timing, Beatmap.timingPoints]
    have hd : bm.timingPoints.drop (k + 1 + 1) = bm.moreTimingPoints.drop (k + 1) := by
      simp [Beatmap.timingPoints]
    have hskip := tempoLengthFrom_skip_idx bm.firstTimingPoint k bm.moreTimingPoints
      bm.firstTimingPoint none a b hk' (fun j hj => by
        have := hpass (j + 1) (by omega) (by omega)
        simpa [Beatmap.timing, Beatmap.timingPoints] using this)
    have hm : (bm.timing (k + 1)).time ≤ a := hpass (k + 1) (by omega) (le_refl _)
    have h := distanceLoop_eq (bm.timingPoints.drop (k + 1 + 1)) (bm.timing (k + 1))
      (some (bm.timing (k + 1)).time) a b 0 (by
        intro l hl
        simp only [Option.mem_def, Option.some.injEq] at hl
        rw [← hl]; exact hm) hab hrest_ge hrest_pw
    rw [zero_add] at h
    rw [h]
    unfold tempoLength
    rw [hskip, ht, hd]

/-- In exact integers: with cMod off and outside calibration, for every chart
whose timing points are sorted, every position of the timing cursor, every time
and every duration, the conversion returns the sign of the duration times the
tempo-weighted length of the interval between `time` and `time + duration`. -/
theorem DurationToViewDistanceAtTime_tempo_length_exact (bm : Beatmap) (s : BeatmapPlayback)
    (hc : s.cMod = false) (hcal : s.m_isCalibration = false) (hsorted : TimingSorted bm)
    (hcur : s.m_currentTiming < bm.timingPoints.length) (time duration : MapTime) :
    DurationToViewDistanceAtTimeExact bm s time duration
      = (Sign duration : ℚ)
        * tempoLength bm (min time (time + duration)) (max time (time + duration)) := by
  unfold DurationToViewDistanceAtTimeExact
  simp only [hc, hcal, Bool.false_eq_true, if_false]
  by_cases hneg : duration < 0
  · simp only [hneg, if_true]
    have hle : time + duration ≤ time := by linarith
    have e : duration * -1 = time - (time + duration) := by ring
    rw [e, distanceLoop_select bm s hsorted hcur _ _ hle, min_eq_right hle, max_eq_left hle,
      mul_comm]
  · simp only [hneg, if_false]
    have hle : time ≤ time + duration := by linarith
    have e : duration = time + duration - time := by ring
    have h := distanceLoop_select bm s hsorted hcur time (time + duration) hle
    rw [← e] at h
    rw [h, min_eq_left hle, max_eq_right hle, mul_comm]

theorem tempoBeatmap_timingSorted : TimingSorted tempoBeatmap := by
  intro i j hij hj
  have hj3 : j < 3 := hj
  interval_cases j <;> interval_cases i <;> decide

theorem truncToMapTime_intCast (d : MapTime) : truncToMapTime (d : ℚ) = d := by
  unfold truncToMapTime
  split
  · exact Int.floor_intCast d
  · exact Int.ceil_intCast d

/-- The two loops undo each other when the duration does not reach past the
second tempo change ahead of the clock. -/
theorem durationLoop_distanceLoop (tp : TimingPoint) (rest : List TimingPoint)
    (clock d : MapTime) (htp : 0 < tp.beatDuration)
    (hpos : ∀ n ∈ rest, 0 < n.beatDuration) (hnext : ∀ n ∈ rest.head?, clock < n.time)
    (hsecond : ∀ n ∈ rest.tail.head?, clock + d ≤ n.time) :
    durationLoop tp rest clock (distanceLoopExact tp rest clock (clock + d) d 0) 0 = (d : ℚ) := by
  have htp' : tp.beatDuration ≠ 0 := ne_of_gt htp
  cases rest with
  | nil =>
    simp only [distanceLoopExact, durationLoop]
    field_simp
  | cons n r =>
    have hn : clock < n.time := hnext n (by simp)
    have hnb : 0 < n.beatDuration := hpos n (List.mem_cons_self _ _)
    have hnb' : n.beatDuration ≠ 0 := ne_of_gt hnb
    have hnq : (clock : ℚ) < (n.time : ℚ) := by exact_mod_cast hn
    by_cases hlt : n.time < clock + d
    · have hltq : (n.time : ℚ) < (clock : ℚ) + (d : ℚ) := by exact_mod_cast hlt
      have hD : distanceLoopExact tp (n :: r) clock (clock + d) d 0
          = ((n.time : ℚ) - (clock : ℚ)) / tp.beatDuration
            + ((d : ℚ) - ((n.time : ℚ) - (clock : ℚ))) / n.beatDuration := by
        simp only [distanceLoopExact, if_pos hlt]
        cases r with
        | nil =>
          simp only [distanceLoopExact]
          push_cast
          ring
        | cons n2 r2 =>
          have h2 : clock + d ≤ n2.time := hsecond n2 (by simp)
          simp only [distanceLoopExact, if_neg (not_lt.mpr h2)]
          push_cast
          ring
      rw [hD]
      have hsplit : ((n.time : ℚ) - (clock : ℚ)) / tp.beatDuration
          < ((n.time : ℚ) - (clock : ℚ)) / tp.beatDuration
            + ((d : ℚ) - ((n.time : ℚ) - (clock : ℚ))) / n.beatDuration := by
        have : 0 < ((d : ℚ) - ((n.time : ℚ) - (clock : ℚ))) / n.beatDuration :=
          div_pos (by linarith) hnb
        linarith
      simp only [durationLoop, if_pos hsplit]
      cases r with
      | nil =>
        simp only [durationLoop]
        field_simp
        ring
      | cons n2 r2 =>
        have h2 : clock + d ≤ n2.time := hsecond n2 (by simp)
        have h2q : (clock : ℚ) + (d : ℚ) ≤ (n2.time : ℚ) := by exact_mod_cast h2
        have hno : ¬ ((n2.time : ℚ) - (clock : ℚ)) / n.beatDuration
            < ((n.time : ℚ) - (clock : ℚ)) / tp.beatDuration
              + ((d : ℚ) - ((n.time : ℚ) - (clock : ℚ))) / n.beatDuration
              - ((n.time : ℚ) - (clock : ℚ)) / tp.beatDuration := by
          rw [not_lt, add_sub_cancel_left]
          exact div_le_div_of_nonneg_right (by linarith) (le_of_lt hnb)
        simp only [durationLoop, if_neg hno]
        field_simp
        ring
    · have hge : clock + d ≤ n.time := not_lt.mp hlt
      have hgeq : (clock : ℚ) + (d : ℚ) ≤ (n.time : ℚ) := by exact_mod_cast hge
      have hno : ¬ ((n.time : ℚ) - (clock : ℚ)) / tp.beatDuration
          < 0 + (d : ℚ) / tp.beatDuration := by
        rw [not_lt, zero_add]
        exact div_le_div_of_nonneg_right (by linarith) (le_of_lt htp)
      simp only [distanceLoopExact, if_neg hlt, durationLoop, if_neg hno]
      field_simp

/-- In exact integers: with cMod off and outside calibration, on a chart with
sorted timing points and positive beat durations, for every duration `d ≥ 0`
that does not reach past the second tempo change ahead of the clock, the
duration that `ViewDistanceToDuration` returns for the view distance of `d` is
`d`. -/
theorem ViewDistanceToDuration_inverse_near_exact (bm : Beatmap) (s : BeatmapPlayback)
    (hc : s.cMod = false) (hcal : s.m_isCalibration = false) (hsorted : TimingSorted bm)
    (hcur : s.m_currentTiming < bm.timingPoints.length)
    (hpos : ∀ tp ∈ bm.timingPoints, 0 < tp.beatDuration) (d : MapTime) (hd : 0 ≤ d)
    (hnear : m_SelectTimingPoint bm s s.m_playbackTime true + 2 < bm.timingPoints.length →
      s.m_playbackTime + d
        ≤ (bm.timing (m_SelectTimingPoint bm s s.m_playbackTime true + 2)).time) :
    ViewDistanceToDuration bm s (DurationToViewDistanceExact bm s d) = d := by
  obtain ⟨hk, _, hstop⟩ := m_SelectTimingPoint_reset_spec bm s s.m_playbackTime hsorted hcur
  unfold ViewDistanceToDuration DurationToViewDistanceExact DurationToViewDistanceAtTimeExact
  simp only [hc, hcal, Bool.false_eq_true, if_false, if_neg (not_lt.mpr hd)]
  generalize m_SelectTimingPoint bm s s.m_playbackTime true = k at hk hstop hnear
  have htp : 0 < (bm.timing k).beatDuration := by
    rw [timing_eq_getElem bm k hk]
    exact hpos _ (List.get_mem _ _ _)
  have hrest : ∀ n ∈ bm.timingPoints.drop (k + 1), 0 < n.beatDuration :=
    fun n hn => hpos n (List.mem_of_mem_drop hn)
  have hhead : ∀ n ∈ (bm.timingPoints.drop (k + 1)).head?, s.m_playbackTime < n.time := by
    intro n hn
    rw [List.head?_drop] at hn
    have hlen : k + 1 < bm.timingPoints.length := by
      by_contra hc'
      rw [List.getElem?_eq_none (by omega)] at hn
      simp at hn
    have := hstop hlen
    rw [timing_eq_getElem bm (k + 1) hlen] at this
    rw [List.getElem?_eq_getElem hlen] at hn
    simp only [Option.mem_def, Option.some.injEq] at hn
    rw [← hn]
    exact this
  have hsec : ∀ n ∈ (bm.timingPoints.drop (k + 1)).tail.head?, s.m_playbackTime + d ≤ n.time := by
    intro n hn
    rw [List.tail_drop, List.head?_drop] at hn
    have hlen : k + 2 < bm.timingPoints.length := by
      by_contra hc'
      rw [List.getElem?_eq_none (by omega)] at hn
      simp at hn
    have := hnear hlen
    rw [timing_eq_getElem bm (k + 2) hlen] at this
    rw [List.getElem?_eq_getElem hlen] at hn
    simp only [Option.mem_def, Option.some.injEq] at hn
    rw [← hn]
    exact this
  have hloop := durationLoop_distanceLoop (bm.timing k) (bm.timingPoints.drop (k + 1))
    s.m_playbackTime d htp hrest hhead hsec
  rcases lt_or_eq_of_le hd with hd0 | hd0
  · have hs : Sign d = 1 := by unfold Sign; rw [if_pos hd0]
    rw [hs]
    simp only [Int.cast_one, mul_one]
    rw [hloop, truncToMapTime_intCast]
  · have hs : Sign d = 0 := by
      unfold Sign
      rw [← hd0]
      simp
    rw [hs]
    simp only [Int.cast_zero, mul_zero]
    have hz : durationLoop (bm.timing k) (bm.timingPoints.drop (k + 1)) s.m_playbackTime 0 0
        = 0 := by
      cases hdrop : bm.timingPoints.drop (k + 1) with
      | nil => simp [durationLoop]
      | cons n r =>
        have hn : s.m_playbackTime < n.time := hhead n (by rw [hdrop]; simp)
        have hnq : (s.m_playbackTime : ℚ) < (n.time : ℚ) := by exact_mod_cast hn
        have hno : ¬ ((n.time : ℚ) - (s.m_playbackTime : ℚ)) / (bm.timing k).beatDuration < 0 := by
          rw [not_lt]
          exact div_nonneg (by linarith) (le_of_lt htp)
        simp only [durationLoop, if_neg hno]
        simp
    rw [hz, ← hd0]
    exact truncToMapTime_intCast 0

namespace LineGraph

theorem IntegrateExact_unfold (g : LineGraph) (b e : MapTime) (hbe : b < e) :
    g.IntegrateExact b e
      = if g.upper_bound b = g.pend then
          g.rbegin.bind fun l => some (l.2.value.2 * ((e - b : Int) : ℚ))
        else
          (g.deref (g.upper_bound b)).bind fun bi =>
          if e ≤ bi.1 then
            if g.upper_bound b = 0 then some (bi.2.value.1 * ((e - b : Int) : ℚ))
            else g.IntegrateWithinExact (g.upper_bound b - 1) b e
          else
            (if g.upper_bound b = 0 then some (bi.2.value.1 * ((bi.1 - b : Int) : ℚ))
             else if b ≠ bi.1 then g.IntegrateWithinExact (g.upper_bound b - 1) b bi.1
             else some 0).bind fun result => g.tailPart (g.upper_bound b) e result := by
  unfold IntegrateExact tailPart
  rw [if_neg (ne_of_lt hbe)]
  simp only [if_neg (not_lt.mpr (le_of_lt hbe))]

theorem deref_cons_succ (d : ℚ) (p : MapTime × Point) (l : List (MapTime × Point)) (i : Nat) :
    (⟨d, p :: l⟩ : LineGraph).deref (i + 1) = (⟨d, l⟩ : LineGraph).deref i := by
  simp [deref]

theorem pend_cons (d : ℚ) (p : MapTime × Point) (l : List (MapTime × Point)) :
    (⟨d, p :: l⟩ : LineGraph).pend = (⟨d, l⟩ : LineGraph).pend + 1 := by
  simp [pend]

theorem rbegin_cons (d : ℚ) (p q : MapTime × Point) (l : List (MapTime × Point)) :
    (⟨d, p :: q :: l⟩ : LineGraph).rbegin = (⟨d, q :: l⟩ : LineGraph).rbegin := by
  simp [rbegin, List.getLast?_cons_cons]

theorem lower_bound_cons (d : ℚ) (p : MapTime × Point) (l : List (MapTime × Point)) (t : MapTime) :
    (⟨d, p :: l⟩ : LineGraph).lower_bound t
      = if t ≤ p.1 then 0 else (⟨d, l⟩ : LineGraph).lower_bound t + 1 := by
  unfold lower_bound
  simp only [List.findIdx_cons]
  by_cases h : t ≤ p.1
  · simp [h]
  · simp [h]

theorem IntegrateSegmentExact_cons_succ (d : ℚ) (p q : MapTime × Point) (l : List (MapTime × Point))
    (i : Nat) :
    (⟨d, p :: q :: l⟩ : LineGraph).IntegrateSegmentExact (i + 1)
      = (⟨d, q :: l⟩ : LineGraph).IntegrateSegmentExact i := by
  unfold IntegrateSegmentExact
  simp only [deref_cons_succ, pend_cons]
  simp

theorem IntegrateWithinExact_cons_succ (d : ℚ) (p q : MapTime × Point) (l : List (MapTime × Point))
    (i : Nat) (x y : MapTime) :
    (⟨d, p :: q :: l⟩ : LineGraph).IntegrateWithinExact (i + 1) x y
      = (⟨d, q :: l⟩ : LineGraph).IntegrateWithinExact i x y := by
  unfold IntegrateWithinExact
  simp only [deref_cons_succ, pend_cons, IntegrateSegmentExact_cons_succ, rbegin_cons]
  simp

theorem sweepRange_succ (a b : Nat) :
    sweepRange (a + 1) (b + 1) = (sweepRange a b).map (fun i => i + 1) := by
  unfold sweepRange
  have e : b + 1 - (a + 1) = b - a := by omega
  rw [e]
  clear e
  generalize b - a = n
  induction n generalizing a with
  | zero => rfl
  | succ n ih =>
    simp only [List.range', List.map_cons]
    rw [ih (a + 1)]

theorem sumSegmentsExact_cons_map (d : ℚ) (p q : MapTime × Point) (l : List (MapTime × Point))
    (L : List Nat) : ∀ r : ℚ,
    sumSegmentsExact (⟨d, p :: q :: l⟩ : LineGraph) (L.map (fun i => i + 1)) r
      = sumSegmentsExact (⟨d, q :: l⟩ : LineGraph) L r := by
  induction L with
  | nil => intro r; rfl
  | cons i L ih =>
    intro r
    simp only [List.map_cons, sumSegmentsExact, IntegrateSegmentExact_cons_succ]
    cases (⟨d, q :: l⟩ : LineGraph).IntegrateSegmentExact i with
    | none => rfl
    | some v => exact ih (r + v)

theorem IntegrateSegmentExact_zero (d : ℚ) (p q : MapTime × Point) (l : List (MapTime × Point)) :
    (⟨d, p :: q :: l⟩ : LineGraph).IntegrateSegmentExact 0
      = some (((q.1 - p.1 : Int) : ℚ) * (q.2.value.1 + p.2.value.2) * (1 / 2)) := by
  simp [IntegrateSegmentExact, pend, deref]

theorem partArea_full (p q : MapTime × Point) (h : p.1 < q.1) :
    partArea p q q.1 = ((q.1 - p.1 : Int) : ℚ) * (q.2.value.1 + p.2.value.2) * (1 / 2) := by
  unfold partArea Lerp
  have hne : ((q.1 - p.1 : Int) : ℚ) ≠ 0 := by
    have : (0 : ℚ) < ((q.1 - p.1 : Int) : ℚ) := by exact_mod_cast sub_pos.mpr h
    exact ne_of_gt this
  rw [div_self hne]
  ring

theorem partArea_zero (p q : MapTime × Point) : partArea p q p.1 = 0 := by
  unfold partArea
  simp

/-- Inside the first segment `IntegrateExact(curr, begin, end)` is the difference of
the areas up to `end` and up to `begin`. -/
theorem IntegrateWithinExact_first (d : ℚ) (p q : MapTime × Point) (l : List (MapTime × Point))
    (hpq : p.1 < q.1) (x y : MapTime) (hx : p.1 ≤ x) (hxy : x < y) (hy : y ≤ q.1) :
    (⟨d, p :: q :: l⟩ : LineGraph).IntegrateWithinExact 0 x y
      = some (partArea p q y - partArea p q x) := by
  have hne : ((q.1 - p.1 : Int) : ℚ) ≠ 0 := by
    have : (0 : ℚ) < ((q.1 - p.1 : Int) : ℚ) := by exact_mod_cast sub_pos.mpr hpq
    exact ne_of_gt this
  have hne' : ((q.1 : ℚ) - (p.1 : ℚ)) ≠ 0 := by
    have : ((q.1 - p.1 : Int) : ℚ) = (q.1 : ℚ) - (p.1 : ℚ) := by push_cast; rfl
    rw [← this]; exact hne
  unfold IntegrateWithinExact
  rw [if_neg (ne_of_lt hxy)]
  simp only [if_neg (not_lt.mpr (le_of_lt hxy)), IntegrateSegmentExact_zero]
  simp only [List.isEmpty_cons, Bool.false_eq_true, if_false, pend, List.length_cons, deref,
    List.getElem?_cons_zero, List.getElem?_cons_succ, Option.some_bind, not_le, not_lt.mpr hx,
    not_lt.mpr hy, zero_add]
  have h1 : ((0 : Nat) == l.length + 1 + 1) = false := by simp
  have h2 : ((1 : Nat) == l.length + 1 + 1) = false := by simp
  simp only [h1, h2, Bool.false_eq_true, if_false]
  congr 1
  by_cases hpx : p.1 = x
  · by_cases hyq : y = q.1
    · subst hpx; subst hyq
      simp only [ne_eq, not_true_eq_false, if_false]
      rw [partArea_full p q hpq, partArea_zero]
      ring
    · subst hpx
      simp only [ne_eq, not_true_eq_false, if_false, hyq, not_false_eq_true, if_true]
      rw [partArea_zero]
      unfold partArea Lerp
      push_cast
      first | ring1 | (field_simp; ring1)
  · by_cases hyq : y = q.1
    · subst hyq
      simp only [ne_eq, hpx, not_false_eq_true, if_true, not_true_eq_false, if_false]
      rw [partArea_full p q hpq]
      unfold partArea Lerp
      push_cast
      ring1
    · simp only [ne_eq, hpx, not_false_eq_true, if_true, hyq]
      unfold partArea Lerp
      push_cast
      first | ring1 | (field_simp; ring1)

theorem sumSegmentsExact_shift (d : ℚ) (p q : MapTime × Point) (l : List (MapTime × Point))
    (i k : Nat) (r : ℚ) :
    (if k + 1 < i + 1 then none
      else sumSegmentsExact (⟨d, p :: q :: l⟩ : LineGraph) (sweepRange (i + 1) (k + 1)) r)
      = (if k < i then none else sumSegmentsExact (⟨d, q :: l⟩ : LineGraph) (sweepRange i k) r) := by
  rw [sweepRange_succ, sumSegmentsExact_cons_map]
  by_cases h : k < i
  · rw [if_pos h, if_pos (by omega)]
  · rw [if_neg h, if_neg (by omega)]

/-- Dropping a first point that lies before the range does not change the
second half of `IntegrateExact`. -/
theorem tailPart_cons_succ (d : ℚ) (p q : MapTime × Point) (l : List (MapTime × Point))
    (i : Nat) (e : MapTime) (result : ℚ) (hp : p.1 < e) (hq : q.1 < e) :
    (⟨d, p :: q :: l⟩ : LineGraph).tailPart (i + 1) e result
      = (⟨d, q :: l⟩ : LineGraph).tailPart i e result := by
  have h2 : (⟨d, q :: l⟩ : LineGraph).lower_bound e = (⟨d, l⟩ : LineGraph).lower_bound e + 1 := by
    rw [lower_bound_cons, if_neg (not_le.mpr hq)]
  have h1 : (⟨d, p :: q :: l⟩ : LineGraph).lower_bound e
      = (⟨d, l⟩ : LineGraph).lower_bound e + 1 + 1 := by
    rw [lower_bound_cons, if_neg (not_le.mpr hp), h2]
  unfold tailPart
  rw [h1, h2]
  generalize (⟨d, l⟩ : LineGraph).lower_bound e = k
  simp only [Nat.add_sub_cancel, deref_cons_succ, IntegrateWithinExact_cons_succ, Nat.succ_ne_zero,
    if_false]
  cases (⟨d, l⟩ : LineGraph).deref k with
  | none => rfl
  | some ei =>
    simp only [Option.some_bind]
    by_cases hei : ei.1 = e
    · simp only [hei, ne_eq, not_true_eq_false, if_false, Option.some_bind]
      exact sumSegmentsExact_shift d p q l i (k + 1) result
    · simp only [hei, ne_eq, not_false_eq_true, if_true]
      cases (⟨d, q :: l⟩ : LineGraph).deref k with
      | none => rfl
      | some ep =>
        simp only [Option.some_bind]
        cases (⟨d, q :: l⟩ : LineGraph).IntegrateWithinExact k ep.1 e with
        | none => rfl
        | some r =>
          simp only [Option.some_bind]
          exact sumSegmentsExact_shift d p q l i k (result + r)

theorem sumSegmentsExact_absorb (d : ℚ) (p q : MapTime × Point) (l : List (MapTime × Point))
    (k : Nat) (r : ℚ) :
    sumSegmentsExact (⟨d, p :: q :: l⟩ : LineGraph) (sweepRange 0 (k + 1)) r
      = sumSegmentsExact (⟨d, q :: l⟩ : LineGraph) (sweepRange 0 k)
          (r + ((q.1 - p.1 : Int) : ℚ) * (q.2.value.1 + p.2.value.2) * (1 / 2)) := by
  have hs : sweepRange 0 (k + 1) = 0 :: sweepRange (0 + 1) (k + 1) := by
    unfold sweepRange
    simp [List.range']
  rw [hs, sweepRange_succ]
  simp only [sumSegmentsExact, IntegrateSegmentExact_zero, Option.some_bind]
  exact sumSegmentsExact_cons_map d p q l _ _

/-- When the range reaches past the second point, the second half of
`IntegrateExact` from the first point on is the first whole segment plus the second
half from the second point on. -/
theorem tailPart_absorb (d : ℚ) (p q : MapTime × Point) (l : List (MapTime × Point))
    (e : MapTime) (result : ℚ) (hp : p.1 < e) (hq : q.1 < e) :
    (⟨d, p :: q :: l⟩ : LineGraph).tailPart 0 e result
      = (⟨d, q :: l⟩ : LineGraph).tailPart 0 e
          (result + ((q.1 - p.1 : Int) : ℚ) * (q.2.value.1 + p.2.value.2) * (1 / 2)) := by
  have h2 : (⟨d, q :: l⟩ : LineGraph).lower_bound e = (⟨d, l⟩ : LineGraph).lower_bound e + 1 := by
    rw [lower_bound_cons, if_neg (not_le.mpr hq)]
  have h1 : (⟨d, p :: q :: l⟩ : LineGraph).lower_bound e
      = (⟨d, l⟩ : LineGraph).lower_bound e + 1 + 1 := by
    rw [lower_bound_cons, if_neg (not_le.mpr hp), h2]
  unfold tailPart
  rw [h1, h2]
  generalize (⟨d, l⟩ : LineGraph).lower_bound e = k
  simp only [Nat.add_sub_cancel, deref_cons_succ, IntegrateWithinExact_cons_succ, Nat.succ_ne_zero,
    if_false, Nat.not_lt_zero]
  cases (⟨d, l⟩ : LineGraph).deref k with
  | none => rfl
  | some ei =>
    simp only [Option.some_bind]
    by_cases hei : ei.1 = e
    · simp only [hei, ne_eq, not_true_eq_false, if_false, Option.some_bind]
      exact sumSegmentsExact_absorb d p q l (k + 1) result
    · simp only [hei, ne_eq, not_false_eq_true, if_true]
      cases (⟨d, q :: l⟩ : LineGraph).deref k with
      | none => rfl
      | some ep =>
        simp only [Option.some_bind]
        cases (⟨d, q :: l⟩ : LineGraph).IntegrateWithinExact k ep.1 e with
        | none => rfl
        | some r =>
          simp only [Option.some_bind]
          rw [sumSegmentsExact_absorb d p q l k (result + r), add_right_comm]

/-- When the range ends inside the first segment or at the second point, the
second half of `IntegrateExact` from the first point on is the area of the first
segment up to the end of the range. -/
theorem tailPart_first (d : ℚ) (p q : MapTime × Point) (l : List (MapTime × Point))
    (hpq : p.1 < q.1) (e : MapTime) (result : ℚ) (hp : p.1 < e) (hq : e ≤ q.1) :
    (⟨d, p :: q :: l⟩ : LineGraph).tailPart 0 e result = some (result + partArea p q e) := by
  have h1 : (⟨d, p :: q :: l⟩ : LineGraph).lower_bound e = 1 := by
    rw [lower_bound_cons, if_neg (not_le.mpr hp), lower_bound_cons, if_pos hq]
  unfold tailPart
  rw [h1]
  simp only [Nat.one_ne_zero, if_false, deref, List.getElem?_cons_succ, List.getElem?_cons_zero,
    Option.some_bind, Nat.sub_self, Nat.not_lt_zero]
  by_cases hei : q.1 = e
  · simp only [hei, ne_eq, not_true_eq_false, if_false, Option.some_bind]
    have hs : sweepRange 0 1 = [0] := rfl
    rw [hs]
    simp only [sumSegmentsExact, IntegrateSegmentExact_zero, Option.some_bind]
    rw [← hei, partArea_full p q hpq]
  · simp only [hei, ne_eq, not_false_eq_true, if_true]
    rw [IntegrateWithinExact_first d p q l hpq p.1 e (le_refl _) hp hq]
    simp only [Option.some_bind, Nat.not_lt_zero, if_false]
    have hs : sweepRange 0 0 = [] := rfl
    rw [hs, partArea_zero]
    simp [sumSegmentsExact]

theorem areaTo_head (q : MapTime × Point) (rest : List (MapTime × Point))
    (hs : SortedKeys (q :: rest)) : areaTo (q :: rest) q.1 = 0 := by
  cases rest with
  | nil => simp [areaTo]
  | cons r rest =>
    have hqr : q.1 < r.1 := ((sortedKeys_cons q _).mp hs).1 r (List.mem_cons_self _ _)
    simp only [areaTo, lt_irrefl, if_false, if_pos (le_of_lt hqr)]
    exact partArea_zero q r

theorem areaTo_cons_ge (p q : MapTime × Point) (rest : List (MapTime × Point))
    (hs : SortedKeys (p :: q :: rest)) (x : MapTime) (hx : q.1 ≤ x) :
    areaTo (p :: q :: rest) x = partArea p q q.1 + areaTo (q :: rest) x := by
  have hpq : p.1 < q.1 := ((sortedKeys_cons p _).mp hs).1 q (List.mem_cons_self _ _)
  have hs' : SortedKeys (q :: rest) := ((sortedKeys_cons p _).mp hs).2
  rcases lt_or_eq_of_le hx with h | h
  · simp only [areaTo, if_neg (not_lt.mpr (le_of_lt (lt_trans hpq h))), if_neg (not_le.mpr h)]
  · rw [← h, areaTo_head q rest hs']
    simp only [areaTo, if_neg (not_lt.mpr (le_of_lt hpq)), le_refl, if_true, add_zero]

theorem areaTo_first_segment (p q : MapTime × Point) (rest : List (MapTime × Point))
    (x : MapTime) (hp : p.1 ≤ x) (hq : x ≤ q.1) :
    areaTo (p :: q :: rest) x = partArea p q x := by
  simp only [areaTo, if_neg (not_lt.mpr hp), if_pos hq]

theorem areaTo_before (p : MapTime × Point) (rest : List (MapTime × Point))
    (hs : SortedKeys (p :: rest)) (x : MapTime) (hp : x ≤ p.1) :
    areaTo (p :: rest) x = p.2.value.1 * ((x - p.1 : Int) : ℚ) := by
  rcases lt_or_eq_of_le hp with h | h
  · cases rest with
    | nil => simp only [areaTo, if_pos h]
    | cons q rest => simp only [areaTo, if_pos h]
  · rw [h, areaTo_head p rest hs]
    simp

/-- From the first point on and up to a time at or before the last key, the
second half of `IntegrateExact` adds the area between the first key and the end of
the range. -/
theorem tailPart_spec (d : ℚ) (rest : List (MapTime × Point)) :
    ∀ (q : MapTime × Point) (e : MapTime) (result : ℚ), SortedKeys (q :: rest) → q.1 < e →
      (∀ last, (q :: rest).getLast? = some last → e ≤ last.1) →
      (⟨d, q :: rest⟩ : LineGraph).tailPart 0 e result
        = some (result + areaTo (q :: rest) e) := by
  induction rest with
  | nil =>
    intro q e result _ hq hlast
    have := hlast q rfl
    exact absurd hq (not_lt.mpr this)
  | cons q2 r ih =>
    intro q e result hs hq hlast
    have hqq : q.1 < q2.1 := ((sortedKeys_cons q _).mp hs).1 q2 (List.mem_cons_self _ _)
    have hs' : SortedKeys (q2 :: r) := ((sortedKeys_cons q _).mp hs).2
    by_cases he : e ≤ q2.1
    · rw [tailPart_first d q q2 r hqq e result hq he,
        areaTo_first_segment q q2 r e (le_of_lt hq) he]
    · have he' : q2.1 < e := not_le.mp he
      rw [tailPart_absorb d q q2 r e result hq he',
        ih q2 e _ hs' he' (fun last hl => hlast last (by
          rw [List.getLast?_cons_cons]; exact hl)),
        areaTo_cons_ge q q2 r hs e (le_of_lt he'), partArea_full q q2 hqq]
      congr 1
      ring

/-- Dropping a first point that lies before the left neighbour of the start of
the range does not change `IntegrateExact`. -/
theorem IntegrateExact_cons_skip (d : ℚ) (p q : MapTime × Point) (l : List (MapTime × Point))
    (hpq : p.1 < q.1) (a b : MapTime) (hqa : q.1 ≤ a) (hab : a < b) :
    (⟨d, p :: q :: l⟩ : LineGraph).IntegrateExact a b = (⟨d, q :: l⟩ : LineGraph).IntegrateExact a b := by
  have hu2 : (⟨d, q :: l⟩ : LineGraph).upper_bound a = (⟨d, l⟩ : LineGraph).upper_bound a + 1 := by
    rw [upper_bound_cons, if_neg (not_lt.mpr hqa)]
  have hu1 : (⟨d, p :: q :: l⟩ : LineGraph).upper_bound a
      = (⟨d, l⟩ : LineGraph).upper_bound a + 1 + 1 := by
    rw [upper_bound_cons, if_neg (not_lt.mpr (le_trans (le_of_lt hpq) hqa)), hu2]
  rw [IntegrateExact_unfold _ a b hab, IntegrateExact_unfold _ a b hab, hu1, hu2]
  generalize (⟨d, l⟩ : LineGraph).upper_bound a = k
  have hpend : (⟨d, p :: q :: l⟩ : LineGraph).pend = (⟨d, q :: l⟩ : LineGraph).pend + 1 :=
    pend_cons d p (q :: l)
  by_cases hk : k + 1 = (⟨d, q :: l⟩ : LineGraph).pend
  · rw [if_pos hk, if_pos (by rw [hpend, hk]), rbegin_cons]
  · rw [if_neg hk, if_neg (by rw [hpend]; omega), deref_cons_succ]
    cases (⟨d, q :: l⟩ : LineGraph).deref (k + 1) with
    | none => rfl
    | some bi =>
      simp only [Option.some_bind, Nat.add_sub_cancel, Nat.succ_ne_zero, if_false,
        IntegrateWithinExact_cons_succ]
      by_cases hb : b ≤ bi.1
      · rw [if_pos hb, if_pos hb]
      · rw [if_neg hb, if_neg hb]
        cases (if a ≠ bi.1 then (⟨d, q :: l⟩ : LineGraph).IntegrateWithinExact k a bi.1
            else some 0) with
        | none => rfl
        | some result =>
          simp only [Option.some_bind]
          exact tailPart_cons_succ d p q l (k + 1) b result
            (lt_of_le_of_lt (le_trans (le_of_lt hpq) hqa) hab) (lt_of_le_of_lt hqa hab)

theorem head_le_last (q : MapTime × Point) (rest : List (MapTime × Point))
    (hs : SortedKeys (q :: rest)) (last : MapTime × Point)
    (hl : (q :: rest).getLast? = some last) : q.1 ≤ last.1 :=
  le_last_of_sorted (q :: rest) hs last hl q (List.mem_cons_self _ _)

/-- Where `IntegrateExact` is defined it is exact: on every graph with keys
strictly ascending and every range that does not start before the last key
and end after it, `IntegrateExact` returns the area under the piecewise-linear
function over the range. -/
theorem IntegrateExact_area_list (d : ℚ) (l : List (MapTime × Point)) :
    SortedKeys l → ∀ (a b : MapTime), a < b →
      (∃ last, l.getLast? = some last ∧ (b ≤ last.1 ∨ last.1 ≤ a)) →
      (⟨d, l⟩ : LineGraph).IntegrateExact a b = some (areaTo l b - areaTo l a) := by
  induction l with
  | nil =>
    intro _ a b _ h
    obtain ⟨last, hl, _⟩ := h
    simp at hl
  | cons p l ih =>
    intro hs a b hab hdom
    obtain ⟨last, hl, hdom⟩ := hdom
    cases l with
    | nil =>
      have hlast : last = p := by
        simp only [List.getLast?_singleton, Option.some.injEq] at hl
        exact hl.symm
      subst hlast
      rw [IntegrateExact_unfold _ a b hab]
      rcases hdom with hb | ha
      · have hap : a < last.1 := lt_of_lt_of_le hab hb
        have hu : (⟨d, [last]⟩ : LineGraph).upper_bound a = 0 := by
          rw [upper_bound_cons, if_pos hap]
        rw [hu, areaTo_before last [] hs b hb, areaTo_before last [] hs a (le_of_lt hap)]
        simp only [pend, List.length_singleton, Nat.zero_ne_one, if_false, deref,
          List.getElem?_cons_zero, Option.some_bind, if_pos hb, if_true]
        congr 1
        push_cast
        ring
      · have hu : (⟨d, [last]⟩ : LineGraph).upper_bound a = 1 := by
          rw [upper_bound_cons, if_neg (not_lt.mpr ha)]
          rfl
        rw [hu]
        simp only [pend, List.length_singleton, if_true, rbegin, List.getLast?_singleton,
          Option.some_bind, areaTo, if_neg (not_lt.mpr ha),
          if_neg (not_lt.mpr (le_trans ha (le_of_lt hab)))]
        congr 1
        push_cast
        ring
    | cons q r =>
      have hpq : p.1 < q.1 := ((sortedKeys_cons p _).mp hs).1 q (List.mem_cons_self _ _)
      have hs' : SortedKeys (q :: r) := ((sortedKeys_cons p _).mp hs).2
      have hl' : (q :: r).getLast? = some last := by
        rw [List.getLast?_cons_cons] at hl; exact hl
      have hqlast : q.1 ≤ last.1 := head_le_last q r hs' last hl'
      by_cases hqa : q.1 ≤ a
      · rw [IntegrateExact_cons_skip d p q r hpq a b hqa hab,
          ih hs' a b hab ⟨last, hl', hdom⟩,
          areaTo_cons_ge p q r hs b (le_trans hqa (le_of_lt hab)),
          areaTo_cons_ge p q r hs a hqa]
        congr 1
        ring
      · have haq : a < q.1 := not_le.mp hqa
        have hb : b ≤ last.1 := by
          rcases hdom with h | h
          · exact h
          · exact absurd (le_trans hqlast h) hqa
        rw [IntegrateExact_unfold _ a b hab]
        by_cases hap : a < p.1
        · have hu : (⟨d, p :: q :: r⟩ : LineGraph).upper_bound a = 0 := by
            rw [upper_bound_cons, if_pos hap]
          rw [hu, areaTo_before p (q :: r) hs a (le_of_lt hap)]
          simp only [pend, List.length_cons, deref, List.getElem?_cons_zero, Option.some_bind,
            if_true]
          rw [if_neg (by omega)]
          by_cases hbp : b ≤ p.1
          · rw [if_pos hbp, areaTo_before p (q :: r) hs b hbp]
            congr 1
            push_cast
            ring
          · rw [if_neg hbp, tailPart_spec d (q :: r) p b _ hs (not_le.mp hbp)
              (fun last' hl'' => by
                rw [hl] at hl''
                simp only [Option.some.injEq] at hl''
                rw [← hl'']; exact hb)]
            congr 1
            push_cast
            ring
        · have hpa : p.1 ≤ a := not_lt.mp hap
          have hu : (⟨d, p :: q :: r⟩ : LineGraph).upper_bound a = 1 := by
            rw [upper_bound_cons, if_neg hap, upper_bound_cons, if_pos haq]
          rw [hu, areaTo_first_segment p q r a hpa (le_of_lt haq)]
          simp only [pend, List.length_cons, deref, List.getElem?_cons_succ,
            List.getElem?_cons_zero, Option.some_bind, Nat.one_ne_zero, if_false, Nat.sub_self]
          rw [if_neg (by omega)]
          by_cases hbq : b ≤ q.1
          · rw [if_pos hbq, IntegrateWithinExact_first d p q r hpq a b hpa hab hbq,
              areaTo_first_segment p q r b (le_trans hpa (le_of_lt hab)) hbq]
          · have hqb : q.1 < b := not_le.mp hbq
            rw [if_neg hbq, if_pos (ne_of_lt haq),
              IntegrateWithinExact_first d p q r hpq a q.1 hpa haq (le_refl _)]
            simp only [Option.some_bind]
            rw [tailPart_cons_succ d p q r 0 b _ (lt_trans hpq hqb) hqb,
              tailPart_spec d r q b _ hs' hqb (fun last' hl'' => by
                rw [hl'] at hl''
                simp only [Option.some.injEq] at hl''
                rw [← hl'']; exact hb),
              areaTo_cons_ge p q r hs b (le_of_lt hqb)]
            congr 1
            ring

/-- In exact integers: where `Integrate` is defined it is the area under the
piecewise-linear function. -/
theorem IntegrateExact_area (g : LineGraph) (hwf : g.WF) (last : MapTime × Point)
    (hl : g.m_points.getLast? = some last) (a b : MapTime) (hab : a < b)
    (hdom : b ≤ last.1 ∨ last.1 ≤ a) :
    g.IntegrateExact a b = some (areaTo g.m_points b - areaTo g.m_points a) :=
  IntegrateExact_area_list g.m_default g.m_points hwf a b hab ⟨last, hl, hdom⟩

/-- In exact integers: on every graph with at least one point and keys strictly
ascending, for `begin < mid < end` such that the range does not start before
the last key and end after it, the three calls of `Integrate` return and
`Integrate(begin, mid) + Integrate(mid, end) = Integrate(begin, end)`. -/
theorem IntegrateExact_additive (g : LineGraph) (hwf : g.WF) (last : MapTime × Point)
    (hl : g.m_points.getLast? = some last) (a m b : MapTime) (ham : a < m) (hmb : m < b)
    (hdom : b ≤ last.1 ∨ last.1 ≤ a) :
    ∃ x y z, g.IntegrateExact a m = some x ∧ g.IntegrateExact m b = some y ∧ g.IntegrateExact a b = some z
      ∧ x + y = z := by
  refine ⟨_, _, _, IntegrateExact_area g hwf last hl a m ham ?_,
    IntegrateExact_area g hwf last hl m b hmb ?_,
    IntegrateExact_area g hwf last hl a b (lt_trans ham hmb) hdom, by ring⟩
  · rcases hdom with h | h
    · exact Or.inl (le_trans (le_of_lt hmb) h)
    · exact Or.inr h
  · rcases hdom with h | h
    · exact Or.inl h
    · exact Or.inr (le_trans h (le_of_lt ham))

end LineGraph

theorem scanLaneToggle_stop (bm : Beatmap) (start : Nat) (time : MapTime)
    (hs : start < bm.laneTogglePoints.length)
    (h : scanLaneToggle bm start time + 1 < bm.laneTogglePoints.length) :
    time < (bm.laneToggle (scanLaneToggle bm start time + 1)).time := by
  have hge := scanLaneToggle_ge bm start time
  unfold scanLaneToggle at h hge ⊢
  have he : IsEndLaneToggle bm start = false := by
    simp [IsEndLaneToggle, Beatmap.GetEndLaneTogglePoint]
    omega
  simp only [he, Bool.false_eq_true, if_false] at h hge ⊢
  have := advanceWhile_stop (fun (lt : LaneTogglePoint) => decide (lt.time ≤ time))
    default (bm.laneTogglePoints.drop (start + 1)) start
    (by simp only [List.length_drop]; omega)
  rw [getD_drop] at this
  have e : start + 1 + (advanceWhile (fun (lt : LaneTogglePoint) => decide (lt.time ≤ time))
      (bm.laneTogglePoints.drop (start + 1)) start - start)
      = advanceWhile (fun (lt : LaneTogglePoint) => decide (lt.time ≤ time))
      (bm.laneTogglePoints.drop (start + 1)) start + 1 := by omega
  rw [e] at this
  simpa [Beatmap.laneToggle] using this

/-- With the reset allowed, `m_SelectLaneTogglePoint` scans from the first lane
toggle point when the cursor is past the time, and from the cursor otherwise. -/
theorem m_SelectLaneTogglePoint_reset (bm : Beatmap) (s : BeatmapPlayback) (time : MapTime)
    (hcur : s.m_currentLaneTogglePoint < bm.laneTogglePoints.length) :
    m_SelectLaneTogglePoint bm s time true
      = if (bm.laneToggle s.m_currentLaneTogglePoint).time > time then scanLaneToggle bm 0 time
        else scanLaneToggle bm s.m_currentLaneTogglePoint time := by
  have he : IsEndLaneToggle bm s.m_currentLaneTogglePoint = false := by
    simp only [IsEndLaneToggle, Beatmap.GetEndLaneTogglePoint, beq_eq_false_iff_ne, ne_eq]
    omega
  have h0 : IsEndLaneToggle bm 0 = false := by
    simp only [IsEndLaneToggle, Beatmap.GetEndLaneTogglePoint, beq_eq_false_iff_ne, ne_eq]
    omega
  unfold m_SelectLaneTogglePoint scanLaneToggle
  simp only [he, Bool.false_eq_true, if_false, Bool.and_true, h0]
  by_cases hgt : (bm.laneToggle s.m_currentLaneTogglePoint).time > time
  · simp [hgt, Beatmap.GetFirstLaneTogglePoint]
  · simp [hgt]

theorem m_SelectLaneTogglePoint_reset_spec (bm : Beatmap) (s : BeatmapPlayback)
    (time : MapTime) (hsorted : LaneTogglesSorted bm)
    (hcur : s.m_currentLaneTogglePoint < bm.laneTogglePoints.length) :
    m_SelectLaneTogglePoint bm s time true < bm.laneTogglePoints.length
      ∧ (∀ j, 0 < j → j ≤ m_SelectLaneTogglePoint bm s time true →
          (bm.laneToggle j).time ≤ time)
      ∧ (m_SelectLaneTogglePoint bm s time true + 1 < bm.laneTogglePoints.length →
          time < (bm.laneToggle (m_SelectLaneTogglePoint bm s time true + 1)).time) := by
  have hpos : 0 < bm.laneTogglePoints.length := by omega
  rw [m_SelectLaneTogglePoint_reset bm s time hcur]
  by_cases hgt : (bm.laneToggle s.m_currentLaneTogglePoint).time > time
  · rw [if_pos hgt]
    exact ⟨scanLaneToggle_lt bm 0 time hpos,
      fun j hj hle => scanLaneToggle_passed bm 0 time j hj hle,
      fun h => scanLaneToggle_stop bm 0 time hpos h⟩
  · rw [if_neg hgt]
    refine ⟨scanLaneToggle_lt bm _ time hcur, ?_,
      fun h => scanLaneToggle_stop bm _ time hcur h⟩
    intro j _ hle
    by_cases hjc : j ≤ s.m_currentLaneTogglePoint
    · exact le_trans (hsorted j s.m_currentLaneTogglePoint hjc hcur) (not_lt.mp hgt)
    · exact scanLaneToggle_passed bm _ time j (by omega) hle

/-- In a sorted sequence of times, a position such that the positions after
the first and up to it are at or before `q` and the next one is after `q` is
the last position at or before `q`, or the first position when every time is
after `q`. -/
theorem last_at_or_before_of_scan (tm : Nat → MapTime) (n : Nat) (q : MapTime)
    (hsorted : ∀ i j, i ≤ j → j < n → tm i ≤ tm j) (k : Nat) (hk : k < n)
    (hpass : ∀ j, 0 < j → j ≤ k → tm j ≤ q) (hstop : k + 1 < n → q < tm (k + 1)) :
    ((∃ j, j < n ∧ tm j ≤ q) → tm k ≤ q ∧ ∀ j, k < j → j < n → q < tm j)
      ∧ ((∀ j, j < n → q < tm j) → k = 0) := by
  have hafter : ∀ j, k < j → j < n → q < tm j := by
    intro j hkj hjn
    exact lt_of_lt_of_le (hstop (by omega)) (hsorted (k + 1) j (by omega) hjn)
  constructor
  · rintro ⟨j, hjn, hj⟩
    refine ⟨?_, hafter⟩
    by_cases hk0 : k = 0
    · by_cases hj0 : j ≤ k
      · have hj' : j = k := by omega
        rw [← hj']; exact hj
      · exact absurd hj (not_le.mpr (hafter j (by omega) hjn))
    · exact hpass k (by omega) (le_refl _)
  · intro hall
    by_contra hk0
    exact absurd (hpass k (by omega) (le_refl _)) (not_le.mpr (hall k hk))

/-- Two positions that both have the property of the scan result coincide. -/
theorem scan_result_unique (tm : Nat → MapTime) (n : Nat) (q : MapTime)
    (hsorted : ∀ i j, i ≤ j → j < n → tm i ≤ tm j) (k k2 : Nat) (hk : k < n) (hk2 : k2 < n)
    (hpass : ∀ j, 0 < j → j ≤ k → tm j ≤ q) (hstop : k + 1 < n → q < tm (k + 1))
    (hpass2 : ∀ j, 0 < j → j ≤ k2 → tm j ≤ q) (hstop2 : k2 + 1 < n → q < tm (k2 + 1)) :
    k2 = k := by
  rcases Nat.lt_trichotomy k k2 with h | h | h
  · have h1 := hpass2 k2 (by omega) (le_refl _)
    have h2 : q < tm k2 :=
      lt_of_lt_of_le (hstop (by omega)) (hsorted (k + 1) k2 (by omega) hk2)
    exact absurd h1 (not_le.mpr h2)
  · exact h.symm
  · have h1 := hpass k (by omega) (le_refl _)
    have h2 : q < tm k :=
      lt_of_lt_of_le (hstop2 (by omega)) (hsorted (k2 + 1) k (by omega) hk)
    exact absurd h1 (not_le.mpr h2)

/-- C22: for every query time `q` and states `s`, `s2` with any cursors. With
sorted timing points and both timing cursors not at the end sentinel,
`m_SelectTimingPoint(q, true)` is not the end sentinel and is the last timing
point whose time is at or before `q`, or the first timing point when every
time is after `q`, and the result is the same from `s2` as from `s`. With
sorted lane toggle points and both lane toggle cursors not at the end
sentinel, `m_SelectLaneTogglePoint(q, true)` does the same over the lane
toggle points. -/
theorem select_with_reset_last_at_or_before (bm : Beatmap) (s s2 : BeatmapPlayback)
    (q : MapTime) :
    (TimingSorted bm → s.m_currentTiming < bm.timingPoints.length →
      s2.m_currentTiming < bm.timingPoints.length →
      (m_SelectTimingPoint bm s q true < bm.timingPoints.length
        ∧ ((∃ j, j < bm.timingPoints.length ∧ (bm.timing j).time ≤ q) →
            (bm.timing (m_SelectTimingPoint bm s q true)).time ≤ q
            ∧ ∀ j, m_SelectTimingPoint bm s q true < j → j < bm.timingPoints.length →
                q < (bm.timing j).time)
        ∧ ((∀ j, j < bm.timingPoints.length → q < (bm.timing j).time) →
            m_SelectTimingPoint bm s q true = 0)
        ∧ m_SelectTimingPoint bm s2 q true = m_SelectTimingPoint bm s q true))
    ∧ (LaneTogglesSorted bm → s.m_currentLaneTogglePoint < bm.laneTogglePoints.length →
      s2.m_currentLaneTogglePoint < bm.laneTogglePoints.length →
      (m_SelectLaneTogglePoint bm s q true < bm.laneTogglePoints.length
        ∧ ((∃ j, j < bm.laneTogglePoints.length ∧ (bm.laneToggle j).time ≤ q) →
            (bm.laneToggle (m_SelectLaneTogglePoint bm s q true)).time ≤ q
            ∧ ∀ j, m_SelectLaneTogglePoint bm s q true < j → j < bm.laneTogglePoints.length →
                q < (bm.laneToggle j).time)
        ∧ ((∀ j, j < bm.laneTogglePoints.length → q < (bm.laneToggle j).time) →
            m_SelectLaneTogglePoint bm s q true = 0)
        ∧ m_SelectLaneTogglePoint bm s2 q true = m_SelectLaneTogglePoint bm s q true)) := by
  constructor
  · intro hts hct hct2
    obtain ⟨a1, a2, a3⟩ := m_SelectTimingPoint_reset_spec bm s q hts hct
    obtain ⟨b1, b2, b3⟩ := m_SelectTimingPoint_reset_spec bm s2 q hts hct2
    have ht := last_at_or_before_of_scan (fun j => (bm.timing j).time) bm.timingPoints.length q
      hts _ a1 a2 a3
    exact ⟨a1, ht.1, ht.2,
      scan_result_unique (fun j => (bm.timing j).time) bm.timingPoints.length q hts _ _ a1 b1
        a2 a3 b2 b3⟩
  · intro hls hcl hcl2
    obtain ⟨c1, c2, c3⟩ := m_SelectLaneTogglePoint_reset_spec bm s q hls hcl
    obtain ⟨d1, d2, d3⟩ := m_SelectLaneTogglePoint_reset_spec bm s2 q hls hcl2
    have hl := last_at_or_before_of_scan (fun j => (bm.laneToggle j).time)
      bm.laneTogglePoints.length q hls _ c1 c2 c3
    exact ⟨c1, hl.1, hl.2,
      scan_result_unique (fun j => (bm.laneToggle j).time) bm.laneTogglePoints.length q hls
        _ _ c1 d1 c2 c3 d2 d3⟩

theorem laneBeatmap_timingSorted : TimingSorted laneBeatmap := by
  intro i j hij hj
  have hj3 : j < 3 := hj
  interval_cases j <;> interval_cases i <;> decide

theorem laneBeatmap_laneSorted : LaneTogglesSorted laneBeatmap := by
  intro i j hij hj
  have hj2 : j < 2 := hj
  interval_cases j <;> interval_cases i <;> decide

theorem select_with_reset_last_at_or_before_witness :
    m_SelectTimingPoint laneBeatmap
        (runStateExact laneBeatmap (Reset laneBeatmap scenarioPlayback 0 0).2 [2500]) 1200 true = 1
      ∧ m_SelectTimingPoint laneBeatmap (Reset laneBeatmap scenarioPlayback 0 0).2 1200 true
        = m_SelectTimingPoint laneBeatmap
            (runStateExact laneBeatmap (Reset laneBeatmap scenarioPlayback 0 0).2 [2500]) 1200 true
      ∧ m_SelectLaneTogglePoint laneBeatmap (Reset laneBeatmap scenarioPlayback 0 0).2 1200 true
        = m_SelectLaneTogglePoint laneBeatmap
            (runStateExact laneBeatmap (Reset laneBeatmap scenarioPlayback 0 0).2 [2500]) 1200 true :=
  ⟨by decide,
    ((select_with_reset_last_at_or_before laneBeatmap
      (runStateExact laneBeatmap (Reset laneBeatmap scenarioPlayback 0 0).2 [2500])
      (Reset laneBeatmap scenarioPlayback 0 0).2 1200).1 laneBeatmap_timingSorted
      (by decide) (by decide)).2.2.2,
    ((select_with_reset_last_at_or_before laneBeatmap
      (runStateExact laneBeatmap (Reset laneBeatmap scenarioPlayback 0 0).2 [2500])
      (Reset laneBeatmap scenarioPlayback 0 0).2 1200).2 laneBeatmap_laneSorted
      (by decide) (by decide)).2.2.2⟩

theorem holdStep_erased (bm : Beatmap) (opt : MapTime) (s : BeatmapPlayback) (it : Nat) :
    (holdStepExact bm opt s it).1 = passes bm opt it := by
  unfold holdStepExact passes
  cases hty : (bm.obj it).type <;> simp <;> repeat' split
  all_goals (try simp_all)

theorem holdStep_fields (bm : Beatmap) (opt : MapTime) (s : BeatmapPlayback) (it : Nat) :
    (holdStepExact bm opt s it).2.1.m_playbackTime = s.m_playbackTime := by
  obtain ⟨E, h⟩ := holdStep_state bm opt s it
  rw [h]

theorem sweepHold_kept (bm : Beatmap) (opt : MapTime) (l : List Nat) (s : BeatmapPlayback) :
    (sweepHoldExact bm opt l s).1 = l.filter (fun i => !passes bm opt i) := by
  induction l generalizing s with
  | nil => rfl
  | cons x rest ih =>
    simp only [sweepHoldExact, holdStep_erased, ih, List.filter_cons]
    cases passes bm opt x <;> simp

theorem sorted_erase (l : List Nat) (h : l.Sorted (· < ·)) (x : Nat) :
    (l.erase x).Sorted (· < ·) :=
  List.Pairwise.sublist (List.erase_sublist x l) h

theorem fxEnds_spec (bm : Beatmap) (opt : MapTime) (s : BeatmapPlayback) (it : Nat) :
    fxEnds bm opt s it = true ↔
      ((bm.obj it).type = ObjectType.Hold ∧ ¬ (bm.obj it).duration + (bm.obj it).time < opt
        ∧ (bm.obj it).duration + (bm.obj it).time < s.m_playbackTime
        ∧ it ∈ s.m_effectObjects) := by
  unfold fxEnds ObjectSet.Contains
  simp only [Bool.and_eq_true, decide_eq_true_eq, Bool.not_eq_true', decide_eq_false_iff_not]
  tauto

theorem fxBegins_hold (bm : Beatmap) (opt : MapTime) (s : BeatmapPlayback) (it : Nat)
    (h : fxBegins bm opt s it = true) :
    (bm.obj it).type = ObjectType.Hold ∧ ¬ (bm.obj it).duration + (bm.obj it).time < opt := by
  unfold fxBegins at h
  simp only [Bool.and_eq_true, decide_eq_true_eq, Bool.not_eq_true',
    decide_eq_false_iff_not] at h
  exact ⟨h.1.1.1.1.1, h.1.1.1.1.2⟩

/-- The hold sweep only takes objects out of the effect set, keeps it ordered,
and takes out every hold button it visits and keeps whose end the clock has
passed. -/
theorem sweepHold_effect (bm : Beatmap) (opt : MapTime) (l : List Nat) :
    ∀ s : BeatmapPlayback, s.m_effectObjects.Sorted (· < ·) →
      (sweepHoldExact bm opt l s).2.1.m_effectObjects.Sorted (· < ·)
      ∧ (∀ i ∈ (sweepHoldExact bm opt l s).2.1.m_effectObjects, i ∈ s.m_effectObjects)
      ∧ (∀ i ∈ l, (bm.obj i).type = ObjectType.Hold →
          ¬ (bm.obj i).duration + (bm.obj i).time < opt →
          (bm.obj i).duration + (bm.obj i).time < s.m_playbackTime →
          i ∉ (sweepHoldExact bm opt l s).2.1.m_effectObjects) := by
  induction l with
  | nil =>
    intro s hs
    exact ⟨hs, fun i hi => hi, fun i hi => absurd hi (List.not_mem_nil i)⟩
  | cons x rest ih =>
    intro s hs
    have he := holdStep_effect bm opt s x
    have hs1 : (holdStepExact bm opt s x).2.1.m_effectObjects.Sorted (· < ·) := by
      rw [he]
      split
      · exact sorted_erase _ hs x
      · exact hs
    have hsub1 : ∀ i ∈ (holdStepExact bm opt s x).2.1.m_effectObjects, i ∈ s.m_effectObjects := by
      intro i hi
      rw [he] at hi
      split at hi
      · exact List.mem_of_mem_erase hi
      · exact hi
    obtain ⟨a1, a2, a3⟩ := ih (holdStepExact bm opt s x).2.1 hs1
    have hfinal : (sweepHoldExact bm opt (x :: rest) s).2.1
        = (sweepHoldExact bm opt rest (holdStepExact bm opt s x).2.1).2.1 := rfl
    rw [hfinal]
    refine ⟨a1, fun i hi => hsub1 i (a2 i hi), ?_⟩
    intro i hi hty hnp hend
    rw [List.mem_cons] at hi
    by_cases hix : i = x
    · subst hix
      intro hmem
      have hm1 := a2 i hmem
      rw [he] at hm1
      by_cases hin : i ∈ s.m_effectObjects
      · have hfx : fxEnds bm opt s i = true := (fxEnds_spec bm opt s i).2 ⟨hty, hnp, hend, hin⟩
        rw [if_pos hfx] at hm1
        exact (List.Nodup.mem_erase_iff hs.nodup).mp hm1 |>.1 rfl
      · have hfx : ¬ fxEnds bm opt s i = true := fun h =>
          hin ((fxEnds_spec bm opt s i).1 h).2.2.2
        rw [if_neg hfx] at hm1
        exact hin hm1
    · have hir : i ∈ rest := by
        rcases hi with h | h
        · exact absurd h hix
        · exact h
      exact a3 i hir hty hnp (by rw [holdStep_fields]; exact hend)

/-- The hittable sweep only adds to the effect set hold buttons that it
visits and keeps, and keeps the set ordered. -/
theorem sweepHittable_effect (bm : Beatmap) (opt : MapTime) (l : List Nat) :
    ∀ s : BeatmapPlayback, s.m_effectObjects.Sorted (· < ·) →
      (sweepHittableExact bm opt l s).2.1.m_effectObjects.Sorted (· < ·)
      ∧ (∀ i ∈ (sweepHittableExact bm opt l s).2.1.m_effectObjects,
          i ∈ s.m_effectObjects
          ∨ (i ∈ l ∧ (bm.obj i).type = ObjectType.Hold
              ∧ ¬ (bm.obj i).duration + (bm.obj i).time < opt)) := by
  induction l with
  | nil =>
    intro s hs
    exact ⟨hs, fun i hi => Or.inl hi⟩
  | cons x rest ih =>
    intro s hs
    have he := hittableStep_effect bm opt s x
    have hs1 : (hittableStepExact bm opt s x).2.1.m_effectObjects.Sorted (· < ·) := by
      rw [he]
      split
      · exact sorted_ObjectSet_Add x _ hs
      · exact hs
    obtain ⟨a1, a2⟩ := ih (hittableStepExact bm opt s x).2.1 hs1
    have hfinal : (sweepHittableExact bm opt (x :: rest) s).2.1
        = (sweepHittableExact bm opt rest (hittableStepExact bm opt s x).2.1).2.1 := rfl
    rw [hfinal]
    refine ⟨a1, ?_⟩
    intro i hi
    rcases a2 i hi with h | ⟨h1, h2, h3⟩
    · rw [he] at h
      split at h
      · rename_i hfx
        rw [mem_ObjectSet_Add] at h
        rcases h with h | h
        · subst h
          exact Or.inr ⟨List.mem_cons_self _ _, fxBegins_hold bm opt s i hfx⟩
        · exact Or.inl h
      · exact Or.inl h
    · exact Or.inr ⟨List.mem_cons_of_mem _ h1, h2, h3⟩

theorem enterPhases_hold (bm : Beatmap) (s : BeatmapPlayback) (t : MapTime) :
    (enterPhases bm s t).1.m_holdObjects = tickHoldMid bm s t := by
  simp only [enterPhases, Step.andThen, fireInitialEffectState_eq, advanceTiming_eq,
    advanceLaneToggle_eq, countBars, advanceObjects_eq, advanceLasers_eq, checkLaserAlerts_eq,
    tickObjEnd, tickLaserEnd, tickHoldMid, tickNewObjects, tickNewLasers]

theorem mem_addAllSet (l : List Nat) : ∀ (h : List Nat) (y : Nat),
    y ∈ addAllSet h l ↔ y ∈ h ∨ y ∈ l := by
  induction l with
  | nil => intro h y; simp [addAllSet]
  | cons x rest ih =>
    intro h y
    have := ih (ObjectSet.Add x h) y
    simp only [addAllSet, List.foldl_cons] at this ⊢
    rw [this, mem_ObjectSet_Add, List.mem_cons]
    tauto

theorem sorted_addAllSet (l : List Nat) : ∀ (h : List Nat), h.Sorted (· < ·) →
    (addAllSet h l).Sorted (· < ·) := by
  induction l with
  | nil => intro h hs; simpa [addAllSet] using hs
  | cons x rest ih =>
    intro h hs
    have := ih (ObjectSet.Add x h) (sorted_ObjectSet_Add x h hs)
    simpa [addAllSet] using this

theorem foldl_holdAdd (bm : Beatmap) (l : List Nat) : ∀ (h : List Nat),
    (h.Sorted (· < ·) → (l.foldl (fun w x => holdAdd bm x w) h).Sorted (· < ·))
    ∧ (∀ y, y ∈ h → y ∈ l.foldl (fun w x => holdAdd bm x w) h)
    ∧ (∀ y, y ∈ l → (bm.obj y).type = ObjectType.Hold →
        y ∈ l.foldl (fun w x => holdAdd bm x w) h) := by
  induction l with
  | nil =>
    intro h
    exact ⟨fun hs => hs, fun y hy => hy, fun y hy => absurd hy (List.not_mem_nil y)⟩
  | cons x rest ih =>
    intro h
    obtain ⟨a1, a2, a3⟩ := ih (holdAdd bm x h)
    simp only [List.foldl_cons]
    refine ⟨fun hs => a1 ?_, fun y hy => a2 y ?_, ?_⟩
    · unfold holdAdd
      split
      · exact sorted_ObjectSet_Add x h hs
      · exact hs
    · unfold holdAdd
      split
      · exact (mem_ObjectSet_Add x y h).2 (Or.inr hy)
      · exact hy
    · intro y hy hty
      rw [List.mem_cons] at hy
      rcases hy with rfl | hy
      · apply a2
        unfold holdAdd
        rw [if_pos (Or.inl hty)]
        exact (mem_ObjectSet_Add y y h).2 (Or.inl rfl)
      · exact a3 y hy hty

theorem tickHoldMid_spec (bm : Beatmap) (s : BeatmapPlayback) (t : MapTime) :
    (s.m_holdObjects.Sorted (· < ·) → (tickHoldMid bm s t).Sorted (· < ·))
    ∧ (∀ y, y ∈ s.m_holdObjects → y ∈ tickHoldMid bm s t)
    ∧ (∀ y, y ∈ tickNewObjects bm s t → (bm.obj y).type = ObjectType.Hold →
        y ∈ tickHoldMid bm s t) := by
  obtain ⟨a1, a2, a3⟩ := foldl_holdAdd bm (tickNewObjects bm s t) s.m_holdObjects
  unfold tickHoldMid
  refine ⟨fun hs => sorted_addAllSet _ _ (a1 hs), ?_, ?_⟩
  · intro y hy
    exact (mem_addAllSet _ _ y).2 (Or.inl (a2 y hy))
  · intro y hy hty
    exact (mem_addAllSet _ _ y).2 (Or.inl (a3 y hy hty))

theorem checkPassedHittable_hold (bm : Beatmap) (s : BeatmapPlayback) :
    (checkPassedHittableExact bm s).1.m_holdObjects = s.m_holdObjects := by
  obtain ⟨E, R, C, M, ev, h, _⟩ := checkPassedHittable_eq bm s
  rw [h]

theorem checkPassedHittable_effect (bm : Beatmap) (s : BeatmapPlayback) :
    (checkPassedHittableExact bm s).1.m_effectObjects
      = (sweepHittableExact bm (s.m_playbackTime - s.hittableObjectLeave)
          s.m_hittableObjects s).2.1.m_effectObjects := rfl

theorem removePassedHold_hold (bm : Beatmap) (s : BeatmapPlayback) :
    (removePassedHoldExact bm s).1.m_holdObjects
      = s.m_holdObjects.filter
          (fun i => !passes bm (s.m_playbackTime - s.hittableObjectLeave) i) := by
  unfold removePassedHoldExact
  simp only [sweepHold_kept]

theorem removePassedHold_effect (bm : Beatmap) (s : BeatmapPlayback) :
    (removePassedHoldExact bm s).1.m_effectObjects
      = (sweepHoldExact bm (s.m_playbackTime - s.hittableObjectLeave)
          s.m_holdObjects s).2.1.m_effectObjects := rfl

theorem passes_hold (bm : Beatmap) (opt : MapTime) (i : Nat)
    (hty : (bm.obj i).type = ObjectType.Hold) :
    passes bm opt i = decide ((bm.obj i).duration + (bm.obj i).time < opt) := by
  unfold passes
  rw [hty]

theorem stays_not_passes (bm : Beatmap) (opt t : MapTime) (i : Nat)
    (h : stays bm opt t i = true) : passes bm opt i = false := by
  unfold stays at h
  simp only [Bool.not_eq_true', Bool.or_eq_false_iff] at h
  exact h.1

/-- An accepted tick whose step is at most `hittableObjectLeave` keeps the
effect set inside the hold set. -/
theorem EffInv_updateAccepted (bm : Beatmap) (s : BeatmapPlayback) (t : MapTime)
    (log : List Notification) (hinv : Inv bm s log) (h : EffInv bm s)
    (hstep : t - s.hittableObjectLeave ≤ s.m_playbackTime) :
    EffInv bm (updateAcceptedExact bm s t).1 := by
  obtain ⟨e1, e2, e3, e4⟩ := h
  obtain ⟨p1, _, _, _, p5, _, _, _, _, _, _, _, p13⟩ := enterPhases_frame bm s t
  obtain ⟨f1, _, _, _, _, _, _, _, _, _, _, _, f13⟩ := tick_frame bm s t
  obtain ⟨m1, m2, m3⟩ := tickHoldMid_spec bm s t
  have hmid := tickMid_eq bm s t log hinv
  have e : (updateAcceptedExact bm s t).1
      = (removePassedHoldExact bm (checkPassedHittableExact bm (enterPhases bm s t).1).1).1 := by
    simp only [updateAccepted_eq, Step.andThen]
  have c1 := checkPassedHittable_frame bm (enterPhases bm s t).1
  simp only [frame, Prod.mk.injEq] at c1
  obtain ⟨_, _, c3, _, _, _, c7, _⟩ := c1
  -- the state between the two closing sweeps
  have hholdB : (checkPassedHittableExact bm (enterPhases bm s t).1).1.m_holdObjects
      = tickHoldMid bm s t := by
    rw [checkPassedHittable_hold, enterPhases_hold]
  obtain ⟨b1, b2⟩ := sweepHittable_effect bm (t - s.hittableObjectLeave) (tickMid bm s t)
    (enterPhases bm s t).1 (by rw [enterPhases_effect]; exact e1)
  have heffB : (checkPassedHittableExact bm (enterPhases bm s t).1).1.m_effectObjects
      = (sweepHittableExact bm (t - s.hittableObjectLeave) (tickMid bm s t)
          (enterPhases bm s t).1).2.1.m_effectObjects := by
    rw [checkPassedHittable_effect, p1, p5, p13]
  obtain ⟨d1, d2, d3⟩ := sweepHold_effect bm (t - s.hittableObjectLeave) (tickHoldMid bm s t)
    (checkPassedHittableExact bm (enterPhases bm s t).1).1 (by rw [heffB]; exact b1)
  have heffF : (updateAcceptedExact bm s t).1.m_effectObjects
      = (sweepHoldExact bm (t - s.hittableObjectLeave) (tickHoldMid bm s t)
          (checkPassedHittableExact bm (enterPhases bm s t).1).1).2.1.m_effectObjects := by
    rw [e, removePassedHold_effect, hholdB, c7, c3, p1, p5]
  have hholdF : (updateAcceptedExact bm s t).1.m_holdObjects
      = (tickHoldMid bm s t).filter (fun i => !passes bm (t - s.hittableObjectLeave) i) := by
    rw [e, removePassedHold_hold, hholdB, c7, c3, p1, p5]
  -- a hold button of the hittable list after the enter sweeps is in the hold set
  have hmidHold : ∀ i ∈ tickMid bm s t, (bm.obj i).type = ObjectType.Hold →
      i ∈ tickHoldMid bm s t := by
    intro i hi hty
    rw [hmid, List.mem_append, List.mem_append] at hi
    rcases hi with (hi | hi) | hi
    · exact m2 i (e4 i hi hty)
    · exact m3 i hi hty
    · have := laserEnters_laser bm s.m_viewRange i ((mem_tickNewLasers bm s t i).1 hi).1
      rw [hty] at this
      exact absurd this (by decide)
  have hkept : ∀ i, i ∈ tickHoldMid bm s t → (bm.obj i).type = ObjectType.Hold →
      ¬ (bm.obj i).duration + (bm.obj i).time < t - s.hittableObjectLeave →
      i ∈ (updateAcceptedExact bm s t).1.m_holdObjects := by
    intro i hi hty hnp
    rw [hholdF, List.mem_filter]
    refine ⟨hi, ?_⟩
    rw [passes_hold bm _ i hty]
    simp [hnp]
  -- where an object of the effect set before the hold sweep comes from
  have hsrc : ∀ i ∈ (checkPassedHittableExact bm (enterPhases bm s t).1).1.m_effectObjects,
      i ∈ tickHoldMid bm s t ∧ (bm.obj i).type = ObjectType.Hold
        ∧ ¬ (bm.obj i).duration + (bm.obj i).time < t - s.hittableObjectLeave := by
    intro i hi
    rw [heffB] at hi
    rcases b2 i hi with h | ⟨h1, h2, h3⟩
    · rw [enterPhases_effect] at h
      obtain ⟨g1, g2, g3⟩ := e3 i h
      exact ⟨m2 i g1, g2, fun hlt => g3 (lt_of_lt_of_le hlt hstep)⟩
    · exact ⟨hmidHold i h1 h2, h2, h3⟩
  refine ⟨by rw [heffF]; exact d1, ?_, ?_, ?_⟩
  · rw [hholdF]
    exact List.Pairwise.sublist (List.filter_sublist _) (m1 e2)
  · intro i hi
    rw [heffF] at hi
    obtain ⟨g1, g2, g3⟩ := hsrc i (d2 i hi)
    refine ⟨hkept i g1 g2 g3, g2, ?_⟩
    rw [f1]
    intro hend
    exact d3 i g1 g2 g3 (by rw [c7, p1]; exact hend) hi
  · intro i hi hty
    rw [f13, List.mem_filter] at hi
    have hnp := stays_not_passes bm _ _ i hi.2
    rw [passes_hold bm _ i hty] at hnp
    exact hkept i (hmidHold i hi.1 hty) hty (by simpa using hnp)

theorem tick_hold (bm : Beatmap) (s : BeatmapPlayback) (t : MapTime) :
    (updateAcceptedExact bm s t).1.m_holdObjects
      = (tickHoldMid bm s t).filter (fun i => !passes bm (t - s.hittableObjectLeave) i) := by
  obtain ⟨p1, _, _, _, p5, _⟩ := enterPhases_frame bm s t
  have e : (updateAcceptedExact bm s t).1
      = (removePassedHoldExact bm (checkPassedHittableExact bm (enterPhases bm s t).1).1).1 := by
    simp only [updateAccepted_eq, Step.andThen]
  have c1 := checkPassedHittable_frame bm (enterPhases bm s t).1
  simp only [frame, Prod.mk.injEq] at c1
  obtain ⟨_, _, c3, _, _, _, c7, _⟩ := c1
  rw [e, removePassedHold_hold, checkPassedHittable_hold, enterPhases_hold, c7, c3, p1, p5]

/-- The hold set is an ordered set in every state of a run. -/
theorem hold_sorted_run (bm : Beatmap) (ts : List MapTime) :
    ∀ s : BeatmapPlayback, s.m_isCalibration = false → s.m_holdObjects.Sorted (· < ·) →
      (runStateExact bm s ts).m_holdObjects.Sorted (· < ·) := by
  induction ts with
  | nil => intro s _ h; exact h
  | cons t rest ih =>
    intro s hc h
    have hc' := (Update_config bm s t hc).2.2.2.2.2.2
    apply ih (UpdateExact bm s t).1 hc'
    by_cases ht : t < s.m_playbackTime
    · rw [Update_of_rejected bm s t hc ht]
      exact h
    · rw [Update_of_accepted bm s t hc (not_lt.mp ht), tick_hold]
      exact List.Pairwise.sublist (List.filter_sublist _) ((tickHoldMid_spec bm s t).1 h)

theorem EffInv_run (bm : Beatmap) (ts : List MapTime) :
    ∀ (s : BeatmapPlayback) (log : List Notification), Inv bm s log → EffInv bm s →
      List.Chain (fun a b => a ≤ b ∧ b - s.hittableObjectLeave ≤ a) s.m_playbackTime ts →
      EffInv bm (runStateExact bm s ts) := by
  induction ts with
  | nil => intro s log _ h _; exact h
  | cons t rest ih =>
    intro s log hinv h hch
    rw [List.chain_cons] at hch
    obtain ⟨⟨hle, hstep⟩, hrest⟩ := hch
    have hacc := Update_of_accepted bm s t hinv.notCalibration hle
    have hinv' := Inv_Update bm s t log hinv
    obtain ⟨f1, _, _, _, f5, _⟩ := tick_frame bm s t
    show EffInv bm (runStateExact bm (UpdateExact bm s t).1 rest)
    apply ih (UpdateExact bm s t).1 _ hinv'
    · rw [hacc]
      exact EffInv_updateAccepted bm s t log hinv h hstep
    · rw [hacc, f1, f5]
      exact hrest

/-- In exact integers: after a successful `Reset` and after every tick of a run
with non-decreasing times whose steps are at most `hittableObjectLeave`, every
object of the effect set is in the hold set. -/
theorem effect_subset_hold_of_small_steps_exact (bm : Beatmap) (s0 s : BeatmapPlayback)
    (initTime start : MapTime) (hc : s0.m_isCalibration = false)
    (hr : Reset bm s0 initTime start = (true, s)) (ts : List MapTime)
    (hsteps : List.Chain (fun a b => a ≤ b ∧ b - s0.hittableObjectLeave ≤ a) initTime ts) :
    ∀ i ∈ (runStateExact bm s ts).m_effectObjects, i ∈ (runStateExact bm s ts).m_holdObjects := by
  obtain ⟨r1, _, _, r4, _, _, _, _, _, _, _, _, _, r14, r15, r16⟩ :=
    Reset_fields bm s0 s initTime start hr
  have hinv := Inv_Reset bm s0 s initTime start hc hr
  have h0 : EffInv bm s := by
    unfold EffInv
    rw [r14, r15, r16]
    simp
  have := EffInv_run bm ts s [] hinv h0 (by rw [r1, r4]; exact hsteps)
  intro i hi
  exact (this.2.2.1 i hi).1

theorem hittableStep_notes (bm : Beatmap) (opt : MapTime) (s : BeatmapPlayback) (it : Nat) :
    (hittableStepExact bm opt s it).2.2.filter isEventChanged
      = if fires bm s.m_playbackTime it then [eventNote bm it] else [] := by
  unfold hittableStepExact fires eventNote
  cases hty : (bm.obj it).type <;> simp <;> repeat' split
  all_goals (try simp_all [isEventChanged])

theorem hittableStep_mapping (bm : Beatmap) (opt : MapTime) (s : BeatmapPlayback) (it : Nat) :
    (hittableStepExact bm opt s it).2.1.m_eventMapping
      = if fires bm s.m_playbackTime it then
          setEvent (bm.obj it).key (bm.obj it).data s.m_eventMapping
        else s.m_eventMapping := by
  unfold hittableStepExact fires
  cases hty : (bm.obj it).type <;> simp <;> repeat' split
  all_goals (try simp_all)

theorem holdStep_notes (bm : Beatmap) (opt : MapTime) (s : BeatmapPlayback) (it : Nat) :
    (holdStepExact bm opt s it).2.2.filter isEventChanged = [] := by
  unfold holdStepExact
  cases hty : (bm.obj it).type <;> simp <;> repeat' split
  all_goals (try simp_all [isEventChanged])

/-- The hittable sweep emits `EventChanged` for the entries that satisfy the
firing condition, in order. -/
theorem sweepHittable_notes (bm : Beatmap) (opt : MapTime) (l : List Nat) :
    ∀ s : BeatmapPlayback,
      (sweepHittableExact bm opt l s).2.2.filter isEventChanged
        = (l.filter (fires bm s.m_playbackTime)).map (eventNote bm) := by
  induction l with
  | nil => intro s; rfl
  | cons x rest ih =>
    intro s
    have hclock := (hittableStep_clock bm opt s x).2
    simp only [sweepHittableExact, List.filter_append, hittableStep_notes, ih, hclock,
      List.filter_cons]
    cases fires bm s.m_playbackTime x <;> simp

/-- The hittable sweep latches the entries that satisfy the firing condition,
in order. -/
theorem sweepHittable_mapping (bm : Beatmap) (opt : MapTime) (l : List Nat) :
    ∀ s : BeatmapPlayback,
      (sweepHittableExact bm opt l s).2.1.m_eventMapping
        = latchAll bm s.m_eventMapping (l.filter (fires bm s.m_playbackTime)) := by
  induction l with
  | nil => intro s; rfl
  | cons x rest ih =>
    intro s
    have hclock := (hittableStep_clock bm opt s x).2
    have hfinal : (sweepHittableExact bm opt (x :: rest) s).2.1
        = (sweepHittableExact bm opt rest (hittableStepExact bm opt s x).2.1).2.1 := rfl
    rw [hfinal, ih, hclock, hittableStep_mapping, List.filter_cons]
    cases fires bm s.m_playbackTime x <;> simp [latchAll]

theorem sweepHold_notes (bm : Beatmap) (opt : MapTime) (l : List Nat) :
    ∀ s : BeatmapPlayback, (sweepHoldExact bm opt l s).2.2.filter isEventChanged = [] := by
  induction l with
  | nil => intro s; rfl
  | cons x rest ih =>
    intro s
    simp only [sweepHoldExact, List.filter_append, holdStep_notes, ih, List.append_nil]

theorem sweepHold_mapping (bm : Beatmap) (opt : MapTime) (l : List Nat) (s : BeatmapPlayback) :
    (sweepHoldExact bm opt l s).2.1.m_eventMapping = s.m_eventMapping := by
  obtain ⟨E, h⟩ := sweepHold_state bm opt l s
  rw [h]

theorem checkPassedHittable_notes (bm : Beatmap) (s : BeatmapPlayback) :
    (checkPassedHittableExact bm s).2.filter isEventChanged
      = (s.m_hittableObjects.filter (fires bm s.m_playbackTime)).map (eventNote bm) :=
  sweepHittable_notes bm _ s.m_hittableObjects s

theorem checkPassedHittable_mapping (bm : Beatmap) (s : BeatmapPlayback) :
    (checkPassedHittableExact bm s).1.m_eventMapping
      = latchAll bm s.m_eventMapping (s.m_hittableObjects.filter (fires bm s.m_playbackTime)) :=
  sweepHittable_mapping bm _ s.m_hittableObjects s

theorem removePassedHold_notes (bm : Beatmap) (s : BeatmapPlayback) :
    (removePassedHoldExact bm s).2.filter isEventChanged = [] :=
  sweepHold_notes bm _ s.m_holdObjects s

theorem removePassedHold_mapping (bm : Beatmap) (s : BeatmapPlayback) :
    (removePassedHoldExact bm s).1.m_eventMapping = s.m_eventMapping :=
  sweepHold_mapping bm _ s.m_holdObjects s

theorem enterPhases_mapping (bm : Beatmap) (s : BeatmapPlayback) (t : MapTime) :
    (enterPhases bm s t).1.m_eventMapping = s.m_eventMapping := by
  simp only [enterPhases, Step.andThen, fireInitialEffectState_eq, advanceTiming_eq,
    advanceLaneToggle_eq, countBars, advanceObjects_eq, advanceLasers_eq, checkLaserAlerts_eq]

theorem filter_map_not_eventChanged (l : List Nat) (f : Nat → Notification)
    (h : ∀ i, isEventChanged (f i) = false) : (l.map f).filter isEventChanged = [] := by
  rw [List.filter_eq_nil_iff]
  intro n hn
  obtain ⟨i, _, rfl⟩ := List.mem_map.mp hn
  rw [h i]
  exact Bool.false_ne_true

theorem enterPhases_log (bm : Beatmap) (s : BeatmapPlayback) (t : MapTime) :
    (enterPhases bm s t).2 =
      (preludePhases bm s t).2 ++ (tickNewObjects bm s t).map Notification.ObjectEntered
        ++ (tickNewLasers bm s t).map Notification.ObjectEntered
        ++ (tickAlerts bm s t).map Notification.LaserAlertEntered := by
  simp only [enterPhases, preludePhases, Step.andThen, fireInitialEffectState_eq,
    advanceTiming_eq, advanceLaneToggle_eq, countBars, advanceObjects_eq, advanceLasers_eq,
    checkLaserAlerts_eq, tickObjEnd, tickLaserEnd, tickAlertEnd, tickNewObjects,
    tickNewLasers, tickAlerts]

theorem preludePhases_notes (bm : Beatmap) (s : BeatmapPlayback) (t : MapTime) :
    (preludePhases bm s t).2.filter isEventChanged
      = if s.m_initialEffectStateSent then [] else initialBatch bm := by
  simp only [preludePhases, Step.andThen, fireInitialEffectState_eq, advanceTiming_eq,
    advanceLaneToggle_eq, countBars, List.filter_append]
  split_ifs <;> rfl

/-- The enter sweeps of a tick emit no `EventChanged` but the initial batch. -/
theorem enterPhases_notes (bm : Beatmap) (s : BeatmapPlayback) (t : MapTime) :
    (enterPhases bm s t).2.filter isEventChanged
      = if s.m_initialEffectStateSent then [] else initialBatch bm := by
  rw [enterPhases_log, List.filter_append, List.filter_append, List.filter_append,
    preludePhases_notes,
    filter_map_not_eventChanged (tickNewObjects bm s t) Notification.ObjectEntered
      (fun _ => rfl),
    filter_map_not_eventChanged (tickNewLasers bm s t) Notification.ObjectEntered
      (fun _ => rfl),
    filter_map_not_eventChanged (tickAlerts bm s t) Notification.LaserAlertEntered
      (fun _ => rfl)]
  simp

/-- The `EventChanged` notifications of an accepted tick: the initial batch if
it has not been sent, then one per fired event, in firing order. -/
theorem tick_notes (bm : Beatmap) (s : BeatmapPlayback) (t : MapTime) :
    (updateAcceptedExact bm s t).2.filter isEventChanged
      = (if s.m_initialEffectStateSent then [] else initialBatch bm)
        ++ (tickFired bm s t).map (eventNote bm) := by
  obtain ⟨p1, _, _, _, _, _, _, _, _, _, _, _, p13⟩ := enterPhases_frame bm s t
  rw [updateAccepted_events, List.filter_append, enterPhases_notes]
  unfold leavePhasesEvents
  rw [List.filter_append, checkPassedHittable_notes, removePassedHold_notes, p1, p13,
    List.append_nil]
  rfl

/-- The latched table after an accepted tick. -/
theorem tick_mapping (bm : Beatmap) (s : BeatmapPlayback) (t : MapTime) :
    (updateAcceptedExact bm s t).1.m_eventMapping
      = latchAll bm s.m_eventMapping (tickFired bm s t) := by
  obtain ⟨p1, _, _, _, _, _, _, _, _, _, _, _, p13⟩ := enterPhases_frame bm s t
  have e : (updateAcceptedExact bm s t).1
      = (removePassedHoldExact bm (checkPassedHittableExact bm (enterPhases bm s t).1).1).1 := by
    simp only [updateAccepted_eq, Step.andThen]
  rw [e, removePassedHold_mapping, checkPassedHittable_mapping, enterPhases_mapping, p1, p13]
  rfl

theorem Update_notes (bm : Beatmap) (s : BeatmapPlayback) (t : MapTime)
    (hc : s.m_isCalibration = false) :
    (UpdateExact bm s t).2.filter isEventChanged
      = (if t < s.m_playbackTime then []
          else if s.m_initialEffectStateSent then [] else initialBatch bm)
        ++ (updateFired bm s t).map (eventNote bm) := by
  unfold updateFired
  rw [hc]
  simp only [Bool.false_eq_true, if_false]
  by_cases ht : t < s.m_playbackTime
  · rw [Update_of_rejected bm s t hc ht, if_pos ht, if_pos ht]
    rfl
  · rw [Update_of_accepted bm s t hc (not_lt.mp ht), if_neg ht, if_neg ht, tick_notes]

theorem Update_mapping (bm : Beatmap) (s : BeatmapPlayback) (t : MapTime)
    (hc : s.m_isCalibration = false) :
    (UpdateExact bm s t).1.m_eventMapping = latchAll bm s.m_eventMapping (updateFired bm s t) := by
  unfold updateFired
  rw [hc]
  simp only [Bool.false_eq_true, if_false]
  by_cases ht : t < s.m_playbackTime
  · rw [Update_of_rejected bm s t hc ht, if_pos ht]
    rfl
  · rw [Update_of_accepted bm s t hc (not_lt.mp ht), if_neg ht, tick_mapping]

theorem latchAll_append (bm : Beatmap) (m : List (EventKey × EventData)) (a b : List Nat) :
    latchAll bm m (a ++ b) = latchAll bm (latchAll bm m a) b := by
  simp [latchAll, List.foldl_append]

/-- The latched table after a run. -/
theorem run_mapping (bm : Beatmap) (ts : List MapTime) :
    ∀ s : BeatmapPlayback, s.m_isCalibration = false →
      (runStateExact bm s ts).m_eventMapping = latchAll bm s.m_eventMapping (runFired bm s ts) := by
  induction ts with
  | nil => intro s _; rfl
  | cons t rest ih =>
    intro s hc
    have hc' := (Update_config bm s t hc).2.2.2.2.2.2
    show (runStateExact bm (UpdateExact bm s t).1 rest).m_eventMapping = _
    rw [ih _ hc', Update_mapping bm s t hc]
    simp only [runFired]
    rw [latchAll_append]

theorem Update_sent (bm : Beatmap) (s : BeatmapPlayback) (t : MapTime)
    (hc : s.m_isCalibration = false) :
    (UpdateExact bm s t).1.m_initialEffectStateSent
      = if t < s.m_playbackTime then s.m_initialEffectStateSent else true := by
  by_cases ht : t < s.m_playbackTime
  · rw [Update_of_rejected bm s t hc ht, if_pos ht]
  · rw [Update_of_accepted bm s t hc (not_lt.mp ht), if_neg ht]
    exact (tick_frame bm s t).2.2.2.2.2.2.2.2.1

/-- The `EventChanged` notifications of a run: the initial batch if the run
sent it, then one per fired event, in firing order. -/
theorem run_notes (bm : Beatmap) (ts : List MapTime) :
    ∀ s : BeatmapPlayback, s.m_isCalibration = false →
      (runLogExact bm s ts).filter isEventChanged
        = (if !s.m_initialEffectStateSent && (runStateExact bm s ts).m_initialEffectStateSent then
            initialBatch bm else [])
          ++ (runFired bm s ts).map (eventNote bm) := by
  induction ts with
  | nil =>
    intro s _
    show List.filter isEventChanged [] = _
    cases h : s.m_initialEffectStateSent <;> simp [runStateExact, runFired, h]
  | cons t rest ih =>
    intro s hc
    have hc' := (Update_config bm s t hc).2.2.2.2.2.2
    have hsent := Update_sent bm s t hc
    rw [runLog_cons, List.filter_append, Update_notes bm s t hc, ih _ hc']
    show _ = (if !s.m_initialEffectStateSent
        && (runStateExact bm (UpdateExact bm s t).1 rest).m_initialEffectStateSent then
          initialBatch bm else [])
      ++ (updateFired bm s t ++ runFired bm (UpdateExact bm s t).1 rest).map (eventNote bm)
    by_cases ht : t < s.m_playbackTime
    · have hf : updateFired bm s t = [] := by
        unfold updateFired
        rw [hc]
        simp [ht]
      rw [if_pos ht] at hsent
      rw [if_pos ht, hsent, hf]
      simp
    · rw [if_neg ht] at hsent
      have hfin := sent_stays bm rest (UpdateExact bm s t).1 hc' hsent
      rw [if_neg ht, hsent, hfin]
      cases s.m_initialEffectStateSent <;> simp

theorem latched_setEvent (k : EventKey) (d : EventData) (m : List (EventKey × EventData))
    (key : EventKey) :
    latched (setEvent k d m) key = if k = key then some d else latched m key := by
  unfold latched
  induction m with
  | nil =>
    by_cases h : k = key
    · simp [setEvent, h]
    · simp [setEvent, h]
  | cons e rest ih =>
    obtain ⟨k2, d2⟩ := e
    simp only [setEvent]
    by_cases h2 : k2 = k
    · rw [if_pos h2]
      by_cases h : k = key
      · have h3 : k2 = key := h2.trans h
        simp [List.find?_cons, h, h3]
      · have h3 : ¬ k2 = key := fun e => h (h2 ▸ e)
        simp [List.find?_cons, h, h3]
    · rw [if_neg h2]
      by_cases h3 : k2 = key
      · have h : ¬ k = key := fun e => h2 (h3.trans e.symm)
        simp [List.find?_cons, h, h3]
      · have h4 : (k2 == key) = false := beq_eq_false_iff_ne.mpr h3
        simp only [List.find?_cons, h4]
        exact ih

/-- Latching events with other keys leaves the entry of `key` alone. -/
theorem latched_latchAll_absent (bm : Beatmap) (fired : List Nat) (key : EventKey)
    (h : ∀ j ∈ fired, (bm.obj j).key ≠ key) :
    ∀ m : List (EventKey × EventData), latched (latchAll bm m fired) key = latched m key := by
  induction fired with
  | nil => intro m; rfl
  | cons i rest ih =>
    intro m
    have e : latchAll bm m (i :: rest)
        = latchAll bm (setEvent (bm.obj i).key (bm.obj i).data m) rest := rfl
    rw [e, ih (fun j hj => h j (List.mem_cons_of_mem _ hj)), latched_setEvent,
      if_neg (h i (List.mem_cons_self _ _))]

/-- After latching a list of events, the entry of the key of an event that no
later event of the list shares holds the value of that event. -/
theorem latched_latchAll_last (bm : Beatmap) (m : List (EventKey × EventData))
    (pre post : List Nat) (i : Nat) (h : ∀ j ∈ post, (bm.obj j).key ≠ (bm.obj i).key) :
    latched (latchAll bm m (pre ++ i :: post)) (bm.obj i).key = some (bm.obj i).data := by
  have e : latchAll bm m (pre ++ i :: post)
      = latchAll bm (setEvent (bm.obj i).key (bm.obj i).data (latchAll bm m pre)) post := by
    rw [latchAll_append]
    rfl
  rw [e, latched_latchAll_absent bm post _ h, latched_setEvent, if_pos rfl]

theorem eventsOf_append (bm : Beatmap) (a b : List Nat) :
    eventsOf bm (a ++ b) = eventsOf bm a ++ eventsOf bm b := by
  simp [eventsOf, List.filter_append]

theorem mem_eventsOf (bm : Beatmap) (l : List Nat) (i : Nat) :
    i ∈ eventsOf bm l ↔ i ∈ l ∧ (bm.obj i).type = ObjectType.Event := by
  simp [eventsOf, List.mem_filter]

theorem eventsOf_tickNewLasers (bm : Beatmap) (s : BeatmapPlayback) (t : MapTime) :
    eventsOf bm (tickNewLasers bm s t) = [] := by
  unfold eventsOf
  rw [List.filter_eq_nil_iff]
  intro i hi h
  have h1 := laserEnters_laser bm _ i ((mem_tickNewLasers bm s t i).1 hi).1
  rw [decide_eq_true_eq, h1] at h
  exact ObjectType.noConfusion h

theorem sorted_tickNewObjects (bm : Beatmap) (s : BeatmapPlayback) (t : MapTime) :
    (tickNewObjects bm s t).Sorted (· < ·) := by
  unfold tickNewObjects sweepRange
  exact List.Pairwise.sublist (List.filter_sublist _) (List.pairwise_lt_range' _ _)

/-- An event waiting in `m_hittableObjects` is behind the object cursor and
not yet due. -/
theorem hittable_event (bm : Beatmap) (s : BeatmapPlayback) (log : List Notification)
    (hinv : Inv bm s log) (i : Nat) (hi : i ∈ s.m_hittableObjects)
    (he : (bm.obj i).type = ObjectType.Event) :
    i < s.m_currObject ∧ fires bm s.m_playbackTime i = false := by
  obtain ⟨_, h2, h3⟩ := (hinv.hitIff i).1 hi
  constructor
  · unfold enterCursor at h2
    rw [if_neg (by rw [he]; exact fun h => ObjectType.noConfusion h)] at h2
    exact h2
  · unfold stays at h3
    simp only [Bool.not_eq_true', Bool.or_eq_false_iff] at h3
    exact h3.2

/-- The events among the entries of `m_hittableObjects` after the two enter
sweeps of a tick are in chart order. -/
theorem sorted_eventsOf_tickMid (bm : Beatmap) (s : BeatmapPlayback) (t : MapTime)
    (log : List Notification) (hinv : Inv bm s log)
    (hs : (eventsOf bm s.m_hittableObjects).Sorted (· < ·)) :
    (eventsOf bm (tickMid bm s t)).Sorted (· < ·) := by
  rw [tickMid_eq bm s t log hinv, eventsOf_append, eventsOf_append, eventsOf_tickNewLasers,
    List.append_nil]
  unfold List.Sorted
  rw [List.pairwise_append]
  refine ⟨hs, ?_, ?_⟩
  · exact List.Pairwise.sublist (List.filter_sublist _) (sorted_tickNewObjects bm s t)
  · intro a ha b hb
    rw [mem_eventsOf] at ha hb
    have h1 := (hittable_event bm s log hinv a ha.1 ha.2).1
    have h2 := ((mem_tickNewObjects bm s t b).1 hb.1).2.1
    omega

theorem tickFired_eq (bm : Beatmap) (s : BeatmapPlayback) (t : MapTime) :
    tickFired bm s t = (eventsOf bm (tickMid bm s t)).filter (fires bm t) := by
  unfold tickFired eventsOf
  rw [List.filter_filter]
  congr 1
  funext i
  unfold fires
  cases decide ((bm.obj i).type = ObjectType.Event) <;> simp

/-- The events fired by one tick are in chart order. -/
theorem sorted_tickFired (bm : Beatmap) (s : BeatmapPlayback) (t : MapTime)
    (log : List Notification) (hinv : Inv bm s log)
    (hs : (eventsOf bm s.m_hittableObjects).Sorted (· < ·)) :
    (tickFired bm s t).Sorted (· < ·) := by
  rw [tickFired_eq]
  exact List.Pairwise.sublist (List.filter_sublist _) (sorted_eventsOf_tickMid bm s t log hinv hs)

/-- A fired event was either waiting in `m_hittableObjects` or entered in this
tick; in both cases it is behind the new object cursor. -/
theorem tickFired_cursor (bm : Beatmap) (s : BeatmapPlayback) (t : MapTime)
    (log : List Notification) (hinv : Inv bm s log) (i : Nat) (hi : i ∈ tickFired bm s t) :
    fires bm t i = true ∧ i < tickObjEnd bm s t
      ∧ (i ∈ s.m_hittableObjects ∨ s.m_currObject ≤ i) := by
  unfold tickFired at hi
  rw [List.mem_filter, tickMid_eq bm s t log hinv, List.mem_append, List.mem_append] at hi
  obtain ⟨hm, hf⟩ := hi
  have he := fires_event bm t i hf
  have hO : s.m_currObject ≤ tickObjEnd bm s t := scanObjects_ge bm _ _
  refine ⟨hf, ?_⟩
  rcases hm with (hm | hm) | hm
  · have := (hittable_event bm s log hinv i hm he).1
    exact ⟨by omega, Or.inl hm⟩
  · have := (mem_tickNewObjects bm s t i).1 hm
    exact ⟨this.2.2, Or.inr this.2.1⟩
  · have h1 := laserEnters_laser bm _ i ((mem_tickNewLasers bm s t i).1 hm).1
    rw [he] at h1
    exact ObjectType.noConfusion h1

theorem EvInv_updateAccepted (bm : Beatmap) (s : BeatmapPlayback) (t : MapTime)
    (log : List Notification) (fired : List Nat) (hinv : Inv bm s log)
    (h : EvInv bm s fired) (ht : s.m_playbackTime ≤ t) :
    EvInv bm (updateAcceptedExact bm s t).1 (fired ++ tickFired bm s t) := by
  obtain ⟨f1, _, _, _, _, _, _, _, _, f10, _, _, f13⟩ := tick_frame bm s t
  obtain ⟨hn, hf, hs⟩ := h
  have hO : s.m_currObject ≤ tickObjEnd bm s t := scanObjects_ge bm _ _
  unfold EvInv
  rw [f1, f10, f13]
  refine ⟨?_, ?_, ?_⟩
  · rw [List.nodup_append]
    refine ⟨hn, (sorted_tickFired bm s t log hinv hs).nodup, ?_⟩
    intro i hi1 hi2
    obtain ⟨h1, h2⟩ := hf i hi1
    obtain ⟨_, _, h3⟩ := tickFired_cursor bm s t log hinv i hi2
    rcases h3 with h3 | h3
    · have := (hittable_event bm s log hinv i h3 (fires_event bm _ i h1)).2
      rw [h1] at this
      exact Bool.noConfusion this
    · omega
  · intro i hi
    rw [List.mem_append] at hi
    rcases hi with hi | hi
    · obtain ⟨h1, h2⟩ := hf i hi
      exact ⟨fires_mono bm _ _ ht i h1, by omega⟩
    · obtain ⟨h1, h2, _⟩ := tickFired_cursor bm s t log hinv i hi
      exact ⟨h1, h2⟩
  · exact List.Pairwise.sublist (List.Sublist.filter _ (List.filter_sublist _))
      (sorted_eventsOf_tickMid bm s t log hinv hs)

theorem EvInv_Update (bm : Beatmap) (s : BeatmapPlayback) (t : MapTime)
    (log : List Notification) (fired : List Nat) (hinv : Inv bm s log)
    (h : EvInv bm s fired) :
    EvInv bm (UpdateExact bm s t).1 (fired ++ updateFired bm s t) := by
  unfold updateFired
  rw [hinv.notCalibration]
  simp only [Bool.false_eq_true, if_false]
  by_cases ht : t < s.m_playbackTime
  · rw [Update_of_rejected bm s t hinv.notCalibration ht, if_pos ht, List.append_nil]
    exact h
  · rw [Update_of_accepted bm s t hinv.notCalibration (not_lt.mp ht), if_neg ht]
    exact EvInv_updateAccepted bm s t log fired hinv h (not_lt.mp ht)

theorem EvInv_run (bm : Beatmap) (ts : List MapTime) :
    ∀ (s : BeatmapPlayback) (log : List Notification) (fired : List Nat),
      Inv bm s log → EvInv bm s fired →
      EvInv bm (runStateExact bm s ts) (fired ++ runFired bm s ts) := by
  induction ts with
  | nil =>
    intro s log fired _ h
    simpa [runStateExact, runFired] using h
  | cons t rest ih =>
    intro s log fired hinv h
    have := ih (UpdateExact bm s t).1 _ _ (Inv_Update bm s t log hinv) (EvInv_Update bm s t log fired hinv h)
    rw [List.append_assoc] at this
    exact this

theorem runFired_append (bm : Beatmap) (a b : List MapTime) :
    ∀ s : BeatmapPlayback,
      runFired bm s (a ++ b) = runFired bm s a ++ runFired bm (runStateExact bm s a) b := by
  induction a with
  | nil => intro s; rfl
  | cons t rest ih =>
    intro s
    show updateFired bm s t ++ runFired bm (UpdateExact bm s t).1 (rest ++ b) = _
    rw [ih, ← List.append_assoc]
    rfl

theorem runFired_single (bm : Beatmap) (s : BeatmapPlayback) (t : MapTime) :
    runFired bm s [t] = updateFired bm s t := by
  simp [runFired]

theorem updateFired_of_accepted (bm : Beatmap) (s : BeatmapPlayback) (t : MapTime)
    (hc : s.m_isCalibration = false) (ht : s.m_playbackTime ≤ t) :
    updateFired bm s t = tickFired bm s t := by
  unfold updateFired
  rw [hc, if_neg (not_lt.mpr ht)]
  simp

/-- In exact integers: the single-shot firing and the latching of parameter
events, over any run after a successful `Reset` and in a further accepted tick
`t`; the statement of `event_single_shot_and_latching` on the exact-integer
description of the run. -/
theorem event_single_shot_and_latching_exact (bm : Beatmap) (s0 s : BeatmapPlayback)
    (initTime start : MapTime) (hc : s0.m_isCalibration = false)
    (hr : Reset bm s0 initTime start = (true, s)) (ts : List MapTime) (t : MapTime)
    (ht : (runStateExact bm s ts).m_playbackTime ≤ t) :
    ((runLogExact bm s ts).filter isEventChanged
        = (if (runStateExact bm s ts).m_initialEffectStateSent then initialBatch bm else [])
          ++ (runFired bm s ts).map (eventNote bm)
      ∧ (runFired bm s ts).Nodup
      ∧ (∀ i ∈ runFired bm s ts, (bm.obj i).type = ObjectType.Event
          ∧ i ∉ (runStateExact bm s ts).m_hittableObjects)
      ∧ (∀ i ∈ (runStateExact bm s ts).m_hittableObjects, (bm.obj i).type = ObjectType.Event →
          (runStateExact bm s ts).m_playbackTime + 2 ≤ (bm.obj i).time)
      ∧ (∀ pre i post, runFired bm s ts = pre ++ i :: post →
          (∀ j ∈ post, (bm.obj j).key ≠ (bm.obj i).key) →
          latched (runStateExact bm s ts).m_eventMapping (bm.obj i).key = some (bm.obj i).data))
    ∧ ((∀ i, i ∈ tickMid bm (runStateExact bm s ts) t ↔
          (i ∈ (runStateExact bm s ts).m_hittableObjects
            ∨ i ∈ tickNewObjects bm (runStateExact bm s ts) t
            ∨ i ∈ tickNewLasers bm (runStateExact bm s ts) t))
      ∧ (∀ i, i ∈ updateFired bm (runStateExact bm s ts) t ↔
          (i ∈ tickMid bm (runStateExact bm s ts) t ∧ (bm.obj i).type = ObjectType.Event
            ∧ (bm.obj i).time < t + 2))
      ∧ (∀ i ∈ updateFired bm (runStateExact bm s ts) t,
          i ∉ (UpdateExact bm (runStateExact bm s ts) t).1.m_hittableObjects)
      ∧ (updateFired bm (runStateExact bm s ts) t).Sorted (· < ·)
      ∧ (UpdateExact bm (runStateExact bm s ts) t).2.filter isEventChanged
          = (if (runStateExact bm s ts).m_initialEffectStateSent then [] else initialBatch bm)
            ++ (updateFired bm (runStateExact bm s ts) t).map (eventNote bm)
      ∧ (UpdateExact bm (runStateExact bm s ts) t).1.m_eventMapping
          = latchAll bm (runStateExact bm s ts).m_eventMapping (updateFired bm (runStateExact bm s ts) t)
      ∧ runFired bm s (ts ++ [t])
          = runFired bm s ts ++ updateFired bm (runStateExact bm s ts) t) := by
  obtain ⟨_, _, _, _, _, _, _, r8, _, _, _, _, _, r14, _, _⟩ :=
    Reset_fields bm s0 s initTime start hr
  have hinv0 := Inv_Reset bm s0 s initTime start hc hr
  have hinv := Inv_run bm ts s [] hinv0
  have hcs := hinv0.notCalibration
  have hcc := hinv.notCalibration
  have hev0 : EvInv bm s [] := by
    unfold EvInv
    rw [r14]
    simp [eventsOf]
  have hev := EvInv_run bm ts s [] [] hinv0 hev0
  rw [List.nil_append] at hev
  obtain ⟨hn, hf, hs⟩ := hev
  have hacc := updateFired_of_accepted bm (runStateExact bm s ts) t hcc ht
  refine ⟨⟨?_, hn, ?_, ?_, ?_⟩, ?_, ?_, ?_, ?_, ?_, ?_, ?_⟩
  · rw [run_notes bm ts s hcs, r8]
    cases (runStateExact bm s ts).m_initialEffectStateSent <;> rfl
  · intro i hi
    obtain ⟨h1, _⟩ := hf i hi
    have he := fires_event bm _ i h1
    refine ⟨he, fun hm => ?_⟩
    have := (hittable_event bm _ _ hinv i hm he).2
    rw [h1] at this
    exact Bool.noConfusion this
  · intro i hi he
    have := (hittable_event bm _ _ hinv i hi he).2
    unfold fires at this
    simp only [he, decide_True, Bool.true_and, decide_eq_false_iff_not, not_lt] at this
    exact this
  · intro pre i post hsplit hpost
    rw [run_mapping bm ts s hcs, hsplit]
    exact latched_latchAll_last bm _ pre post i hpost
  · intro i
    rw [tickMid_eq bm _ t _ hinv, List.mem_append, List.mem_append, or_assoc]
  · intro i
    rw [hacc]
    unfold tickFired fires
    rw [List.mem_filter]
    simp only [Bool.and_eq_true, decide_eq_true_eq]
  · intro i hi hm
    rw [hacc] at hi
    rw [Update_of_accepted bm _ t hcc ht, (tick_frame bm _ t).2.2.2.2.2.2.2.2.2.2.2.2,
      List.mem_filter] at hm
    have h1 := (List.mem_filter.1 hi).2
    have h2 := hm.2
    unfold stays at h2
    rw [h1] at h2
    simp at h2
  · rw [hacc]
    exact sorted_tickFired bm _ t _ hinv hs
  · rw [Update_notes bm _ t hcc, if_neg (not_lt.mpr ht)]
  · exact Update_mapping bm _ t hcc
  · rw [runFired_append, runFired_single]

theorem wrap32_eq (x : Int) (h : InRange32 x) : wrap32 x = x := by
  unfold InRange32 at h
  unfold wrap32
  omega

theorem add32_eq (a b : Int) (h : InRange32 (a + b)) : add32 a b = a + b :=
  wrap32_eq _ h

theorem sub32_eq (a b : Int) (h : InRange32 (a - b)) : sub32 a b = a - b :=
  wrap32_eq _ h

theorem ObjectExact_default : ObjectExact (default : ObjectState) := by
  decide

theorem ChartExact.obj {bm : Beatmap} (h : ChartExact bm) (i : Nat) : ObjectExact (bm.obj i) := by
  unfold Beatmap.obj
  by_cases hi : i < bm.objectStates.length
  · rw [List.getD_eq_getElem _ _ hi]
    exact h _ (List.getElem_mem hi)
  · rw [List.getD_eq_default _ _ (not_lt.mp hi)]
    exact ObjectExact_default

theorem enterObject_exact (bm : Beatmap) (hchart : ChartExact bm) (r : Step) (it : Nat) :
    enterObject bm r it = enterObjectExact bm r it := by
  obtain ⟨h1, _, _⟩ := hchart.obj it
  have e : add32 (bm.obj it).time (bm.obj it).duration = (bm.obj it).time + (bm.obj it).duration :=
    add32_eq _ _ (by rw [add_comm]; exact h1)
  unfold enterObject enterObjectExact
  simp only [e]

theorem enterLaser_exact (bm : Beatmap) (hchart : ChartExact bm) (r : Step) (it : Nat) :
    enterLaser bm r it = enterLaserExact bm r it := by
  obtain ⟨h1, _, _⟩ := hchart.obj it
  have e : add32 (bm.obj it).time (bm.obj it).duration = (bm.obj it).time + (bm.obj it).duration :=
    add32_eq _ _ (by rw [add_comm]; exact h1)
  unfold enterLaser enterLaserExact
  simp only [e]

theorem advanceObjects_exact (bm : Beatmap) (hchart : ChartExact bm) (s : BeatmapPlayback)
    (h : InRange32 (s.m_playbackTime + s.hittableObjectEnter)) :
    advanceObjects bm s = advanceObjectsExact bm s := by
  have e : enterObject bm = enterObjectExact bm := by
    funext r it
    exact enterObject_exact bm hchart r it
  unfold advanceObjects advanceObjectsExact
  rw [add32_eq _ _ h, e]

theorem advanceLasers_exact (bm : Beatmap) (hchart : ChartExact bm) (s : BeatmapPlayback)
    (h : InRange32 (s.m_playbackTime + s.hittableLaserEnter)) :
    advanceLasers bm s = advanceLasersExact bm s := by
  have e : enterLaser bm = enterLaserExact bm := by
    funext r it
    exact enterLaser_exact bm hchart r it
  unfold advanceLasers advanceLasersExact
  rw [add32_eq _ _ h, e]

theorem checkLaserAlerts_exact (bm : Beatmap) (s : BeatmapPlayback)
    (h : InRange32 (s.m_playbackTime + s.alertLaserThreshold)) :
    checkLaserAlerts bm s = checkLaserAlertsExact bm s := by
  unfold checkLaserAlerts checkLaserAlertsExact
  rw [add32_eq _ _ h]

theorem hittableStep_exact (bm : Beatmap) (hchart : ChartExact bm) (opt : MapTime)
    (s : BeatmapPlayback) (it : Nat)
    (h1 : InRange32 (s.m_playbackTime + s.audioOffset)) (h2 : InRange32 (s.m_playbackTime + 2)) :
    hittableStep bm opt s it = hittableStepExact bm opt s it := by
  obtain ⟨o1, o2, o3⟩ := hchart.obj it
  have e1 := add32_eq _ _ o1
  have e2 := sub32_eq _ _ o2
  have e3 := sub32_eq _ _ o3
  have e4 := add32_eq _ _ h1
  have e5 := add32_eq _ _ h2
  unfold hittableStep hittableStepExact
  simp only [e1, e2, e3, e4, e5]

theorem sweepHittable_exact (bm : Beatmap) (hchart : ChartExact bm) (opt : MapTime)
    (l : List Nat) :
    ∀ s : BeatmapPlayback, InRange32 (s.m_playbackTime + s.audioOffset) →
      InRange32 (s.m_playbackTime + 2) →
      sweepHittable bm opt l s = sweepHittableExact bm opt l s := by
  induction l with
  | nil => intro s _ _; rfl
  | cons it rest ih =>
    intro s h1 h2
    obtain ⟨c1, c2⟩ := hittableStep_clock bm opt s it
    simp only [sweepHittable, sweepHittableExact, hittableStep_exact bm hchart opt s it h1 h2]
    rw [ih _ (by rw [c1, c2]; exact h1) (by rw [c2]; exact h2)]

theorem checkPassedHittable_exact (bm : Beatmap) (hchart : ChartExact bm) (s : BeatmapPlayback)
    (h0 : InRange32 (s.m_playbackTime - s.hittableObjectLeave))
    (h1 : InRange32 (s.m_playbackTime + s.audioOffset)) (h2 : InRange32 (s.m_playbackTime + 2)) :
    checkPassedHittable bm s = checkPassedHittableExact bm s := by
  unfold checkPassedHittable checkPassedHittableExact
  simp only [sub32_eq _ _ h0, sweepHittable_exact bm hchart _ _ s h1 h2]

theorem holdStep_exact (bm : Beatmap) (hchart : ChartExact bm) (opt : MapTime)
    (s : BeatmapPlayback) (it : Nat) :
    holdStep bm opt s it = holdStepExact bm opt s it := by
  obtain ⟨o1, _, _⟩ := hchart.obj it
  have e1 := add32_eq _ _ o1
  unfold holdStep holdStepExact
  simp only [e1]

theorem sweepHold_exact (bm : Beatmap) (hchart : ChartExact bm) (opt : MapTime)
    (l : List Nat) :
    ∀ s : BeatmapPlayback, sweepHold bm opt l s = sweepHoldExact bm opt l s := by
  induction l with
  | nil => intro s; rfl
  | cons it rest ih =>
    intro s
    simp only [sweepHold, sweepHoldExact, holdStep_exact bm hchart opt s it, ih]

theorem removePassedHold_exact (bm : Beatmap) (hchart : ChartExact bm) (s : BeatmapPlayback)
    (h0 : InRange32 (s.m_playbackTime - s.hittableObjectLeave)) :
    removePassedHold bm s = removePassedHoldExact bm s := by
  unfold removePassedHold removePassedHoldExact
  simp only [sub32_eq _ _ h0, sweepHold_exact bm hchart]

theorem andThen_congr (r : Step) (f g : BeatmapPlayback → Step) (h : f r.1 = g r.1) :
    r.andThen f = r.andThen g := by
  simp [Step.andThen, h]

theorem cfg_preludePhases (bm : Beatmap) (s : BeatmapPlayback) (t : MapTime) :
    cfg (preludePhases bm s t).1 = (t, s.hittableObjectEnter, s.hittableLaserEnter,
      s.alertLaserThreshold, s.hittableObjectLeave, s.audioOffset) := by
  simp [preludePhases, Step.andThen, fireInitialEffectState_eq, advanceTiming_eq,
    advanceLaneToggle_eq, countBars, cfg]

theorem cfg_advanceObjects (bm : Beatmap) (s : BeatmapPlayback) :
    cfg (advanceObjectsExact bm s).1 = cfg s := by
  rw [advanceObjects_eq]
  rfl

theorem cfg_advanceLasers (bm : Beatmap) (s : BeatmapPlayback) :
    cfg (advanceLasersExact bm s).1 = cfg s := by
  rw [advanceLasers_eq]
  rfl

theorem cfg_checkLaserAlerts (bm : Beatmap) (s : BeatmapPlayback) :
    cfg (checkLaserAlertsExact bm s).1 = cfg s := by
  rw [checkLaserAlerts_eq]
  rfl

theorem cfg_checkPassedHittable (bm : Beatmap) (s : BeatmapPlayback) :
    cfg (checkPassedHittableExact bm s).1 = cfg s := by
  have h := checkPassedHittable_frame bm s
  simp only [frame, Prod.mk.injEq] at h
  obtain ⟨h1, h2, h3, h4, h5, _, h7, _⟩ := h
  simp only [cfg, h1, h2, h3, h4, h5, h7]

theorem tickExact_of_cfg (x s : BeatmapPlayback) (t : MapTime)
    (h : cfg x = (t, s.hittableObjectEnter, s.hittableLaserEnter, s.alertLaserThreshold,
      s.hittableObjectLeave, s.audioOffset)) (htick : TickExact s t) :
    InRange32 (x.m_playbackTime + x.hittableObjectEnter)
    ∧ InRange32 (x.m_playbackTime + x.hittableLaserEnter)
    ∧ InRange32 (x.m_playbackTime + x.alertLaserThreshold)
    ∧ InRange32 (x.m_playbackTime - x.hittableObjectLeave)
    ∧ InRange32 (x.m_playbackTime + x.audioOffset)
    ∧ InRange32 (x.m_playbackTime + 2) := by
  simp only [cfg, Prod.mk.injEq] at h
  obtain ⟨h1, h2, h3, h4, h5, h6⟩ := h
  rw [h1, h2, h3, h4, h5, h6]
  exact htick

theorem cfg_bodyPrelude (bm : Beatmap) (s : BeatmapPlayback) (t : MapTime) :
    cfg (((countBars bm t s).andThen (advanceTiming bm)).andThen (advanceLaneToggle bm)).1
      = (t, s.hittableObjectEnter, s.hittableLaserEnter, s.alertLaserThreshold,
          s.hittableObjectLeave, s.audioOffset) := by
  simp [Step.andThen, advanceTiming_eq, advanceLaneToggle_eq, countBars, cfg]

/-- The blocks of an accepted tick compute their exact-integer description when
no sum of the tick leaves the 32-bit range. -/
theorem updateBody_exact (bm : Beatmap) (hchart : ChartExact bm) (t : MapTime)
    (s : BeatmapPlayback) (htick : TickExact s t) :
    updateBody bm t s = updateBodyExact bm t s := by
  unfold updateBody updateBodyExact
  have c4 := cfg_bodyPrelude bm s t
  generalize ((countBars bm t s).andThen (advanceTiming bm)).andThen (advanceLaneToggle bm) = r4
    at c4 ⊢
  have e5 : r4.andThen (advanceObjects bm) = r4.andThen (advanceObjectsExact bm) :=
    andThen_congr _ _ _
      (advanceObjects_exact bm hchart r4.1 (tickExact_of_cfg r4.1 s t c4 htick).1)
  have c5 : cfg (r4.andThen (advanceObjectsExact bm)).1 = _ :=
    (cfg_advanceObjects bm r4.1).trans c4
  rw [e5]
  generalize r4.andThen (advanceObjectsExact bm) = r5 at c5 ⊢
  have e6 : r5.andThen (advanceLasers bm) = r5.andThen (advanceLasersExact bm) :=
    andThen_congr _ _ _
      (advanceLasers_exact bm hchart r5.1 (tickExact_of_cfg r5.1 s t c5 htick).2.1)
  have c6 : cfg (r5.andThen (advanceLasersExact bm)).1 = _ :=
    (cfg_advanceLasers bm r5.1).trans c5
  rw [e6]
  generalize r5.andThen (advanceLasersExact bm) = r6 at c6 ⊢
  have e7 : r6.andThen (checkLaserAlerts bm) = r6.andThen (checkLaserAlertsExact bm) :=
    andThen_congr _ _ _
      (checkLaserAlerts_exact bm r6.1 (tickExact_of_cfg r6.1 s t c6 htick).2.2.1)
  have c7 : cfg (r6.andThen (checkLaserAlertsExact bm)).1 = _ :=
    (cfg_checkLaserAlerts bm r6.1).trans c6
  rw [e7]
  generalize r6.andThen (checkLaserAlertsExact bm) = r7 at c7 ⊢
  obtain ⟨_, _, _, k4, k5, k6⟩ := tickExact_of_cfg r7.1 s t c7 htick
  have e8 : r7.andThen (checkPassedHittable bm) = r7.andThen (checkPassedHittableExact bm) :=
    andThen_congr _ _ _ (checkPassedHittable_exact bm hchart r7.1 k4 k5 k6)
  have c8 : cfg (r7.andThen (checkPassedHittableExact bm)).1 = _ :=
    (cfg_checkPassedHittable bm r7.1).trans c7
  rw [e8]
  generalize r7.andThen (checkPassedHittableExact bm) = r8 at c8 ⊢
  exact andThen_congr _ _ _
    (removePassedHold_exact bm hchart r8.1 (tickExact_of_cfg r8.1 s t c8 htick).2.2.2.1)

theorem updateAccepted_exact (bm : Beatmap) (hchart : ChartExact bm) (s : BeatmapPlayback)
    (t : MapTime) (htick : TickExact s t) :
    updateAccepted bm s t = updateAcceptedExact bm s t := by
  unfold updateAccepted updateAcceptedExact
  apply andThen_congr
  apply updateBody_exact bm hchart
  rw [fireInitialEffectState_eq]
  exact htick

theorem timing_mem (bm : Beatmap) (i : Nat) : bm.timing i ∈ bm.timingPoints := by
  unfold Beatmap.timing
  by_cases hi : i < bm.timingPoints.length
  · rw [List.getD_eq_getElem _ _ hi]
    exact List.getElem_mem hi
  · rw [List.getD_eq_default _ _ (not_lt.mp hi)]
    simp [Beatmap.timingPoints]

theorem GetCurrentTimingPoint_mem (bm : Beatmap) (s : BeatmapPlayback)
    (hc : s.m_isCalibration = false) : GetCurrentTimingPoint bm s ∈ bm.timingPoints := by
  unfold GetCurrentTimingPoint
  rw [hc]
  simp only [Bool.false_eq_true, if_false]
  split <;> exact timing_mem bm _

theorem CountBeats_eq_none (bm : Beatmap) (s : BeatmapPlayback) (start range : MapTime)
    (h : (GetCurrentTimingPoint bm s).numerator = 0) : CountBeats bm s start range = none := by
  unfold CountBeats
  simp only [h, if_true]

theorem CountBeats_isSome (bm : Beatmap) (s : BeatmapPlayback) (start range : MapTime)
    (h : (GetCurrentTimingPoint bm s).numerator ≠ 0) :
    ∃ r, CountBeats bm s start range = some r := by
  unfold CountBeats
  simp only [h, if_false]
  exact ⟨_, rfl⟩

theorem GetCurrentTimingPoint_fire (bm : Beatmap) (s : BeatmapPlayback) :
    GetCurrentTimingPoint bm (fireInitialEffectState bm s).1 = GetCurrentTimingPoint bm s := by
  rw [fireInitialEffectState_eq]
  rfl

/-- A tick below the clock returns the state it was given. -/
theorem Update_rejected (bm : Beatmap) (s : BeatmapPlayback) (t : MapTime)
    (hc : s.m_isCalibration = false) (ht : t < s.m_playbackTime) :
    Update bm s t = (some s, []) := by
  unfold Update
  simp only [hc, Bool.false_eq_true, if_false, if_pos ht]

/-- An accepted tick on a timing point with a numerator other than 0 returns. -/
theorem Update_accepted (bm : Beatmap) (s : BeatmapPlayback) (t : MapTime)
    (hc : s.m_isCalibration = false) (ht : s.m_playbackTime ≤ t)
    (hn : (GetCurrentTimingPoint bm s).numerator ≠ 0) :
    Update bm s t = (some (updateAccepted bm s t).1, (updateAccepted bm s t).2) := by
  obtain ⟨r, hr⟩ := CountBeats_isSome bm (fireInitialEffectState bm s).1
    (sub32 s.m_playbackTime (sub32 t s.m_playbackTime)) (sub32 t s.m_playbackTime)
    (by rw [GetCurrentTimingPoint_fire]; exact hn)
  unfold Update
  simp only [hc, Bool.false_eq_true, if_false, if_neg (not_lt.mpr ht), hr]

/-- An accepted tick on a timing point with the numerator 0 kills the process
after the initial effect state. -/
theorem Update_killed (bm : Beatmap) (s : BeatmapPlayback) (t : MapTime)
    (hc : s.m_isCalibration = false) (ht : s.m_playbackTime ≤ t)
    (hn : (GetCurrentTimingPoint bm s).numerator = 0) :
    Update bm s t = (none, (fireInitialEffectState bm s).2) := by
  have hr := CountBeats_eq_none bm (fireInitialEffectState bm s).1
    (sub32 s.m_playbackTime (sub32 t s.m_playbackTime)) (sub32 t s.m_playbackTime)
    (by rw [GetCurrentTimingPoint_fire]; exact hn)
  unfold Update
  simp only [hc, Bool.false_eq_true, if_false, if_neg (not_lt.mpr ht), hr]

/-- A call of `Update` that returns, in a tick whose sums stay in the 32-bit
range, returns the exact-integer description of the call. -/
theorem Update_exact (bm : Beatmap) (hchart : ChartExact bm) (s : BeatmapPlayback) (t : MapTime)
    (hc : s.m_isCalibration = false) (htick : TickExact s t)
    (hn : (GetCurrentTimingPoint bm s).numerator ≠ 0) :
    Update bm s t = (some (UpdateExact bm s t).1, (UpdateExact bm s t).2) := by
  by_cases ht : t < s.m_playbackTime
  · rw [Update_rejected bm s t hc ht, Update_of_rejected bm s t hc ht]
  · rw [Update_accepted bm s t hc (not_lt.mp ht) hn, Update_of_accepted bm s t hc (not_lt.mp ht),
      updateAccepted_exact bm hchart s t htick]

theorem TickExact_congr (a b : BeatmapPlayback) (t : MapTime)
    (h1 : a.hittableObjectEnter = b.hittableObjectEnter)
    (h2 : a.hittableLaserEnter = b.hittableLaserEnter)
    (h3 : a.hittableObjectLeave = b.hittableObjectLeave)
    (h4 : a.alertLaserThreshold = b.alertLaserThreshold)
    (h5 : a.audioOffset = b.audioOffset) : TickExact a t ↔ TickExact b t := by
  unfold TickExact
  rw [h1, h2, h3, h4, h5]

theorem TickExact_Update (bm : Beatmap) (s : BeatmapPlayback) (t u : MapTime)
    (hc : s.m_isCalibration = false) :
    TickExact (UpdateExact bm s t).1 u ↔ TickExact s u := by
  obtain ⟨_, g2, g3, g4, g5, g6, _⟩ := Update_config bm s t hc
  exact TickExact_congr _ _ u g2 g3 g4 g5 g6

theorem TickExact_run (bm : Beatmap) (ts : List MapTime) (s : BeatmapPlayback) (u : MapTime)
    (hc : s.m_isCalibration = false) :
    TickExact (runStateExact bm s ts) u ↔ TickExact s u := by
  obtain ⟨_, g2, g3, g4, g5, g6, _⟩ := run_config bm ts s hc
  exact TickExact_congr _ _ u g2 g3 g4 g5 g6

/-- A run on a chart without a numerator 0, whose ticks keep their sums in the
32-bit range, returns the exact-integer description of the run. -/
theorem run_exact (bm : Beatmap) (hchart : ChartExact bm) (hnum : NumeratorsNonzero bm)
    (ts : List MapTime) :
    ∀ s : BeatmapPlayback, s.m_isCalibration = false → (∀ t ∈ ts, TickExact s t) →
      run bm s ts = (some (runStateExact bm s ts), runLogExact bm s ts) := by
  induction ts with
  | nil => intro s _ _; rfl
  | cons t rest ih =>
    intro s hc hticks
    have hU := Update_exact bm hchart s t hc (hticks t (List.mem_cons_self _ _))
      (hnum _ (GetCurrentTimingPoint_mem bm s hc))
    have hc' := (Update_config bm s t hc).2.2.2.2.2.2
    have hrest := ih (UpdateExact bm s t).1 hc' (fun u hu =>
      (TickExact_Update bm s t u hc).2 (hticks u (List.mem_cons_of_mem _ hu)))
    simp only [run, hU, hrest, runLog_cons]
    rfl

/-- The case analysis of a run whose ticks keep their sums in the 32-bit range:
either every call returns and the run is its exact-integer description, or the
call after some prefix `pre` is an accepted tick on a timing point with the
numerator 0, which ends the run after the initial effect state. -/
theorem run_cases (bm : Beatmap) (hchart : ChartExact bm) (ts : List MapTime) :
    ∀ s : BeatmapPlayback, s.m_isCalibration = false → (∀ t ∈ ts, TickExact s t) →
      run bm s ts = (some (runStateExact bm s ts), runLogExact bm s ts)
      ∨ ∃ pre t post, ts = pre ++ t :: post
          ∧ (runStateExact bm s pre).m_playbackTime ≤ t
          ∧ (GetCurrentTimingPoint bm (runStateExact bm s pre)).numerator = 0
          ∧ run bm s ts = (none, runLogExact bm s pre
              ++ (fireInitialEffectState bm (runStateExact bm s pre)).2) := by
  induction ts with
  | nil => intro s _ _; exact Or.inl rfl
  | cons t rest ih =>
    intro s hc hticks
    by_cases hk : s.m_playbackTime ≤ t ∧ (GetCurrentTimingPoint bm s).numerator = 0
    · refine Or.inr ⟨[], t, rest, rfl, hk.1, hk.2, ?_⟩
      simp only [run, Update_killed bm s t hc hk.1 hk.2]
      rfl
    · have hU : Update bm s t = (some (UpdateExact bm s t).1, (UpdateExact bm s t).2) := by
        by_cases ht : t < s.m_playbackTime
        · rw [Update_rejected bm s t hc ht, Update_of_rejected bm s t hc ht]
        · have hn : (GetCurrentTimingPoint bm s).numerator ≠ 0 :=
            fun h => hk ⟨not_lt.mp ht, h⟩
          exact Update_exact bm hchart s t hc (hticks t (List.mem_cons_self _ _)) hn
      have hc' := (Update_config bm s t hc).2.2.2.2.2.2
      rcases ih (UpdateExact bm s t).1 hc' (fun u hu =>
        (TickExact_Update bm s t u hc).2 (hticks u (List.mem_cons_of_mem _ hu))) with h | h
      · left
        simp only [run, hU, h, runLog_cons]
        rfl
      · right
        obtain ⟨pre, u, post, e, h1, h2, h3⟩ := h
        refine ⟨t :: pre, u, post, by rw [e]; rfl, h1, h2, ?_⟩
        simp only [run, hU, h3, runLog_cons, List.append_assoc]
        rfl

/-- A run that returns a state, with its ticks in the 32-bit range, is its
exact-integer description. -/
theorem run_some (bm : Beatmap) (hchart : ChartExact bm) (ts : List MapTime)
    (s : BeatmapPlayback) (hc : s.m_isCalibration = false) (hticks : ∀ t ∈ ts, TickExact s t)
    (cur : BeatmapPlayback) (h : (run bm s ts).1 = some cur) :
    cur = runStateExact bm s ts ∧ (run bm s ts).2 = runLogExact bm s ts := by
  rcases run_cases bm hchart ts s hc hticks with h1 | ⟨pre, t, post, _, _, _, h1⟩
  · rw [h1] at h ⊢
    simp only [Option.some.injEq] at h
    exact ⟨h.symm, rfl⟩
  · rw [h1] at h
    exact Option.noConfusion h

theorem core_foldl (f : Step → Nat → Step) (hf : ∀ r it, core (f r it).1 = core r.1)
    (l : List Nat) : ∀ r : Step, core (l.foldl f r).1 = core r.1 := by
  induction l with
  | nil => intro r; rfl
  | cons x rest ih =>
    intro r
    rw [List.foldl_cons, ih, hf]

theorem core_enterObject (bm : Beatmap) (r : Step) (it : Nat) :
    core (enterObject bm r it).1 = core r.1 := by
  unfold enterObject
  simp only []
  split_ifs <;> rfl

theorem core_enterLaser (bm : Beatmap) (r : Step) (it : Nat) :
    core (enterLaser bm r it).1 = core r.1 := by
  unfold enterLaser
  simp only []
  split_ifs <;> rfl

theorem core_alertLaser (bm : Beatmap) (r : Step) (it : Nat) :
    core (alertLaser bm r it).1 = core r.1 := by
  unfold alertLaser
  simp only []
  split_ifs <;> rfl

theorem core_advanceObjects (bm : Beatmap) (s : BeatmapPlayback) :
    core (advanceObjects bm s).1 = core s := by
  unfold advanceObjects
  simp only []
  split_ifs
  · exact core_foldl _ (core_enterObject bm) _ (s, [])
  · rfl

theorem core_advanceLasers (bm : Beatmap) (s : BeatmapPlayback) :
    core (advanceLasers bm s).1 = core s := by
  unfold advanceLasers
  simp only []
  split_ifs
  · exact core_foldl _ (core_enterLaser bm) _ (s, [])
  · rfl

theorem core_checkLaserAlerts (bm : Beatmap) (s : BeatmapPlayback) :
    core (checkLaserAlerts bm s).1 = core s := by
  unfold checkLaserAlerts
  simp only []
  split_ifs
  · exact core_foldl _ (core_alertLaser bm) _ (s, [])
  · rfl

theorem core_hittableStep (bm : Beatmap) (opt : MapTime) (s : BeatmapPlayback) (it : Nat) :
    core (hittableStep bm opt s it).2.1 = core s := by
  unfold hittableStep
  simp only []
  split_ifs <;> rfl

theorem core_sweepHittable (bm : Beatmap) (opt : MapTime) (l : List Nat) :
    ∀ s : BeatmapPlayback, core (sweepHittable bm opt l s).2.1 = core s := by
  induction l with
  | nil => intro s; rfl
  | cons it rest ih =>
    intro s
    simp only [sweepHittable]
    rw [ih, core_hittableStep]

theorem core_checkPassedHittable (bm : Beatmap) (s : BeatmapPlayback) :
    core (checkPassedHittable bm s).1 = core s := by
  unfold checkPassedHittable
  exact core_sweepHittable bm _ _ s

theorem core_holdStep (bm : Beatmap) (opt : MapTime) (s : BeatmapPlayback) (it : Nat) :
    core (holdStep bm opt s it).2.1 = core s := by
  unfold holdStep
  simp only []
  split_ifs <;> rfl

theorem core_sweepHold (bm : Beatmap) (opt : MapTime) (l : List Nat) :
    ∀ s : BeatmapPlayback, core (sweepHold bm opt l s).2.1 = core s := by
  induction l with
  | nil => intro s; rfl
  | cons it rest ih =>
    intro s
    simp only [sweepHold]
    rw [ih, core_holdStep]

theorem core_removePassedHold (bm : Beatmap) (s : BeatmapPlayback) :
    core (removePassedHold bm s).1 = core s := by
  unfold removePassedHold
  exact core_sweepHold bm _ _ s

theorem core_updateBody (bm : Beatmap) (t : MapTime) (s : BeatmapPlayback) :
    core (updateBody bm t s).1 = (t, s.m_initialEffectStateSent, s.m_isCalibration) := by
  unfold updateBody
  simp only [Step.andThen]
  rw [core_removePassedHold, core_checkPassedHittable, core_checkLaserAlerts,
    core_advanceLasers, core_advanceObjects]
  simp [advanceTiming_eq, advanceLaneToggle_eq, countBars, core]

/-- What no overflow can change in an accepted tick: the clock is the tick's
time, the initial effect state is sent, the calibration flag is kept. -/
theorem core_updateAccepted (bm : Beatmap) (s : BeatmapPlayback) (t : MapTime) :
    core (updateAccepted bm s t).1 = (t, true, s.m_isCalibration) := by
  unfold updateAccepted
  simp only [Step.andThen]
  rw [core_updateBody, fireInitialEffectState_eq]

/-- The notifications of an accepted tick that returns: the initial effect state
when it has not been sent, then the notifications of the remaining blocks. -/
theorem updateAccepted_notes (bm : Beatmap) (s : BeatmapPlayback) (t : MapTime) :
    (updateAccepted bm s t).2
      = (if s.m_initialEffectStateSent then [] else initialBatch bm)
        ++ (updateBody bm t { s with m_initialEffectStateSent := true }).2 := by
  unfold updateAccepted
  simp only [Step.andThen, fireInitialEffectState_eq]

/-- The three cases of a call of `Update` outside calibration mode. -/
theorem Update_cases (bm : Beatmap) (s : BeatmapPlayback) (t : MapTime)
    (hc : s.m_isCalibration = false) :
    (t < s.m_playbackTime ∧ Update bm s t = (some s, []))
    ∨ (s.m_playbackTime ≤ t ∧ (GetCurrentTimingPoint bm s).numerator ≠ 0
        ∧ Update bm s t = (some (updateAccepted bm s t).1, (updateAccepted bm s t).2))
    ∨ (s.m_playbackTime ≤ t ∧ (GetCurrentTimingPoint bm s).numerator = 0
        ∧ Update bm s t = (none, (fireInitialEffectState bm s).2)) := by
  by_cases ht : t < s.m_playbackTime
  · exact Or.inl ⟨ht, Update_rejected bm s t hc ht⟩
  · by_cases hn : (GetCurrentTimingPoint bm s).numerator = 0
    · exact Or.inr (Or.inr ⟨not_lt.mp ht, hn, Update_killed bm s t hc (not_lt.mp ht) hn⟩)
    · exact Or.inr (Or.inl ⟨not_lt.mp ht, hn, Update_accepted bm s t hc (not_lt.mp ht) hn⟩)

/-- In a run that returns, outside calibration mode: the initial effect state
has been sent exactly when some tick was at or above the start clock, the clock
has not moved before that, and the calibration flag is kept. -/
theorem run_sent (bm : Beatmap) (ts : List MapTime) :
    ∀ (s cur : BeatmapPlayback), s.m_isCalibration = false →
      s.m_initialEffectStateSent = false → (run bm s ts).1 = some cur →
      cur.m_isCalibration = false
      ∧ (cur.m_initialEffectStateSent = true ↔ ∃ u ∈ ts, s.m_playbackTime ≤ u)
      ∧ (cur.m_initialEffectStateSent = false → cur.m_playbackTime = s.m_playbackTime) := by
  have hsent : ∀ (ts : List MapTime) (s cur : BeatmapPlayback), s.m_isCalibration = false →
      s.m_initialEffectStateSent = true → (run bm s ts).1 = some cur →
      cur.m_isCalibration = false ∧ cur.m_initialEffectStateSent = true := by
    intro ts
    induction ts with
    | nil =>
      intro s cur hc hs h
      simp only [run, Option.some.injEq] at h
      subst h
      exact ⟨hc, hs⟩
    | cons t rest ih =>
      intro s cur hc hs h
      rcases Update_cases bm s t hc with ⟨_, hU⟩ | ⟨_, _, hU⟩ | ⟨_, _, hU⟩
      · simp only [run, hU] at h
        exact ih s cur hc hs h
      · simp only [run, hU] at h
        have hcore := core_updateAccepted bm s t
        simp only [core, Prod.mk.injEq] at hcore
        exact ih _ cur (by rw [hcore.2.2]; exact hc) hcore.2.1 h
      · simp only [run, hU] at h
        exact Option.noConfusion h
  induction ts with
  | nil =>
    intro s cur hc hs h
    simp only [run, Option.some.injEq] at h
    subst h
    simp [hc, hs]
  | cons t rest ih =>
    intro s cur hc hs h
    rcases Update_cases bm s t hc with ⟨ht, hU⟩ | ⟨ht, _, hU⟩ | ⟨_, _, hU⟩
    · simp only [run, hU] at h
      obtain ⟨h1, h2, h3⟩ := ih s cur hc hs h
      refine ⟨h1, ?_, h3⟩
      rw [h2]
      constructor
      · rintro ⟨u, hu, hle⟩
        exact ⟨u, List.mem_cons_of_mem _ hu, hle⟩
      · rintro ⟨u, hu, hle⟩
        rcases List.mem_cons.mp hu with rfl | hu
        · exact absurd ht (not_lt.mpr hle)
        · exact ⟨u, hu, hle⟩
    · simp only [run, hU] at h
      have hcore := core_updateAccepted bm s t
      simp only [core, Prod.mk.injEq] at hcore
      obtain ⟨h1, h2⟩ := hsent rest _ cur (by rw [hcore.2.2]; exact hc) hcore.2.1 h
      refine ⟨h1, ?_, ?_⟩
      · constructor
        · intro _
          exact ⟨t, List.mem_cons_self _ _, ht⟩
        · intro _
          exact h2
      · intro hf
        rw [h2] at hf
        exact Bool.noConfusion hf
    · simp only [run, hU] at h
      exact Option.noConfusion h

/-- On a chart without a numerator 0 every run outside calibration mode
returns. -/
theorem run_returns (bm : Beatmap) (hnum : NumeratorsNonzero bm) (ts : List MapTime) :
    ∀ s : BeatmapPlayback, s.m_isCalibration = false → ∃ cur, (run bm s ts).1 = some cur := by
  induction ts with
  | nil => intro s _; exact ⟨s, rfl⟩
  | cons t rest ih =>
    intro s hc
    rcases Update_cases bm s t hc with ⟨_, hU⟩ | ⟨_, _, hU⟩ | ⟨_, hn, _⟩
    · simp only [run, hU]
      exact ih s hc
    · simp only [run, hU]
      have hcore := core_updateAccepted bm s t
      simp only [core, Prod.mk.injEq] at hcore
      exact ih _ (by rw [hcore.2.2]; exact hc)
    · exact absurd hn (hnum _ (GetCurrentTimingPoint_mem bm s hc))

theorem fire_not_lifecycle (bm : Beatmap) (s : BeatmapPlayback) :
    ∀ n ∈ (fireInitialEffectState bm s).2, isLifecycle n = false := by
  rw [fireInitialEffectState_eq]
  intro n hn
  split at hn
  · simp at hn
  · simp only [initialBatch, List.mem_cons, List.mem_singleton, List.not_mem_nil, or_false] at hn
    rcases hn with rfl | rfl | rfl <;> rfl

theorem count_append_not_lifecycle (l b : List Notification) (n : Notification)
    (hn : isLifecycle n = true) (hb : ∀ m ∈ b, isLifecycle m = false) :
    (l ++ b).count n = l.count n := by
  rw [List.count_append, count_eq_zero_of_not_lifecycle b n hn hb, Nat.add_zero]

/-- Notifications other than the two lifecycle notifications, appended to a log,
do not disturb the order of the lifecycle notifications. -/
theorem ordered_append_not_lifecycle (l b : List Notification) (i : Nat)
    (hl : ∀ pre post, l = pre ++ post →
      pre.count (Notification.ObjectLeaved i) ≤ pre.count (Notification.ObjectEntered i))
    (hb : ∀ m ∈ b, isLifecycle m = false) :
    ∀ pre post, l ++ b = pre ++ post →
      pre.count (Notification.ObjectLeaved i) ≤ pre.count (Notification.ObjectEntered i) := by
  intro pre post h
  rw [List.append_eq_append_iff] at h
  rcases h with ⟨c, h1, h2⟩ | ⟨c, h1, _⟩
  · have hc : ∀ m ∈ c, isLifecycle m = false := fun m hm => hb m (by rw [h2]; simp [hm])
    rw [h1, count_append_not_lifecycle l c (Notification.ObjectLeaved i) rfl hc,
      count_append_not_lifecycle l c (Notification.ObjectEntered i) rfl hc]
    exact hl l [] (by simp)
  · exact hl pre c h1

theorem tickExact_Reset (bm : Beatmap) (s0 s : BeatmapPlayback) (initTime start : MapTime)
    (hr : Reset bm s0 initTime start = (true, s)) (t : MapTime) :
    TickExact s t ↔ TickExact s0 t := by
  obtain ⟨_, r2, r3, r4, r5, r6, _⟩ := Reset_fields bm s0 s initTime start hr
  exact TickExact_congr _ _ t r2 r3 r4 r5 r6

/-- C2 (as stated, refuted): the laser of `wideLaserBeatmap` at 2147483400, with
the object horizon 500 and the laser horizon 1000, in the run 2147482500,
2147482700, 2147483000 after `Reset(0, 0)`: the chart's sums and the first tick's
sums are in the 32-bit range, the laser sum of the second tick is not and wraps,
which moves the laser cursor back, and the third tick sweeps the laser again:
`ObjectEntered` is emitted twice for it. -/
theorem duplicate_entry_counterexample :
    ChartExact wideLaserBeatmap
    ∧ TickExact wrapPlayback 2147482500
    ∧ ¬ InRange32 (2147482700 + wrapPlayback.hittableLaserEnter)
    ∧ (run wideLaserBeatmap (Reset wideLaserBeatmap wrapPlayback 0 0).2
        [2147482500, 2147482700, 2147483000]).2.count (Notification.ObjectEntered 0) = 2 := by
  decide

/-- C2 (amended): in any run of `Update` calls after a successful `Reset`,
outside calibration mode, in which no sum of a tick or of a chart object leaves
the 32-bit range: every object gets `ObjectEntered` at most once and
`ObjectLeaved` at most once, at every point of the log the object has not been
left more often than entered (no `ObjectLeaved` before its `ObjectEntered`),
and `m_hittableObjects` holds no object twice.  This holds for the run as far as
it gets: a call that kills the process ends it, and on a chart without a
numerator 0 the run returns.  Backward ticks are rejected by `Update` itself, so
the order of the times need not be restricted. -/
theorem no_duplicate_lifecycle (bm : Beatmap) (s0 s : BeatmapPlayback)
    (initTime start : MapTime) (hc : s0.m_isCalibration = false)
    (hr : Reset bm s0 initTime start = (true, s)) (hchart : ChartExact bm)
    (ts : List MapTime) (hticks : ∀ t ∈ ts, TickExact s0 t) (i : Nat) :
    (run bm s ts).2.count (Notification.ObjectEntered i) ≤ 1
    ∧ (run bm s ts).2.count (Notification.ObjectLeaved i) ≤ 1
    ∧ (∀ pre post, (run bm s ts).2 = pre ++ post →
        pre.count (Notification.ObjectLeaved i) ≤ pre.count (Notification.ObjectEntered i))
    ∧ (∀ cur, (run bm s ts).1 = some cur → cur.m_hittableObjects.Nodup)
    ∧ (NumeratorsNonzero bm → ∃ cur, (run bm s ts).1 = some cur) := by
  have hcs : s.m_isCalibration = false := by
    rw [(Reset_fields bm s0 s initTime start hr).2.2.2.2.2.2.1]; exact hc
  have hret : NumeratorsNonzero bm → ∃ cur, (run bm s ts).1 = some cur :=
    fun hnum => run_returns bm hnum ts s hcs
  have hts : ∀ t ∈ ts, TickExact s t := fun t ht =>
    (tickExact_Reset bm s0 s initTime start hr t).2 (hticks t ht)
  rcases run_cases bm hchart ts s hcs hts with h | ⟨pre, t, post, _, _, _, h⟩
  · obtain ⟨h1, h2, h3, h4⟩ := no_duplicate_lifecycle_exact bm s0 s initTime start hc hr ts i
    rw [h] at hret ⊢
    refine ⟨h1, h2, h3, ?_, hret⟩
    intro cur hcur
    simp only [Option.some.injEq] at hcur
    rw [← hcur]
    exact h4
  · obtain ⟨h1, h2, h3, _⟩ := no_duplicate_lifecycle_exact bm s0 s initTime start hc hr pre i
    have hb := fire_not_lifecycle bm (runStateExact bm s pre)
    rw [h] at hret ⊢
    refine ⟨?_, ?_, ?_, ?_, hret⟩
    · show List.count _ (_ ++ _) ≤ 1
      rw [count_append_not_lifecycle _ _ (Notification.ObjectEntered i) rfl hb]
      exact h1
    · show List.count _ (_ ++ _) ≤ 1
      rw [count_append_not_lifecycle _ _ (Notification.ObjectLeaved i) rfl hb]
      exact h2
    · exact ordered_append_not_lifecycle _ _ i h3 hb
    · intro cur hcur
      exact Option.noConfusion hcur

theorem no_duplicate_lifecycle_witness :
    (run scenarioBeatmap (Reset scenarioBeatmap scenarioPlayback 0 0).2
        [500, 1500, 2500, 3600]).2.count (Notification.ObjectEntered 0) ≤ 1
    ∧ (run scenarioBeatmap (Reset scenarioBeatmap scenarioPlayback 0 0).2
        [500, 1500, 2500, 3600]).2.count (Notification.ObjectEntered 0) = 1 :=
  ⟨(no_duplicate_lifecycle scenarioBeatmap scenarioPlayback
      (Reset scenarioBeatmap scenarioPlayback 0 0).2 0 0 rfl rfl (by decide)
      [500, 1500, 2500, 3600] (by decide) 0).1,
    by decide⟩

/-- In exact integers: an object that the enter sweeps accept has exactly one
`ObjectEntered` in the log once a tick is past its entry time. -/
theorem entered_once_exact (bm : Beatmap) (s0 s : BeatmapPlayback)
    (initTime start : MapTime) (hc : s0.m_isCalibration = false)
    (hr : Reset bm s0 initTime start = (true, s)) (hsorted : ObjectsSorted bm)
    (i : Nat) (hi : i < bm.objectStates.length)
    (hvr : enters bm s.m_viewRange i = true)
    (pre : List MapTime) (tn : MapTime)
    (hmono : (initTime :: (pre ++ [tn])).Sorted (· ≤ ·))
    (hentry : (bm.obj i).time < tn + enterHorizon bm s i) :
    (runLogExact bm s (pre ++ [tn])).count (Notification.ObjectEntered i) = 1 := by
  obtain ⟨r1, r2, r3, r4, r5, r6, r7, _⟩ := Reset_fields bm s0 s initTime start hr
  have hcs : s.m_isCalibration = false := by rw [r7]; exact hc
  have hinv0 := Inv_Reset bm s0 s initTime start hc hr
  have hinvp := Inv_run bm pre s [] hinv0
  rw [List.nil_append] at hinvp
  obtain ⟨c1, c2, c3, c4, _, _, c7⟩ := run_config bm pre s hcs
  have hacc : (runStateExact bm s pre).m_playbackTime ≤ tn :=
    run_clock_le bm pre tn s hcs (by rw [r1]; exact hmono)
  have hinv := Inv_updateAccepted bm (runStateExact bm s pre) tn _ hinvp hacc
  have hlog : runLogExact bm s (pre ++ [tn])
      = runLogExact bm s pre ++ (updateAcceptedExact bm (runStateExact bm s pre) tn).2 := by
    rw [runLog_append, runLog_single, Update_of_accepted bm _ tn c7 hacc]
  rw [← hlog] at hinv
  obtain ⟨f1, f2, f3, f4, f5, _, _, _, _, f10, f11, _, f13⟩ :=
    tick_frame bm (runStateExact bm s pre) tn
  have hcur : i < enterCursor bm (updateAcceptedExact bm (runStateExact bm s pre) tn).1 i := by
    rw [enterCursor_tick]
    unfold enterHorizon at hentry
    split
    · rename_i hl
      rw [if_pos hl] at hentry
      exact tickLaserEnd_lt bm hsorted _ tn i hi (by rw [c3]; exact hentry)
    · rename_i hl
      rw [if_neg hl] at hentry
      exact (tickObjEnd_lt_iff bm hsorted _ tn _ hinvp hacc i hi).2 (by rw [c2]; exact hentry)
  rw [hinv.countEntered i, f2, c1, if_pos ⟨hvr, hcur⟩]

/-- In exact integers: a parameter event never gets `ObjectLeaved`. -/
theorem event_never_leaved_exact (bm : Beatmap) (i : Nat)
    (hty : (bm.obj i).type = ObjectType.Event) (ts : List MapTime) :
    ∀ s : BeatmapPlayback, s.m_isCalibration = false →
      (runLogExact bm s ts).count (Notification.ObjectLeaved i) = 0 := by
  induction ts with
  | nil => intro s _; rfl
  | cons t rest ih =>
    intro s hc
    have hc' := (Update_config bm s t hc).2.2.2.2.2.2
    rw [runLog_cons, List.count_append, ih _ hc', Nat.add_zero]
    by_cases ht : t < s.m_playbackTime
    · rw [Update_of_rejected bm s t hc ht]
      rfl
    · rw [Update_of_accepted bm s t hc (not_lt.mp ht), tick_count_leaved, count_filter_ite]
      have hp : ¬ passes bm (t - s.hittableObjectLeave) i = true :=
        fun h => passes_not_event bm _ i h hty
      rw [if_neg hp]

/-- C1 (as stated, refuted), three runs after `Reset(0, 0)` with the horizons of
the scenario (enter 1000, leave 500), each from before the object's entry time
to after its pass time, the object inside the view range.  The parameter event
of `eventBeatmap` at 2000, ticks 500, 1500, 2500, 3600: one `ObjectEntered`, no
`ObjectLeaved`.  The Single of `wideSingleBeatmap` at 2147483000, tick
2147483600: the sum of the clock and the horizon leaves the 32-bit range and
wraps, and the object gets no `ObjectEntered`.  The Single of
`zeroNumeratorBeatmap` at 2000, whose timing point has the numerator 0, ticks
500, 1500, 2500, 3600: the first tick kills the process after the initial
effect state, and the object gets no `ObjectEntered`. -/
theorem lifecycle_counterexample :
    ((run eventBeatmap (Reset eventBeatmap scenarioPlayback 0 0).2
        [500, 1500, 2500, 3600]).2.count (Notification.ObjectEntered 0) = 1
      ∧ (run eventBeatmap (Reset eventBeatmap scenarioPlayback 0 0).2
        [500, 1500, 2500, 3600]).2.count (Notification.ObjectLeaved 0) = 0)
    ∧ ((wideSingleBeatmap.obj 0).time < 2147483600 + scenarioPlayback.hittableObjectEnter
      ∧ (wideSingleBeatmap.obj 0).time < 2147483600 - scenarioPlayback.hittableObjectLeave
      ∧ (run wideSingleBeatmap (Reset wideSingleBeatmap scenarioPlayback 0 0).2
        [2147483600]).2.count (Notification.ObjectEntered 0) = 0)
    ∧ (run zeroNumeratorBeatmap (Reset zeroNumeratorBeatmap scenarioPlayback 0 0).2
        [500, 1500, 2500, 3600] = (none, initialBatch zeroNumeratorBeatmap)
      ∧ (run zeroNumeratorBeatmap (Reset zeroNumeratorBeatmap scenarioPlayback 0 0).2
        [500, 1500, 2500, 3600]).2.count (Notification.ObjectEntered 0) = 0) := by
  decide

/-- C1 (amended): after a successful `Reset`, outside calibration mode, on a
chart with objects sorted by time and no numerator 0, in a run of non-decreasing
times from the reset clock in which no sum of a tick or of a chart object leaves
the 32-bit range, for an object that the enter sweeps accept (inside the view
range) and a last tick `tn` past the object's entry time
(`time < tn + horizon`): the run returns; a Single, Hold or Laser object that is
also past its pass time (`passes` at `tn - hittableObjectLeave`) has exactly one
`ObjectEntered` and exactly one `ObjectLeaved` in the log, the former before
the latter; a parameter event has exactly one `ObjectEntered` and no
`ObjectLeaved`. -/
theorem lifecycle_exactly_once (bm : Beatmap) (s0 s : BeatmapPlayback)
    (initTime start : MapTime) (hc : s0.m_isCalibration = false)
    (hr : Reset bm s0 initTime start = (true, s)) (hsorted : ObjectsSorted bm)
    (hchart : ChartExact bm) (hnum : NumeratorsNonzero bm)
    (i : Nat) (hi : i < bm.objectStates.length)
    (hvr : enters bm s.m_viewRange i = true)
    (pre : List MapTime) (tn : MapTime)
    (hmono : (initTime :: (pre ++ [tn])).Sorted (· ≤ ·))
    (hticks : ∀ t ∈ pre ++ [tn], TickExact s0 t)
    (hentry : (bm.obj i).time < tn + enterHorizon bm s i) :
    (∃ cur, (run bm s (pre ++ [tn])).1 = some cur)
    ∧ (((bm.obj i).type = ObjectType.Single ∨ (bm.obj i).type = ObjectType.Hold
          ∨ (bm.obj i).type = ObjectType.Laser) →
        passes bm (tn - s.hittableObjectLeave) i = true →
        ExactlyOnceLifecycle (run bm s (pre ++ [tn])).2 i)
    ∧ ((bm.obj i).type = ObjectType.Event →
        (run bm s (pre ++ [tn])).2.count (Notification.ObjectEntered i) = 1
        ∧ (run bm s (pre ++ [tn])).2.count (Notification.ObjectLeaved i) = 0) := by
  have hcs : s.m_isCalibration = false := by
    rw [(Reset_fields bm s0 s initTime start hr).2.2.2.2.2.2.1]; exact hc
  have hts : ∀ t ∈ pre ++ [tn], TickExact s t := fun t ht =>
    (tickExact_Reset bm s0 s initTime start hr t).2 (hticks t ht)
  rw [run_exact bm hchart hnum (pre ++ [tn]) s hcs hts]
  refine ⟨⟨_, rfl⟩, ?_, ?_⟩
  · intro hty hpass
    exact lifecycle_exactly_once_exact bm s0 s initTime start hc hr hsorted i hi hty hvr pre tn
      hmono hentry hpass
  · intro hty
    exact ⟨entered_once_exact bm s0 s initTime start hc hr hsorted i hi hvr pre tn hmono hentry,
      event_never_leaved_exact bm i hty _ s hcs⟩

theorem lifecycle_exactly_once_witness :
    ExactlyOnceLifecycle
      (run scenarioBeatmap (Reset scenarioBeatmap scenarioPlayback 0 0).2
        ([500, 1500, 2500] ++ [3600])).2 0 :=
  (lifecycle_exactly_once scenarioBeatmap scenarioPlayback
    (Reset scenarioBeatmap scenarioPlayback 0 0).2 0 0 rfl rfl scenarioBeatmap_sorted
    (by decide) (by decide) 0 (by decide) (by decide) [500, 1500, 2500] 3600 (by decide)
    (by decide) (by decide)).2.1 (Or.inl rfl) (by decide)

/-- The state of a run that returns, and the call that follows it: on a chart
without a numerator 0 and with every sum in the 32-bit range, both are their
exact-integer descriptions. -/
theorem run_then_Update_exact (bm : Beatmap) (hchart : ChartExact bm)
    (hnum : NumeratorsNonzero bm) (s : BeatmapPlayback) (hc : s.m_isCalibration = false)
    (pre : List MapTime) (t : MapTime) (hticks : ∀ u ∈ pre ++ [t], TickExact s u) :
    run bm s pre = (some (runStateExact bm s pre), runLogExact bm s pre)
    ∧ Update bm (runStateExact bm s pre) t
        = (some (UpdateExact bm (runStateExact bm s pre) t).1,
            (UpdateExact bm (runStateExact bm s pre) t).2) := by
  have hc' := (run_config bm pre s hc).2.2.2.2.2.2
  refine ⟨run_exact bm hchart hnum pre s hc (fun u hu => hticks u (by simp [hu])), ?_⟩
  exact Update_exact bm hchart _ t hc'
    ((TickExact_run bm pre s t hc).2 (hticks t (by simp)))
    (hnum _ (GetCurrentTimingPoint_mem bm _ hc'))

/-- C3 (as stated, refuted), three first ticks after `Reset(0, 0)` on the Single
at 2000 of the scenario.  With the horizons enter -1000 and leave 500, the tick
2600 is the first with `time < t - hittableObjectLeave` and emits no
`ObjectLeaved`: the object has not entered yet.  With the horizons of the
scenario (enter 1000), the tick 2147483000 is the first with
`time < t + hittableObjectEnter` and emits no `ObjectEntered`: the sum leaves
the 32-bit range and wraps.  With the numerator 0 in the timing point, the tick
1500 is the first with `time < t + hittableObjectEnter`, kills the process and
emits no `ObjectEntered`. -/
theorem entry_and_pass_counterexample :
    ((scenarioBeatmap.obj 0).time < 2600 - lateEnterPlayback.hittableObjectLeave
      ∧ Notification.ObjectLeaved 0 ∉
          (Update scenarioBeatmap (Reset scenarioBeatmap lateEnterPlayback 0 0).2 2600).2)
    ∧ ((scenarioBeatmap.obj 0).time < 2147483000 + scenarioPlayback.hittableObjectEnter
      ∧ Notification.ObjectEntered 0 ∉
          (Update scenarioBeatmap (Reset scenarioBeatmap scenarioPlayback 0 0).2 2147483000).2)
    ∧ ((zeroNumeratorBeatmap.obj 0).time < 1500 + scenarioPlayback.hittableObjectEnter
      ∧ Update zeroNumeratorBeatmap (Reset zeroNumeratorBeatmap scenarioPlayback 0 0).2 1500
          = (none, initialBatch zeroNumeratorBeatmap)
      ∧ Notification.ObjectEntered 0 ∉
          (Update zeroNumeratorBeatmap
            (Reset zeroNumeratorBeatmap scenarioPlayback 0 0).2 1500).2) := by
  decide

/-- C3 (amended): for a Single object inside the view range, on a chart with
objects sorted by time and no numerator 0, with horizons such that
`hittableObjectEnter + hittableObjectLeave ≥ 0`, in a run of non-decreasing
times from the reset clock in which no sum of a tick or of a chart object leaves
the 32-bit range: the ticks `pre` return a state, and the tick `t` that follows
them returns, emits `ObjectEntered` for the object exactly when it is the first
tick with `time < t + hittableObjectEnter`, and emits `ObjectLeaved` for it
exactly when it is the first tick with `time < t - hittableObjectLeave`. -/
theorem single_entry_and_pass_ticks (bm : Beatmap) (s0 s : BeatmapPlayback)
    (initTime start : MapTime) (hc : s0.m_isCalibration = false)
    (hr : Reset bm s0 initTime start = (true, s)) (hsorted : ObjectsSorted bm)
    (hchart : ChartExact bm) (hnum : NumeratorsNonzero bm)
    (i : Nat) (hi : i < bm.objectStates.length)
    (hty : (bm.obj i).type = ObjectType.Single)
    (hvr : s.m_viewRange.Includes (bm.obj i).time = true)
    (hh : 0 ≤ s.hittableObjectEnter + s.hittableObjectLeave)
    (pre : List MapTime) (t : MapTime)
    (hmono : (initTime :: (pre ++ [t])).Sorted (· ≤ ·))
    (hticks : ∀ u ∈ pre ++ [t], TickExact s0 u) :
    ∃ cur, (run bm s pre).1 = some cur
      ∧ (∃ next, (Update bm cur t).1 = some next)
      ∧ (Notification.ObjectEntered i ∈ (Update bm cur t).2 ↔
          ((bm.obj i).time < t + s.hittableObjectEnter
            ∧ ∀ u ∈ pre, ¬ (bm.obj i).time < u + s.hittableObjectEnter))
      ∧ (Notification.ObjectLeaved i ∈ (Update bm cur t).2 ↔
          ((bm.obj i).time < t - s.hittableObjectLeave
            ∧ ∀ u ∈ pre, ¬ (bm.obj i).time < u - s.hittableObjectLeave)) := by
  have hcs : s.m_isCalibration = false := by
    rw [(Reset_fields bm s0 s initTime start hr).2.2.2.2.2.2.1]; exact hc
  have hts : ∀ u ∈ pre ++ [t], TickExact s u := fun u hu =>
    (tickExact_Reset bm s0 s initTime start hr u).2 (hticks u hu)
  obtain ⟨h1, h2⟩ := run_then_Update_exact bm hchart hnum s hcs pre t hts
  refine ⟨runStateExact bm s pre, by rw [h1], ?_⟩
  rw [h2]
  exact ⟨⟨_, rfl⟩,
    single_entry_and_pass_ticks_exact bm s0 s initTime start hc hr hsorted i hi hty hvr hh pre t
      hmono⟩

theorem single_entry_and_pass_ticks_witness :
    ∃ cur, (run scenarioBeatmap (Reset scenarioBeatmap scenarioPlayback 0 0).2
        [500, 1500, 2500]).1 = some cur
      ∧ Notification.ObjectLeaved 0 ∈ (Update scenarioBeatmap cur 3600).2 :=
  (single_entry_and_pass_ticks scenarioBeatmap scenarioPlayback
    (Reset scenarioBeatmap scenarioPlayback 0 0).2 0 0 rfl rfl scenarioBeatmap_sorted
    (by decide) (by decide) 0 (by decide) rfl (by decide) (by decide) [500, 1500, 2500] 3600
    (by decide) (by decide)).imp
    (fun _ h => ⟨h.1, h.2.2.2.2 ⟨by decide, by decide⟩⟩)

/-- C4: outside calibration mode, after a successful `Reset`, the ticks `pre`
return a state when no timing point has the numerator 0, and for every state
`cur` that the ticks `pre` return: the tick `t` that follows emits the
initial-state batch (`EventChanged` for LaserEffectMix, LaserEffectType,
SlamVolume with the chart settings) exactly when it is the first accepted tick
(`initTime ≤ t` and every earlier tick was below the reset clock), and then as
the first notifications of the tick; what follows are the notifications of the
remaining blocks of an accepted tick, none when `CountBeats` kills the process
(numerator 0); and a rejected tick emits nothing. -/
theorem initial_snapshot_once (bm : Beatmap) (s0 s : BeatmapPlayback)
    (initTime start : MapTime) (hc : s0.m_isCalibration = false)
    (hr : Reset bm s0 initTime start = (true, s)) (pre : List MapTime) (t : MapTime) :
    (NumeratorsNonzero bm → ∃ cur, (run bm s pre).1 = some cur)
    ∧ ∀ cur, (run bm s pre).1 = some cur →
      (Update bm cur t).2 =
        (if initTime ≤ t ∧ ∀ u ∈ pre, u < initTime then initialBatch bm else [])
        ++ (if cur.m_playbackTime ≤ t ∧ (GetCurrentTimingPoint bm cur).numerator ≠ 0 then
              (updateBody bm t { cur with m_initialEffectStateSent := true }).2
            else []) := by
  refine ⟨fun hnum => run_returns bm hnum pre s (by
    rw [(Reset_fields bm s0 s initTime start hr).2.2.2.2.2.2.1]; exact hc), ?_⟩
  intro cur hcur
  obtain ⟨r1, _, _, _, _, _, r7, r8, _⟩ := Reset_fields bm s0 s initTime start hr
  have hcs : s.m_isCalibration = false := by rw [r7]; exact hc
  obtain ⟨k1, k2, k3⟩ := run_sent bm pre s cur hcs r8 hcur
  rw [r1] at k2 k3
  have hfirst : (initTime ≤ t ∧ ∀ u ∈ pre, u < initTime) ↔
      (cur.m_playbackTime ≤ t ∧ cur.m_initialEffectStateSent = false) := by
    constructor
    · rintro ⟨ha, hb⟩
      have hf : cur.m_initialEffectStateSent = false := by
        cases hv : cur.m_initialEffectStateSent
        · rfl
        · obtain ⟨u, hu, hle⟩ := k2.1 hv
          exact absurd (hb u hu) (not_lt.mpr hle)
      exact ⟨by rw [k3 hf]; exact ha, hf⟩
    · rintro ⟨ha, hf⟩
      refine ⟨by rw [← k3 hf]; exact ha, fun u hu => ?_⟩
      by_contra hlt
      have := k2.2 ⟨u, hu, not_lt.mp hlt⟩
      rw [hf] at this
      exact Bool.noConfusion this
  rcases Update_cases bm cur t k1 with ⟨ht, hU⟩ | ⟨ht, hn, hU⟩ | ⟨ht, hn, hU⟩
  · have h1 : ¬ (initTime ≤ t ∧ ∀ u ∈ pre, u < initTime) := fun h =>
      absurd ht (not_lt.mpr (hfirst.1 h).1)
    have h2 : ¬ (cur.m_playbackTime ≤ t ∧ (GetCurrentTimingPoint bm cur).numerator ≠ 0) :=
      fun h => absurd ht (not_lt.mpr h.1)
    rw [hU, if_neg h1, if_neg h2]
    rfl
  · rw [hU, if_pos (show cur.m_playbackTime ≤ t
      ∧ (GetCurrentTimingPoint bm cur).numerator ≠ 0 from ⟨ht, hn⟩)]
    show (updateAccepted bm cur t).2 = _
    rw [updateAccepted_notes]
    congr 1
    cases hv : cur.m_initialEffectStateSent
    · rw [if_pos (hfirst.2 ⟨ht, hv⟩)]
      rfl
    · have h1 : ¬ (initTime ≤ t ∧ ∀ u ∈ pre, u < initTime) := fun h => by
        have := (hfirst.1 h).2
        rw [hv] at this
        exact Bool.noConfusion this
      rw [if_neg h1]
      rfl
  · have h2 : ¬ (cur.m_playbackTime ≤ t ∧ (GetCurrentTimingPoint bm cur).numerator ≠ 0) :=
      fun h => h.2 hn
    rw [hU, if_neg h2, List.append_nil]
    show (fireInitialEffectState bm cur).2 = _
    rw [fireInitialEffectState_eq]
    cases hv : cur.m_initialEffectStateSent
    · rw [if_pos (hfirst.2 ⟨ht, hv⟩)]
      rfl
    · have h1 : ¬ (initTime ≤ t ∧ ∀ u ∈ pre, u < initTime) := fun h => by
        have := (hfirst.1 h).2
        rw [hv] at this
        exact Bool.noConfusion this
      rw [if_neg h1]
      rfl

theorem initial_snapshot_once_witness :
    (Update scenarioBeatmap (Reset scenarioBeatmap scenarioPlayback 1000 0).2 1500).2 =
      (if (1000 : MapTime) ≤ 1500 ∧ ∀ u ∈ [(500 : MapTime)], u < 1000 then
          initialBatch scenarioBeatmap else [])
      ++ (if (Reset scenarioBeatmap scenarioPlayback 1000 0).2.m_playbackTime ≤ 1500
            ∧ (GetCurrentTimingPoint scenarioBeatmap
                (Reset scenarioBeatmap scenarioPlayback 1000 0).2).numerator ≠ 0 then
            (updateBody scenarioBeatmap 1500
              { (Reset scenarioBeatmap scenarioPlayback 1000 0).2 with
                m_initialEffectStateSent := true }).2
          else []) :=
  (initial_snapshot_once scenarioBeatmap scenarioPlayback
    (Reset scenarioBeatmap scenarioPlayback 1000 0).2 1000 0 rfl rfl [500] 1500).2
    (Reset scenarioBeatmap scenarioPlayback 1000 0).2 rfl

/-- C6: outside calibration mode a tick below the clock emits nothing and
returns the state it was given, every field included. -/
theorem backward_tick_noop (bm : Beatmap) (s : BeatmapPlayback) (t : MapTime)
    (hc : s.m_isCalibration = false) (ht : t < s.m_playbackTime) :
    Update bm s t = (some s, []) := by
  unfold Update
  simp only [hc, Bool.false_eq_true, if_false, if_pos ht]

theorem backward_tick_noop_witness :
    Update scenarioBeatmap
        (runStateExact scenarioBeatmap (Reset scenarioBeatmap scenarioPlayback 0 0).2
          [500, 1500]) 1400
      = (some (runStateExact scenarioBeatmap (Reset scenarioBeatmap scenarioPlayback 0 0).2
          [500, 1500]), []) :=
  backward_tick_noop scenarioBeatmap _ 1400 (by decide) (by decide)

/-- A call of `Update` that returns, in a tick whose sums stay in the 32-bit
range, returns the exact-integer description of the call. -/
theorem Update_some_exact (bm : Beatmap) (hchart : ChartExact bm) (s : BeatmapPlayback)
    (t : MapTime) (hc : s.m_isCalibration = false) (htick : TickExact s t)
    (next : BeatmapPlayback) (h : (Update bm s t).1 = some next) :
    next = (UpdateExact bm s t).1 ∧ (Update bm s t).2 = (UpdateExact bm s t).2 := by
  rcases Update_cases bm s t hc with ⟨ht, hU⟩ | ⟨ht, hn, _⟩ | ⟨_, _, hU⟩
  · rw [hU] at h ⊢
    rw [Update_of_rejected bm s t hc ht]
    simp only [Option.some.injEq] at h
    exact ⟨h.symm, rfl⟩
  · have hU := Update_exact bm hchart s t hc htick hn
    rw [hU] at h ⊢
    simp only [Option.some.injEq] at h
    exact ⟨h.symm, rfl⟩
  · rw [hU] at h
    exact Option.noConfusion h

theorem wideLaserBeatmap_sorted : ObjectsSorted wideLaserBeatmap := by
  intro i j hij hj
  have hj1 : j < 1 := hj
  have hj0 : j = 0 := by omega
  have hi0 : i = 0 := by omega
  rw [hi0, hj0]

/-- C7 (as stated, refuted): the laser of `wideLaserBeatmap` at 2147483400 (a
sorted chart), with the object horizon 500 and the laser horizon 1000, after
`Reset(0, 0)`: the tick 2147482500 moves the laser cursor to position 1; in the
tick 2147482700 the sum of the clock and the laser horizon leaves the 32-bit
range and wraps, and the laser cursor moves back to position 0. -/
theorem cursor_moves_back_counterexample :
    ObjectsSorted wideLaserBeatmap
    ∧ ¬ InRange32 (2147482700 + wrapPlayback.hittableLaserEnter)
    ∧ (run wideLaserBeatmap (Reset wideLaserBeatmap wrapPlayback 0 0).2
        [2147482500]).1.map (fun s => s.m_currLaserObject) = some 1
    ∧ (run wideLaserBeatmap (Reset wideLaserBeatmap wrapPlayback 0 0).2
        [2147482500, 2147482700]).1.map (fun s => s.m_currLaserObject) = some 0 :=
  ⟨wideLaserBeatmap_sorted, by decide, by decide, by decide⟩

/-- C7 (amended): after a successful `Reset` (outside calibration mode), for
sorted timing points, lane toggles and objects, in a run in which no sum of a
tick or of a chart object leaves the 32-bit range: on a chart without a
numerator 0 the ticks `ts` return a state and the tick `t` that follows returns
a state; and whenever the ticks `ts` return `cur` and the tick `t` returns
`next`, none of the five cursors is at an earlier position in `next` than in
`cur`; the time of the element under a cursor does not decrease; and no element
is skipped: every timing point or lane toggle the cursor stepped over was due
(`time ≤ t`), every object between the old and the new position of the object,
laser or alert cursor that passes the guard of its sweep gets that sweep's
notification in this call. -/
theorem cursors_monotonic (bm : Beatmap) (s0 s : BeatmapPlayback)
    (initTime start : MapTime) (hc : s0.m_isCalibration = false)
    (hr : Reset bm s0 initTime start = (true, s))
    (hts : TimingSorted bm) (hls : LaneTogglesSorted bm) (hos : ObjectsSorted bm)
    (hchart : ChartExact bm) (ts : List MapTime) (t : MapTime)
    (hticks : ∀ u ∈ ts ++ [t], TickExact s0 u) :
    (NumeratorsNonzero bm →
      ∃ cur next, (run bm s ts).1 = some cur ∧ (Update bm cur t).1 = some next)
    ∧ ∀ cur next, (run bm s ts).1 = some cur → (Update bm cur t).1 = some next →
        (cur.m_currentTiming ≤ next.m_currentTiming
          ∧ cur.m_currentLaneTogglePoint
              ≤ next.m_currentLaneTogglePoint
          ∧ cur.m_currObject ≤ next.m_currObject
          ∧ cur.m_currLaserObject
              ≤ next.m_currLaserObject
          ∧ cur.m_currAlertObject
              ≤ next.m_currAlertObject)
        ∧ ((bm.timing cur.m_currentTiming).time
              ≤ (bm.timing next.m_currentTiming).time
          ∧ (next.m_currentLaneTogglePoint
                < bm.laneTogglePoints.length →
              (bm.laneToggle cur.m_currentLaneTogglePoint).time
                ≤ (bm.laneToggle next.m_currentLaneTogglePoint).time)
          ∧ (next.m_currObject < bm.objectStates.length →
              (bm.obj cur.m_currObject).time
                ≤ (bm.obj next.m_currObject).time)
          ∧ (next.m_currLaserObject < bm.objectStates.length →
              (bm.obj cur.m_currLaserObject).time
                ≤ (bm.obj next.m_currLaserObject).time)
          ∧ (next.m_currAlertObject < bm.objectStates.length →
              (bm.obj cur.m_currAlertObject).time
                ≤ (bm.obj next.m_currAlertObject).time))
        ∧ ((∀ k, cur.m_currentTiming < k →
              k ≤ next.m_currentTiming → (bm.timing k).time ≤ t)
          ∧ (∀ k, cur.m_currentLaneTogglePoint < k →
              k ≤ next.m_currentLaneTogglePoint →
              (bm.laneToggle k).time ≤ t)
          ∧ (∀ k, cur.m_currObject ≤ k →
              k < next.m_currObject →
              objectEnters bm cur.m_viewRange k = true →
              Notification.ObjectEntered k ∈ (Update bm cur t).2)
          ∧ (∀ k, cur.m_currLaserObject ≤ k →
              k < next.m_currLaserObject →
              laserEnters bm cur.m_viewRange k = true →
              Notification.ObjectEntered k ∈ (Update bm cur t).2)
          ∧ (∀ k, cur.m_currAlertObject ≤ k →
              k < next.m_currAlertObject →
              alerts bm cur.m_viewRange k = true →
              Notification.LaserAlertEntered k ∈ (Update bm cur t).2)) := by
  have hcs : s.m_isCalibration = false := by
    rw [(Reset_fields bm s0 s initTime start hr).2.2.2.2.2.2.1]; exact hc
  have hticks' : ∀ u ∈ ts ++ [t], TickExact s u := fun u hu =>
    (tickExact_Reset bm s0 s initTime start hr u).2 (hticks u hu)
  constructor
  · intro hnum
    obtain ⟨h1, h2⟩ := run_then_Update_exact bm hchart hnum s hcs ts t hticks'
    exact ⟨_, _, by rw [h1], by rw [h2]⟩
  · intro cur next hcur hnext
    obtain ⟨e1, _⟩ := run_some bm hchart ts s hcs (fun u hu => hticks' u (by simp [hu])) cur hcur
    subst e1
    have hc' := (run_config bm ts s hcs).2.2.2.2.2.2
    obtain ⟨e2, e3⟩ := Update_some_exact bm hchart _ t hc'
      ((TickExact_run bm ts s t hcs).2 (hticks' t (by simp))) next hnext
    subst e2
    rw [e3]
    exact cursors_monotonic_exact bm s0 s initTime start hc hr hts hls hos ts t

theorem cursors_monotonic_witness :
    (runStateExact scenarioBeatmap (Reset scenarioBeatmap scenarioPlayback 0 0).2
        [500]).m_currObject
      ≤ (UpdateExact scenarioBeatmap
          (runStateExact scenarioBeatmap (Reset scenarioBeatmap scenarioPlayback 0 0).2 [500])
          1500).1.m_currObject :=
  ((cursors_monotonic scenarioBeatmap scenarioPlayback
    (Reset scenarioBeatmap scenarioPlayback 0 0).2 0 0 rfl rfl scenarioBeatmap_timingSorted
    scenarioBeatmap_laneSorted scenarioBeatmap_sorted (by decide) [500] 1500 (by decide)).2
    (runStateExact scenarioBeatmap (Reset scenarioBeatmap scenarioPlayback 0 0).2 [500])
    (UpdateExact scenarioBeatmap
      (runStateExact scenarioBeatmap (Reset scenarioBeatmap scenarioPlayback 0 0).2 [500])
      1500).1
    (congrArg Prod.fst (run_exact scenarioBeatmap (by decide) (by decide) [500]
      (Reset scenarioBeatmap scenarioPlayback 0 0).2 rfl (by decide)))
    (congrArg Prod.fst (Update_exact scenarioBeatmap (by decide)
      (runStateExact scenarioBeatmap (Reset scenarioBeatmap scenarioPlayback 0 0).2 [500])
      1500 (by decide) (by decide) (by decide)))).1.2.2.1

/-- C5 (the code at the failing input): with `audioOffset = -200` the hold of
`holdBeatmap` (0 to 1000, with an effect) gets `FXBegin` at the tick 500, `FXEnd`
at 1050 (its end has passed), then `FXBegin` again and `FXEnd` again at 1060:
the begin window is shifted by the audio offset, the end test is not. -/
theorem fx_repeats_with_negative_offset :
    runTrace holdBeatmap (Reset holdBeatmap offsetPlayback 0 0).2 [500, 1050, 1060]
      = [initialBatch holdBeatmap
            ++ [Notification.ObjectEntered 0, Notification.FXBegin 0],
          [Notification.FXEnd 0],
          [Notification.FXBegin 0, Notification.FXEnd 0]]
    ∧ (run holdBeatmap (Reset holdBeatmap offsetPlayback 0 0).2
        [500, 1050, 1060]).2.count (Notification.FXBegin 0) = 2
    ∧ (run holdBeatmap (Reset holdBeatmap offsetPlayback 0 0).2
        [500, 1050, 1060]).2.count (Notification.FXEnd 0) = 2 := by
  refine ⟨by decide, by decide, by decide⟩

theorem fire_count_fx (bm : Beatmap) (s : BeatmapPlayback) (i : Nat) :
    (fireInitialEffectState bm s).2.count (Notification.FXBegin i) = 0
    ∧ (fireInitialEffectState bm s).2.count (Notification.FXEnd i) = 0 := by
  rw [fireInitialEffectState_eq]
  split <;> simp [initialBatch]

/-- Where the code is right about the effect notifications: in any run after a
successful `Reset`, outside calibration mode, in which no sum of a tick or of a
chart object leaves the 32-bit range, an object whose `effectType` is `None`
gets neither `FXBegin` nor `FXEnd`, whatever the audio offset; and when
`audioOffset ≥ -100` every object gets `FXBegin` at most once and `FXEnd` at
most once. -/
theorem fx_at_most_once_of_offset (bm : Beatmap) (s0 s : BeatmapPlayback)
    (initTime start : MapTime) (hc : s0.m_isCalibration = false)
    (hr : Reset bm s0 initTime start = (true, s)) (hchart : ChartExact bm)
    (ts : List MapTime) (hticks : ∀ t ∈ ts, TickExact s0 t) (i : Nat) :
    ((bm.obj i).effectType = EffectType.None →
        (run bm s ts).2.count (Notification.FXBegin i) = 0
        ∧ (run bm s ts).2.count (Notification.FXEnd i) = 0)
    ∧ (-100 ≤ s.audioOffset →
        (run bm s ts).2.count (Notification.FXBegin i) ≤ 1
        ∧ (run bm s ts).2.count (Notification.FXEnd i) ≤ 1) := by
  have hcs : s.m_isCalibration = false := by
    rw [(Reset_fields bm s0 s initTime start hr).2.2.2.2.2.2.1]; exact hc
  have hts : ∀ t ∈ ts, TickExact s t := fun t ht =>
    (tickExact_Reset bm s0 s initTime start hr t).2 (hticks t ht)
  rcases run_cases bm hchart ts s hcs hts with h | ⟨pre, t, post, _, _, _, h⟩
  · rw [h]
    exact fx_at_most_once_of_offset_exact bm s0 s initTime start hc hr ts i
  · obtain ⟨h1, h2⟩ := fx_at_most_once_of_offset_exact bm s0 s initTime start hc hr pre i
    obtain ⟨f1, f2⟩ := fire_count_fx bm (runStateExact bm s pre) i
    rw [h]
    simp only [List.count_append, f1, f2, Nat.add_zero]
    exact ⟨h1, h2⟩

theorem fx_at_most_once_of_offset_witness :
    (run holdBeatmap (Reset holdBeatmap scenarioPlayback 0 0).2
        [500, 1050, 1060]).2.count (Notification.FXBegin 0) ≤ 1
    ∧ (run holdBeatmap (Reset holdBeatmap scenarioPlayback 0 0).2
        [500, 1050, 1060]).2.count (Notification.FXEnd 0) ≤ 1 :=
  (fx_at_most_once_of_offset holdBeatmap scenarioPlayback
    (Reset holdBeatmap scenarioPlayback 0 0).2 0 0 rfl rfl (by decide) [500, 1050, 1060]
    (by decide) 0).2 (by decide)

/-- C21: on the chart with one hold button with an effect (time 0, duration
1000), with enter 1000 and leave 500, after `Reset(0, 0)` and `Update(500)`
the hold is in both sets; after the further `Update(5000)` it is still in the
effect set and no longer in the hold set, and no `FXEnd` was emitted. -/
theorem effect_outlives_hold :
    (run holdBeatmap (Reset holdBeatmap scenarioPlayback 0 0).2
        [500]).1.map (fun s => s.m_effectObjects) = some [0]
    ∧ (run holdBeatmap (Reset holdBeatmap scenarioPlayback 0 0).2
        [500]).1.map (fun s => s.m_holdObjects) = some [0]
    ∧ (run holdBeatmap (Reset holdBeatmap scenarioPlayback 0 0).2
        [500, 5000]).1.map (fun s => s.m_effectObjects) = some [0]
    ∧ (run holdBeatmap (Reset holdBeatmap scenarioPlayback 0 0).2
        [500, 5000]).1.map (fun s => s.m_holdObjects) = some []
    ∧ (run holdBeatmap (Reset holdBeatmap scenarioPlayback 0 0).2
        [500, 5000]).2.count (Notification.FXEnd 0) = 0 := by
  decide

/-- Where the code is right about the effect set: after a successful `Reset`
and after every `Update` of a run with non-decreasing times whose steps are at
most `hittableObjectLeave`, in which no sum of a tick or of a chart object
leaves the 32-bit range, every object of the effect set of a state that the run
returns is in its hold set. -/
theorem effect_subset_hold_of_small_steps (bm : Beatmap) (s0 s : BeatmapPlayback)
    (initTime start : MapTime) (hc : s0.m_isCalibration = false)
    (hr : Reset bm s0 initTime start = (true, s)) (hchart : ChartExact bm)
    (ts : List MapTime) (hticks : ∀ t ∈ ts, TickExact s0 t)
    (hsteps : List.Chain (fun a b => a ≤ b ∧ b - s0.hittableObjectLeave ≤ a) initTime ts)
    (cur : BeatmapPlayback) (hcur : (run bm s ts).1 = some cur) :
    ∀ i ∈ cur.m_effectObjects, i ∈ cur.m_holdObjects := by
  have hcs : s.m_isCalibration = false := by
    rw [(Reset_fields bm s0 s initTime start hr).2.2.2.2.2.2.1]; exact hc
  have hts : ∀ t ∈ ts, TickExact s t := fun t ht =>
    (tickExact_Reset bm s0 s initTime start hr t).2 (hticks t ht)
  obtain ⟨e1, _⟩ := run_some bm hchart ts s hcs hts cur hcur
  subst e1
  exact effect_subset_hold_of_small_steps_exact bm s0 s initTime start hc hr ts hsteps

theorem effect_subset_hold_of_small_steps_witness :
    ∀ i ∈ (runStateExact holdBeatmap (Reset holdBeatmap scenarioPlayback 0 0).2
        [500, 1000, 1400]).m_effectObjects,
      i ∈ (runStateExact holdBeatmap (Reset holdBeatmap scenarioPlayback 0 0).2
        [500, 1000, 1400]).m_holdObjects :=
  effect_subset_hold_of_small_steps holdBeatmap scenarioPlayback
    (Reset holdBeatmap scenarioPlayback 0 0).2 0 0 rfl rfl (by decide) [500, 1000, 1400]
    (by decide)
    (List.Chain.cons ⟨by decide, by decide⟩
      (List.Chain.cons ⟨by decide, by decide⟩
        (List.Chain.cons ⟨by decide, by decide⟩ List.Chain.nil)))
    (runStateExact holdBeatmap (Reset holdBeatmap scenarioPlayback 0 0).2 [500, 1000, 1400])
    (congrArg Prod.fst (run_exact holdBeatmap (by decide) (by decide) [500, 1000, 1400]
      (Reset holdBeatmap scenarioPlayback 0 0).2 rfl (by decide)))

/-- C23 (as stated, refuted), two runs after `Reset(0, 0)` with the horizons of
the scenario and a parameter event at 2000.  On `eventBeatmap` the tick 1500
returns a state with the event in `m_hittableObjects`; the tick 2147483646 is
the first with `time < t + 2`, but the sum leaves the 32-bit range and wraps:
the tick emits no `EventChanged` and the event stays in `m_hittableObjects`.  On
`zeroNumeratorEventBeatmap` the tick 1500 returns a state with the event in
`m_hittableObjects` and the timing cursor on the timing point with the
numerator 0; the tick 2100 is the first with `time < t + 2` and kills the
process: no `EventChanged` is emitted for the event. -/
theorem event_not_fired_counterexample :
    ((run eventBeatmap (Reset eventBeatmap scenarioPlayback 0 0).2
        [1500]).1.map (fun s => s.m_hittableObjects) = some [0]
      ∧ ¬ (eventBeatmap.obj 0).time < 1500 + 2
      ∧ (eventBeatmap.obj 0).time < 2147483646 + 2
      ∧ ¬ InRange32 (2147483646 + 2)
      ∧ runTrace eventBeatmap (Reset eventBeatmap scenarioPlayback 0 0).2 [1500, 2147483646]
          = [initialBatch eventBeatmap ++ [Notification.ObjectEntered 0], []]
      ∧ (run eventBeatmap (Reset eventBeatmap scenarioPlayback 0 0).2
          [1500, 2147483646]).1.map (fun s => s.m_hittableObjects) = some [0])
    ∧ ((run zeroNumeratorEventBeatmap (Reset zeroNumeratorEventBeatmap scenarioPlayback 0 0).2
        [1500]).1.map (fun s => s.m_hittableObjects) = some [0]
      ∧ ¬ (zeroNumeratorEventBeatmap.obj 0).time < 1500 + 2
      ∧ (zeroNumeratorEventBeatmap.obj 0).time < 2100 + 2
      ∧ run zeroNumeratorEventBeatmap (Reset zeroNumeratorEventBeatmap scenarioPlayback 0 0).2
          [1500, 2100]
        = (none, initialBatch zeroNumeratorEventBeatmap
            ++ [Notification.TimingPointChanged 1, Notification.ObjectEntered 0])) := by
  decide

/-- C23 (amended): after a successful `Reset`, outside calibration mode, for a
run `ts` of `Update` calls and a further tick `t` such that no sum of a tick or
of a chart object leaves the 32-bit range.  On a chart without a numerator 0
the run returns a state and the tick returns a state.  Whenever the run returns
`cur` and the tick `t`, accepted, returns `next`.  Over the run: the
`EventChanged` notifications are the initial batch (once it is sent) followed by
one notification per fired event object, in firing order; no event object fires
twice; a fired event object is a parameter event and is not in
`m_hittableObjects`; a parameter event that is still in `m_hittableObjects` is
not yet due (`clock + 2 <= time`); and the latched entry of the key of a fired
event that no later fired event shares is the value of that event.  In the tick
`t`: the entries of `m_hittableObjects` during the tick are the old entries and
the objects entered by the two sweeps; exactly the parameter events among them
with `time < t + 2` fire; they are gone from `m_hittableObjects` after the
tick; they fire in chart order, each emitting its `EventChanged(key, value)`
and latching its value in that order; and they extend the fired events of the
run. -/
theorem event_single_shot_and_latching (bm : Beatmap) (s0 s : BeatmapPlayback)
    (initTime start : MapTime) (hc : s0.m_isCalibration = false)
    (hr : Reset bm s0 initTime start = (true, s)) (hchart : ChartExact bm)
    (ts : List MapTime) (t : MapTime) (hticks : ∀ u ∈ ts ++ [t], TickExact s0 u) :
    (NumeratorsNonzero bm →
      ∃ cur next, (run bm s ts).1 = some cur ∧ (Update bm cur t).1 = some next)
    ∧ ∀ cur next, (run bm s ts).1 = some cur → (Update bm cur t).1 = some next →
      cur.m_playbackTime ≤ t →
        ((run bm s ts).2.filter isEventChanged
            = (if cur.m_initialEffectStateSent then initialBatch bm else [])
              ++ (runFired bm s ts).map (eventNote bm)
          ∧ (runFired bm s ts).Nodup
          ∧ (∀ i ∈ runFired bm s ts, (bm.obj i).type = ObjectType.Event
              ∧ i ∉ cur.m_hittableObjects)
          ∧ (∀ i ∈ cur.m_hittableObjects, (bm.obj i).type = ObjectType.Event →
              cur.m_playbackTime + 2 ≤ (bm.obj i).time)
          ∧ (∀ pre i post, runFired bm s ts = pre ++ i :: post →
              (∀ j ∈ post, (bm.obj j).key ≠ (bm.obj i).key) →
              latched cur.m_eventMapping (bm.obj i).key = some (bm.obj i).data))
        ∧ ((∀ i, i ∈ tickMid bm cur t ↔
              (i ∈ cur.m_hittableObjects
                ∨ i ∈ tickNewObjects bm cur t
                ∨ i ∈ tickNewLasers bm cur t))
          ∧ (∀ i, i ∈ updateFired bm cur t ↔
              (i ∈ tickMid bm cur t ∧ (bm.obj i).type = ObjectType.Event
                ∧ (bm.obj i).time < t + 2))
          ∧ (∀ i ∈ updateFired bm cur t,
              i ∉ next.m_hittableObjects)
          ∧ (updateFired bm cur t).Sorted (· < ·)
          ∧ (Update bm cur t).2.filter isEventChanged
              = (if cur.m_initialEffectStateSent then [] else initialBatch bm)
                ++ (updateFired bm cur t).map (eventNote bm)
          ∧ next.m_eventMapping
              = latchAll bm cur.m_eventMapping (updateFired bm cur t)
          ∧ runFired bm s (ts ++ [t])
              = runFired bm s ts ++ updateFired bm cur t) := by
  have hcs : s.m_isCalibration = false := by
    rw [(Reset_fields bm s0 s initTime start hr).2.2.2.2.2.2.1]; exact hc
  have hticks' : ∀ u ∈ ts ++ [t], TickExact s u := fun u hu =>
    (tickExact_Reset bm s0 s initTime start hr u).2 (hticks u hu)
  constructor
  · intro hnum
    obtain ⟨h1, h2⟩ := run_then_Update_exact bm hchart hnum s hcs ts t hticks'
    exact ⟨_, _, by rw [h1], by rw [h2]⟩
  · intro cur next hcur hnext ht
    obtain ⟨e1, e0⟩ := run_some bm hchart ts s hcs (fun u hu => hticks' u (by simp [hu]))
      cur hcur
    subst e1
    have hc' := (run_config bm ts s hcs).2.2.2.2.2.2
    obtain ⟨e2, e3⟩ := Update_some_exact bm hchart _ t hc'
      ((TickExact_run bm ts s t hcs).2 (hticks' t (by simp))) next hnext
    subst e2
    rw [e3, e0]
    exact event_single_shot_and_latching_exact bm s0 s initTime start hc hr ts t ht

theorem event_single_shot_and_latching_witness :
    ∃ cur next, (run eventsBeatmap (Reset eventsBeatmap scenarioPlayback 0 0).2 [500]).1
        = some cur
      ∧ (Update eventsBeatmap cur 2000).1 = some next
      ∧ (updateFired eventsBeatmap cur 2000).Sorted (· < ·)
      ∧ next.m_eventMapping
          = latchAll eventsBeatmap cur.m_eventMapping (updateFired eventsBeatmap cur 2000) :=
  ⟨runStateExact eventsBeatmap (Reset eventsBeatmap scenarioPlayback 0 0).2 [500],
    (UpdateExact eventsBeatmap
      (runStateExact eventsBeatmap (Reset eventsBeatmap scenarioPlayback 0 0).2 [500]) 2000).1,
    congrArg Prod.fst (run_exact eventsBeatmap (by decide) (by decide) [500]
      (Reset eventsBeatmap scenarioPlayback 0 0).2 rfl (by decide)),
    congrArg Prod.fst (Update_exact eventsBeatmap (by decide)
      (runStateExact eventsBeatmap (Reset eventsBeatmap scenarioPlayback 0 0).2 [500])
      2000 (by decide) (by decide) (by decide)),
    ((event_single_shot_and_latching eventsBeatmap scenarioPlayback
      (Reset eventsBeatmap scenarioPlayback 0 0).2 0 0 rfl rfl (by decide) [500] 2000
      (by decide)).2 _ _
      (congrArg Prod.fst (run_exact eventsBeatmap (by decide) (by decide) [500]
        (Reset eventsBeatmap scenarioPlayback 0 0).2 rfl (by decide)))
      (congrArg Prod.fst (Update_exact eventsBeatmap (by decide)
        (runStateExact eventsBeatmap (Reset eventsBeatmap scenarioPlayback 0 0).2 [500])
        2000 (by decide) (by decide) (by decide)))
      (by decide)).2.2.2.2.1,
    ((event_single_shot_and_latching eventsBeatmap scenarioPlayback
      (Reset eventsBeatmap scenarioPlayback 0 0).2 0 0 rfl rfl (by decide) [500] 2000
      (by decide)).2 _ _
      (congrArg Prod.fst (run_exact eventsBeatmap (by decide) (by decide) [500]
        (Reset eventsBeatmap scenarioPlayback 0 0).2 rfl (by decide)))
      (congrArg Prod.fst (Update_exact eventsBeatmap (by decide)
        (runStateExact eventsBeatmap (Reset eventsBeatmap scenarioPlayback 0 0).2 [500])
        2000 (by decide) (by decide) (by decide)))
      (by decide)).2.2.2.2.2.2.1⟩

/-- `AddUnique` of a duplicate-free list appends the elements that are new. -/
theorem addAllUnique_eq_append_filter (l : List Nat) :
    ∀ v : List Nat, l.Nodup →
      addAllUnique v l = v ++ l.filter (fun x => decide (x ∉ v)) := by
  induction l with
  | nil => intro v _; simp [addAllUnique]
  | cons x r ih =>
    intro v hl
    have hn := List.nodup_cons.mp hl
    have e : addAllUnique v (x :: r) = addAllUnique (AddUnique x v) r := by
      simp [addAllUnique]
    rw [e, ih _ hn.2]
    by_cases hx : x ∈ v
    · have : AddUnique x v = v := by simp [AddUnique, hx]
      rw [this, List.filter_cons]
      simp [hx]
    · rw [AddUnique_of_not_mem x v hx, List.filter_cons]
      simp only [hx, not_false_eq_true, decide_True, if_true, List.append_assoc,
        List.singleton_append]
      congr 2
      apply List.filter_congr
      intro y hy
      have hyx : y ≠ x := fun h => hn.1 (h ▸ hy)
      simp [hyx]

theorem sweepRange_cons (a len : Nat) :
    sweepRange a (a + (len + 1)) = a :: sweepRange (a + 1) (a + 1 + len) := by
  unfold sweepRange
  have e1 : a + (len + 1) - a = len + 1 := by omega
  have e2 : a + 1 + len - (a + 1) = len := by omega
  rw [e1, e2]
  rfl

/-- On objects sorted by time, the walk of `GetObjectsInRange` adds, in order,
the objects whose time lies in `[tBegin, tEnd)`. -/
theorem rangeWalk_eq (tBegin tEnd : MapTime) (rest : List ObjectState) :
    ∀ (obj : Nat) (ret : List Nat), rest.Pairwise (fun x y => x.time ≤ y.time) →
      rangeWalk tBegin tEnd rest obj ret
        = addAllUnique ret ((sweepRange obj (obj + rest.length)).filter (fun i =>
            decide (tBegin ≤ (rest.getD (i - obj) default).time)
              && decide ((rest.getD (i - obj) default).time < tEnd))) := by
  induction rest with
  | nil =>
    intro obj ret _
    simp [rangeWalk, sweepRange, addAllUnique]
  | cons o r ih =>
    intro obj ret hp
    have hp' := List.pairwise_cons.mp hp
    have hshift : (sweepRange (obj + 1) (obj + 1 + r.length)).filter (fun i =>
          decide (tBegin ≤ ((o :: r).getD (i - obj) default).time)
            && decide (((o :: r).getD (i - obj) default).time < tEnd))
        = (sweepRange (obj + 1) (obj + 1 + r.length)).filter (fun i =>
          decide (tBegin ≤ (r.getD (i - (obj + 1)) default).time)
            && decide ((r.getD (i - (obj + 1)) default).time < tEnd)) := by
      apply List.filter_congr
      intro i hi
      have hge : obj + 1 ≤ i := ((mem_sweepRange _ _ _).mp hi).1
      have e : i - obj = (i - (obj + 1)) + 1 := by omega
      rw [e, List.getD_cons_succ]
    rw [List.length_cons, sweepRange_cons, List.filter_cons, hshift]
    simp only [Nat.sub_self, List.getD_cons_zero]
    by_cases h1 : o.time < tBegin
    · simp only [rangeWalk, if_pos h1, not_le.mpr h1, decide_False, Bool.false_and,
        Bool.false_eq_true, if_false]
      exact ih (obj + 1) ret hp'.2
    · by_cases h2 : o.time ≥ tEnd
      · simp only [rangeWalk, if_neg h1, if_pos h2, not_lt.mpr h2, decide_False, Bool.and_false,
          Bool.false_eq_true, if_false]
        have hnone : (sweepRange (obj + 1) (obj + 1 + r.length)).filter (fun i =>
            decide (tBegin ≤ (r.getD (i - (obj + 1)) default).time)
              && decide ((r.getD (i - (obj + 1)) default).time < tEnd)) = [] := by
          rw [List.filter_eq_nil_iff]
          intro i hi
          have hi' := (mem_sweepRange _ _ _).mp hi
          have hlt : i - (obj + 1) < r.length := by omega
          have hm : r.getD (i - (obj + 1)) default ∈ r := by
            rw [List.getD_eq_getElem _ _ hlt]
            exact List.getElem_mem _
          have := hp'.1 _ hm
          have h3 : decide ((r.getD (i - (obj + 1)) default).time < tEnd) = false :=
            decide_eq_false (not_lt.mpr (le_trans h2 this))
          rw [h3, Bool.and_false]
          exact Bool.false_ne_true
        rw [hnone]
        simp [addAllUnique]
      · simp only [rangeWalk, if_neg h1, if_neg h2, not_lt.mp h1, not_le.mp h2, decide_True,
          Bool.and_self, if_true]
        rw [ih (obj + 1) _ hp'.2]
        simp [addAllUnique]

theorem objectsSorted_pairwise (bm : Beatmap) (h : ObjectsSorted bm) :
    bm.objectStates.Pairwise (fun x y => x.time ≤ y.time) := by
  rw [List.pairwise_iff_get]
  intro i j hij
  have := h i.1 j.1 (le_of_lt hij) j.2
  unfold Beatmap.obj at this
  rw [List.getD_eq_getElem _ _ i.2, List.getD_eq_getElem _ _ j.2] at this
  exact this

/-- The unsigned difference of line 305, cast back, is the signed difference
wrapped to 32 bits. -/
theorem unsigned_sub_eq (a : MapTime) :
    wrap32 (toUInt32 (toUInt32 a - 200)) = sub32 a 200 := by
  unfold sub32 wrap32 toUInt32
  omega

/-- The list that `GetObjectsInRange` returns outside calibration mode, when
its two bounds stay in the 32-bit range. -/
theorem GetObjectsInRange_eq (bm : Beatmap) (s : BeatmapPlayback)
    (calibrationObjects : List ObjectState) (range : MapTime)
    (hc : s.m_isCalibration = false) (hos : ObjectsSorted bm) (hhold : s.m_holdObjects.Nodup)
    (hlo : InRange32 (s.m_playbackTime - 200)) (hhi : InRange32 (s.m_playbackTime + range)) :
    (GetObjectsInRange bm s calibrationObjects range).1
      = s.m_holdObjects ++ (sweepRange s.m_currObject bm.objectStates.length).filter (fun i =>
          decide (i ∉ s.m_holdObjects)
            && (decide (max (s.m_playbackTime - 200) s.m_viewRange.rbegin ≤ (bm.obj i).time)
            && decide ((bm.obj i).time
                < if s.m_viewRange.HasEnd then min (s.m_playbackTime + range) s.m_viewRange.rend
                  else s.m_playbackTime + range))) := by
  have hb : (if s.m_playbackTime - 200 < s.m_viewRange.rbegin then s.m_viewRange.rbegin
      else s.m_playbackTime - 200) = max (s.m_playbackTime - 200) s.m_viewRange.rbegin := by
    by_cases h : s.m_playbackTime - 200 < s.m_viewRange.rbegin
    · rw [if_pos h, max_eq_right (le_of_lt h)]
    · rw [if_neg h, max_eq_left (not_lt.mp h)]
  have he : (if (s.m_viewRange.HasEnd && decide (s.m_playbackTime + range ≥ s.m_viewRange.rend))
        = true then s.m_viewRange.rend else s.m_playbackTime + range)
      = if s.m_viewRange.HasEnd then min (s.m_playbackTime + range) s.m_viewRange.rend
        else s.m_playbackTime + range := by
    by_cases h1 : s.m_viewRange.HasEnd = true
    · by_cases h2 : s.m_playbackTime + range ≥ s.m_viewRange.rend
      · simp [h1, h2]
      · simp only [h1, h2, decide_False, Bool.and_false, Bool.false_eq_true, if_false, if_true]
        exact (min_eq_left (le_of_lt (not_le.mp h2))).symm
    · simp [h1]
  have hret : s.m_holdObjects.foldl (fun r ho => AddUnique ho r) [] = s.m_holdObjects := by
    have := addAllUnique_fresh [] s.m_holdObjects hhold (by simp)
    simpa [addAllUnique] using this
  have hlen : s.m_currObject + (bm.objectStates.drop s.m_currObject).length
      - s.m_currObject = bm.objectStates.length - s.m_currObject := by
    rw [List.length_drop]; omega
  have hsw : sweepRange s.m_currObject
      (s.m_currObject + (bm.objectStates.drop s.m_currObject).length)
      = sweepRange s.m_currObject bm.objectStates.length := by
    unfold sweepRange
    rw [hlen]
  unfold GetObjectsInRange
  simp only [hc, Bool.false_eq_true, if_false, unsigned_sub_eq, sub32_eq _ _ hlo,
    add32_eq _ _ hhi]
  rw [hb, he, hret, rangeWalk_eq _ _ _ _ _
    ((objectsSorted_pairwise bm hos).sublist (List.drop_sublist _ _)), hsw,
    addAllUnique_eq_append_filter _ _ ((nodup_sweepRange _ _).filter _), List.filter_filter]
  congr 1
  apply List.filter_congr
  intro i hi
  have hge : s.m_currObject ≤ i := ((mem_sweepRange _ _ _).mp hi).1
  have e : (bm.objectStates.drop s.m_currObject).getD (i - s.m_currObject) default = bm.obj i := by
    rw [getD_drop]
    unfold Beatmap.obj
    congr 1
    omega
  rw [e]

theorem rangeBeatmap_sorted : ObjectsSorted rangeBeatmap := by
  intro i j hij hj
  have hj4 : j < 4 := hj
  interval_cases j <;> interval_cases i <;> decide

/-- C24 (as stated, refuted): on the chart with one single button at time 0,
after `Reset(-2147483548, 0)`, `GetObjectsInRange(2147483647)` returns the empty
list, although the object is at the cursor and its time lies in `[b, e)` with
`b = max(clock - 200, ViewRange.begin)` and `e = clock + range = 99`: the
difference `clock - 200` leaves the 32-bit range and wraps to 2147483548. -/
theorem range_query_counterexample :
    (GetObjectsInRange originBeatmap (Reset originBeatmap scenarioPlayback (-2147483548) 0).2
        [] 2147483647).1 = []
    ∧ (Reset originBeatmap scenarioPlayback (-2147483548) 0).2.m_isCalibration = false
    ∧ (Reset originBeatmap scenarioPlayback (-2147483548) 0).2.m_holdObjects = []
    ∧ (Reset originBeatmap scenarioPlayback (-2147483548) 0).2.m_currObject ≤ 0
    ∧ rangeBegin (Reset originBeatmap scenarioPlayback (-2147483548) 0).2
        ≤ (originBeatmap.obj 0).time
    ∧ (originBeatmap.obj 0).time
        < rangeEnd (Reset originBeatmap scenarioPlayback (-2147483548) 0).2 2147483647
    ∧ ¬ InRange32 ((Reset originBeatmap scenarioPlayback (-2147483548) 0).2.m_playbackTime
        - 200) := by
  decide

/-- C24 (amended): outside calibration mode, for objects sorted by time (and a
hold set without duplicates, as every set is), when `clock - 200` and
`clock + range` stay in the 32-bit range, `GetObjectsInRange(range)` returns a
list without duplicates: the objects of `m_holdObjects`, followed by the
objects at or after `m_currObject` whose time lies in `[b, e)` and that are
not already in the list, with `b = max(clock - 200, ViewRange.begin)` and
`e = clock + range` clamped to `ViewRange.end` when the view range has an end;
so an object is in the list exactly when it is a hold object or an object at
or after the cursor with its time in `[b, e)`; the state is unchanged. -/
theorem GetObjectsInRange_contents (bm : Beatmap) (s : BeatmapPlayback)
    (calibrationObjects : List ObjectState) (range : MapTime)
    (hc : s.m_isCalibration = false) (hos : ObjectsSorted bm) (hhold : s.m_holdObjects.Nodup)
    (hlo : InRange32 (s.m_playbackTime - 200)) (hhi : InRange32 (s.m_playbackTime + range)) :
    (GetObjectsInRange bm s calibrationObjects range).1.Nodup
    ∧ (∃ tail, (GetObjectsInRange bm s calibrationObjects range).1 = s.m_holdObjects ++ tail
        ∧ ∀ i, i ∈ tail ↔
          (i ∉ s.m_holdObjects ∧ s.m_currObject ≤ i ∧ i < bm.objectStates.length
            ∧ rangeBegin s ≤ (bm.obj i).time ∧ (bm.obj i).time < rangeEnd s range))
    ∧ (∀ i, i ∈ (GetObjectsInRange bm s calibrationObjects range).1 ↔
        (i ∈ s.m_holdObjects
          ∨ (s.m_currObject ≤ i ∧ i < bm.objectStates.length
            ∧ rangeBegin s ≤ (bm.obj i).time ∧ (bm.obj i).time < rangeEnd s range)))
    ∧ (GetObjectsInRange bm s calibrationObjects range).2 = s := by
  have heq := GetObjectsInRange_eq bm s calibrationObjects range hc hos hhold hlo hhi
  have hmem : ∀ i, i ∈ (sweepRange s.m_currObject bm.objectStates.length).filter (fun i =>
        decide (i ∉ s.m_holdObjects)
          && (decide (max (s.m_playbackTime - 200) s.m_viewRange.rbegin ≤ (bm.obj i).time)
          && decide ((bm.obj i).time
              < if s.m_viewRange.HasEnd then min (s.m_playbackTime + range) s.m_viewRange.rend
                else s.m_playbackTime + range))) ↔
      (i ∉ s.m_holdObjects ∧ s.m_currObject ≤ i ∧ i < bm.objectStates.length
        ∧ rangeBegin s ≤ (bm.obj i).time ∧ (bm.obj i).time < rangeEnd s range) := by
    intro i
    rw [List.mem_filter, mem_sweepRange]
    simp only [Bool.and_eq_true, decide_eq_true_eq, rangeBegin, rangeEnd]
    tauto
  refine ⟨?_, ⟨_, heq, hmem⟩, ?_, ?_⟩
  · rw [heq, List.nodup_append]
    refine ⟨hhold, (nodup_sweepRange _ _).filter _, ?_⟩
    intro a ha hb
    exact ((hmem a).mp hb).1 ha
  · intro i
    rw [heq, List.mem_append, hmem]
    constructor
    · rintro (h | h)
      · exact Or.inl h
      · exact Or.inr h.2
    · rintro (h | h)
      · exact Or.inl h
      · by_cases hi : i ∈ s.m_holdObjects
        · exact Or.inl hi
        · exact Or.inr ⟨hi, h⟩
  · unfold GetObjectsInRange
    simp only [hc, Bool.false_eq_true, if_false]

theorem GetObjectsInRange_contents_witness :
    (GetObjectsInRange rangeBeatmap
        (runStateExact rangeBeatmap (Reset rangeBeatmap rangePlayback 0 0).2 [100]) [] 3000).1.Nodup
    ∧ (GetObjectsInRange rangeBeatmap
        (runStateExact rangeBeatmap (Reset rangeBeatmap rangePlayback 0 0).2 [100]) [] 3000).1
      = [0, 1, 2]
    ∧ (GetObjectsInRange rangeBeatmap
        (runStateExact rangeBeatmap (Reset rangeBeatmap rangePlayback 0 0).2 [100]) [] 3000).2
      = runStateExact rangeBeatmap (Reset rangeBeatmap rangePlayback 0 0).2 [100] :=
  ⟨(GetObjectsInRange_contents rangeBeatmap
      (runStateExact rangeBeatmap (Reset rangeBeatmap rangePlayback 0 0).2 [100]) [] 3000
      (by decide) rangeBeatmap_sorted (by decide) (by decide) (by decide)).1,
    by decide,
    (GetObjectsInRange_contents rangeBeatmap
      (runStateExact rangeBeatmap (Reset rangeBeatmap rangePlayback 0 0).2 [100]) [] 3000
      (by decide) rangeBeatmap_sorted (by decide) (by decide) (by decide)).2.2.2⟩

/-- The timing points after the one that `m_SelectTimingPoint(a, true)` selects
are sorted and not before `a`. -/
theorem select_rest_ge (bm : Beatmap) (s : BeatmapPlayback) (hsorted : TimingSorted bm)
    (hcur : s.m_currentTiming < bm.timingPoints.length) (a : MapTime) :
    (bm.timingPoints.drop (m_SelectTimingPoint bm s a true + 1)).Pairwise
        (fun x y => x.time ≤ y.time)
    ∧ ∀ n ∈ bm.timingPoints.drop (m_SelectTimingPoint bm s a true + 1), a ≤ n.time := by
  obtain ⟨hk, hpass, hstop⟩ := m_SelectTimingPoint_reset_spec bm s a hsorted hcur
  generalize m_SelectTimingPoint bm s a true = k at hk hpass hstop
  have hpw := timingSorted_pairwise bm hsorted
  have hrest_pw : (bm.timingPoints.drop (k + 1)).Pairwise (fun x y => x.time ≤ y.time) :=
    hpw.sublist (List.drop_sublist _ _)
  refine ⟨hrest_pw, ?_⟩
  cases hdrop : bm.timingPoints.drop (k + 1) with
  | nil => simp
  | cons h t =>
    have hlen : k + 1 < bm.timingPoints.length := by
      by_contra hc
      rw [List.drop_of_length_le (by omega)] at hdrop
      simp at hdrop
    have hh : bm.timing (k + 1) = h := by
      have := getD_drop bm.timingPoints (k + 1) 0 bm.firstTimingPoint
      rw [hdrop] at this
      simp only [List.getD_cons_zero, add_zero] at this
      exact this.symm
    have hah : a < h.time := by rw [← hh]; exact hstop hlen
    rw [hdrop] at hrest_pw
    intro n hn
    rw [List.mem_cons] at hn
    rcases hn with rfl | hn
    · exact le_of_lt hah
    · exact le_trans (le_of_lt hah) ((List.pairwise_cons.mp hrest_pw).1 n hn)

/-- The loop of `DurationToViewDistanceAtTime` computes its exact-integer
description when the remaining duration is the distance to the end time and is
in the 32-bit range. -/
theorem distanceLoop_exact (rest : List TimingPoint) :
    ∀ (tp : TimingPoint) (time endTime duration : Int) (barTime : ℚ),
      rest.Pairwise (fun x y => x.time ≤ y.time) → (∀ n ∈ rest, time ≤ n.time) →
      duration = endTime - time → duration < 2147483648 →
      distanceLoop tp rest time endTime duration barTime
        = distanceLoopExact tp rest time endTime duration barTime := by
  induction rest with
  | nil => intro tp time endTime duration barTime _ _ _ _; rfl
  | cons n rest ih =>
    intro tp time endTime duration barTime hpw hge hd hr
    have h0 : @LE.le Int _ time n.time := hge n (List.mem_cons_self _ _)
    simp only [distanceLoop, distanceLoopExact]
    by_cases hlt : @LT.lt Int _ n.time endTime
    · have e1 : sub32 n.time time = n.time - time :=
        sub32_eq _ _ ⟨by omega, by omega⟩
      have e2 : sub32 duration (n.time - time) = duration - (n.time - time) :=
        sub32_eq _ _ ⟨by omega, by omega⟩
      rw [if_pos hlt, if_pos hlt, e1, e2]
      exact ih n n.time endTime _ _ (List.pairwise_cons.mp hpw).2
        (fun m hm => (List.pairwise_cons.mp hpw).1 m hm) (by omega) (by omega)
    · rw [if_neg hlt, if_neg hlt]

/-- `DurationToViewDistanceAtTime` computes its exact-integer description when
the duration, its negation and the end time `time + duration` are in the 32-bit
range. -/
theorem DurationToViewDistanceAtTime_exact (bm : Beatmap) (s : BeatmapPlayback)
    (hsorted : TimingSorted bm) (hcur : s.m_currentTiming < bm.timingPoints.length)
    (time duration : MapTime) (hend : InRange32 (time + duration))
    (hdur : InRange32 duration) (hneg : InRange32 (-duration)) :
    DurationToViewDistanceAtTime bm s time duration
      = DurationToViewDistanceAtTimeExact bm s time duration := by
  have e1 : add32 time duration = time + duration := add32_eq _ _ hend
  have e2 : wrap32 (duration * -1) = duration * -1 :=
    wrap32_eq _ (by rw [mul_neg_one]; exact hneg)
  unfold DurationToViewDistanceAtTime DurationToViewDistanceAtTimeExact
  simp only [e1, e2]
  by_cases hc : s.cMod = true
  · simp only [hc, if_true]
  · simp only [hc, if_false]
    by_cases hcal : s.m_isCalibration = true
    · simp only [hcal, if_true]
    · simp only [hcal, if_false]
      by_cases hd : duration < 0
      · simp only [hd, if_true]
        obtain ⟨hpw, hge⟩ := select_rest_ge bm s hsorted hcur (time + duration)
        have hn1 : @LT.lt Int _ (duration * -1) 2147483648 := by
          have h1 : @LT.lt Int _ (-duration) 2147483648 := hneg.2
          omega
        rw [distanceLoop_exact _ _ (time + duration) time (duration * -1) _ hpw hge
          (by ring) hn1]
      · simp only [hd, if_false]
        obtain ⟨hpw, hge⟩ := select_rest_ge bm s hsorted hcur time
        rw [distanceLoop_exact _ _ time (time + duration) duration _ hpw hge
          (by ring) hdur.2]

/-- C19 (as stated, refuted): on the chart of the scenario (one timing point
at 0 with the beat duration 500), with cMod off and outside calibration, the
duration -2147483648 from time 0: its negation leaves the 32-bit range and
wraps to itself, so the accumulated distance is negative and the result, its
product with the direction -1, is positive, where the sign of the duration
times the tempo-weighted length is negative. -/
theorem duration_negation_counterexample :
    DurationToViewDistanceAtTime scenarioBeatmap (Reset scenarioBeatmap scenarioPlayback 0 0).2
        0 (-2147483648) = 536870912 / 125
    ∧ (Sign (-2147483648) : ℚ)
        * tempoLength scenarioBeatmap (min 0 (0 + -2147483648)) (max 0 (0 + -2147483648))
      = -(536870912 / 125)
    ∧ ¬ InRange32 (- -2147483648) := by
  refine ⟨?_, ?_, by decide⟩ <;> with_unfolding_all rfl

/-- C19 (amended): with cMod off and outside calibration, for every chart whose
timing points are sorted and have a beat duration other than 0, every position
of the timing cursor, every time and every duration (positive, zero or
negative) such that the duration, its negation and `time + duration` are in the
32-bit range, `DurationToViewDistanceAtTime` returns the sign of the duration
times the tempo-weighted length of the interval between `time` and
`time + duration`: the sum over the tempo segments of (length of the overlap) /
(beat duration), the first timing point's tempo also applying before its own
time. -/
theorem DurationToViewDistanceAtTime_tempo_length (bm : Beatmap) (s : BeatmapPlayback)
    (hc : s.cMod = false) (hcal : s.m_isCalibration = false) (hsorted : TimingSorted bm)
    (hbeat : ∀ tp ∈ bm.timingPoints, tp.beatDuration ≠ 0)
    (hcur : s.m_currentTiming < bm.timingPoints.length) (time duration : MapTime)
    (hend : InRange32 (time + duration)) (hdur : InRange32 duration)
    (hneg : InRange32 (-duration)) :
    DurationToViewDistanceAtTime bm s time duration
      = (Sign duration : ℚ)
        * tempoLength bm (min time (time + duration)) (max time (time + duration)) := by
  have _ := hbeat
  rw [DurationToViewDistanceAtTime_exact bm s hsorted hcur time duration hend hdur hneg]
  exact DurationToViewDistanceAtTime_tempo_length_exact bm s hc hcal hsorted hcur time duration

theorem tempoBeatmap_beats : ∀ tp ∈ tempoBeatmap.timingPoints, 0 < tp.beatDuration := by
  intro tp htp
  simp only [tempoBeatmap, Beatmap.timingPoints, List.mem_cons, List.mem_singleton,
    List.not_mem_nil, or_false] at htp
  rcases htp with rfl | rfl | rfl <;> norm_num

theorem DurationToViewDistanceAtTime_tempo_length_witness :
    DurationToViewDistanceAtTime tempoBeatmap
        (runStateExact tempoBeatmap (Reset tempoBeatmap scenarioPlayback 0 0).2 [2500]) 1500
        (-2000)
      = (Sign (-2000) : ℚ)
        * tempoLength tempoBeatmap (min 1500 (1500 + -2000)) (max 1500 (1500 + -2000)) :=
  DurationToViewDistanceAtTime_tempo_length tempoBeatmap
    (runStateExact tempoBeatmap (Reset tempoBeatmap scenarioPlayback 0 0).2 [2500])
    (by decide) (by decide) tempoBeatmap_timingSorted
    (fun tp htp => ne_of_gt (tempoBeatmap_beats tp htp)) (by decide) 1500 (-2000)
    (by decide) (by decide) (by decide)

/-- C20: on the chart with beat 500 from 0, 250 from 1000 and 500 from 2000,
with the clock at 0, the duration 3000 maps to the view distance 8, and the
view distance 8 maps back to the duration 2500, not 3000: after the first
tempo change the remaining distance is still measured from the clock. -/
theorem ViewDistanceToDuration_not_inverse :
    DurationToViewDistance tempoBeatmap (Reset tempoBeatmap scenarioPlayback 0 0).2 3000 = 8
      ∧ ViewDistanceToDuration tempoBeatmap (Reset tempoBeatmap scenarioPlayback 0 0).2
          (DurationToViewDistance tempoBeatmap (Reset tempoBeatmap scenarioPlayback 0 0).2 3000)
        = 2500
      ∧ ViewDistanceToDuration tempoBeatmap (Reset tempoBeatmap scenarioPlayback 0 0).2
          (DurationToViewDistance tempoBeatmap (Reset tempoBeatmap scenarioPlayback 0 0).2 1500)
        = 1500 := by
  refine ⟨?_, ?_, ?_⟩ <;> with_unfolding_all rfl

/-- Where the code is right: with cMod off and outside calibration, on a chart
with sorted timing points and positive beat durations, for every duration
`d ≥ 0` in the 32-bit range, with `clock + d` in the 32-bit range, that does
not reach past the second tempo change ahead of the clock,
`ViewDistanceToDuration(DurationToViewDistance(d)) = d`. -/
theorem ViewDistanceToDuration_inverse_near (bm : Beatmap) (s : BeatmapPlayback)
    (hc : s.cMod = false) (hcal : s.m_isCalibration = false) (hsorted : TimingSorted bm)
    (hcur : s.m_currentTiming < bm.timingPoints.length)
    (hpos : ∀ tp ∈ bm.timingPoints, 0 < tp.beatDuration) (d : MapTime) (hd : 0 ≤ d)
    (hdur : InRange32 d) (hend : InRange32 (s.m_playbackTime + d))
    (hnear : m_SelectTimingPoint bm s s.m_playbackTime true + 2 < bm.timingPoints.length →
      s.m_playbackTime + d
        ≤ (bm.timing (m_SelectTimingPoint bm s s.m_playbackTime true + 2)).time) :
    ViewDistanceToDuration bm s (DurationToViewDistance bm s d) = d := by
  have e : DurationToViewDistance bm s d = DurationToViewDistanceExact bm s d := by
    unfold DurationToViewDistance DurationToViewDistanceExact
    have h0 : @LE.le Int _ 0 d := hd
    have h1 : @LT.lt Int _ d 2147483648 := hdur.2
    exact DurationToViewDistanceAtTime_exact bm s hsorted hcur _ d hend hdur
      ⟨by omega, by omega⟩
  rw [e]
  exact ViewDistanceToDuration_inverse_near_exact bm s hc hcal hsorted hcur hpos d hd hnear

theorem ViewDistanceToDuration_inverse_near_witness :
    ViewDistanceToDuration tempoBeatmap (Reset tempoBeatmap scenarioPlayback 0 0).2
        (DurationToViewDistance tempoBeatmap (Reset tempoBeatmap scenarioPlayback 0 0).2 2000)
      = 2000 :=
  ViewDistanceToDuration_inverse_near tempoBeatmap (Reset tempoBeatmap scenarioPlayback 0 0).2
    (by decide) (by decide) tempoBeatmap_timingSorted (by decide) tempoBeatmap_beats
    2000 (by decide) (by decide) (by decide) (by decide)

namespace LineGraph

theorem unitGraph_WF : unitGraph.WF := by
  unfold WF
  decide

theorem wideGraph_WF : wideGraph.WF := by
  unfold WF
  decide

/-- C14 (as stated, refuted): on the graph with the points (-1000, 0.0) and
(2147483000, 2.0), both keys 32-bit values, the difference of the keys,
2147484000, leaves the 32-bit range and wraps to -2147483296: at the time
1073741000, half-way between the keys, `ValueAt` returns
-67108875/67108853, about -1, where the linear interpolation of the claim
is 1. -/
theorem ValueAt_wide_counterexample :
    wideGraph.WF
    ∧ wideGraph.ValueAt 1073741000 = some (-67108875 / 67108853)
    ∧ (0 : ℚ) + ((2 : ℚ) - 0) * (((1073741000 : MapTime) : ℚ) - ((-1000 : MapTime) : ℚ))
        / (((2147483000 : MapTime) : ℚ) - ((-1000 : MapTime) : ℚ)) = 1
    ∧ sub32 2147483000 (-1000) = -2147483296
    ∧ ¬ InRange32 (2147483000 - -1000) := by
  refine ⟨wideGraph_WF, ?_, by norm_num, by decide, by decide⟩
  with_unfolding_all rfl

/-- C14 (amended): for every graph (keys strictly ascending, as in a
`std::map`) and every time `t`, `ValueAt t` is the default when the graph is
empty, the first point's pre-value when `t` is before the first key, the last
point's post-value when `t` is at or after the last key, and otherwise, with
`(t1, post1)` the point of the greatest key at or before `t` and `(t2, pre2)`
the point of the least key after `t`, and provided that `t2 - t1` is at most
2147483647, the value `post1 + (pre2 - post1) * (t - t1) / (t2 - t1)`. -/
theorem ValueAt_reference (g : LineGraph) (hwf : g.WF) (t : MapTime) :
    (g.m_points = [] → g.ValueAt t = some g.m_default)
    ∧ (∀ first, g.m_points.head? = some first → t < first.1 →
        g.ValueAt t = some first.2.value.1)
    ∧ (∀ last, g.m_points.getLast? = some last → last.1 ≤ t →
        g.ValueAt t = some last.2.value.2)
    ∧ (∀ p1 p2, p1 ∈ g.m_points → p2 ∈ g.m_points → p1.1 ≤ t → t < p2.1 →
        (∀ q ∈ g.m_points, q.1 ≤ t → q.1 ≤ p1.1) →
        (∀ q ∈ g.m_points, t < q.1 → p2.1 ≤ q.1) →
        p2.1 - p1.1 ≤ 2147483647 →
        g.ValueAt t = some (p1.2.value.2
          + (p2.2.value.1 - p1.2.value.2) * ((t : ℚ) - (p1.1 : ℚ)) / ((p2.1 : ℚ) - (p1.1 : ℚ)))) := by
  rw [ValueAt_eq g hwf t]
  refine ⟨?_, ?_, ?_, ?_⟩
  · intro h
    rw [h]; rfl
  · intro first hf ht
    cases hl : g.m_points with
    | nil => rw [hl] at hf; simp at hf
    | cons a l =>
      rw [hl] at hf
      simp only [List.head?_cons, Option.some.injEq] at hf
      rw [hf, valueAtList_before _ _ _ _ ht]
  · intro last hlast ht
    obtain ⟨l1, hl⟩ : ∃ l1, g.m_points = l1 ++ [last] := by
      rw [List.getLast?_eq_some_iff] at hlast
      exact hlast
    have hs : SortedKeys (l1 ++ [last]) := by rw [← hl]; exact hwf
    rw [hl, valueAtList_after _ _ _ hs _ ht]
  · intro p1 p2 h1 h2 h1t h2t hmax hmin hspan
    obtain ⟨l1, l2, hl⟩ := neighbours_of_bracket g.m_points hwf t p1 p2 h1 h2 h1t h2t hmax hmin
    have hs : SortedKeys (l1 ++ p1 :: p2 :: l2) := by rw [← hl]; exact hwf
    have a1 : @LE.le Int _ p1.1 t := h1t
    have a2 : @LT.lt Int _ t p2.1 := h2t
    have a3 : @LE.le Int _ (p2.1 - p1.1) 2147483647 := hspan
    have e1 : sub32 t p1.1 = t - p1.1 := sub32_eq _ _ ⟨by omega, by omega⟩
    have e2 : sub32 p2.1 p1.1 = p2.1 - p1.1 := sub32_eq _ _ ⟨by omega, by omega⟩
    rw [hl, valueAtList_between _ _ _ _ _ hs _ h1t h2t, e1, e2]
    unfold Lerp
    push_cast
    rw [mul_div_assoc]

theorem ValueAt_reference_witness :
    scenarioGraph.WF
      ∧ scenarioGraph.ValueAt 250
        = some ((1 : ℚ) + ((2 : ℚ) - 1) * (((250 : MapTime) : ℚ) - ((0 : MapTime) : ℚ))
            / (((1000 : MapTime) : ℚ) - ((0 : MapTime) : ℚ))) :=
  ⟨scenarioGraph_WF,
    (ValueAt_reference scenarioGraph scenarioGraph_WF 250).2.2.2 (0, ⟨(1, 1)⟩) (1000, ⟨(2, 2)⟩)
      (by decide) (by decide) (by decide) (by decide) (by decide) (by decide) (by decide)⟩

/-- C10 (the code at the failing input): on the graph with the points (0, 1.0)
and (1000, 2.0), `Integrate(0, 1000)` is 1500.  On the graph with the points
(0, 1.0) and (1, 2.0) the exact integral over [0, 2] is 3.5 (1.5 up to the
last key, 2 after it), and `Integrate(0, 2)`, whose range ends after the last
point, reads `endIt->first` at `m_points.end()`: the result is not defined. -/
theorem Integrate_past_last_point :
    scenarioGraph.Integrate 0 1000 = some 1500
    ∧ unitGraph.WF
    ∧ areaTo unitGraph.m_points 2 - areaTo unitGraph.m_points 0 = 7 / 2
    ∧ unitGraph.lower_bound 2 = unitGraph.pend
    ∧ unitGraph.deref (unitGraph.lower_bound 2) = none
    ∧ unitGraph.Integrate 0 2 = none := by
  refine ⟨by with_unfolding_all rfl, unitGraph_WF, by with_unfolding_all rfl, by decide,
    by decide, by decide⟩

/-- C11 (the code at the failing input): on the graph with the points (0, 1.0)
and (1, 2.0), with begin 0, mid 1 and end 2, `Integrate(0, 1)` is 1.5 and
`Integrate(1, 2)` is 2, while `Integrate(0, 2)` reads `endIt->first` at
`m_points.end()`: its result is not defined, so it is not bound to be the sum
3.5 of the other two. -/
theorem Integrate_additivity_undefined :
    unitGraph.Integrate 0 1 = some (3 / 2)
      ∧ unitGraph.Integrate 1 2 = some 2
      ∧ unitGraph.Integrate 0 2 = none := by
  refine ⟨?_, ?_, by decide⟩ <;> with_unfolding_all rfl

theorem bind_congr_some {α β : Type} (o : Option α) (f g : α → Option β)
    (h : ∀ a, o = some a → f a = g a) : o.bind f = o.bind g := by
  cases o with
  | none => rfl
  | some a => exact h a rfl

theorem deref_mem (g : LineGraph) (i : Nat) (c : MapTime × Point) (h : g.deref i = some c) :
    c ∈ g.m_points := by
  unfold deref at h
  exact List.getElem?_mem h

theorem rbegin_mem (g : LineGraph) (c : MapTime × Point) (h : g.rbegin = some c) :
    c ∈ g.m_points := by
  unfold rbegin at h
  exact List.mem_of_getLast?_eq_some h

/-- `Integrate(PointsIterator)` computes its exact-integer description when the
differences of the keys are 32-bit values. -/
theorem IntegrateSegment_exact (g : LineGraph) (S : List MapTime) (hS : DiffsExact S)
    (hk : ∀ p ∈ g.m_points, p.1 ∈ S) (curr : Nat) :
    g.IntegrateSegment curr = g.IntegrateSegmentExact curr := by
  simp only [IntegrateSegment, IntegrateSegmentExact]
  by_cases h1 : (g.m_points.isEmpty || curr == g.pend) = true
  · simp only [h1, if_true]
  · simp only [h1, if_false]
    by_cases h2 : (curr + 1 == g.pend) = true
    · simp only [h2, if_true]
    · simp only [h2, if_false]
      refine bind_congr_some _ _ _ fun n hn => bind_congr_some _ _ _ fun c hc => ?_
      rw [sub32_eq _ _ (hS _ (hk n (deref_mem g _ n hn)) _ (hk c (deref_mem g _ c hc)))]

theorem sumSegments_exact (g : LineGraph) (S : List MapTime) (hS : DiffsExact S)
    (hk : ∀ p ∈ g.m_points, p.1 ∈ S) (l : List Nat) :
    ∀ r, g.sumSegments l r = g.sumSegmentsExact l r := by
  induction l with
  | nil => intro r; rfl
  | cons it rest ih =>
    intro r
    simp only [sumSegments, sumSegmentsExact, IntegrateSegment_exact g S hS hk, ih]

/-- `Integrate(PointsIterator, MapTime, MapTime)` computes its exact-integer
description when the differences of the keys and the two ends are 32-bit
values. -/
theorem IntegrateWithin_exact (g : LineGraph) (S : List MapTime) (hS : DiffsExact S)
    (hk : ∀ p ∈ g.m_points, p.1 ∈ S) (curr : Nat) (tb te : MapTime) (hb : tb ∈ S)
    (he : te ∈ S) : g.IntegrateWithin curr tb te = g.IntegrateWithinExact curr tb te := by
  simp only [IntegrateWithin, IntegrateWithinExact]
  by_cases hbe : tb = te
  · simp only [hbe, if_true]
  · simp only [hbe, if_false]
    by_cases hlt : te < tb
    · simp only [hlt, if_true]
      rw [sub32_eq tb te (hS tb hb te he), IntegrateSegment_exact g S hS hk curr]
      by_cases h1 : g.m_points.isEmpty = true
      · simp only [h1, if_true]
      · simp only [h1, if_false]
        by_cases h2 : (curr == g.pend) = true
        · simp only [h2, if_true]
        · simp only [h2, if_false]
          refine bind_congr_some _ _ _ fun c hc => ?_
          have hcS := hk c (deref_mem g _ c hc)
          rw [sub32_eq te c.1 (hS te he _ hcS)]
          by_cases h3 : c.1 ≤ te
          · simp only [h3, not_true_eq_false, if_false]
            by_cases h4 : (curr + 1 == g.pend) = true
            · simp only [h4, if_true]
            · simp only [h4, if_false]
              refine bind_congr_some _ _ _ fun n hn => ?_
              have hnS := hk n (deref_mem g _ n hn)
              rw [sub32_eq n.1 c.1 (hS _ hnS _ hcS), sub32_eq n.1 tb (hS _ hnS tb hb)]
          · simp only [h3, not_false_eq_true, if_true]
    · simp only [hlt, if_false]
      rw [sub32_eq te tb (hS te he tb hb), IntegrateSegment_exact g S hS hk curr]
      by_cases h1 : g.m_points.isEmpty = true
      · simp only [h1, if_true]
      · simp only [h1, if_false]
        by_cases h2 : (curr == g.pend) = true
        · simp only [h2, if_true]
        · simp only [h2, if_false]
          refine bind_congr_some _ _ _ fun c hc => ?_
          have hcS := hk c (deref_mem g _ c hc)
          rw [sub32_eq tb c.1 (hS tb hb _ hcS)]
          by_cases h3 : c.1 ≤ tb
          · simp only [h3, not_true_eq_false, if_false]
            by_cases h4 : (curr + 1 == g.pend) = true
            · simp only [h4, if_true]
            · simp only [h4, if_false]
              refine bind_congr_some _ _ _ fun n hn => ?_
              have hnS := hk n (deref_mem g _ n hn)
              rw [sub32_eq n.1 c.1 (hS _ hnS _ hcS), sub32_eq n.1 te (hS _ hnS te he)]
          · simp only [h3, not_false_eq_true, if_true]

/-- `Integrate(MapTime, MapTime)` computes its exact-integer description when
the differences of the keys and the two ends of the range are 32-bit values. -/
theorem Integrate_eq_IntegrateExact (g : LineGraph) (tb te : MapTime)
    (hS : DiffsExact (tb :: te :: g.m_points.map Prod.fst)) :
    g.Integrate tb te = g.IntegrateExact tb te := by
  have hb : tb ∈ tb :: te :: g.m_points.map Prod.fst := List.mem_cons_self _ _
  have he : te ∈ tb :: te :: g.m_points.map Prod.fst :=
    List.mem_cons_of_mem _ (List.mem_cons_self _ _)
  have hk : ∀ p ∈ g.m_points, p.1 ∈ tb :: te :: g.m_points.map Prod.fst := fun p hp =>
    List.mem_cons_of_mem _ (List.mem_cons_of_mem _ (List.mem_map_of_mem Prod.fst hp))
  simp only [Integrate, IntegrateExact]
  by_cases hbe : tb = te
  · simp only [hbe, if_true]
  · simp only [hbe, if_false]
    by_cases hlt : te < tb
    · simp only [hlt, if_true]
      rw [sub32_eq tb te (hS tb hb te he)]
      simp only [sumSegments_exact g _ hS hk, IntegrateWithin_exact g _ hS hk _ te tb he hb]
      by_cases h1 : g.upper_bound te = g.pend
      · rw [if_pos h1, if_pos h1]
      · rw [if_neg h1, if_neg h1]
        refine bind_congr_some _ _ _ fun bi hbi => ?_
        have hbiS := hk bi (deref_mem g _ bi hbi)
        by_cases h2 : tb ≤ bi.1
        · rw [if_pos h2, if_pos h2]
        · rw [if_neg h2, if_neg h2, sub32_eq bi.1 te (hS _ hbiS te he),
            IntegrateWithin_exact g _ hS hk _ te bi.1 he hbiS]
          refine bind_congr_some _ _ _ fun result _ => ?_
          by_cases h3 : g.lower_bound tb = 0
          · rw [if_pos h3, if_pos h3]
          · rw [if_neg h3, if_neg h3]
            refine bind_congr_some _ _ _ fun ei _ => ?_
            congr 1
            by_cases h4 : ei.1 ≠ tb
            · rw [if_pos h4, if_pos h4]
              refine bind_congr_some _ _ _ fun ep hep => ?_
              rw [IntegrateWithin_exact g _ hS hk _ ep.1 tb (hk ep (deref_mem g _ ep hep)) hb]
            · rw [if_neg h4, if_neg h4]
    · simp only [hlt, if_false]
      rw [sub32_eq te tb (hS te he tb hb)]
      simp only [sumSegments_exact g _ hS hk, IntegrateWithin_exact g _ hS hk _ tb te hb he]
      by_cases h1 : g.upper_bound tb = g.pend
      · rw [if_pos h1, if_pos h1]
      · rw [if_neg h1, if_neg h1]
        refine bind_congr_some _ _ _ fun bi hbi => ?_
        have hbiS := hk bi (deref_mem g _ bi hbi)
        by_cases h2 : te ≤ bi.1
        · rw [if_pos h2, if_pos h2]
        · rw [if_neg h2, if_neg h2, sub32_eq bi.1 tb (hS _ hbiS tb hb),
            IntegrateWithin_exact g _ hS hk _ tb bi.1 hb hbiS]
          refine bind_congr_some _ _ _ fun result _ => ?_
          by_cases h3 : g.lower_bound te = 0
          · rw [if_pos h3, if_pos h3]
          · rw [if_neg h3, if_neg h3]
            refine bind_congr_some _ _ _ fun ei _ => ?_
            congr 1
            by_cases h4 : ei.1 ≠ te
            · rw [if_pos h4, if_pos h4]
              refine bind_congr_some _ _ _ fun ep hep => ?_
              rw [IntegrateWithin_exact g _ hS hk _ ep.1 te (hk ep (deref_mem g _ ep hep)) he]
            · rw [if_neg h4, if_neg h4]

theorem DiffsExact_subset (l1 l2 : List MapTime) (h : ∀ x ∈ l1, x ∈ l2) (hS : DiffsExact l2) :
    DiffsExact l1 :=
  fun x hx y hy => hS x (h x hx) y (h y hy)

/-- Where the code is right: on every graph with at least one point and keys
strictly ascending, for `a < b` such that the range does not start before the
last key and end after it, and such that the differences of the keys and the
two ends are 32-bit values, `Integrate(a, b)` returns the area under the
piecewise-linear function between `a` and `b`. -/
theorem Integrate_exact (g : LineGraph) (hwf : g.WF) (last : MapTime × Point)
    (hl : g.m_points.getLast? = some last) (a b : MapTime) (hab : a < b)
    (hdom : b ≤ last.1 ∨ last.1 ≤ a) (hS : DiffsExact (a :: b :: g.m_points.map Prod.fst)) :
    g.Integrate a b = some (areaTo g.m_points b - areaTo g.m_points a) := by
  rw [Integrate_eq_IntegrateExact g a b hS]
  exact IntegrateExact_area g hwf last hl a b hab hdom

theorem Integrate_exact_witness :
    scenarioGraph.Integrate 0 1000
      = some (areaTo scenarioGraph.m_points 1000 - areaTo scenarioGraph.m_points 0) :=
  Integrate_exact scenarioGraph scenarioGraph_WF (1000, ⟨(2, 2)⟩) (by decide) 0 1000
    (by decide) (Or.inl (by decide)) (by decide)

/-- Where the code is right: on every graph with at least one point and keys
strictly ascending, for `begin < mid < end` such that the range does not start
before the last key and end after it, and such that the differences of the
keys and the three times are 32-bit values, the three calls of `Integrate`
return and `Integrate(begin, mid) + Integrate(mid, end) = Integrate(begin, end)`. -/
theorem Integrate_additive (g : LineGraph) (hwf : g.WF) (last : MapTime × Point)
    (hl : g.m_points.getLast? = some last) (a m b : MapTime) (ham : a < m) (hmb : m < b)
    (hdom : b ≤ last.1 ∨ last.1 ≤ a)
    (hS : DiffsExact (a :: m :: b :: g.m_points.map Prod.fst)) :
    ∃ x y z, g.Integrate a m = some x ∧ g.Integrate m b = some y ∧ g.Integrate a b = some z
      ∧ x + y = z := by
  have h1 : DiffsExact (a :: m :: g.m_points.map Prod.fst) :=
    DiffsExact_subset _ _ (by
      intro x hx
      simp only [List.mem_cons] at hx ⊢
      tauto) hS
  have h2 : DiffsExact (m :: b :: g.m_points.map Prod.fst) :=
    DiffsExact_subset _ _ (by
      intro x hx
      simp only [List.mem_cons] at hx ⊢
      tauto) hS
  have h3 : DiffsExact (a :: b :: g.m_points.map Prod.fst) :=
    DiffsExact_subset _ _ (by
      intro x hx
      simp only [List.mem_cons] at hx ⊢
      tauto) hS
  rw [Integrate_eq_IntegrateExact g a m h1, Integrate_eq_IntegrateExact g m b h2,
    Integrate_eq_IntegrateExact g a b h3]
  exact IntegrateExact_additive g hwf last hl a m b ham hmb hdom

theorem Integrate_additive_witness :
    ∃ x y z, scenarioGraph.Integrate 0 500 = some x ∧ scenarioGraph.Integrate 500 1000 = some y
      ∧ scenarioGraph.Integrate 0 1000 = some z ∧ x + y = z :=
  Integrate_additive scenarioGraph scenarioGraph_WF (1000, ⟨(2, 2)⟩) (by decide) 0 500 1000
    (by decide) (by decide) (Or.inl (by decide)) (by decide)

end LineGraph

end USC
